import Mathlib

/-!
# The file tree of `3FT` (ft.c, nodeDir.c, nodeFile.c)

A shallow embedding of the file tree: C strings are lists of characters
(the terminating NUL is left implicit), and a node owns its children.  The
field `parent` of a node, which does not own what it points to, holds the
path of the directory it points to; the directory itself is the one a step
up in the tree (`reachable_parents`).  A pointer to a directory of the tree
is the list of child indices leading to it from the root.  Operations of the abstract object `FT` take the state and
return the new state; an outcome that is not a return to the caller
(a failed `assert`, a read past a buffer, a node freed twice) is a `Fault`.
Allocation is taken to succeed, so `MEMORY_ERROR` is never produced.
-/

set_option autoImplicit false

/-- A C string, without its terminating NUL. -/
abbrev CStr := List Char

/-- The address held by a `void*`; `0` is `NULL`. -/
abbrev Ptr := Nat

/-- The status codes of `a4def.h`. -/
inductive Status where
  | SUCCESS
  | INITIALIZATION_ERROR
  | ALREADY_IN_TREE
  | CONFLICTING_PATH
  | PARENT_CHILD_ERROR
  | NOT_A_DIRECTORY
  | NOT_A_FILE
  | NO_SUCH_PATH
  | MEMORY_ERROR
deriving DecidableEq, Repr

/-- Ways in which a call does not return: a failed `assert`, or an access
to memory the program does not own (a read outside a buffer, a node
destroyed twice, a node destroyed while still linked). -/
inductive Fault where
  | assertion
  | memory
deriving DecidableEq, Repr

/-! ## `string.h` -/

/-- The function `strcmp`: negative, zero or positive. -/
def strcmp : CStr → CStr → Int
  | [], [] => 0
  | [], _ :: _ => -1
  | _ :: _, [] => 1
  | a :: as, b :: bs => if a = b then strcmp as bs else (a.toNat : Int) - (b.toNat : Int)

/-- The function `strncmp`: `strcmp` on the first `n` bytes. -/
def strncmp (s1 s2 : CStr) (n : Nat) : Int :=
  strcmp (s1.take n) (s2.take n)

/-- The function `strstr`: the offset of the first occurrence of `needle`
in `s`, `none` for `NULL`. -/
def strstr : CStr → CStr → Option Nat
  | [], needle => if needle = [] then some 0 else none
  | c :: cs, needle =>
    if needle.isPrefixOf (c :: cs) then some 0
    else (strstr cs needle).map (fun k => k + 1)

/-- One call of `strtok(_, "/")` on the text `s` that starts at the saved
position: skips the leading `/`, returns `none` at the end of the text, and
otherwise the token, the text after the delimiter that ended it, and
whether `*(token - 1) == '/'`.  The byte in front of a token is a skipped
`/` when one was skipped; otherwise it is the NUL written by the previous
call or, for a token that starts the buffer, the byte in front of the
allocation, which is allocator bookkeeping and is taken to differ from `/`. -/
def strtok (s : CStr) : Option (Bool × CStr × CStr) :=
  match s.dropWhile (fun c => c == '/') with
  | [] => none
  | b :: body =>
    some (decide ((b :: body).length < s.length),
          (b :: body).takeWhile (fun c => c != '/'),
          ((b :: body).dropWhile (fun c => c != '/')).drop 1)

/-- The successive results of `strtok(copyPath, "/")`, `strtok(NULL, "/")`,
... until `NULL`; `fuel` bounds the number of calls. -/
def strtokLoop : Nat → CStr → List (Bool × CStr)
  | 0, _ => []
  | fuel + 1, s =>
    match strtok s with
    | none => []
    | some (pre, tok, rest) => (pre, tok) :: strtokLoop fuel rest

/-- All tokens of `copyPath`, each with the flag `*(dirToken - 1) == '/'`.
A token takes at least one byte, so `length + 1` calls reach the end. -/
def strtokAll (copyPath : CStr) : List (Bool × CStr) :=
  strtokLoop (copyPath.length + 1) copyPath

/-! ## Nodes -/

/-- The struct `nodeFile`: path, parent, contents and length.  The field
`parent` does not own the directory it points to; it is held as what is read
through it, the path of that directory, and is `none` for `NULL`. -/
structure NodeFile where
  path : CStr
  parent : Option CStr
  contents : Ptr
  length : Nat
deriving DecidableEq, Repr

/-- The struct `nodeDir`: path, parent, child directories and child files,
both in array order.  The field `parent` does not own the directory it
points to; it is held as what is read through it, the path of that
directory, and is `none` for `NULL`. -/
inductive NodeDir where
  | mk (path : CStr) (parent : Option CStr) (childrenDirs : List NodeDir)
      (childrenFiles : List NodeFile)
deriving Repr

/-- The function `NodeDir_getPath`. -/
def NodeDir_getPath : NodeDir → CStr
  | .mk p _ _ _ => p

/-- The function `NodeDir_getParent`: the field `parent`. -/
def NodeDir_getParent : NodeDir → Option CStr
  | .mk _ par _ _ => par

/-- The array `childrenDirs` of a directory. -/
def NodeDir.childrenDirs : NodeDir → List NodeDir
  | .mk _ _ ds _ => ds

/-- The array `childrenFiles` of a directory. -/
def NodeDir.childrenFiles : NodeDir → List NodeFile
  | .mk _ _ _ fs => fs

/-- The function `NodeDir_getNumChildDirs`. -/
def NodeDir_getNumChildDirs (n : NodeDir) : Nat := n.childrenDirs.length

/-- The function `NodeDir_getNumChildFiles`. -/
def NodeDir_getNumChildFiles (n : NodeDir) : Nat := n.childrenFiles.length

/-- The function `NodeDir_getChildDir`: `none` when the index is out of range. -/
def NodeDir_getChildDir (n : NodeDir) (childIndex : Nat) : Option NodeDir :=
  n.childrenDirs[childIndex]?

/-- The function `NodeDir_getChildFile`: `none` when the index is out of range. -/
def NodeDir_getChildFile (n : NodeDir) (childIndex : Nat) : Option NodeFile :=
  n.childrenFiles[childIndex]?

/-- The function `NodeFile_getPath`. -/
def NodeFile_getPath (n : NodeFile) : CStr := n.path

/-- The function `NodeFile_getContents`. -/
def NodeFile_getContents (n : NodeFile) : Ptr := n.contents

/-- The function `NodeFile_getLength`. -/
def NodeFile_getLength (n : NodeFile) : Nat := n.length

/-- The function `NodeFile_getParent`: the field `parent`. -/
def NodeFile_getParent (n : NodeFile) : Option CStr := n.parent

/-- The function `NodeDir_buildPath` (and `NodeFile_buildPath`): the path
of the parent, a slash and the name, or the name alone under `NULL`. -/
def NodeDir_buildPath (n : Option NodeDir) (dir : CStr) : CStr :=
  match n with
  | none => dir
  | some p => NodeDir_getPath p ++ '/' :: dir

/-- The function `NodeDir_create`: a directory without children that
points to `parent`. -/
def NodeDir_create (name : CStr) (parent : Option NodeDir) : NodeDir :=
  .mk (NodeDir_buildPath parent name) (parent.map NodeDir_getPath) [] []

/-- The function `NodeFile_create`: a file that points to `parent`. -/
def NodeFile_create (name : CStr) (parent : Option NodeDir) (contents : Ptr)
    (length : Nat) : NodeFile :=
  { path := NodeDir_buildPath parent name, parent := parent.map NodeDir_getPath,
    contents := contents, length := length }

/-- The assignment `child->parent = parent` of `NodeDir_linkChildDir`. -/
def NodeDir.withParent : NodeDir → Option CStr → NodeDir
  | .mk p _ ds fs, par => .mk p par ds fs

/-- The function `NodeFile_destroy`: its return value. -/
def NodeFile_destroy (_n : NodeFile) : Nat := 1

/-- The function `NodeFile_replaceContents`: the old contents and the
updated node. -/
def NodeFile_replaceContents (n : NodeFile) (newContents : Ptr) (newLength : Nat) :
    Ptr × NodeFile :=
  (n.contents, { n with contents := newContents, length := newLength })

mutual
/-- The function `NodeDir_destroy`: its return value, the number of
directories destroyed. -/
def NodeDir_destroy : NodeDir → Nat
  | .mk _ _ ds _ => NodeDir_destroy.children ds + 1
/-- The loop of `NodeDir_destroy` over the child directories. -/
def NodeDir_destroy.children : List NodeDir → Nat
  | [] => 0
  | c :: rest => NodeDir_destroy c + NodeDir_destroy.children rest
end

/-- The function `NodeDir_compare`. -/
def NodeDir_compare (node1 node2 : NodeDir) : Int :=
  strcmp (NodeDir_getPath node1) (NodeDir_getPath node2)

/-- The function `NodeFile_compare`. -/
def NodeFile_compare (node1 node2 : NodeFile) : Int :=
  strcmp node1.path node2.path

/-- Modelled from the spec: `DynArray_bsearch` of the ordered container
(dynarray.c is not part of the sources), "binary search with a
caller-supplied ordering".  On an array sorted by the ordering it reports
whether an element equal to the key is present, and its index, or else the
index at which the key keeps the array sorted. -/
def DynArray_bsearch {α : Type} (xs : List α) (key : α) (compare : α → α → Int) :
    Bool × Nat :=
  match xs with
  | [] => (false, 0)
  | x :: rest =>
    if compare key x = 0 then (true, 0)
    else if compare key x < 0 then (false, 0)
    else ((DynArray_bsearch rest key compare).1, (DynArray_bsearch rest key compare).2 + 1)

/-- Modelled from the spec: `DynArray_addAt` of the ordered container,
"positional insert". -/
def DynArray_addAt {α : Type} (xs : List α) (i : Nat) (x : α) : List α :=
  xs.take i ++ x :: xs.drop i

/-- Modelled from the spec: `DynArray_removeAt` of the ordered container,
"positional remove". -/
def DynArray_removeAt {α : Type} (xs : List α) (i : Nat) : List α :=
  xs.eraseIdx i

/-- The function `NodeDir_hasChildDir`: the result of the search and the
index passed back. -/
def NodeDir_hasChildDir (n : NodeDir) (path : CStr) : Bool × Nat :=
  DynArray_bsearch n.childrenDirs (NodeDir_create path none) NodeDir_compare

/-- The function `NodeDir_hasChildFile`: the result of the search and the
index passed back. -/
def NodeDir_hasChildFile (n : NodeDir) (path : CStr) : Bool × Nat :=
  DynArray_bsearch n.childrenFiles (NodeFile_create path none 0 0) NodeFile_compare

/-- The function `NodeDir_linkChildDir`: the status, the parent after the
call and the index at which the child was stored.  The child is stored with
its field `parent` set to the parent. -/
def NodeDir_linkChildDir (parent child : NodeDir) : Status × NodeDir × Nat :=
  if (NodeDir_hasChildDir parent (NodeDir_getPath child)).1 then
    (.ALREADY_IN_TREE, parent, 0)
  else if (NodeDir_hasChildFile parent (NodeDir_getPath child)).1 then
    (.ALREADY_IN_TREE, parent, 0)
  else
    let i := (NodeDir_getPath parent).length
    if strncmp (NodeDir_getPath child) (NodeDir_getPath parent) i ≠ 0 then
      (.PARENT_CHILD_ERROR, parent, 0)
    else if (NodeDir_getPath child).length ≥ i
        ∧ ((NodeDir_getPath child).drop i).head? ≠ some '/' then
      (.PARENT_CHILD_ERROR, parent, 0)
    else if (strstr ((NodeDir_getPath child).drop (i + 1)) ['/']).isSome then
      (.PARENT_CHILD_ERROR, parent, 0)
    else
      match DynArray_bsearch parent.childrenDirs child NodeDir_compare with
      | (true, _) => (.ALREADY_IN_TREE, parent, 0)
      | (false, j) =>
        (.SUCCESS,
         .mk (NodeDir_getPath parent) (NodeDir_getParent parent)
           (DynArray_addAt parent.childrenDirs j
             (child.withParent (some (NodeDir_getPath parent))))
           parent.childrenFiles,
         j)

/-- The function `NodeDir_linkChildFile`: the status and the parent after
the call. -/
def NodeDir_linkChildFile (parent : NodeDir) (child : NodeFile) : Status × NodeDir :=
  if (NodeDir_hasChildDir parent (NodeFile_getPath child)).1 then
    (.ALREADY_IN_TREE, parent)
  else if (NodeDir_hasChildFile parent (NodeFile_getPath child)).1 then
    (.ALREADY_IN_TREE, parent)
  else
    let i := (NodeDir_getPath parent).length
    if strncmp (NodeFile_getPath child) (NodeDir_getPath parent) i ≠ 0 then
      (.PARENT_CHILD_ERROR, parent)
    else if (NodeFile_getPath child).length ≥ i
        ∧ ((NodeFile_getPath child).drop i).head? ≠ some '/' then
      (.PARENT_CHILD_ERROR, parent)
    else if (strstr ((NodeFile_getPath child).drop (i + 1)) ['/']).isSome then
      (.PARENT_CHILD_ERROR, parent)
    else
      match DynArray_bsearch parent.childrenFiles child NodeFile_compare with
      | (true, _) => (.ALREADY_IN_TREE, parent)
      | (false, j) =>
        (.SUCCESS,
         .mk (NodeDir_getPath parent) (NodeDir_getParent parent) parent.childrenDirs
           (DynArray_addAt parent.childrenFiles j child))

/-- The function `NodeDir_unlinkChildDir`: the status and the parent after
the call. -/
def NodeDir_unlinkChildDir (parent child : NodeDir) : Status × NodeDir :=
  match DynArray_bsearch parent.childrenDirs child NodeDir_compare with
  | (false, _) => (.PARENT_CHILD_ERROR, parent)
  | (true, i) =>
    (.SUCCESS,
     .mk (NodeDir_getPath parent) (NodeDir_getParent parent)
       (DynArray_removeAt parent.childrenDirs i) parent.childrenFiles)

/-- The function `NodeDir_unlinkChildFile`: the status and the parent after
the call. -/
def NodeDir_unlinkChildFile (parent : NodeDir) (child : NodeFile) : Status × NodeDir :=
  match DynArray_bsearch parent.childrenFiles child NodeFile_compare with
  | (false, _) => (.PARENT_CHILD_ERROR, parent)
  | (true, i) =>
    (.SUCCESS,
     .mk (NodeDir_getPath parent) (NodeDir_getParent parent) parent.childrenDirs
       (DynArray_removeAt parent.childrenFiles i))

/-! ## Pointers into the tree -/

/-- The directory a pointer designates: the node reached from `n` by the
child indices `loc`. -/
def NodeDir.getAt : NodeDir → List Nat → Option NodeDir
  | n, [] => some n
  | .mk _ _ ds _, i :: rest =>
    match ds[i]? with
    | some c => c.getAt rest
    | none => none

/-- A write through a pointer: the tree in which the node at `loc` is `new`. -/
def NodeDir.setAt : NodeDir → List Nat → NodeDir → NodeDir
  | _, [], new => new
  | .mk p par ds fs, i :: rest, new =>
    match ds[i]? with
    | some c => .mk p par (ds.set i (c.setAt rest new)) fs
    | none => .mk p par ds fs

/-! ## The abstract object `FT` -/

/-- The state variables of ft.c: the flag `isInitialized`, `rootDir`,
`rootFile` (`none` for `NULL`) and the counter `countDirs`. -/
structure FT where
  isInitialized : Bool
  rootDir : Option NodeDir
  rootFile : Option NodeFile
  countDirs : Nat

/-- The state of the static variables when the program starts. -/
def FT.start : FT :=
  { isInitialized := false, rootDir := none, rootFile := none, countDirs := 0 }

/-- The directory of the tree that the pointer `loc` designates. -/
def FT.deref (s : FT) (loc : List Nat) : Option NodeDir :=
  match s.rootDir with
  | none => none
  | some r => r.getAt loc

/-- The state after a write of `new` through the pointer `loc`. -/
def FT.assign (s : FT) (loc : List Nat) (new : NodeDir) : FT :=
  match s.rootDir with
  | none => s
  | some r => { s with rootDir := some (r.setAt loc new) }

/-- The function `FT_linkParentToChildDir`: `NodeDir_linkChildDir` with
every failure reported as `PARENT_CHILD_ERROR` (the child is then
destroyed). -/
def FT_linkParentToChildDir (parent child : NodeDir) : Status × NodeDir × Nat :=
  match NodeDir_linkChildDir parent child with
  | (.SUCCESS, parent1, i) => (.SUCCESS, parent1, i)
  | _ => (.PARENT_CHILD_ERROR, parent, 0)

/-- The function `FT_linkParentToChildFile`: `NodeDir_linkChildFile` with
every failure reported as `PARENT_CHILD_ERROR` (the child is then
destroyed). -/
def FT_linkParentToChildFile (parent : NodeDir) (child : NodeFile) : Status × NodeDir :=
  match NodeDir_linkChildFile parent child with
  | (.SUCCESS, parent1) => (.SUCCESS, parent1)
  | _ => (.PARENT_CHILD_ERROR, parent)

mutual
/-- The function `FT_traversePathFromDir` on a non-`NULL` node: the
position, below `curr`, of the node it returns. -/
def FT_traversePathFromDir (path : CStr) : NodeDir → Option (List Nat)
  | .mk p _ ds _ =>
    if strcmp path p = 0 then some []
    else if strncmp path p p.length = 0 then
      match FT_traversePathFromDir.loop path ds 0 with
      | some found => some found
      | none => some []
    else none
/-- The loop of `FT_traversePathFromDir` over the children from index `i` on. -/
def FT_traversePathFromDir.loop (path : CStr) : List NodeDir → Nat → Option (List Nat)
  | [], _ => none
  | c :: rest, i =>
    match FT_traversePathFromDir path c with
    | some found => some (i :: found)
    | none => FT_traversePathFromDir.loop path rest (i + 1)
end

/-- The function `FT_traversePathDir`. -/
def FT_traversePathDir (s : FT) (path : CStr) : Option (List Nat) :=
  if s.rootFile.isSome then none
  else
    match s.rootDir with
    | none => none
    | some r => FT_traversePathFromDir path r

mutual
/-- The function `FT_traversePathFromFile` on a non-`NULL` node: the
position, below `curr`, of the node it returns. -/
def FT_traversePathFromFile (path : CStr) : NodeDir → Option (List Nat)
  | .mk p par ds fs =>
    if (NodeDir_hasChildFile (.mk p par ds fs) path).1 then some []
    else if (NodeDir_hasChildDir (.mk p par ds fs) path).1 then some []
    else if strncmp path p p.length = 0 then
      match FT_traversePathFromFile.loop path ds 0 with
      | some found => some found
      | none => some []
    else none
/-- The loop of `FT_traversePathFromFile` over the children from index `i` on. -/
def FT_traversePathFromFile.loop (path : CStr) : List NodeDir → Nat → Option (List Nat)
  | [], _ => none
  | c :: rest, i =>
    match FT_traversePathFromFile path c with
    | some found => some (i :: found)
    | none => FT_traversePathFromFile.loop path rest (i + 1)
end

/-- The function `FT_traversePathFile`. -/
def FT_traversePathFile (s : FT) (path : CStr) : Option (List Nat) :=
  if s.rootFile.isSome then none
  else
    match s.rootDir with
    | none => none
    | some r => FT_traversePathFromFile path r

/-! ## Insertion -/

/-- The local variables of the insertion loops: `firstNew`, `curr`, the
position of `curr` below `firstNew`, and `newCount`.  While the loop runs
`curr` is either the parent the call started from or the node created by
the previous iteration, which has no children yet. -/
structure Chain where
  firstNew : Option NodeDir
  curr : Option NodeDir
  currLoc : List Nat
  newCount : Nat

/-- How a loop ends: it runs to its end (or leaves by `break`), the function
returns a status from inside it, or the call does not return. -/
inductive Loop where
  | done (c : Chain)
  | ret (code : Status)
  | crash (f : Fault)

/-- The statements of an iteration that creates a directory (ft.c lines
301-323 and 499-520): create `new` under `curr`, make it `firstNew` or link
it to `curr`, and move `curr` to it.  The link writes `curr` to
`new->parent`, which holds it since `NodeDir_create`, so `new` is the same
node after the link.  When the link fails `new` is destroyed by
`FT_linkParentToChildDir` and once more by the caller. -/
def Chain.addDir (c : Chain) (dirToken : CStr) : Except Fault Chain :=
  let new := NodeDir_create dirToken c.curr
  match c.firstNew with
  | none =>
    .ok { firstNew := some new, curr := some new, currLoc := [], newCount := c.newCount + 1 }
  | some first =>
    match c.curr with
    | none => .error .assertion
    | some curr =>
      match FT_linkParentToChildDir curr new with
      | (.SUCCESS, curr1, i) =>
        .ok { firstNew := some (first.setAt c.currLoc curr1), curr := some new,
              currLoc := c.currLoc ++ [i], newCount := c.newCount + 1 }
      | _ => .error .memory

/-- The `while` loop of `FT_insertRestOfPathDir` over the tokens. -/
def FT_insertRestOfPathDir.loop : List (Bool × CStr) → Chain → Loop
  | [], c => .done c
  | (precededBySlash, dirToken) :: rest, c =>
    if precededBySlash then .ret .PARENT_CHILD_ERROR
    else
      match c.addDir dirToken with
      | .ok c1 => FT_insertRestOfPathDir.loop rest c1
      | .error f => .crash f

/-- The end of both insertion functions: install `firstNew` as the root, or
link it to `parent`.  A failed link destroys `firstNew` twice. -/
def FT_insertRestOfPath.finish (s : FT) (parent : Option (List Nat × NodeDir)) (c : Chain) :
    Except Fault (Status × FT) :=
  match parent with
  | none => .ok (.SUCCESS, { s with rootDir := c.firstNew, countDirs := c.newCount })
  | some (loc, parentNode) =>
    match c.firstNew with
    | none => .error .assertion
    | some first =>
      match FT_linkParentToChildDir parentNode first with
      | (.SUCCESS, parent1, _) =>
        .ok (.SUCCESS, { s.assign loc parent1 with countDirs := s.countDirs + c.newCount })
      | _ => .error .memory

/-- The function `FT_insertRestOfPathDir` from the check of the last byte
on; `restPath` is `path` advanced past the parent.  The byte
`*(restPath+strlen(restPath)-1)` is the last byte of `path`; for an empty
`path` it lies in front of the string of the caller. -/
def FT_insertRestOfPathDir.rest (s : FT) (path : CStr) (parent : Option (List Nat × NodeDir))
    (restPath : CStr) : Except Fault (Status × FT) :=
  match path.getLast? with
  | none => .error .memory
  | some last =>
    if last = '/' then .ok (.PARENT_CHILD_ERROR, s)
    else
      match FT_insertRestOfPathDir.loop (strtokAll restPath)
          { firstNew := none, curr := parent.map (fun p => p.2), currLoc := [],
            newCount := 0 } with
      | .ret code => .ok (code, s)
      | .crash f => .error f
      | .done c => FT_insertRestOfPath.finish s parent c

/-- The function `FT_insertRestOfPathDir`; `parent` is a pointer into the
tree or `none` for `NULL`. -/
def FT_insertRestOfPathDir (s : FT) (path : CStr) (parent : Option (List Nat)) :
    Except Fault (Status × FT) :=
  match parent with
  | none =>
    if s.rootDir.isSome || s.rootFile.isSome then .ok (.CONFLICTING_PATH, s)
    else FT_insertRestOfPathDir.rest s path none path
  | some loc =>
    match s.deref loc with
    | none => .error .memory
    | some curr =>
      if strcmp path (NodeDir_getPath curr) = 0 then .ok (.ALREADY_IN_TREE, s)
      else if (NodeDir_hasChildFile curr path).1 then .ok (.ALREADY_IN_TREE, s)
      else if path.length < (NodeDir_getPath curr).length + 1 then .error .memory
      else
        let fileCheck :=
          match strstr (path.drop ((NodeDir_getPath curr).length + 1)) ['/'] with
          | some k => path.take ((NodeDir_getPath curr).length + 1 + k)
          | none => path
        if (NodeDir_hasChildFile curr fileCheck).1 then .ok (.PARENT_CHILD_ERROR, s)
        else
          FT_insertRestOfPathDir.rest s path (some (loc, curr))
            (path.drop ((NodeDir_getPath curr).length + 1))

/-- The function `FT_insertDir`. -/
def FT_insertDir (s : FT) (path : CStr) : Except Fault (Status × FT) :=
  if !s.isInitialized then .ok (.INITIALIZATION_ERROR, s)
  else FT_insertRestOfPathDir s path (FT_traversePathDir s path)

/-- The statements `findFile++; findFile = strstr(findFile, "/")`. -/
def FT_insertRestOfPathFile.next (findFile : CStr) : Option CStr :=
  match strstr (findFile.drop 1) ['/'] with
  | some k => some ((findFile.drop 1).drop k)
  | none => none

/-- The `while` loop of `FT_insertRestOfPathFile`; `findFile` is `none` for
`NULL`.  The loop is entered with `findFile` non-`NULL`, so its first
iteration creates a directory and `firstNew` is set when the final file is
reached; were it not, `FT_linkParentToChildFile` or the link after the loop
would fail an `assert`. -/
def FT_insertRestOfPathFile.loop (contents : Ptr) (length : Nat) :
    List (Bool × CStr) → Option CStr → Chain → Loop
  | [], _, c => .done c
  | (precededBySlash, dirToken) :: rest, findFile, c =>
    if precededBySlash then .ret .PARENT_CHILD_ERROR
    else
      match findFile with
      | none =>
        match c.firstNew, c.curr with
        | some first, some curr =>
          match FT_linkParentToChildFile curr
              (NodeFile_create dirToken (some curr) contents length) with
          | (.SUCCESS, curr1) =>
            .done { c with firstNew := some (first.setAt c.currLoc curr1), curr := some curr1 }
          | _ => .crash .memory
        | _, _ => .crash .assertion
      | some ff =>
        match c.addDir dirToken with
        | .ok c1 =>
          FT_insertRestOfPathFile.loop contents length rest
            (FT_insertRestOfPathFile.next ff) c1
        | .error f => .crash f

/-- The function `FT_insertRestOfPathFile` from the check of the last byte
on.  A failed link of the final file destroys it twice. -/
def FT_insertRestOfPathFile.rest (s : FT) (path : CStr) (parent : Option (List Nat × NodeDir))
    (restPath : CStr) (contents : Ptr) (length : Nat) : Except Fault (Status × FT) :=
  match path.getLast? with
  | none => .error .memory
  | some last =>
    if last = '/' then .ok (.PARENT_CHILD_ERROR, s)
    else
      match strstr restPath ['/'] with
      | none =>
        match parent with
        | none =>
          .ok (.SUCCESS, { s with rootFile := some (NodeFile_create path none contents length) })
        | some (loc, parentNode) =>
          match FT_linkParentToChildFile parentNode
              (NodeFile_create restPath (some parentNode) contents length) with
          | (.SUCCESS, parent1) => .ok (.SUCCESS, s.assign loc parent1)
          | _ => .error .memory
      | some k =>
        match FT_insertRestOfPathFile.loop contents length (strtokAll restPath)
            (some (restPath.drop k))
            { firstNew := none, curr := parent.map (fun p => p.2), currLoc := [],
              newCount := 0 } with
        | .ret code => .ok (code, s)
        | .crash f => .error f
        | .done c => FT_insertRestOfPath.finish s parent c

/-- The function `FT_insertRestOfPathFile`; `parent` is a pointer into the
tree or `none` for `NULL`.  When `path` is no longer than the path of the
parent, `fileCheckChange` and `restPath` point past the terminator. -/
def FT_insertRestOfPathFile (s : FT) (path : CStr) (parent : Option (List Nat))
    (contents : Ptr) (length : Nat) : Except Fault (Status × FT) :=
  match parent with
  | none =>
    if s.rootDir.isSome || s.rootFile.isSome then .ok (.CONFLICTING_PATH, s)
    else FT_insertRestOfPathFile.rest s path none path contents length
  | some loc =>
    match s.deref loc with
    | none => .error .memory
    | some curr =>
      if (NodeDir_hasChildFile curr path).1 || (NodeDir_hasChildDir curr path).1 then
        .ok (.ALREADY_IN_TREE, s)
      else if path.length < (NodeDir_getPath curr).length + 1 then .error .memory
      else
        let notADirectory :=
          match strstr (path.drop ((NodeDir_getPath curr).length + 1)) ['/'] with
          | some k =>
            (NodeDir_hasChildFile curr (path.take ((NodeDir_getPath curr).length + 1 + k))).1
          | none => false
        if notADirectory then .ok (.NOT_A_DIRECTORY, s)
        else
          FT_insertRestOfPathFile.rest s path (some (loc, curr))
            (path.drop ((NodeDir_getPath curr).length + 1)) contents length

/-- The function `FT_insertFile`. -/
def FT_insertFile (s : FT) (path : CStr) (contents : Ptr) (length : Nat) :
    Except Fault (Status × FT) :=
  if !s.isInitialized then .ok (.INITIALIZATION_ERROR, s)
  else FT_insertRestOfPathFile s path (FT_traversePathFile s path) contents length

/-! ## Queries and removal -/

/-- The function `FT_containsDir`.  The pointer returned by the traversal
always designates a node (`traverseDir_valid`). -/
def FT_containsDir (s : FT) (path : CStr) : Bool :=
  if !s.isInitialized then false
  else
    match FT_traversePathDir s path with
    | none => false
    | some loc =>
      match s.deref loc with
      | none => false
      | some curr => if strcmp path (NodeDir_getPath curr) ≠ 0 then false else true

/-- The function `FT_containsFile`.  The pointer returned by the traversal
always designates a node (`traverseFile_valid`). -/
def FT_containsFile (s : FT) (path : CStr) : Bool :=
  if !s.isInitialized then false
  else
    match s.rootFile with
    | some f => if strcmp (NodeFile_getPath f) path = 0 then true else false
    | none =>
      match FT_traversePathFile s path with
      | none => false
      | some loc =>
        match s.deref loc with
        | none => false
        | some curr => if (NodeDir_hasChildFile curr path).1 then true else false

/-- The function `FT_removePathFromDir`: the counter after the hierarchy
below `curr` is destroyed.  The counter is a `size_t`; it never holds less
than the number of directories destroyed (see `FT.Inv`), so the subtraction
does not wrap. -/
def FT_removePathFromDir (s : FT) (curr : Option NodeDir) : FT :=
  match curr with
  | none => s
  | some n => { s with countDirs := s.countDirs - NodeDir_destroy n }

/-- The function `FT_rmDir`.  `NodeDir_getParent(curr)` is read as the node
one step up from `curr`, `NULL` for the root: in every reachable state the
field `parent` of a node of the tree points to the node that holds it and is
`NULL` at the root (`reachable_parents`).  The status of
`NodeDir_unlinkChildDir` is ignored, as in the source. -/
def FT_rmDir (s : FT) (path : CStr) : Except Fault (Status × FT) :=
  if !s.isInitialized then .ok (.INITIALIZATION_ERROR, s)
  else
    match FT_traversePathDir s path with
    | none => .ok (.NO_SUCH_PATH, s)
    | some loc =>
      match s.deref loc with
      | none => .error .memory
      | some curr =>
        if (NodeDir_hasChildFile curr path).1 then .ok (.NOT_A_DIRECTORY, s)
        else if strcmp (NodeDir_getPath curr) path ≠ 0 then .ok (.NO_SUCH_PATH, s)
        else if loc = [] then
          .ok (.SUCCESS, { FT_removePathFromDir s (some curr) with rootDir := none })
        else
          match s.deref loc.dropLast with
          | none => .error .memory
          | some parent =>
            .ok (.SUCCESS,
              FT_removePathFromDir
                (s.assign loc.dropLast (NodeDir_unlinkChildDir parent curr).2) (some curr))

/-- The function `FT_rmFile`. -/
def FT_rmFile (s : FT) (path : CStr) : Except Fault (Status × FT) :=
  if !s.isInitialized then .ok (.INITIALIZATION_ERROR, s)
  else
    match s.rootFile with
    | some f =>
      if strcmp (NodeFile_getPath f) path = 0 then .ok (.SUCCESS, { s with rootFile := none })
      else .ok (.NO_SUCH_PATH, s)
    | none =>
      match FT_traversePathFile s path with
      | none => .ok (.NO_SUCH_PATH, s)
      | some loc =>
        match s.deref loc with
        | none => .error .memory
        | some curr =>
          if (NodeDir_hasChildFile curr path).1 then
            match NodeDir_getChildFile curr (NodeDir_hasChildFile curr path).2 with
            | none => .error .assertion
            | some child => .ok (.SUCCESS, s.assign loc (NodeDir_unlinkChildFile curr child).2)
          else if (NodeDir_hasChildDir curr path).1 then .ok (.NOT_A_FILE, s)
          else .ok (.NO_SUCH_PATH, s)

/-- The function `FT_getFileContents`; `0` is `NULL`.  There is no test of
`isInitialized` and none of `curr`, which `NodeDir_hasChildFile` asserts to
be non-`NULL`. -/
def FT_getFileContents (s : FT) (path : CStr) : Except Fault Ptr :=
  match s.rootFile with
  | some f => if strcmp (NodeFile_getPath f) path = 0 then .ok (NodeFile_getContents f) else .ok 0
  | none =>
    match FT_traversePathFile s path with
    | none => .error .assertion
    | some loc =>
      match s.deref loc with
      | none => .error .memory
      | some curr =>
        if (NodeDir_hasChildFile curr path).1 then
          match NodeDir_getChildFile curr (NodeDir_hasChildFile curr path).2 with
          | none => .error .assertion
          | some child => .ok (NodeFile_getContents child)
        else .ok 0

/-- The function `FT_replaceFileContents`; `0` is `NULL`. -/
def FT_replaceFileContents (s : FT) (path : CStr) (newContents : Ptr) (newLength : Nat) :
    Except Fault (Ptr × FT) :=
  match s.rootFile with
  | some f =>
    if strcmp (NodeFile_getPath f) path = 0 then
      .ok ((NodeFile_replaceContents f newContents newLength).1,
           { s with rootFile := some (NodeFile_replaceContents f newContents newLength).2 })
    else .ok (0, s)
  | none =>
    match FT_traversePathFile s path with
    | none => .error .assertion
    | some loc =>
      match s.deref loc with
      | none => .error .memory
      | some curr =>
        if (NodeDir_hasChildFile curr path).1 then
          match NodeDir_getChildFile curr (NodeDir_hasChildFile curr path).2 with
          | none => .error .assertion
          | some child =>
            .ok ((NodeFile_replaceContents child newContents newLength).1,
                 s.assign loc
                   (.mk (NodeDir_getPath curr) (NodeDir_getParent curr) curr.childrenDirs
                     (curr.childrenFiles.set (NodeDir_hasChildFile curr path).2
                       (NodeFile_replaceContents child newContents newLength).2)))
        else .ok (0, s)

/-- The function `FT_init`. -/
def FT_init (s : FT) : Status × FT :=
  if s.isInitialized then (.INITIALIZATION_ERROR, s)
  else (.SUCCESS, { isInitialized := true, rootDir := none, rootFile := none, countDirs := 0 })

/-- The function `FT_destroy`. -/
def FT_destroy (s : FT) : Status × FT :=
  if !s.isInitialized then (.INITIALIZATION_ERROR, s)
  else if s.rootDir.isNone && s.rootFile.isNone then
    (.SUCCESS, { s with isInitialized := false })
  else if s.rootFile.isSome then
    (.SUCCESS, { s with rootFile := none, isInitialized := false })
  else
    (.SUCCESS, { FT_removePathFromDir s s.rootDir with rootDir := none, isInitialized := false })

/-- The function `FT_stat`: the status and the values of `*type` and
`*length` after the call, given their values before it. -/
def FT_stat (s : FT) (path : CStr) (type : Bool) (length : Nat) :
    Except Fault (Status × Bool × Nat) :=
  if !s.isInitialized then .ok (.INITIALIZATION_ERROR, type, length)
  else
    match s.rootFile with
    | some f =>
      if strcmp (NodeFile_getPath f) path = 0 then .ok (.SUCCESS, true, NodeFile_getLength f)
      else .ok (.NO_SUCH_PATH, type, length)
    | none =>
      match FT_traversePathFile s path with
      | none => .ok (.NO_SUCH_PATH, type, length)
      | some loc =>
        match s.deref loc with
        | none => .error .memory
        | some curr =>
          if (NodeDir_hasChildDir curr path).1 then .ok (.SUCCESS, false, length)
          else if (NodeDir_hasChildFile curr path).1 then
            match NodeDir_getChildFile curr (NodeDir_hasChildFile curr path).2 with
            | none => .error .assertion
            | some child => .ok (.SUCCESS, true, NodeFile_getLength child)
          else .ok (.NO_SUCH_PATH, type, length)

/-! ## `FT_toString` -/

/-- Modelled from the spec: `DynArray_set` of the ordered container,
"indexed access"; the index must lie inside the array. -/
def DynArray_set (d : List (Option NodeDir)) (i : Nat) (n : NodeDir) :
    Except Fault (List (Option NodeDir)) :=
  if i < d.length then .ok (d.set i (some n)) else .error .assertion

mutual
/-- The function `FT_preOrderTraversal` on a non-`NULL` node: the array
after the insertions and the next unused index. -/
def FT_preOrderTraversal : NodeDir → List (Option NodeDir) → Nat →
    Except Fault (List (Option NodeDir) × Nat)
  | .mk p par ds fs, d, i =>
    match DynArray_set d i (.mk p par ds fs) with
    | .error f => .error f
    | .ok d1 => FT_preOrderTraversal.loop ds d1 (i + 1)
/-- The loop of `FT_preOrderTraversal` over the child directories. -/
def FT_preOrderTraversal.loop : List NodeDir → List (Option NodeDir) → Nat →
    Except Fault (List (Option NodeDir) × Nat)
  | [], d, i => .ok (d, i)
  | c :: rest, d, i =>
    match FT_preOrderTraversal c d i with
    | .error f => .error f
    | .ok (d1, i1) => FT_preOrderTraversal.loop rest d1 i1
end

/-- The function `FT_strlenAccumulate`: the accumulator after the call. -/
def FT_strlenAccumulate (n : Option NodeDir) (acc : Nat) : Except Fault Nat :=
  match n with
  | none => .error .assertion
  | some d =>
    .ok (acc + ((NodeDir_getPath d).length + 1)
      + (d.childrenFiles.map (fun f => (NodeFile_getPath f).length + 1)).sum)

/-- The function `FT_strcatAccumulate`: the string `acc` after the call. -/
def FT_strcatAccumulate (n : Option NodeDir) (acc : CStr) : Except Fault CStr :=
  match n with
  | none => .error .assertion
  | some d =>
    .ok (d.childrenFiles.foldl (fun a f => a ++ NodeFile_getPath f ++ ['\n'])
      (acc ++ NodeDir_getPath d ++ ['\n']))

/-- Modelled from the spec: `DynArray_map` of the ordered container,
applying a function with an accumulator to every element in index order. -/
def DynArray_map {α β : Type} (d : List α) (f : α → β → Except Fault β) (acc : β) :
    Except Fault β :=
  match d with
  | [] => .ok acc
  | x :: rest =>
    match f x acc with
    | .error e => .error e
    | .ok acc1 => DynArray_map rest f acc1

/-- The function `FT_toString`: the string returned (`none` for `NULL`)
and the state after the call.  With a file as root the newline is appended
to the path stored in the node itself, one byte beyond the bytes allocated
for it, and that string is returned. -/
def FT_toString (s : FT) : Except Fault (Option CStr × FT) :=
  if !s.isInitialized then .ok (none, s)
  else
    match s.rootFile with
    | some f =>
      .ok (some (NodeFile_getPath f ++ ['\n']),
           { s with rootFile := some { f with path := NodeFile_getPath f ++ ['\n'] } })
    | none =>
      let filled : Except Fault (List (Option NodeDir) × Nat) :=
        match s.rootDir with
        | none => .ok (List.replicate s.countDirs none, 0)
        | some r => FT_preOrderTraversal r (List.replicate s.countDirs none) 0
      match filled with
      | .error f => .error f
      | .ok (nodes, _) =>
        match DynArray_map nodes FT_strlenAccumulate 1 with
        | .error f => .error f
        | .ok _ =>
          if s.rootDir.isNone && s.rootFile.isNone then .ok (some [], s)
          else
            match DynArray_map nodes FT_strcatAccumulate [] with
            | .error f => .error f
            | .ok result => .ok (some result, s)

/-! ## Reachable states -/

/-- The states the abstract object can be in: the state at program start,
and every state a public function returns to its caller in.  The functions
`FT_containsDir`, `FT_containsFile`, `FT_getFileContents` and `FT_stat`
leave the state as it is. -/
inductive Reachable : FT → Prop where
  | start : Reachable FT.start
  | init (s : FT) : Reachable s → Reachable (FT_init s).2
  | destroy (s : FT) : Reachable s → Reachable (FT_destroy s).2
  | insertDir (s : FT) (path : CStr) (code : Status) (t : FT) :
      Reachable s → FT_insertDir s path = .ok (code, t) → Reachable t
  | insertFile (s : FT) (path : CStr) (contents : Ptr) (length : Nat) (code : Status) (t : FT) :
      Reachable s → FT_insertFile s path contents length = .ok (code, t) → Reachable t
  | rmDir (s : FT) (path : CStr) (code : Status) (t : FT) :
      Reachable s → FT_rmDir s path = .ok (code, t) → Reachable t
  | rmFile (s : FT) (path : CStr) (code : Status) (t : FT) :
      Reachable s → FT_rmFile s path = .ok (code, t) → Reachable t
  | replaceFileContents (s : FT) (path : CStr) (newContents : Ptr) (newLength : Nat)
      (old : Ptr) (t : FT) :
      Reachable s → FT_replaceFileContents s path newContents newLength = .ok (old, t) →
      Reachable t
  | toString (s : FT) (str : Option CStr) (t : FT) :
      Reachable s → FT_toString s = .ok (str, t) → Reachable t

/-! ## Invariants of the representation -/

/-- The initialised tree without a root. -/
def FT.empty : FT :=
  { isInitialized := true, rootDir := none, rootFile := none, countDirs := 0 }

/-- A list of paths that is strictly increasing under `strcmp`. -/
def StrictlySorted (paths : List CStr) : Prop :=
  paths.Pairwise (fun a b => strcmp a b < 0)

/-- The path `c` lies exactly one level below the path `p`: it is `p`, a
slash, and one segment without a slash. -/
def ChildPath (p c : CStr) : Prop :=
  ∃ seg : CStr, c = p ++ '/' :: seg ∧ '/' ∉ seg

/-- Well-formed hierarchies: in every directory both child arrays are
strictly increasing by path, every child lies one level below the directory,
and no child directory shares its path with a child file. -/
inductive NodeDir.WF : NodeDir → Prop where
  | mk (p : CStr) (par : Option CStr) (ds : List NodeDir) (fs : List NodeFile) :
      StrictlySorted (ds.map NodeDir_getPath) →
      StrictlySorted (fs.map NodeFile_getPath) →
      (∀ d ∈ ds, ChildPath p (NodeDir_getPath d)) →
      (∀ f ∈ fs, ChildPath p (NodeFile_getPath f)) →
      (∀ d ∈ ds, ∀ f ∈ fs, NodeDir_getPath d ≠ NodeFile_getPath f) →
      (∀ d ∈ ds, NodeDir.WF d) →
      NodeDir.WF (.mk p par ds fs)

/-- The number of directories that `countDirs` has to hold. -/
def FT.numDirs (s : FT) : Nat :=
  match s.rootDir with
  | none => 0
  | some r => NodeDir_destroy r

/-- The invariant of the abstract object: an uninitialised object has no
root, the two roots exclude each other, `countDirs` is the number of
directories, and a root directory is a well-formed hierarchy whose own path
is one segment without a slash. -/
structure FT.Inv (s : FT) : Prop where
  uninit : s.isInitialized = false → s.rootDir = none ∧ s.rootFile = none
  exclusive : s.rootFile.isSome = true → s.rootDir = none
  count : s.countDirs = s.numDirs
  wf : ∀ r, s.rootDir = some r → r.WF ∧ '/' ∉ NodeDir_getPath r

/-- What the insertion loops leave behind for the final link: the new
hierarchy is well formed, `newCount` is the number of its directories, and
when it was started without a parent its top path is a single segment. -/
def Chain.Closed (parent : Option NodeDir) (c : Chain) : Prop :=
  match c.firstNew with
  | none => c.newCount = 0
  | some first =>
    first.WF ∧ NodeDir_destroy first = c.newCount ∧
    (parent = none → '/' ∉ NodeDir_getPath first)

/-- The invariant of the insertion loops: `Chain.Closed`, and `curr` is the
parent the call started from or the childless node at `currLoc` of the new
hierarchy. -/
def Chain.Open (parent : Option NodeDir) (c : Chain) : Prop :=
  c.Closed parent ∧
  match c.firstNew with
  | none => c.curr = parent
  | some first =>
    ∃ curr, c.curr = some curr ∧ first.getAt c.currLoc = some curr ∧
      curr.childrenDirs = [] ∧ curr.childrenFiles = []

/-! ## Vocabulary of the properties -/

mutual
/-- The directories of a hierarchy: the node itself, then those of each
child directory, in array order (a pre-order walk through `childrenDirs`). -/
def NodeDir.nodes : NodeDir → List NodeDir
  | .mk p par ds fs => .mk p par ds fs :: NodeDir.nodes.list ds
/-- The directories of a list of hierarchies. -/
def NodeDir.nodes.list : List NodeDir → List NodeDir
  | [] => []
  | c :: rest => c.nodes ++ NodeDir.nodes.list rest
end

/-- The directories reachable from `rootDir`. -/
def FT.dirs (s : FT) : List NodeDir :=
  match s.rootDir with
  | none => []
  | some r => r.nodes

mutual
/-- The listing `ser(d)`: the path of `d` and a newline, then the path and
a newline of each child file in stored order, then `ser(c)` for each child
directory `c` in stored order. -/
def ser : NodeDir → CStr
  | .mk p _ ds fs =>
    p ++ ['\n'] ++ (fs.map (fun f => f.path ++ ['\n'])).flatten ++ ser.list ds
/-- The listings of a list of directories, one after the other. -/
def ser.list : List NodeDir → CStr
  | [] => []
  | c :: rest => ser c ++ ser.list rest
end

/-- The path `s1/s2/.../sn` with the segments `segs`. -/
def joinPath : List CStr → CStr
  | [] => []
  | [seg] => seg
  | seg :: rest => seg ++ '/' :: joinPath rest

/-- A segment of a well-formed path: not empty and without a slash. -/
def Segment (seg : CStr) : Prop :=
  seg ≠ [] ∧ '/' ∉ seg

/-- The path `q` names the node at `p` or a node below it: `q` is `p`, or
begins with `p` followed by a slash. -/
def Under (p q : CStr) : Prop :=
  q = p ∨ (p ++ ['/']) <+: q

/-- The directory `d` is a node of the tree: some pointer from the root
designates it. -/
def FT.hasDir (s : FT) (d : NodeDir) : Prop :=
  ∃ loc, s.deref loc = some d

/-- The file `f` is a node of the tree: the root file, or a child file of
a directory of the tree. -/
def FT.hasFile (s : FT) (f : NodeFile) : Prop :=
  s.rootFile = some f ∨ ∃ d, s.hasDir d ∧ f ∈ d.childrenFiles

/-! ## States used as examples -/

/-- The tree after `FT_insertDir("a/b")` on the empty tree. -/
def FT.exAB : FT :=
  { isInitialized := true
    rootDir := some (.mk "a".toList none [.mk "a/b".toList (some "a".toList) [] []] [])
    rootFile := none
    countDirs := 2 }

/-- The tree after `FT_insertDir("a/bc")` on the empty tree. -/
def FT.exABC : FT :=
  { isInitialized := true
    rootDir := some (.mk "a".toList none [.mk "a/bc".toList (some "a".toList) [] []] [])
    rootFile := none
    countDirs := 2 }

/-- The tree after `FT_insertDir("a/bc")` and `FT_insertDir("a/b")`. -/
def FT.exSiblings : FT :=
  { isInitialized := true
    rootDir := some (.mk "a".toList none [.mk "a/b".toList (some "a".toList) [] [],
        .mk "a/bc".toList (some "a".toList) [] []] [])
    rootFile := none
    countDirs := 3 }

/-- The tree after `FT_insertDir("a/b")` and `FT_insertDir("a/bcd")`: the
second call created `a/b/d`. -/
def FT.exABD : FT :=
  { isInitialized := true
    rootDir := some (.mk "a".toList none [.mk "a/b".toList (some "a".toList)
        [.mk "a/b/d".toList (some "a/b".toList) [] []] []] [])
    rootFile := none
    countDirs := 3 }

/-- The tree after `FT_insertDir("a/b")` and `FT_insertFile("a/bc", 7, 1)`:
the second call created the file `a/b/`. -/
def FT.exSlashFile : FT :=
  { isInitialized := true
    rootDir := some (.mk "a".toList none
      [.mk "a/b".toList (some "a".toList) []
          [{ path := "a/b/".toList, parent := some "a/b".toList, contents := 7, length := 1 }]] [])
    rootFile := none
    countDirs := 2 }

/-- The tree after `FT_insertDir("a/b")` and `FT_insertFile("a/bcd", 7, 10)`:
the second call created the file `a/b/d`. -/
def FT.exFileD : FT :=
  { isInitialized := true
    rootDir := some (.mk "a".toList none
      [.mk "a/b".toList (some "a".toList) []
          [{ path := "a/b/d".toList, parent := some "a/b".toList, contents := 7, length := 10 }]] [])
    rootFile := none
    countDirs := 2 }

/-- The tree whose root is the file `x.txt`. -/
def FT.exRootFile : FT :=
  { isInitialized := true
    rootDir := none
    rootFile := some { path := "x.txt".toList, parent := none, contents := 7, length := 5 }
    countDirs := 0 }

/-- The path reached from `p` by descending through the segments. -/
def deepPath (p : CStr) : List CStr → CStr
  | [] => p
  | seg :: rest => deepPath (p ++ '/' :: seg) rest

/-- The field `parent` of the directory reached from `p`, which points to
`par`, by descending through the segments. -/
def deepParent (par : Option CStr) (p : CStr) : List CStr → Option CStr
  | [] => par
  | seg :: rest => deepParent (some p) (p ++ '/' :: seg) rest

/-- The hierarchy that a single insertion builds: the directory `p`, which
points to `par`, whose only child is the hierarchy of the remaining
segments. -/
def NodeDir.line (par : Option CStr) (p : CStr) : List CStr → NodeDir
  | [] => .mk p par [] []
  | seg :: rest => .mk p par [NodeDir.line (some p) (p ++ '/' :: seg) rest] []

/-- The tree after `FT_insertDir("a/b/c")` and `FT_insertDir("a/d")`. -/
def FT.exTwoBranches : FT :=
  { isInitialized := true
    rootDir := some (.mk "a".toList none
      [.mk "a/b".toList (some "a".toList) [.mk "a/b/c".toList (some "a/b".toList) [] []] [],
          .mk "a/d".toList (some "a".toList) [] []] [])
    rootFile := none
    countDirs := 4 }

/-- The tree `FT.exTwoBranches` after `FT_rmDir("a/b")`. -/
def FT.exOneBranch : FT :=
  { isInitialized := true
    rootDir := some (.mk "a".toList none [.mk "a/d".toList (some "a".toList) [] []] [])
    rootFile := none
    countDirs := 2 }

/-- The tree after `FT_insertDir("a/bc")` and `FT_insertFile("a/bc/f", 7, 1)`. -/
def FT.exFileInBC : FT :=
  { isInitialized := true
    rootDir := some (.mk "a".toList none
      [.mk "a/bc".toList (some "a".toList) []
          [{ path := "a/bc/f".toList, parent := some "a/bc".toList, contents := 7, length := 1 }]] [])
    rootFile := none
    countDirs := 2 }

/-- The tree `FT.exFileInBC` after `FT_insertDir("a/b")`: the file `a/bc/f`
now lies behind the sibling `a/b`. -/
def FT.exShadowedFile : FT :=
  { isInitialized := true
    rootDir := some (.mk "a".toList none
      [.mk "a/b".toList (some "a".toList) [] [],
       .mk "a/bc".toList (some "a".toList) []
           [{ path := "a/bc/f".toList, parent := some "a/bc".toList, contents := 7, length := 1 }]] [])
    rootFile := none
    countDirs := 3 }

/-- The tree `FT.exRootFile` after one call of `FT_toString`: the path
stored in the root file has a newline at its end. -/
def FT.exRootFileNewline : FT :=
  { isInitialized := true
    rootDir := none
    rootFile := some { path := "x.txt\n".toList, parent := none, contents := 7, length := 5 }
    countDirs := 0 }

/-! ## Vocabulary of the later properties -/

/-- A file node with its contents reference and its length blanked. -/
def NodeFile.blank (f : NodeFile) : NodeFile :=
  { f with contents := 0, length := 0 }

mutual
/-- The structure of a hierarchy: its directories and files with their
paths, in array order, the contents reference and the length of every file
blanked. -/
def NodeDir.shape : NodeDir → NodeDir
  | .mk p par ds fs => .mk p par (NodeDir.shape.list ds) (fs.map NodeFile.blank)
/-- The structures of a list of hierarchies. -/
def NodeDir.shape.list : List NodeDir → List NodeDir
  | [] => []
  | c :: rest => c.shape :: NodeDir.shape.list rest
end

/-- The structure of the tree: the structure of the root directory and the
path of the root file. -/
def FT.shape (s : FT) : Option NodeDir × Option NodeFile :=
  (s.rootDir.map NodeDir.shape, s.rootFile.map NodeFile.blank)

/-- Every directory of the hierarchy has a path with the property `Q`. -/
def NodeDir.All (Q : CStr → Prop) (n : NodeDir) : Prop :=
  ∀ loc d, n.getAt loc = some d → Q (NodeDir_getPath d)

/-- The path does not end with a slash. -/
def NoTrailingSlash (p : CStr) : Prop :=
  p.getLast? ≠ some '/'

/-- A malformed path: it ends with a slash or has two consecutive slashes. -/
def Malformed (p : CStr) : Prop :=
  p.getLast? = some '/' ∨ ['/', '/'] <:+: p

/-- The tree `FT.exFileInBC` after `FT_replaceFileContents("a/bc/f", 9, 3)`. -/
def FT.exFileReplaced : FT :=
  { isInitialized := true
    rootDir := some (.mk "a".toList none
      [.mk "a/bc".toList (some "a".toList) []
          [{ path := "a/bc/f".toList, parent := some "a/bc".toList, contents := 9, length := 3 }]] [])
    rootFile := none
    countDirs := 2 }

mutual
/-- The hierarchy without its files: the directories alone, in array order. -/
def NodeDir.dirsOnly : NodeDir → NodeDir
  | .mk p par ds _ => .mk p par (NodeDir.dirsOnly.list ds) []
/-- The hierarchies of a list without their files. -/
def NodeDir.dirsOnly.list : List NodeDir → List NodeDir
  | [] => []
  | c :: rest => c.dirsOnly :: NodeDir.dirsOnly.list rest
end

/-- The tree after `FT_insertDir("a")` on the empty tree. -/
def FT.exA : FT :=
  { isInitialized := true
    rootDir := some (.mk "a".toList none [] [])
    rootFile := none
    countDirs := 1 }

/-- The tree `FT.exA` after `FT_insertFile("a/bcd", 7, 1)`. -/
def FT.exFileBCD : FT :=
  { isInitialized := true
    rootDir := some (.mk "a".toList none []
        [{ path := "a/bcd".toList, parent := some "a".toList, contents := 7, length := 1 }])
    rootFile := none
    countDirs := 1 }

/-- The tree `FT.exFileBCD` after `FT_insertDir("a/b")`: the directory `a/b`
and the file `a/bcd` are children of `a`. -/
def FT.exFileBesideDir : FT :=
  { isInitialized := true
    rootDir := some (.mk "a".toList none [.mk "a/b".toList (some "a".toList) [] []]
      [{ path := "a/bcd".toList, parent := some "a".toList, contents := 7, length := 1 }])
    rootFile := none
    countDirs := 2 }

/-- The tree `FT.exFileBesideDir` after `FT_insertFile("a/bcd/s", 9, 1)`:
the call created the directory `a/b/d` and the file `a/b/d/s`. -/
def FT.exFileUnderSibling : FT :=
  { isInitialized := true
    rootDir := some (.mk "a".toList none
      [.mk "a/b".toList (some "a".toList)
        [.mk "a/b/d".toList (some "a/b".toList) []
            [{ path := "a/b/d/s".toList, parent := some "a/b/d".toList, contents := 9, length := 1 }]] []]
      [{ path := "a/bcd".toList, parent := some "a".toList, contents := 7, length := 1 }])
    rootFile := none
    countDirs := 3 }

/-- The tree `FT.exFileBesideDir` after `FT_insertDir("a/bcd/s")`: the call
created the directories `a/b/d` and `a/b/d/s`. -/
def FT.exDirUnderSibling : FT :=
  { isInitialized := true
    rootDir := some (.mk "a".toList none
      [.mk "a/b".toList (some "a".toList) [.mk "a/b/d".toList (some "a/b".toList)
          [.mk "a/b/d/s".toList (some "a/b/d".toList) [] []] []] []]
      [{ path := "a/bcd".toList, parent := some "a".toList, contents := 7, length := 1 }])
    rootFile := none
    countDirs := 4 }

/-! ## The checker of `2DT` (checker.c) -/

/-- Modelled from the spec: the node of the directory tree `2DT` that the
checker walks (node.h and node.c are not part of the sources), "a path, a
back-reference to its parent directory (absent at the root)" and an ordered
sequence of children.  A pointer is `none` for `NULL`.  The back-reference
does not own the node it refers to; it is held as what the checker reads
through it, the path of that node. -/
inductive Node where
  | mk (path : Option CStr) (parent : Option CStr) (children : List (Option Node))

/-- Modelled from the spec: `Node_getPath`, the path of the node. -/
def Node_getPath : Node → Option CStr
  | .mk p _ _ => p

/-- Modelled from the spec: `Node_getParent`, the back-reference of the
node, as the path of the node it refers to. -/
def Node_getParent : Node → Option CStr
  | .mk _ par _ => par

/-- The array of children of a node. -/
def Node.children : Node → List (Option Node)
  | .mk _ _ cs => cs

/-- Modelled from the spec: `Node_getNumChildren`. -/
def Node_getNumChildren (n : Node) : Nat := n.children.length

/-- Modelled from the spec: `Node_getChild`, the child with the given
index, `NULL` when there is none. -/
def Node_getChild (n : Node) (childID : Nat) : Option Node :=
  match n.children[childID]? with
  | some c => c
  | none => none

/-- Modelled from the spec: `Node_compare`, "pure string comparison of
their paths", applied to the node a back-reference refers to and to a node.
Like `NodeDir_compare` of nodeDir.c it asserts that its arguments are not
`NULL`; `strcmp` on a `NULL` path reads memory the program does not own. -/
def Node_compare (node1 : Option CStr) (node2 : Node) : Except Fault Int :=
  match node1, Node_getPath node2 with
  | none, _ => .error .assertion
  | some _, none => .error .memory
  | some p1, some p2 => .ok (strcmp p1 p2)

/-- The loop of `Checker_Node_isValid` over the adjacent pairs of children
(run when there is more than one child): `FALSE` on a `NULL` child and on a
pair that is not strictly increasing. -/
def Checker_Node_isValid.loop : List (Option Node) → Except Fault Bool
  | c1 :: c2 :: rest =>
    match c1, c2 with
    | some n1, some n2 =>
      match Node_getPath n1, Node_getPath n2 with
      | some p1, some p2 =>
        if strcmp p1 p2 ≥ 0 then .ok false else Checker_Node_isValid.loop (c2 :: rest)
      | _, _ => .error .memory
    | _, _ => .ok false
  | _ => .ok true

/-- The function `Checker_Node_isValid`.  When the path of the node equals
the path of its parent, `rest` is moved past the terminator and `strstr`
reads memory the program does not own. -/
def Checker_Node_isValid (n : Option Node) : Except Fault Bool :=
  match n with
  | none => .ok false
  | some n =>
    match Node_getPath n with
    | none => .ok false
    | some npath =>
      match Checker_Node_isValid.loop n.children with
      | .error f => .error f
      | .ok false => .ok false
      | .ok true =>
        match Node_getParent n with
        | none => .ok true
        | some ppath =>
          if strncmp npath ppath ppath.length ≠ 0 then .ok false
          else if npath.length < ppath.length + 1 then .error .memory
          else if (strstr (npath.drop (ppath.length + 1)) ['/']).isSome then .ok false
          else .ok true

mutual
/-- The function `Checker_treeCheck` on a node that is not `NULL`: the
verdict and the counter after the call. -/
def Checker_treeCheck.node : Node → Nat → Except Fault (Bool × Nat)
  | .mk path parent children, counter =>
    match Checker_Node_isValid (some (.mk path parent children)) with
    | .error f => .error f
    | .ok false => .ok (false, counter + 1)
    | .ok true => Checker_treeCheck.loop (.mk path parent children) children (counter + 1)
/-- The loop of `Checker_treeCheck` over the children of `n`.
`Node_getParent` of a `NULL` child fails its assertion. -/
def Checker_treeCheck.loop (n : Node) : List (Option Node) → Nat → Except Fault (Bool × Nat)
  | [], counter => .ok (true, counter)
  | none :: _, _ => .error .assertion
  | some child :: rest, counter =>
    match Node_compare (Node_getParent child) n with
    | .error f => .error f
    | .ok r =>
      if r ≠ 0 then .ok (false, counter)
      else
        match Checker_treeCheck.node child counter with
        | .error f => .error f
        | .ok (false, c1) => .ok (false, c1)
        | .ok (true, c1) => Checker_treeCheck.loop n rest c1
end

/-- The function `Checker_treeCheck`: the verdict and the counter after the
call. -/
def Checker_treeCheck (n : Option Node) (counter : Nat) : Except Fault (Bool × Nat) :=
  match n with
  | none => .ok (true, counter)
  | some node => Checker_treeCheck.node node counter

/-- The function `Checker_DT_isValid`. -/
def Checker_DT_isValid (isInit : Bool) (root : Option Node) (count : Nat) : Except Fault Bool :=
  if !isInit && count != 0 then .ok false
  else if !isInit && root.isSome then .ok false
  else if isInit && root.isNone && count != 0 then .ok false
  else if (root.bind Node_getParent).isSome then .ok false
  else
    match Checker_treeCheck root 0 with
    | .error f => .error f
    | .ok (toReturn, counter) =>
      if count != counter && toReturn then .ok false else .ok toReturn

mutual
/-- The number of nodes of a tree. -/
def Node.size : Node → Nat
  | .mk _ _ cs => Node.size.list cs + 1
/-- The number of nodes of a list of trees; a `NULL` entry has none. -/
def Node.size.list : List (Option Node) → Nat
  | [] => 0
  | none :: rest => Node.size.list rest
  | some c :: rest => c.size + Node.size.list rest
end

/-- The number of nodes reachable from a root reference. -/
def Node.count (root : Option Node) : Nat :=
  match root with
  | none => 0
  | some r => r.size

mutual
/-- The nodes of a tree: the node itself, then those of each child. -/
def Node.subnodes : Node → List Node
  | .mk p par cs => .mk p par cs :: Node.subnodes.list cs
/-- The nodes of a list of trees. -/
def Node.subnodes.list : List (Option Node) → List Node
  | [] => []
  | none :: rest => Node.subnodes.list rest
  | some c :: rest => c.subnodes ++ Node.subnodes.list rest
end

/-- The trees on which every step of the checker is defined: every node has
a path, no entry of a child array is `NULL`, every child has a
back-reference, and no node has the very path its back-reference leads to. -/
inductive Node.Defined : Node → Prop where
  | mk (p : CStr) (par : Option CStr) (cs : List (Option Node)) :
      par ≠ some p →
      none ∉ cs →
      (∀ c, some c ∈ cs → (Node_getParent c).isSome = true) →
      (∀ c, some c ∈ cs → Node.Defined c) →
      Node.Defined (.mk (some p) par cs)

/-- The tree with the root `a` and its child `ab`, which refers back to `a`. -/
def Node.exBadChild : Node :=
  .mk (some "a".toList) none [some (.mk (some "ab".toList) (some "a".toList) [])]

/-- The tree with the root `a` and its children `a/c` and `a/b`, in this
order, which refer back to `a`. -/
def Node.exUnsorted : Node :=
  .mk (some "a".toList) none
    [some (.mk (some "a/c".toList) (some "a".toList) []),
     some (.mk (some "a/b".toList) (some "a".toList) [])]

/-- The tree with the root `a` and its children `a/b` and `a/c`, which
refer back to `a`. -/
def Node.exSorted : Node :=
  .mk (some "a".toList) none
    [some (.mk (some "a/b".toList) (some "a".toList) []),
     some (.mk (some "a/c".toList) (some "a".toList) [])]

/-- The tree with the root `a` whose only child `a/b` has no back-reference
and holds the children `a/b/d` and `a/b/c`, in this order. -/
def Node.exUnlinked : Node :=
  .mk (some "a".toList) none
    [some (.mk (some "a/b".toList) none
      [some (.mk (some "a/b/d".toList) (some "a/b".toList) []),
       some (.mk (some "a/b/c".toList) (some "a/b".toList) [])])]

/-- The tree with the root `a` and its children `a/b` and `a/c`: the only
entry of the child array of `a/b` is `NULL`, and `a/c` holds the children
`a/c/d` and `a/c/c`, in this order. -/
def Node.exNullChild : Node :=
  .mk (some "a".toList) none
    [some (.mk (some "a/b".toList) (some "a".toList) [none]),
     some (.mk (some "a/c".toList) (some "a".toList)
      [some (.mk (some "a/c/d".toList) (some "a/c".toList) []),
       some (.mk (some "a/c/c".toList) (some "a/c".toList) [])])]

/-! ## The fields `parent` -/

/-- The fields `parent` below a directory agree with the hierarchy: every
child directory and every child file of a directory points to that
directory. -/
inductive NodeDir.Linked : NodeDir → Prop where
  | mk (p : CStr) (par : Option CStr) (ds : List NodeDir) (fs : List NodeFile) :
      (∀ d ∈ ds, NodeDir_getParent d = some p) →
      (∀ f ∈ fs, NodeFile_getParent f = some p) →
      (∀ d ∈ ds, NodeDir.Linked d) →
      NodeDir.Linked (.mk p par ds fs)

/-- The invariant of the fields `parent`: the root, directory or file, has
`NULL` there, and below a root directory every node points to the directory
that holds it. -/
structure FT.Parents (s : FT) : Prop where
  dir : ∀ r, s.rootDir = some r → NodeDir_getParent r = none ∧ r.Linked
  file : ∀ f, s.rootFile = some f → NodeFile_getParent f = none

/-! ## Sequences of insertions -/

/-- The calls `FT_insertDir(p1)`, ..., `FT_insertDir(pn)` one after the
other: the statuses returned and the state after the last call. -/
def insertDirCalls : FT → List CStr → Except Fault (List Status × FT)
  | s, [] => .ok ([], s)
  | s, p :: rest =>
    match FT_insertDir s p with
    | .error f => .error f
    | .ok (code, t) =>
      match insertDirCalls t rest with
      | .error f => .error f
      | .ok (codes, u) => .ok (code :: codes, u)

/-- The path `q` is covered by the segment lists `P`: it is the path of the
first `k` segments of one of them, that is, a path of `P` or a path above one. -/
def Covered (P : List (List CStr)) (q : CStr) : Prop :=
  ∃ segs ∈ P, ∃ k, 1 ≤ k ∧ k ≤ segs.length ∧ q = joinPath (segs.take k)

/-- A tree built from the paths with the segment lists `P`: a reachable
initialised tree without files whose directories are exactly at the paths
covered by `P`. -/
structure FT.Built (t : FT) (P : List (List CStr)) : Prop where
  reach : Reachable t
  init : t.isInitialized = true
  noRootFile : t.rootFile = none
  noFiles : ∀ d, t.hasDir d → d.childrenFiles = []
  sound : ∀ d, t.hasDir d → Covered P (NodeDir_getPath d)
  complete : ∀ q, Covered P q → ∃ d, t.hasDir d ∧ NodeDir_getPath d = q


theorem finish_code (s : FT) (parent : Option (List Nat × NodeDir)) (c : Chain) (code : Status)
    (t : FT) (h : FT_insertRestOfPath.finish s parent c = .ok (code, t)) : code = .SUCCESS := by
  unfold FT_insertRestOfPath.finish at h
  split at h
  · cases h; rfl
  · split at h
    · cases h
    · split at h
      · cases h; rfl
      · cases h

theorem insertDir_rest_failed (s : FT) (path : CStr) (parent : Option (List Nat × NodeDir))
    (restPath : CStr) (code : Status) (t : FT)
    (h : FT_insertRestOfPathDir.rest s path parent restPath = .ok (code, t))
    (hc : code ≠ .SUCCESS) : t = s := by
  unfold FT_insertRestOfPathDir.rest at h
  split at h
  · cases h
  · split at h
    · cases h; rfl
    · split at h
      · cases h; rfl
      · cases h
      · exact absurd (finish_code _ _ _ _ _ h) hc

theorem insertRestOfPathDir_failed (s : FT) (path : CStr) (parent : Option (List Nat))
    (code : Status) (t : FT)
    (h : FT_insertRestOfPathDir s path parent = .ok (code, t))
    (hc : code ≠ .SUCCESS) : t = s := by
  unfold FT_insertRestOfPathDir at h
  split at h
  · split at h
    · cases h; rfl
    · exact insertDir_rest_failed _ _ _ _ _ _ h hc
  · split at h
    · cases h
    · split at h
      · cases h; rfl
      · split at h
        · cases h; rfl
        · split at h
          · cases h
          · simp only at h
            split at h
            · cases h; rfl
            · exact insertDir_rest_failed _ _ _ _ _ _ h hc

theorem insertDir_failed (s : FT) (path : CStr) (code : Status) (t : FT)
    (h : FT_insertDir s path = .ok (code, t)) (hc : code ≠ .SUCCESS) : t = s := by
  unfold FT_insertDir at h
  split at h
  · cases h; rfl
  · exact insertRestOfPathDir_failed _ _ _ _ _ h hc

theorem insertFile_rest_failed (s : FT) (path : CStr) (parent : Option (List Nat × NodeDir))
    (restPath : CStr) (contents : Ptr) (length : Nat) (code : Status) (t : FT)
    (h : FT_insertRestOfPathFile.rest s path parent restPath contents length = .ok (code, t))
    (hc : code ≠ .SUCCESS) : t = s := by
  unfold FT_insertRestOfPathFile.rest at h
  split at h
  · cases h
  · split at h
    · cases h; rfl
    · split at h
      · split at h
        · cases h; exact absurd rfl hc
        · split at h
          · cases h; exact absurd rfl hc
          · cases h
      · split at h
        · cases h; rfl
        · cases h
        · exact absurd (finish_code _ _ _ _ _ h) hc

theorem insertRestOfPathFile_failed (s : FT) (path : CStr) (parent : Option (List Nat))
    (contents : Ptr) (length : Nat) (code : Status) (t : FT)
    (h : FT_insertRestOfPathFile s path parent contents length = .ok (code, t))
    (hc : code ≠ .SUCCESS) : t = s := by
  unfold FT_insertRestOfPathFile at h
  split at h
  · split at h
    · cases h; rfl
    · exact insertFile_rest_failed _ _ _ _ _ _ _ _ h hc
  · split at h
    · cases h
    · split at h
      · cases h; rfl
      · split at h
        · cases h
        · simp only at h
          split at h
          · cases h; rfl
          · exact insertFile_rest_failed _ _ _ _ _ _ _ _ h hc

theorem insertFile_failed (s : FT) (path : CStr) (contents : Ptr) (length : Nat)
    (code : Status) (t : FT)
    (h : FT_insertFile s path contents length = .ok (code, t)) (hc : code ≠ .SUCCESS) :
    t = s := by
  unfold FT_insertFile at h
  split at h
  · cases h; rfl
  · exact insertRestOfPathFile_failed _ _ _ _ _ _ _ h hc


/-! ### strcmp -/

theorem Char.toNat_injective (a b : Char) (h : a.toNat = b.toNat) : a = b := by
  rw [← Char.ofNat_toNat a, ← Char.ofNat_toNat b, h]

theorem strcmp_self (a : CStr) : strcmp a a = 0 := by
  induction a with
  | nil => rfl
  | cons x xs ih => simp [strcmp, ih]

theorem strcmp_eq_zero (a b : CStr) : strcmp a b = 0 ↔ a = b := by
  constructor
  · intro h
    induction a generalizing b with
    | nil => cases b with
      | nil => rfl
      | cons y ys => simp [strcmp] at h
    | cons x xs ih => cases b with
      | nil => simp [strcmp] at h
      | cons y ys =>
        simp only [strcmp] at h
        split at h
        · rename_i hxy
          rw [hxy, ih ys h]
        · rename_i hxy
          exfalso
          apply hxy
          apply Char.toNat_injective
          omega
  · rintro rfl
    exact strcmp_self a

theorem strcmp_swap (a b : CStr) : strcmp a b < 0 ↔ 0 < strcmp b a := by
  induction a generalizing b with
  | nil => cases b <;> simp [strcmp]
  | cons x xs ih => cases b with
    | nil => simp [strcmp]
    | cons y ys =>
      simp only [strcmp]
      by_cases hxy : x = y
      · subst hxy; simp [ih]
      · have hyx : ¬ y = x := fun h => hxy h.symm
        simp only [hxy, hyx, if_false]
        omega

theorem strcmp_trans (a b c : CStr) (hab : strcmp a b < 0) (hbc : strcmp b c < 0) :
    strcmp a c < 0 := by
  induction a generalizing b c with
  | nil =>
    cases b with
    | nil => simp [strcmp] at hab
    | cons y ys => cases c with
      | nil => simp [strcmp] at hbc
      | cons z zs => simp [strcmp]
  | cons x xs ih =>
    cases b with
    | nil => simp [strcmp] at hab
    | cons y ys => cases c with
      | nil => simp [strcmp] at hbc
      | cons z zs =>
        simp only [strcmp] at hab hbc ⊢
        by_cases hxy : x = y
        · subst hxy
          simp only [if_true] at hab
          by_cases hxz : x = z
          · subst hxz
            simp only [if_true] at hbc ⊢
            exact ih _ _ hab hbc
          · simp only [hxz, if_false] at hbc ⊢
            exact hbc
        · simp only [hxy, if_false] at hab
          by_cases hyz : y = z
          · subst hyz
            simp only [hxy, if_false]
            exact hab
          · simp only [hyz, if_false] at hbc
            by_cases hxz : x = z
            · subst hxz; omega
            · simp only [hxz, if_false]; omega

theorem strcmp_ne_of_lt (a b : CStr) (h : strcmp a b < 0) : a ≠ b := by
  rintro rfl
  rw [strcmp_self] at h
  exact absurd h (by decide)

theorem strncmp_eq_zero (path p : CStr) : strncmp path p p.length = 0 ↔ p <+: path := by
  unfold strncmp
  rw [strcmp_eq_zero, List.take_length]
  constructor
  · intro h
    rw [← h]
    exact List.take_prefix _ _
  · intro h
    exact List.prefix_iff_eq_take.mp h |>.symm

theorem strstr_slash_none (s : CStr) : strstr s ['/'] = none ↔ '/' ∉ s := by
  induction s with
  | nil => simp [strstr]
  | cons c cs ih =>
    simp only [strstr, List.isPrefixOf, List.mem_cons, not_or]
    by_cases hc : c = '/'
    · subst hc; simp
    · have : ('/' == c) = false := by
        simp only [beq_eq_false_iff_ne, ne_eq]
        exact fun h => hc h.symm
      simp [this, ih, Ne.symm hc]

theorem strstr_slash_some (s : CStr) (k : Nat) (h : strstr s ['/'] = some k) :
    '/' ∉ s.take k ∧ ∃ rest, s.drop k = '/' :: rest := by
  induction s generalizing k with
  | nil => simp [strstr] at h
  | cons c cs ih =>
    simp only [strstr, List.isPrefixOf] at h
    by_cases hc : c = '/'
    · subst hc
      simp at h
      subst h
      simp
    · have h1 : ('/' == c) = false := by
        simp only [beq_eq_false_iff_ne, ne_eq]
        exact fun h => hc h.symm
      simp only [h1, Bool.false_and, Bool.false_eq_true, if_false, Option.map_eq_some'] at h
      obtain ⟨k1, hk1, rfl⟩ := h
      obtain ⟨h2, rest, h3⟩ := ih k1 hk1
      refine ⟨?_, rest, ?_⟩
      · simp only [List.take_succ_cons, List.mem_cons, not_or]
        exact ⟨fun h => hc h.symm, h2⟩
      · simpa using h3


/-! ### The ordered container -/

theorem bsearch_le_length {α : Type} (xs : List α) (k : α) (cmp : α → α → Int) :
    (DynArray_bsearch xs k cmp).2 ≤ xs.length := by
  induction xs with
  | nil => simp [DynArray_bsearch]
  | cons x rest ih =>
    simp only [DynArray_bsearch]
    split
    · simp
    · split
      · simp
      · simpa using ih

theorem bsearch_take {α : Type} (key : α → CStr) (cmp : α → α → Int)
    (hcmp : ∀ a b, cmp a b = strcmp (key a) (key b)) (xs : List α) (k : α) :
    ∀ x ∈ xs.take (DynArray_bsearch xs k cmp).2, strcmp (key x) (key k) < 0 := by
  induction xs with
  | nil => simp [DynArray_bsearch]
  | cons x rest ih =>
    simp only [DynArray_bsearch]
    split
    · simp
    · split
      · simp
      · rename_i h0 hlt
        intro y hy
        simp only [List.take_succ_cons, List.mem_cons] at hy
        rcases hy with rfl | hy
        · rw [hcmp] at h0 hlt
          rw [strcmp_swap]
          omega
        · exact ih y hy

theorem bsearch_found {α : Type} (key : α → CStr) (cmp : α → α → Int)
    (hcmp : ∀ a b, cmp a b = strcmp (key a) (key b)) (xs : List α) (k : α)
    (h : (DynArray_bsearch xs k cmp).1 = true) :
    ∃ x, xs[(DynArray_bsearch xs k cmp).2]? = some x ∧ key x = key k := by
  induction xs with
  | nil => simp [DynArray_bsearch] at h
  | cons x rest ih =>
    simp only [DynArray_bsearch] at h ⊢
    split
    · rename_i h0
      rw [hcmp, strcmp_eq_zero] at h0
      exact ⟨x, by simp, h0.symm⟩
    · rename_i h0
      rw [if_neg h0] at h
      split
      · rename_i hlt
        rw [if_pos hlt] at h
        simp at h
      · rename_i hlt
        rw [if_neg hlt] at h
        simpa using ih h

theorem bsearch_drop {α : Type} (key : α → CStr) (cmp : α → α → Int)
    (hcmp : ∀ a b, cmp a b = strcmp (key a) (key b)) (xs : List α) (k : α)
    (hs : StrictlySorted (xs.map key))
    (h : (DynArray_bsearch xs k cmp).1 = false) :
    ∀ x ∈ xs.drop (DynArray_bsearch xs k cmp).2, strcmp (key k) (key x) < 0 := by
  induction xs with
  | nil => simp [DynArray_bsearch]
  | cons x rest ih =>
    simp only [DynArray_bsearch] at h ⊢
    have hs2 := hs
    simp only [StrictlySorted, List.map_cons, List.pairwise_cons] at hs2
    split
    · rename_i h0
      rw [if_pos h0] at h
      simp at h
    · rename_i h0
      rw [if_neg h0] at h
      split
      · rename_i hlt
        intro y hy
        simp only [List.drop_zero, List.mem_cons] at hy
        rw [hcmp] at hlt
        rcases hy with rfl | hy
        · exact hlt
        · exact strcmp_trans _ _ _ hlt (hs2.1 (key y) (List.mem_map_of_mem key hy))
      · rename_i hlt
        rw [if_neg hlt] at h
        simpa using ih hs2.2 h

theorem bsearch_not_mem {α : Type} (key : α → CStr) (cmp : α → α → Int)
    (hcmp : ∀ a b, cmp a b = strcmp (key a) (key b)) (xs : List α) (k : α)
    (hs : StrictlySorted (xs.map key))
    (h : (DynArray_bsearch xs k cmp).1 = false) :
    ∀ x ∈ xs, key x ≠ key k := by
  intro x hx
  rw [← List.take_append_drop (DynArray_bsearch xs k cmp).2 xs, List.mem_append] at hx
  rcases hx with hx | hx
  · exact strcmp_ne_of_lt _ _ (bsearch_take key cmp hcmp xs k x hx)
  · exact (strcmp_ne_of_lt _ _ (bsearch_drop key cmp hcmp xs k hs h x hx)).symm

theorem bsearch_at {α : Type} (key : α → CStr) (cmp : α → α → Int)
    (hcmp : ∀ a b, cmp a b = strcmp (key a) (key b)) (xs : List α) (k : α)
    (hs : StrictlySorted (xs.map key)) (j : Nat) (x : α)
    (hj : xs[j]? = some x) (hk : key x = key k) :
    DynArray_bsearch xs k cmp = (true, j) := by
  induction xs generalizing j with
  | nil => simp at hj
  | cons y rest ih =>
    have hs2 := hs
    simp only [StrictlySorted, List.map_cons, List.pairwise_cons] at hs2
    simp only [DynArray_bsearch]
    cases j with
    | zero =>
      simp only [List.getElem?_cons_zero, Option.some.injEq] at hj
      subst hj
      rw [if_pos (by rw [hcmp, hk, strcmp_self])]
    | succ j =>
      simp only [List.getElem?_cons_succ] at hj
      have hmem : x ∈ rest := List.getElem?_mem hj
      have hlt : strcmp (key y) (key k) < 0 := by
        rw [← hk]; exact hs2.1 _ (List.mem_map_of_mem key hmem)
      have hgt := (strcmp_swap _ _).mp hlt
      rw [if_neg (by rw [hcmp]; omega), if_neg (by rw [hcmp]; omega), ih hs2.2 j hj]

theorem addAt_sorted {α : Type} (key : α → CStr) (cmp : α → α → Int)
    (hcmp : ∀ a b, cmp a b = strcmp (key a) (key b)) (xs : List α) (k : α)
    (hs : StrictlySorted (xs.map key))
    (h : (DynArray_bsearch xs k cmp).1 = false) :
    StrictlySorted ((DynArray_addAt xs (DynArray_bsearch xs k cmp).2 k).map key) := by
  have h1 := bsearch_take key cmp hcmp xs k
  have h2 := bsearch_drop key cmp hcmp xs k hs h
  generalize (DynArray_bsearch xs k cmp).2 = j at h1 h2
  unfold DynArray_addAt StrictlySorted
  rw [List.map_append, List.map_cons, List.pairwise_append, List.pairwise_cons]
  have hs' : StrictlySorted ((xs.take j ++ xs.drop j).map key) := by
    rw [List.take_append_drop]; exact hs
  unfold StrictlySorted at hs'
  rw [List.map_append, List.pairwise_append] at hs'
  refine ⟨hs'.1, ⟨?_, hs'.2.1⟩, ?_⟩
  · intro a ha
    obtain ⟨x, hx, rfl⟩ := List.mem_map.mp ha
    exact h2 x hx
  · intro a ha b hb
    obtain ⟨x, hx, rfl⟩ := List.mem_map.mp ha
    rcases List.mem_cons.mp hb with rfl | hb
    · exact h1 x hx
    · exact hs'.2.2 _ ha _ hb

theorem mem_addAt {α : Type} (xs : List α) (j : Nat) (k x : α) :
    x ∈ DynArray_addAt xs j k ↔ x = k ∨ x ∈ xs := by
  unfold DynArray_addAt
  rw [List.mem_append, List.mem_cons]
  constructor
  · rintro (h | h | h)
    · exact Or.inr (List.mem_of_mem_take h)
    · exact Or.inl h
    · exact Or.inr (List.mem_of_mem_drop h)
  · rintro (h | h)
    · exact Or.inr (Or.inl h)
    · rw [← List.take_append_drop j xs, List.mem_append] at h
      rcases h with h | h
      · exact Or.inl h
      · exact Or.inr (Or.inr h)

/-! ### Counting directories -/

theorem destroy_mk (p : CStr) (par : Option CStr) (ds : List NodeDir) (fs : List NodeFile) :
    NodeDir_destroy (.mk p par ds fs) = NodeDir_destroy.children ds + 1 := by
  simp [NodeDir_destroy]

theorem destroy_children_nil : NodeDir_destroy.children [] = 0 := by
  simp [NodeDir_destroy.children]

theorem destroy_children_cons (c : NodeDir) (rest : List NodeDir) :
    NodeDir_destroy.children (c :: rest) = NodeDir_destroy c + NodeDir_destroy.children rest := by
  simp [NodeDir_destroy.children]

theorem destroy_children_append (xs ys : List NodeDir) :
    NodeDir_destroy.children (xs ++ ys)
      = NodeDir_destroy.children xs + NodeDir_destroy.children ys := by
  induction xs with
  | nil => simp [destroy_children_nil]
  | cons x rest ih => simp [destroy_children_cons, ih]; omega

theorem destroy_children_addAt (xs : List NodeDir) (j : Nat) (x : NodeDir) :
    NodeDir_destroy.children (DynArray_addAt xs j x)
      = NodeDir_destroy.children xs + NodeDir_destroy x := by
  unfold DynArray_addAt
  rw [destroy_children_append, destroy_children_cons]
  conv_rhs => rw [← List.take_append_drop j xs, destroy_children_append]
  omega

theorem destroy_children_set (xs : List NodeDir) (j : Nat) (old x : NodeDir)
    (h : xs[j]? = some old) :
    NodeDir_destroy.children (xs.set j x) + NodeDir_destroy old
      = NodeDir_destroy.children xs + NodeDir_destroy x := by
  induction xs generalizing j with
  | nil => simp at h
  | cons y rest ih =>
    cases j with
    | zero =>
      simp only [List.getElem?_cons_zero, Option.some.injEq] at h
      subst h
      simp only [List.set_cons_zero, destroy_children_cons]
      omega
    | succ j =>
      simp only [List.getElem?_cons_succ] at h
      simp only [List.set_cons_succ, destroy_children_cons]
      have := ih j h
      omega

theorem destroy_children_eraseIdx (xs : List NodeDir) (j : Nat) (old : NodeDir)
    (h : xs[j]? = some old) :
    NodeDir_destroy.children (xs.eraseIdx j) + NodeDir_destroy old
      = NodeDir_destroy.children xs := by
  induction xs generalizing j with
  | nil => simp at h
  | cons y rest ih =>
    cases j with
    | zero =>
      simp only [List.getElem?_cons_zero, Option.some.injEq] at h
      subst h
      simp only [List.eraseIdx_cons_zero, destroy_children_cons]
      omega
    | succ j =>
      simp only [List.getElem?_cons_succ] at h
      simp only [List.eraseIdx_cons_succ, destroy_children_cons]
      have := ih j h
      omega

theorem destroy_pos (n : NodeDir) : 0 < NodeDir_destroy n := by
  cases n; rw [destroy_mk]; omega


/-! ### Pointers into the tree -/

theorem getAt_nil (n : NodeDir) : n.getAt [] = some n := by
  cases n; simp [NodeDir.getAt]

theorem getAt_cons (n : NodeDir) (i : Nat) (rest : List Nat) :
    n.getAt (i :: rest) = (n.childrenDirs[i]?).bind (fun c => c.getAt rest) := by
  cases n with
  | mk p par ds fs =>
    simp only [NodeDir.getAt, NodeDir.childrenDirs]
    cases ds[i]? <;> rfl

theorem setAt_nil (n new : NodeDir) : n.setAt [] new = new := by
  cases n; simp [NodeDir.setAt]

theorem setAt_cons (p : CStr) (par : Option CStr) (ds : List NodeDir) (fs : List NodeFile) (i : Nat)
    (rest : List Nat) (new c : NodeDir) (h : ds[i]? = some c) :
    (NodeDir.mk p par ds fs).setAt (i :: rest) new = .mk p par (ds.set i (c.setAt rest new)) fs := by
  simp [NodeDir.setAt, h]

theorem getAt_append (n : NodeDir) (l1 l2 : List Nat) :
    n.getAt (l1 ++ l2) = (n.getAt l1).bind (fun c => c.getAt l2) := by
  induction l1 generalizing n with
  | nil => simp [getAt_nil]
  | cons i rest ih =>
    rw [List.cons_append, getAt_cons, getAt_cons]
    cases n.childrenDirs[i]? with
    | none => rfl
    | some c => simp [ih]

theorem getAt_setAt (n : NodeDir) (loc : List Nat) (old new : NodeDir)
    (h : n.getAt loc = some old) : (n.setAt loc new).getAt loc = some new := by
  induction loc generalizing n with
  | nil => rw [setAt_nil, getAt_nil]
  | cons i rest ih =>
    cases n with
    | mk p par ds fs =>
      rw [getAt_cons] at h
      simp only [NodeDir.childrenDirs] at h
      cases hc : ds[i]? with
      | none => simp [hc] at h
      | some c =>
        simp only [hc, Option.some_bind] at h
        rw [setAt_cons p par ds fs i rest new c hc, getAt_cons]
        simp only [NodeDir.childrenDirs]
        have hi : i < ds.length := (List.getElem?_eq_some.mp hc).1
        rw [List.getElem?_set]
        simp [hi, ih c h]

theorem getPath_setAt (n : NodeDir) (loc : List Nat) (old new : NodeDir)
    (h : n.getAt loc = some old) (hp : NodeDir_getPath new = NodeDir_getPath old) :
    NodeDir_getPath (n.setAt loc new) = NodeDir_getPath n := by
  cases loc with
  | nil =>
    rw [getAt_nil] at h
    cases h
    rw [setAt_nil, hp]
  | cons i rest =>
    cases n with
    | mk p par ds fs =>
      simp only [NodeDir.setAt]
      split <;> rfl

theorem destroy_setAt (n : NodeDir) (loc : List Nat) (old new : NodeDir)
    (h : n.getAt loc = some old) :
    NodeDir_destroy (n.setAt loc new) + NodeDir_destroy old
      = NodeDir_destroy n + NodeDir_destroy new := by
  induction loc generalizing n with
  | nil =>
    rw [getAt_nil] at h
    cases h
    rw [setAt_nil]; omega
  | cons i rest ih =>
    cases n with
    | mk p par ds fs =>
      rw [getAt_cons] at h
      simp only [NodeDir.childrenDirs] at h
      cases hc : ds[i]? with
      | none => simp [hc] at h
      | some c =>
        simp only [hc, Option.some_bind] at h
        rw [setAt_cons p par ds fs i rest new c hc, destroy_mk, destroy_mk]
        have h1 := destroy_children_set ds i c (c.setAt rest new) hc
        have h2 := ih c h
        omega

/-! ### Well-formed hierarchies -/

theorem wf_iff (p : CStr) (par : Option CStr) (ds : List NodeDir) (fs : List NodeFile) :
    (NodeDir.mk p par ds fs).WF ↔
      StrictlySorted (ds.map NodeDir_getPath) ∧
      StrictlySorted (fs.map NodeFile_getPath) ∧
      (∀ d ∈ ds, ChildPath p (NodeDir_getPath d)) ∧
      (∀ f ∈ fs, ChildPath p (NodeFile_getPath f)) ∧
      (∀ d ∈ ds, ∀ f ∈ fs, NodeDir_getPath d ≠ NodeFile_getPath f) ∧
      (∀ d ∈ ds, d.WF) := by
  constructor
  · intro h
    cases h with
    | mk _ _ _ _ h1 h2 h3 h4 h5 h6 => exact ⟨h1, h2, h3, h4, h5, h6⟩
  · rintro ⟨h1, h2, h3, h4, h5, h6⟩
    exact NodeDir.WF.mk p par ds fs h1 h2 h3 h4 h5 h6

theorem wf_create (name : CStr) (parent : Option NodeDir) : (NodeDir_create name parent).WF := by
  unfold NodeDir_create
  rw [wf_iff]
  simp [StrictlySorted]

theorem wf_getAt (n : NodeDir) (loc : List Nat) (c : NodeDir) (hw : n.WF)
    (h : n.getAt loc = some c) : c.WF := by
  induction loc generalizing n with
  | nil =>
    rw [getAt_nil] at h
    cases h
    exact hw
  | cons i rest ih =>
    cases n with
    | mk p par ds fs =>
      rw [getAt_cons] at h
      simp only [NodeDir.childrenDirs] at h
      cases hc : ds[i]? with
      | none => simp [hc] at h
      | some d =>
        simp only [hc, Option.some_bind] at h
        exact ih d (((wf_iff p par ds fs).mp hw).2.2.2.2.2 d (List.getElem?_mem hc)) h

theorem map_set_same {α β : Type} (f : α → β) (xs : List α) (i : Nat) (old x : α)
    (h : xs[i]? = some old) (hf : f x = f old) : (xs.set i x).map f = xs.map f := by
  induction xs generalizing i with
  | nil => simp
  | cons y rest ih =>
    cases i with
    | zero =>
      simp only [List.getElem?_cons_zero, Option.some.injEq] at h
      subst h
      simp [hf]
    | succ i =>
      simp only [List.getElem?_cons_succ] at h
      simp [ih i h]

theorem wf_setAt (n : NodeDir) (loc : List Nat) (old new : NodeDir) (hw : n.WF)
    (h : n.getAt loc = some old) (hp : NodeDir_getPath new = NodeDir_getPath old)
    (hn : new.WF) : (n.setAt loc new).WF := by
  induction loc generalizing n with
  | nil => rw [setAt_nil]; exact hn
  | cons i rest ih =>
    cases n with
    | mk p par ds fs =>
      rw [getAt_cons] at h
      simp only [NodeDir.childrenDirs] at h
      cases hc : ds[i]? with
      | none => simp [hc] at h
      | some c =>
        simp only [hc, Option.some_bind] at h
        rw [setAt_cons p par ds fs i rest new c hc]
        obtain ⟨h1, h2, h3, h4, h5, h6⟩ := (wf_iff p par ds fs).mp hw
        have hcw : c.WF := h6 c (List.getElem?_mem hc)
        have hpath : NodeDir_getPath (c.setAt rest new) = NodeDir_getPath c :=
          getPath_setAt c rest old new h hp
        have hmem : ∀ d ∈ ds.set i (c.setAt rest new), d = c.setAt rest new ∨ d ∈ ds := by
          intro d hd
          rcases List.mem_or_eq_of_mem_set hd with hd | hd
          · exact Or.inr hd
          · exact Or.inl hd
        rw [wf_iff]
        refine ⟨?_, h2, ?_, h4, ?_, ?_⟩
        · rw [map_set_same NodeDir_getPath ds i c _ hc hpath]; exact h1
        · intro d hd
          rcases hmem d hd with rfl | hd
          · rw [hpath]; exact h3 c (List.getElem?_mem hc)
          · exact h3 d hd
        · intro d hd f hf
          rcases hmem d hd with rfl | hd
          · rw [hpath]; exact h5 c (List.getElem?_mem hc) f hf
          · exact h5 d hd f hf
        · intro d hd
          rcases hmem d hd with rfl | hd
          · exact ih c hcw h
          · exact h6 d hd


/-! ### Linking and unlinking -/

theorem bsearch_congr {α : Type} (xs : List α) (k k1 : α) (cmp : α → α → Int)
    (h : ∀ x, cmp k x = cmp k1 x) :
    DynArray_bsearch xs k cmp = DynArray_bsearch xs k1 cmp := by
  induction xs with
  | nil => rfl
  | cons x rest ih => simp only [DynArray_bsearch, h, ih]

theorem hasChildDir_eq (n child : NodeDir) :
    NodeDir_hasChildDir n (NodeDir_getPath child)
      = DynArray_bsearch n.childrenDirs child NodeDir_compare := by
  unfold NodeDir_hasChildDir
  apply bsearch_congr
  intro x
  simp [NodeDir_compare, NodeDir_create, NodeDir_buildPath, NodeDir_getPath]

theorem hasChildFile_eq (n : NodeDir) (child : NodeFile) :
    NodeDir_hasChildFile n (NodeFile_getPath child)
      = DynArray_bsearch n.childrenFiles child NodeFile_compare := by
  unfold NodeDir_hasChildFile
  apply bsearch_congr
  intro x
  simp [NodeFile_compare, NodeFile_create, NodeDir_buildPath, NodeFile_getPath]

theorem getPath_create (name : CStr) (parent : Option NodeDir) :
    NodeDir_getPath (NodeDir_create name parent) = NodeDir_buildPath parent name := rfl

theorem dirCompare_eq (a b : NodeDir) :
    NodeDir_compare a b = strcmp (NodeDir_getPath a) (NodeDir_getPath b) := rfl

theorem fileCompare_eq (a b : NodeFile) :
    NodeFile_compare a b = strcmp (NodeFile_getPath a) (NodeFile_getPath b) := rfl

theorem node_eta (n : NodeDir) :
    NodeDir.mk (NodeDir_getPath n) (NodeDir_getParent n) n.childrenDirs n.childrenFiles = n := by
  cases n; rfl

/-! ### The assignment to the field `parent` -/

theorem getPath_withParent (n : NodeDir) (par : Option CStr) :
    NodeDir_getPath (n.withParent par) = NodeDir_getPath n := by
  cases n; rfl

theorem getParent_withParent (n : NodeDir) (par : Option CStr) :
    NodeDir_getParent (n.withParent par) = par := by
  cases n; rfl

theorem childrenDirs_withParent (n : NodeDir) (par : Option CStr) :
    (n.withParent par).childrenDirs = n.childrenDirs := by
  cases n; rfl

theorem childrenFiles_withParent (n : NodeDir) (par : Option CStr) :
    (n.withParent par).childrenFiles = n.childrenFiles := by
  cases n; rfl

theorem withParent_self (n : NodeDir) : n.withParent (NodeDir_getParent n) = n := by
  cases n; rfl

theorem withParent_of_eq (n : NodeDir) (par : Option CStr) (h : NodeDir_getParent n = par) :
    n.withParent par = n := by
  rw [← h, withParent_self]

theorem withParent_create (tok : CStr) (curr : NodeDir) :
    (NodeDir_create tok (some curr)).withParent (some (NodeDir_getPath curr))
      = NodeDir_create tok (some curr) := rfl

theorem destroy_withParent (n : NodeDir) (par : Option CStr) :
    NodeDir_destroy (n.withParent par) = NodeDir_destroy n := by
  cases n
  simp only [NodeDir.withParent, destroy_mk]

theorem wf_withParent (n : NodeDir) (par : Option CStr) (h : n.WF) : (n.withParent par).WF := by
  cases n with
  | mk p par0 ds fs =>
    rw [NodeDir.withParent, wf_iff]
    exact (wf_iff p par0 ds fs).mp h

theorem bsearch_withParent (xs : List NodeDir) (n : NodeDir) (par : Option CStr) :
    DynArray_bsearch xs (n.withParent par) NodeDir_compare
      = DynArray_bsearch xs n NodeDir_compare := by
  apply bsearch_congr
  intro x
  rw [dirCompare_eq, dirCompare_eq, getPath_withParent]

/-- The three path checks shared by the two link functions. -/
theorem childPath_of_checks (pp cp : CStr)
    (h1 : ¬ strncmp cp pp pp.length ≠ 0)
    (h2 : ¬ (cp.length ≥ pp.length ∧ (cp.drop pp.length).head? ≠ some '/'))
    (h3 : ¬ (strstr (cp.drop (pp.length + 1)) ['/']).isSome = true) :
    ChildPath pp cp := by
  have hpre : pp <+: cp := (strncmp_eq_zero cp pp).mp (by simpa using h1)
  obtain ⟨rest, rfl⟩ := hpre
  have hlen : (pp ++ rest).length ≥ pp.length := by simp
  have hhead : ((pp ++ rest).drop pp.length).head? = some '/' := by
    by_contra hne
    exact h2 ⟨hlen, hne⟩
  rw [List.drop_left] at hhead
  cases rest with
  | nil => simp at hhead
  | cons c seg =>
    simp only [List.head?_cons, Option.some.injEq] at hhead
    subst hhead
    refine ⟨seg, rfl, ?_⟩
    have h5 : strstr seg ['/'] = none := by
      have : (pp ++ '/' :: seg).drop (pp.length + 1) = seg := by
        rw [← List.drop_drop]
        simp
      rw [this] at h3
      cases hs : strstr seg ['/'] with
      | none => rfl
      | some k => rw [hs] at h3; simp at h3
    exact (strstr_slash_none seg).mp h5

theorem linkChildDir_success (parent child p1 : NodeDir) (j : Nat)
    (h : NodeDir_linkChildDir parent child = (.SUCCESS, p1, j)) :
    (NodeDir_hasChildFile parent (NodeDir_getPath child)).1 = false ∧
    ChildPath (NodeDir_getPath parent) (NodeDir_getPath child) ∧
    DynArray_bsearch parent.childrenDirs child NodeDir_compare = (false, j) ∧
    p1 = .mk (NodeDir_getPath parent) (NodeDir_getParent parent)
          (DynArray_addAt parent.childrenDirs j
            (child.withParent (some (NodeDir_getPath parent))))
          parent.childrenFiles := by
  unfold NodeDir_linkChildDir at h
  split at h
  · simp at h
  · split at h
    · simp at h
    · rename_i hf
      simp only at h
      split at h
      · simp at h
      · rename_i h1
        split at h
        · simp at h
        · rename_i h2
          split at h
          · simp at h
          · rename_i h3
            split at h
            · simp at h
            · rename_i j1 hb
              simp only [Prod.mk.injEq, true_and] at h
              obtain ⟨rfl, rfl⟩ := h
              exact ⟨by simpa using hf, childPath_of_checks _ _ h1 h2 h3, hb, rfl⟩

theorem linkChildFile_success (parent : NodeDir) (child : NodeFile) (p1 : NodeDir)
    (h : NodeDir_linkChildFile parent child = (.SUCCESS, p1)) :
    (NodeDir_hasChildDir parent (NodeFile_getPath child)).1 = false ∧
    ChildPath (NodeDir_getPath parent) (NodeFile_getPath child) ∧
    ∃ j, DynArray_bsearch parent.childrenFiles child NodeFile_compare = (false, j) ∧
    p1 = .mk (NodeDir_getPath parent) (NodeDir_getParent parent) parent.childrenDirs
          (DynArray_addAt parent.childrenFiles j child) := by
  unfold NodeDir_linkChildFile at h
  split at h
  · simp at h
  · rename_i hd
    split at h
    · simp at h
    · simp only at h
      split at h
      · simp at h
      · rename_i h1
        split at h
        · simp at h
        · rename_i h2
          split at h
          · simp at h
          · rename_i h3
            split at h
            · simp at h
            · rename_i j1 hb
              simp only [Prod.mk.injEq, true_and] at h
              subst h
              exact ⟨by simpa using hd, childPath_of_checks _ _ h1 h2 h3, j1, hb, rfl⟩

theorem ftLinkDir_success (parent child p1 : NodeDir) (j : Nat)
    (h : FT_linkParentToChildDir parent child = (.SUCCESS, p1, j)) :
    NodeDir_linkChildDir parent child = (.SUCCESS, p1, j) := by
  unfold FT_linkParentToChildDir at h
  split at h
  · rename_i p2 i heq
    simp only [Prod.mk.injEq, true_and] at h
    obtain ⟨rfl, rfl⟩ := h
    exact heq
  · simp at h

theorem ftLinkFile_success (parent : NodeDir) (child : NodeFile) (p1 : NodeDir)
    (h : FT_linkParentToChildFile parent child = (.SUCCESS, p1)) :
    NodeDir_linkChildFile parent child = (.SUCCESS, p1) := by
  unfold FT_linkParentToChildFile at h
  split at h
  · rename_i p2 heq
    simp only [Prod.mk.injEq, true_and] at h
    subst h
    exact heq
  · simp at h

theorem wf_linkDir (parent child p1 : NodeDir) (j : Nat)
    (h : NodeDir_linkChildDir parent child = (.SUCCESS, p1, j))
    (hp : parent.WF) (hc : child.WF) :
    p1.WF ∧ NodeDir_getPath p1 = NodeDir_getPath parent ∧
    NodeDir_destroy p1 = NodeDir_destroy parent + NodeDir_destroy child := by
  obtain ⟨hf, hcp, hb, rfl⟩ := linkChildDir_success parent child p1 j h
  rw [← bsearch_withParent parent.childrenDirs child (some (NodeDir_getPath parent))] at hb
  rw [← getPath_withParent child (some (NodeDir_getPath parent))] at hcp hf
  have hc1 := wf_withParent child (some (NodeDir_getPath parent)) hc
  rw [← destroy_withParent child (some (NodeDir_getPath parent))]
  clear h hc
  generalize child.withParent (some (NodeDir_getPath parent)) = child1 at *
  cases parent with
  | mk p par ds fs =>
    simp only [NodeDir.childrenDirs, NodeDir.childrenFiles, NodeDir_getPath,
      NodeDir_getParent] at *
    obtain ⟨h1, h2, h3, h4, h5, h6⟩ := (wf_iff p par ds fs).mp hp
    have hb1 : (DynArray_bsearch ds child1 NodeDir_compare).1 = false := by rw [hb]
    have hb2 : (DynArray_bsearch ds child1 NodeDir_compare).2 = j := by rw [hb]
    refine ⟨?_, trivial, ?_⟩
    · rw [wf_iff]
      refine ⟨?_, h2, ?_, h4, ?_, ?_⟩
      · have := addAt_sorted NodeDir_getPath NodeDir_compare dirCompare_eq ds child1 h1 hb1
        rw [hb2] at this
        exact this
      · intro d hd
        rcases (mem_addAt ds j child1 d).mp hd with rfl | hd
        · exact hcp
        · exact h3 d hd
      · intro d hd f hfm
        rcases (mem_addAt ds j child1 d).mp hd with rfl | hd
        · have hff : (DynArray_bsearch fs (NodeFile_create (NodeDir_getPath d) none 0 0)
              NodeFile_compare).1 = false := hf
          have := bsearch_not_mem NodeFile_getPath NodeFile_compare fileCompare_eq fs
            (NodeFile_create (NodeDir_getPath d) none 0 0) h2 hff f hfm
          intro heq
          apply this
          rw [← heq]
          rfl
        · exact h5 d hd f hfm
      · intro d hd
        rcases (mem_addAt ds j child1 d).mp hd with rfl | hd
        · exact hc1
        · exact h6 d hd
    · rw [destroy_mk, destroy_mk, destroy_children_addAt]
      omega

theorem wf_linkFile (parent : NodeDir) (child : NodeFile) (p1 : NodeDir)
    (h : NodeDir_linkChildFile parent child = (.SUCCESS, p1))
    (hp : parent.WF) :
    p1.WF ∧ NodeDir_getPath p1 = NodeDir_getPath parent ∧
    NodeDir_destroy p1 = NodeDir_destroy parent := by
  obtain ⟨hd, hcp, j, hb, rfl⟩ := linkChildFile_success parent child p1 h
  cases parent with
  | mk p par ds fs =>
    simp only [NodeDir.childrenDirs, NodeDir.childrenFiles, NodeDir_getPath,
      NodeDir_getParent] at *
    obtain ⟨h1, h2, h3, h4, h5, h6⟩ := (wf_iff p par ds fs).mp hp
    have hb1 : (DynArray_bsearch fs child NodeFile_compare).1 = false := by rw [hb]
    have hb2 : (DynArray_bsearch fs child NodeFile_compare).2 = j := by rw [hb]
    refine ⟨?_, trivial, ?_⟩
    · rw [wf_iff]
      refine ⟨h1, ?_, h3, ?_, ?_, h6⟩
      · have := addAt_sorted NodeFile_getPath NodeFile_compare fileCompare_eq fs child h2 hb1
        rw [hb2] at this
        exact this
      · intro f hfm
        rcases (mem_addAt fs j child f).mp hfm with rfl | hfm
        · exact hcp
        · exact h4 f hfm
      · intro d hdm f hfm
        rcases (mem_addAt fs j child f).mp hfm with rfl | hfm
        · have hdd : (DynArray_bsearch ds (NodeDir_create (NodeFile_getPath f) none)
              NodeDir_compare).1 = false := hd
          have := bsearch_not_mem NodeDir_getPath NodeDir_compare dirCompare_eq ds
            (NodeDir_create (NodeFile_getPath f) none) h1 hdd d hdm
          exact this
        · exact h5 d hdm f hfm
    · rw [destroy_mk, destroy_mk]


/-! ### Tokens -/

theorem strtok_token (s : CStr) (pre : Bool) (tok rest : CStr)
    (h : strtok s = some (pre, tok, rest)) : '/' ∉ tok ∧ tok ≠ [] := by
  unfold strtok at h
  split at h
  · cases h
  · rename_i b body hb
    simp only [Option.some.injEq, Prod.mk.injEq] at h
    obtain ⟨-, rfl, -⟩ := h
    have hb1 : b ≠ '/' := by
      have := List.head_dropWhile_not (fun c => c == '/') s
      rw [hb] at this
      simpa using this
    constructor
    · intro hmem
      have := List.mem_takeWhile_imp hmem
      simp at this
    · rw [List.takeWhile_cons_of_pos (by simpa using hb1)]
      simp

theorem strtokLoop_tokens (fuel : Nat) (s : CStr) :
    ∀ t ∈ strtokLoop fuel s, '/' ∉ t.2 ∧ t.2 ≠ [] := by
  induction fuel generalizing s with
  | zero => simp [strtokLoop]
  | succ n ih =>
    simp only [strtokLoop]
    split
    · simp
    · rename_i pre tok rest h
      intro t ht
      rcases List.mem_cons.mp ht with rfl | ht
      · exact strtok_token s pre tok rest h
      · exact ih rest t ht

theorem strtokAll_tokens (s : CStr) : ∀ t ∈ strtokAll s, '/' ∉ t.2 ∧ t.2 ≠ [] :=
  strtokLoop_tokens _ s

/-! ### The insertion loops keep the new hierarchy well formed -/

theorem bsearch_nil {α : Type} (k : α) (cmp : α → α → Int) :
    DynArray_bsearch [] k cmp = (false, 0) := rfl

theorem addDir_open (parent : Option NodeDir) (c c1 : Chain) (tok : CStr)
    (ho : c.Open parent) (htok : '/' ∉ tok) (h : c.addDir tok = .ok c1) : c1.Open parent := by
  unfold Chain.addDir at h
  obtain ⟨hcl, hcur⟩ := ho
  unfold Chain.Closed at hcl
  cases hfn : c.firstNew with
  | none =>
    rw [hfn] at hcl hcur
    simp only [hfn] at h
    cases h
    simp only at hcur
    refine ⟨?_, ?_⟩
    · simp only [Chain.Closed]
      refine ⟨wf_create _ _, ?_, ?_⟩
      · simp [NodeDir_create, destroy_mk, destroy_children_nil, hcl]
      · intro hp
        rw [hcur, hp]
        simpa [NodeDir_create, NodeDir_buildPath, NodeDir_getPath] using htok
    · simp only
      exact ⟨_, rfl, getAt_nil _, rfl, rfl⟩
  | some first =>
    rw [hfn] at hcl hcur
    simp only [hfn] at h
    simp only at hcl hcur
    obtain ⟨curr, hc, hget, hnd, hnf⟩ := hcur
    obtain ⟨hwf, hcount, hroot⟩ := hcl
    simp only [hc] at h
    split at h
    · rename_i curr1 i hlink
      cases h
      have hl := ftLinkDir_success _ _ _ _ hlink
      have hcw : curr.WF := wf_getAt first c.currLoc curr hwf hget
      obtain ⟨hw1, hp1, hd1⟩ := wf_linkDir curr _ curr1 i hl hcw (wf_create tok (some curr))
      obtain ⟨-, -, hb, hcurr1⟩ := linkChildDir_success curr _ curr1 i hl
      rw [hnd, bsearch_nil] at hb
      have hi : i = 0 := by
        simp only [Prod.mk.injEq, true_and] at hb
        exact hb.symm
      subst hi
      refine ⟨?_, ?_⟩
      · simp only [Chain.Closed]
        refine ⟨wf_setAt first c.currLoc curr curr1 hwf hget hp1 hw1, ?_, ?_⟩
        · have := destroy_setAt first c.currLoc curr curr1 hget
          have h1 : NodeDir_destroy (NodeDir_create tok (some curr)) = 1 := by
            simp [NodeDir_create, destroy_mk, destroy_children_nil]
          omega
        · intro hp
          rw [getPath_setAt first c.currLoc curr curr1 hget hp1]
          exact hroot hp
      · simp only
        refine ⟨_, rfl, ?_, rfl, rfl⟩
        rw [getAt_append, getAt_setAt first c.currLoc curr curr1 hget, Option.some_bind,
          getAt_cons, hcurr1]
        simp [NodeDir.childrenDirs, hnd, DynArray_addAt, getAt_nil, withParent_create]
    · cases h

theorem dirLoop_open (parent : Option NodeDir) (toks : List (Bool × CStr)) (c c1 : Chain)
    (ho : c.Open parent) (htoks : ∀ t ∈ toks, '/' ∉ t.2 ∧ t.2 ≠ [])
    (h : FT_insertRestOfPathDir.loop toks c = .done c1) : c1.Open parent := by
  induction toks generalizing c with
  | nil =>
    simp only [FT_insertRestOfPathDir.loop] at h
    cases h
    exact ho
  | cons t rest ih =>
    obtain ⟨pre, tok⟩ := t
    simp only [FT_insertRestOfPathDir.loop] at h
    split at h
    · cases h
    · split at h
      · rename_i c2 hadd
        exact ih c2 (addDir_open parent c c2 tok ho (htoks _ (List.mem_cons_self _ _)).1 hadd)
          (fun t ht => htoks t (List.mem_cons_of_mem _ ht)) h
      · cases h

theorem fileLoop_closed (parent : Option NodeDir) (contents : Ptr) (length : Nat)
    (toks : List (Bool × CStr)) (findFile : Option CStr) (c c1 : Chain)
    (ho : c.Open parent) (htoks : ∀ t ∈ toks, '/' ∉ t.2 ∧ t.2 ≠ [])
    (h : FT_insertRestOfPathFile.loop contents length toks findFile c = .done c1) :
    c1.Closed parent := by
  induction toks generalizing c findFile with
  | nil =>
    simp only [FT_insertRestOfPathFile.loop] at h
    cases h
    exact ho.1
  | cons t rest ih =>
    obtain ⟨pre, tok⟩ := t
    simp only [FT_insertRestOfPathFile.loop] at h
    split at h
    · cases h
    · split at h
      · split at h
        · rename_i first curr hfn hc
          split at h
          · rename_i curr1 hlink
            cases h
            obtain ⟨hcl, hcur⟩ := ho
            unfold Chain.Closed at hcl
            rw [hfn] at hcl hcur
            simp only at hcl hcur
            obtain ⟨curr0, hc0, hget, -, -⟩ := hcur
            rw [hc] at hc0
            cases hc0
            obtain ⟨hwf, hcount, hroot⟩ := hcl
            have hl := ftLinkFile_success _ _ _ hlink
            have hcw : curr.WF := wf_getAt first c.currLoc curr hwf hget
            obtain ⟨hw1, hp1, hd1⟩ := wf_linkFile curr _ curr1 hl hcw
            simp only [Chain.Closed]
            refine ⟨wf_setAt first c.currLoc curr curr1 hwf hget hp1 hw1, ?_, ?_⟩
            · have := destroy_setAt first c.currLoc curr curr1 hget
              omega
            · intro hp
              rw [getPath_setAt first c.currLoc curr curr1 hget hp1]
              exact hroot hp
          · cases h
        · cases h
      · split at h
        · rename_i c2 hadd
          exact ih _ c2 (addDir_open parent c c2 tok ho (htoks _ (List.mem_cons_self _ _)).1 hadd)
            (fun t ht => htoks t (List.mem_cons_of_mem _ ht)) h
        · cases h


/-! ### The public functions keep the invariant -/

theorem deref_some (s : FT) (loc : List Nat) (n : NodeDir) (h : s.deref loc = some n) :
    ∃ r, s.rootDir = some r ∧ r.getAt loc = some n := by
  unfold FT.deref at h
  cases hr : s.rootDir with
  | none => simp [hr] at h
  | some r => simp only [hr] at h; exact ⟨r, rfl, h⟩

theorem assign_some (s : FT) (loc : List Nat) (new r : NodeDir) (h : s.rootDir = some r) :
    s.assign loc new = { s with rootDir := some (r.setAt loc new) } := by
  unfold FT.assign
  simp [h]

/-- Replacing a node of the tree by a well-formed node with the same path
keeps the invariant, provided the counter follows the number of
directories. -/
theorem inv_assign (s : FT) (loc : List Nat) (old new r : NodeDir) (k : Nat) (hi : s.Inv)
    (hr : s.rootDir = some r) (hget : r.getAt loc = some old)
    (hp : NodeDir_getPath new = NodeDir_getPath old) (hw : new.WF)
    (hk : k + NodeDir_destroy old = s.countDirs + NodeDir_destroy new) :
    FT.Inv { s.assign loc new with countDirs := k } := by
  rw [assign_some s loc new r hr]
  obtain ⟨h1, h2, h3, h4⟩ := hi
  obtain ⟨hrw, hrp⟩ := h4 r hr
  constructor
  · intro hinit
    have := (h1 hinit).1
    rw [hr] at this
    cases this
  · intro hf
    have := h2 hf
    rw [hr] at this
    cases this
  · simp only [FT.numDirs]
    have := destroy_setAt r loc old new hget
    simp only [FT.numDirs, hr] at h3
    omega
  · intro r1 hr1
    simp only [Option.some.injEq] at hr1
    subst hr1
    exact ⟨wf_setAt r loc old new hrw hget hp hw, by
      rw [getPath_setAt r loc old new hget hp]; exact hrp⟩

theorem inv_finish (s : FT) (parent : Option (List Nat × NodeDir)) (c : Chain) (code : Status)
    (t : FT) (hi : s.Inv) (hinit : s.isInitialized = true)
    (hpar : match parent with
      | none => s.rootDir = none ∧ s.rootFile = none
      | some (loc, pn) => s.deref loc = some pn)
    (hc : c.Closed (parent.map (fun p => p.2)))
    (h : FT_insertRestOfPath.finish s parent c = .ok (code, t)) : t.Inv := by
  unfold FT_insertRestOfPath.finish at h
  split at h
  · simp only at hpar
    cases h
    unfold Chain.Closed at hc
    constructor
    · intro hf; simp [hinit] at hf
    · intro hf
      simp only at hf
      rw [hpar.2] at hf
      simp at hf
    · simp only [FT.numDirs]
      cases hfn : c.firstNew with
      | none => rw [hfn] at hc; simpa using hc
      | some first => rw [hfn] at hc; simp only at hc ⊢; exact hc.2.1.symm
    · intro r hr
      simp only at hr
      rw [hr] at hc
      exact ⟨hc.1, hc.2.2 rfl⟩
  · rename_i loc pn
    simp only at hpar
    split at h
    · cases h
    · rename_i first hfn
      split at h
      · rename_i p1 j hlink
        cases h
        obtain ⟨r, hr, hget⟩ := deref_some s loc pn hpar
        unfold Chain.Closed at hc
        rw [hfn] at hc
        simp only at hc
        have hl := ftLinkDir_success _ _ _ _ hlink
        obtain ⟨hw1, hp1, hd1⟩ :=
          wf_linkDir pn first p1 j hl (wf_getAt r loc pn (hi.wf r hr).1 hget) hc.1
        exact inv_assign s loc pn p1 r _ hi hr hget hp1 hw1 (by omega)
      · cases h

theorem inv_insertDir (s : FT) (path : CStr) (code : Status) (t : FT) (hi : s.Inv)
    (h : FT_insertDir s path = .ok (code, t)) : t.Inv := by
  by_cases hc : code = .SUCCESS
  swap
  · rw [insertDir_failed s path code t h hc]; exact hi
  subst hc
  unfold FT_insertDir at h
  split at h
  · cases h
  rename_i hinit0
  have hinit : s.isInitialized = true := by simpa using hinit0
  clear hinit0
  unfold FT_insertRestOfPathDir at h
  have key : ∀ (parent : Option (List Nat × NodeDir)) (restPath : CStr),
      (match parent with
        | none => s.rootDir = none ∧ s.rootFile = none
        | some (loc, pn) => s.deref loc = some pn) →
      FT_insertRestOfPathDir.rest s path parent restPath = .ok (.SUCCESS, t) → t.Inv := by
    clear h
    intro parent restPath hpar h
    unfold FT_insertRestOfPathDir.rest at h
    split at h
    · cases h
    · split at h
      · cases h
      · split at h
        · cases h; exact hi
        · cases h
        · rename_i c hloop
          refine inv_finish s parent c _ t hi hinit hpar ?_ h
          refine (dirLoop_open _ _ _ c ?_ (strtokAll_tokens restPath) hloop).1
          refine ⟨by simp [Chain.Closed], by simp⟩
  split at h
  · split at h
    · cases h
    · rename_i hroot
      simp only [Bool.or_eq_true, Option.isSome_iff_exists, not_or, not_exists] at hroot
      refine key none path ⟨?_, ?_⟩ h
      · cases hr : s.rootDir with
        | none => rfl
        | some r => exact absurd hr (hroot.1 r)
      · cases hr : s.rootFile with
        | none => rfl
        | some r => exact absurd hr (hroot.2 r)
  · rename_i loc hloc
    split at h
    · cases h
    · rename_i curr hd
      split at h
      · cases h
      · split at h
        · cases h
        · split at h
          · cases h
          · simp only at h
            split at h
            · cases h
            · exact key (some (loc, curr)) _ hd h

theorem inv_insertFile (s : FT) (path : CStr) (contents : Ptr) (length : Nat) (code : Status)
    (t : FT) (hi : s.Inv)
    (h : FT_insertFile s path contents length = .ok (code, t)) : t.Inv := by
  by_cases hc : code = .SUCCESS
  swap
  · rw [insertFile_failed s path contents length code t h hc]; exact hi
  subst hc
  unfold FT_insertFile at h
  split at h
  · cases h
  rename_i hinit0
  have hinit : s.isInitialized = true := by simpa using hinit0
  clear hinit0
  unfold FT_insertRestOfPathFile at h
  have key : ∀ (parent : Option (List Nat × NodeDir)) (restPath : CStr),
      (match parent with
        | none => s.rootDir = none ∧ s.rootFile = none
        | some (loc, pn) => s.deref loc = some pn) →
      FT_insertRestOfPathFile.rest s path parent restPath contents length
        = .ok (.SUCCESS, t) → t.Inv := by
    clear h
    intro parent restPath hpar h
    unfold FT_insertRestOfPathFile.rest at h
    split at h
    · cases h
    · split at h
      · cases h
      · split at h
        · split at h
          · cases h
            simp only at hpar
            obtain ⟨h1, h2, h3, h4⟩ := hi
            constructor
            · intro hf; simp [hinit] at hf
            · intro _; exact hpar.1
            · simp only [FT.numDirs] at h3 ⊢; exact h3
            · intro r hr
              simp only at hr
              rw [hpar.1] at hr
              cases hr
          · rename_i loc pn
            simp only at hpar
            split at h
            · rename_i p1 hlink
              cases h
              obtain ⟨r, hr, hget⟩ := deref_some s loc pn hpar
              have hl := ftLinkFile_success _ _ _ hlink
              obtain ⟨hw1, hp1, hd1⟩ :=
                wf_linkFile pn _ p1 hl (wf_getAt r loc pn (hi.wf r hr).1 hget)
              have := inv_assign s loc pn p1 r s.countDirs hi hr hget hp1 hw1 (by omega)
              rw [assign_some s loc p1 r hr] at this ⊢
              exact this
            · cases h
        · split at h
          · cases h; exact hi
          · cases h
          · rename_i c hloop
            refine inv_finish s parent c _ t hi hinit hpar ?_ h
            refine fileLoop_closed _ _ _ _ _ _ c ?_ (strtokAll_tokens restPath) hloop
            refine ⟨by simp [Chain.Closed], by simp⟩
  split at h
  · split at h
    · cases h
    · rename_i hroot
      simp only [Bool.or_eq_true, Option.isSome_iff_exists, not_or, not_exists] at hroot
      refine key none path ⟨?_, ?_⟩ h
      · cases hr : s.rootDir with
        | none => rfl
        | some r => exact absurd hr (hroot.1 r)
      · cases hr : s.rootFile with
        | none => rfl
        | some r => exact absurd hr (hroot.2 r)
  · rename_i loc hloc
    split at h
    · cases h
    · rename_i curr hd
      split at h
      · cases h
      · split at h
        · cases h
        · simp only at h
          split at h
          · cases h
          · exact key (some (loc, curr)) _ hd h


theorem inv_assign_same (s : FT) (loc : List Nat) (old new r : NodeDir) (hi : s.Inv)
    (hr : s.rootDir = some r) (hget : r.getAt loc = some old)
    (hp : NodeDir_getPath new = NodeDir_getPath old) (hw : new.WF)
    (hk : NodeDir_destroy old = NodeDir_destroy new) : (s.assign loc new).Inv := by
  have := inv_assign s loc old new r s.countDirs hi hr hget hp hw (by omega)
  rw [assign_some s loc new r hr] at this ⊢
  exact this

theorem getAt_dropLast (r : NodeDir) (loc : List Nat) (curr : NodeDir) (hne : loc ≠ [])
    (h : r.getAt loc = some curr) :
    ∃ parent, r.getAt loc.dropLast = some parent ∧
      parent.childrenDirs[loc.getLast hne]? = some curr := by
  have hsplit : loc = loc.dropLast ++ [loc.getLast hne] := (List.dropLast_append_getLast hne).symm
  rw [hsplit, getAt_append] at h
  cases hp : r.getAt loc.dropLast with
  | none => rw [hp] at h; simp at h
  | some parent =>
    rw [hp, Option.some_bind, getAt_cons] at h
    refine ⟨parent, rfl, ?_⟩
    cases hc : parent.childrenDirs[loc.getLast hne]? with
    | none => rw [hc] at h; simp at h
    | some c =>
      rw [hc, Option.some_bind, getAt_nil] at h
      exact h

theorem sorted_eraseIdx {α : Type} (key : α → CStr) (xs : List α) (i : Nat)
    (h : StrictlySorted (xs.map key)) : StrictlySorted ((xs.eraseIdx i).map key) := by
  unfold StrictlySorted at *
  rw [List.pairwise_map] at *
  exact List.Pairwise.sublist (List.eraseIdx_sublist xs i) h

theorem wf_unlinkDir (parent child : NodeDir) (hp : parent.WF) :
    (NodeDir_unlinkChildDir parent child).2.WF ∧
    NodeDir_getPath (NodeDir_unlinkChildDir parent child).2 = NodeDir_getPath parent := by
  unfold NodeDir_unlinkChildDir
  split
  · exact ⟨hp, rfl⟩
  · rename_i i hb
    cases parent with
    | mk p par ds fs =>
      simp only [NodeDir.childrenDirs, NodeDir.childrenFiles, NodeDir_getPath,
        DynArray_removeAt] at *
      obtain ⟨h1, h2, h3, h4, h5, h6⟩ := (wf_iff p par ds fs).mp hp
      refine ⟨?_, trivial⟩
      rw [wf_iff]
      have hsub : ∀ d ∈ ds.eraseIdx i, d ∈ ds := fun d hd =>
        (List.eraseIdx_sublist ds i).subset hd
      exact ⟨sorted_eraseIdx NodeDir_getPath ds i h1, h2, fun d hd => h3 d (hsub d hd), h4,
        fun d hd => h5 d (hsub d hd), fun d hd => h6 d (hsub d hd)⟩

theorem unlinkDir_at (parent curr : NodeDir) (j : Nat) (hp : parent.WF)
    (hj : parent.childrenDirs[j]? = some curr) :
    (NodeDir_unlinkChildDir parent curr).2
      = .mk (NodeDir_getPath parent) (NodeDir_getParent parent) (parent.childrenDirs.eraseIdx j) parent.childrenFiles := by
  cases parent with
  | mk p par ds fs =>
    simp only [NodeDir.childrenDirs] at hj
    obtain ⟨h1, -⟩ := (wf_iff p par ds fs).mp hp
    have := bsearch_at NodeDir_getPath NodeDir_compare dirCompare_eq ds curr h1 j curr hj rfl
    simp [NodeDir_unlinkChildDir, NodeDir.childrenDirs, this, DynArray_removeAt,
      NodeDir.childrenFiles, NodeDir_getPath]

theorem wf_unlinkFile (parent : NodeDir) (child : NodeFile) (hp : parent.WF) :
    (NodeDir_unlinkChildFile parent child).2.WF ∧
    NodeDir_getPath (NodeDir_unlinkChildFile parent child).2 = NodeDir_getPath parent ∧
    NodeDir_destroy (NodeDir_unlinkChildFile parent child).2 = NodeDir_destroy parent := by
  unfold NodeDir_unlinkChildFile
  split
  · exact ⟨hp, rfl, rfl⟩
  · rename_i i hb
    cases parent with
    | mk p par ds fs =>
      simp only [NodeDir.childrenDirs, NodeDir.childrenFiles, NodeDir_getPath,
        DynArray_removeAt] at *
      obtain ⟨h1, h2, h3, h4, h5, h6⟩ := (wf_iff p par ds fs).mp hp
      refine ⟨?_, trivial, by rw [destroy_mk, destroy_mk]⟩
      rw [wf_iff]
      have hsub : ∀ f ∈ fs.eraseIdx i, f ∈ fs := fun f hf =>
        (List.eraseIdx_sublist fs i).subset hf
      exact ⟨h1, sorted_eraseIdx NodeFile_getPath fs i h2, h3, fun f hf => h4 f (hsub f hf),
        fun d hd f hf => h5 d hd f (hsub f hf), h6⟩

theorem inv_rmDir (s : FT) (path : CStr) (code : Status) (t : FT) (hi : s.Inv)
    (h : FT_rmDir s path = .ok (code, t)) : t.Inv := by
  unfold FT_rmDir at h
  split at h
  · cases h; exact hi
  rename_i hinit0
  have hinit : s.isInitialized = true := by simpa using hinit0
  split at h
  · cases h; exact hi
  rename_i loc hloc
  split at h
  · cases h
  rename_i curr hd
  obtain ⟨r, hr, hget⟩ := deref_some s loc curr hd
  split at h
  · cases h; exact hi
  split at h
  · cases h; exact hi
  split at h
  · rename_i hnil
    cases h
    subst hnil
    rw [getAt_nil] at hget
    cases hget
    constructor
    · intro hf; simp [FT_removePathFromDir, hinit] at hf
    · intro _; rfl
    · have := hi.count
      simp only [FT.numDirs, hr] at this
      simp [FT_removePathFromDir, FT.numDirs, this]
    · intro r1 hr1; cases hr1
  · rename_i hne
    split at h
    · cases h
    rename_i parent hpd
    cases h
    obtain ⟨r2, hr2, hgetp⟩ := deref_some s _ parent hpd
    rw [hr] at hr2
    cases hr2
    obtain ⟨parent2, hp2, hj⟩ := getAt_dropLast r loc curr hne hget
    rw [hgetp] at hp2
    cases hp2
    have hpw : parent.WF := wf_getAt r _ parent (hi.wf r hr).1 hgetp
    obtain ⟨hw1, hp1⟩ := wf_unlinkDir parent curr hpw
    have heq := unlinkDir_at parent curr _ hpw hj
    have hcnt : NodeDir_destroy (NodeDir_unlinkChildDir parent curr).2 + NodeDir_destroy curr
        = NodeDir_destroy parent := by
      rw [heq, destroy_mk]
      have := destroy_children_eraseIdx parent.childrenDirs _ curr hj
      conv_rhs => rw [← node_eta parent, destroy_mk]
      omega
    have hc := hi.count
    simp only [FT.numDirs, hr] at hc
    have hset := destroy_setAt r loc.dropLast parent (NodeDir_unlinkChildDir parent curr).2 hgetp
    have := inv_assign s loc.dropLast parent (NodeDir_unlinkChildDir parent curr).2 r
      (s.countDirs - NodeDir_destroy curr) hi hr hgetp hp1 hw1 (by omega)
    rw [assign_some s _ _ r hr] at this ⊢
    exact this

theorem inv_rmFile (s : FT) (path : CStr) (code : Status) (t : FT) (hi : s.Inv)
    (h : FT_rmFile s path = .ok (code, t)) : t.Inv := by
  unfold FT_rmFile at h
  split at h
  · cases h; exact hi
  rename_i hinit0
  have hinit : s.isInitialized = true := by simpa using hinit0
  split at h
  · rename_i f hf
    split at h
    · cases h
      have hrd : s.rootDir = none := hi.exclusive (by rw [hf]; rfl)
      constructor
      · intro hx; simp [hinit] at hx
      · intro hx; simp at hx
      · have := hi.count
        simp only [FT.numDirs, hrd] at this ⊢
        exact this
      · intro r hr
        simp only at hr
        rw [hrd] at hr
        cases hr
    · cases h; exact hi
  · split at h
    · cases h; exact hi
    rename_i loc hloc
    split at h
    · cases h
    rename_i curr hd
    obtain ⟨r, hr, hget⟩ := deref_some s loc curr hd
    split at h
    · split at h
      · cases h
      · rename_i child hchild
        cases h
        obtain ⟨hw1, hp1, hd1⟩ := wf_unlinkFile curr child (wf_getAt r loc curr (hi.wf r hr).1 hget)
        exact inv_assign_same s loc curr _ r hi hr hget hp1 hw1 hd1.symm
    · split at h
      · cases h; exact hi
      · cases h; exact hi

theorem inv_replaceFileContents (s : FT) (path : CStr) (newContents : Ptr) (newLength : Nat)
    (old : Ptr) (t : FT) (hi : s.Inv)
    (h : FT_replaceFileContents s path newContents newLength = .ok (old, t)) : t.Inv := by
  unfold FT_replaceFileContents at h
  split at h
  · rename_i f hf
    split at h
    · cases h
      have hrd : s.rootDir = none := hi.exclusive (by rw [hf]; rfl)
      obtain ⟨h1, h2, h3, h4⟩ := hi
      have hu : s.isInitialized = false → False := fun hx => by
        have := (h1 hx).2
        rw [hf] at this
        cases this
      exact ⟨fun hx => (hu hx).elim, fun _ => hrd, h3, h4⟩
    · cases h; exact hi
  · split at h
    · cases h
    rename_i loc hloc
    split at h
    · cases h
    rename_i curr hd
    obtain ⟨r, hr, hget⟩ := deref_some s loc curr hd
    split at h
    · split at h
      · cases h
      · rename_i child hchild
        cases h
        refine inv_assign_same s loc curr _ r hi hr hget rfl ?_ ?_
        · cases curr with
          | mk p par ds fs =>
            simp only [NodeDir.childrenDirs, NodeDir.childrenFiles, NodeDir_getPath,
              NodeDir_getChildFile] at *
            obtain ⟨h1, h2, h3, h4, h5, h6⟩ :=
              (wf_iff p par ds fs).mp (wf_getAt r loc _ (hi.wf r hr).1 hget)
            have hpath : NodeFile_getPath
                (NodeFile_replaceContents child newContents newLength).2
                  = NodeFile_getPath child := rfl
            have hmem : ∀ f ∈ fs.set (NodeDir_hasChildFile (.mk p par ds fs) path).2
                (NodeFile_replaceContents child newContents newLength).2,
                ∃ g ∈ fs, NodeFile_getPath f = NodeFile_getPath g := by
              intro f hf
              rcases List.mem_or_eq_of_mem_set hf with hf | hf
              · exact ⟨f, hf, rfl⟩
              · exact ⟨child, List.getElem?_mem hchild, by rw [hf, hpath]⟩
            rw [wf_iff]
            refine ⟨h1, ?_, h3, ?_, ?_, h6⟩
            · rw [map_set_same NodeFile_getPath fs _ child _ hchild hpath]; exact h2
            · intro f hf
              obtain ⟨g, hg, hfg⟩ := hmem f hf
              rw [hfg]; exact h4 g hg
            · intro d hd f hf
              obtain ⟨g, hg, hfg⟩ := hmem f hf
              rw [hfg]; exact h5 d hd g hg
        · conv_lhs => rw [← node_eta curr]
          rw [destroy_mk, destroy_mk]
    · cases h; exact hi

theorem inv_toString (s : FT) (str : Option CStr) (t : FT) (hi : s.Inv)
    (h : FT_toString s = .ok (str, t)) : t.Inv := by
  unfold FT_toString at h
  split at h
  · cases h; exact hi
  split at h
  · rename_i f hf
    cases h
    have hrd : s.rootDir = none := hi.exclusive (by rw [hf]; rfl)
    obtain ⟨h1, h2, h3, h4⟩ := hi
    exact ⟨fun hx => by simp_all, fun _ => hrd, h3, h4⟩
  · simp only at h
    split at h
    · cases h
    · split at h
      · cases h
      · split at h
        · cases h; exact hi
        · split at h
          · cases h
          · cases h; exact hi

theorem inv_init (s : FT) (hi : s.Inv) : (FT_init s).2.Inv := by
  unfold FT_init
  split
  · exact hi
  · exact ⟨fun _ => ⟨rfl, rfl⟩, fun _ => rfl, rfl, fun r hr => by cases hr⟩

theorem inv_destroy (s : FT) (hi : s.Inv) : (FT_destroy s).2.Inv := by
  unfold FT_destroy
  split
  · exact hi
  rename_i hinit0
  split
  · rename_i hroot
    simp only [Bool.and_eq_true, Option.isNone_iff_eq_none] at hroot
    exact ⟨fun _ => hroot, fun _ => hroot.1, hi.count, hi.wf⟩
  · split
    · rename_i hf
      have hrd : s.rootDir = none := hi.exclusive hf
      refine ⟨fun _ => ⟨hrd, rfl⟩, fun _ => hrd, hi.count, hi.wf⟩
    · rename_i hf
      refine ⟨fun _ => ⟨rfl, ?_⟩, fun _ => rfl, ?_, fun r hr => by cases hr⟩
      · simp only [FT_removePathFromDir]
        cases hr : s.rootDir <;> simp_all
      · have := hi.count
        simp only [FT.numDirs, FT_removePathFromDir] at this ⊢
        cases hr : s.rootDir with
        | none => simp [hr] at this ⊢; exact this
        | some r => simp [hr] at this ⊢; omega

theorem inv_start : FT.start.Inv :=
  ⟨fun _ => ⟨rfl, rfl⟩, fun _ => rfl, rfl, fun r hr => by cases hr⟩

theorem reachable_inv (s : FT) (h : Reachable s) : s.Inv := by
  induction h with
  | start => exact inv_start
  | init s _ ih => exact inv_init s ih
  | destroy s _ ih => exact inv_destroy s ih
  | insertDir s path code t _ h ih => exact inv_insertDir s path code t ih h
  | insertFile s path contents length code t _ h ih =>
    exact inv_insertFile s path contents length code t ih h
  | rmDir s path code t _ h ih => exact inv_rmDir s path code t ih h
  | rmFile s path code t _ h ih => exact inv_rmFile s path code t ih h
  | replaceFileContents s path nc nl old t _ h ih =>
    exact inv_replaceFileContents s path nc nl old t ih h
  | toString s str t _ h ih => exact inv_toString s str t ih h


/-! ### `FT_toString` -/

theorem nodes_mk (p : CStr) (par : Option CStr) (ds : List NodeDir) (fs : List NodeFile) :
    (NodeDir.mk p par ds fs).nodes = .mk p par ds fs :: NodeDir.nodes.list ds := by
  simp [NodeDir.nodes]

theorem nodes_list_nil : NodeDir.nodes.list [] = [] := by
  simp [NodeDir.nodes.list]

theorem nodes_list_cons (c : NodeDir) (rest : List NodeDir) :
    NodeDir.nodes.list (c :: rest) = c.nodes ++ NodeDir.nodes.list rest := by
  simp [NodeDir.nodes.list]

mutual
theorem destroy_eq_nodes : ∀ n : NodeDir, NodeDir_destroy n = n.nodes.length
  | .mk p par ds fs => by
    rw [destroy_mk, nodes_mk, List.length_cons, destroy_children_eq_nodes ds]
theorem destroy_children_eq_nodes : ∀ ds : List NodeDir,
    NodeDir_destroy.children ds = (NodeDir.nodes.list ds).length
  | [] => by simp [NodeDir_destroy.children, nodes_list_nil]
  | c :: rest => by
    rw [destroy_children_cons, nodes_list_cons, List.length_append, destroy_eq_nodes c,
      destroy_children_eq_nodes rest]
end

theorem set_middle {α : Type} (pre post : List α) (m x : α) :
    (pre ++ m :: post).set pre.length x = pre ++ x :: post := by
  induction pre with
  | nil => simp
  | cons a rest ih => simp [ih]

mutual
/-- The traversal fills the slots `mid` of the array, one per directory of
the hierarchy, in pre-order. -/
theorem preOrder_fill : ∀ (n : NodeDir) (pre mid post : List (Option NodeDir)),
    mid.length = n.nodes.length →
    FT_preOrderTraversal n (pre ++ mid ++ post) pre.length
      = .ok (pre ++ n.nodes.map some ++ post, pre.length + n.nodes.length)
  | .mk p par ds fs, pre, mid, post, hlen => by
    rw [nodes_mk, List.length_cons] at hlen
    cases mid with
    | nil => simp at hlen
    | cons m mid1 =>
      have hlen1 : mid1.length = (NodeDir.nodes.list ds).length := by simpa using hlen
      have hset : DynArray_set (pre ++ (m :: mid1) ++ post) pre.length (.mk p par ds fs)
          = .ok ((pre ++ [some (.mk p par ds fs)]) ++ mid1 ++ post) := by
        unfold DynArray_set
        rw [if_pos (by simp)]
        congr 1
        rw [List.append_assoc, List.cons_append, set_middle]
        simp
      have hloop := preOrder_loop_fill ds (pre ++ [some (.mk p par ds fs)]) mid1 post hlen1
      simp only [List.length_append, List.length_singleton] at hloop
      simp only [FT_preOrderTraversal, hset, hloop, nodes_mk, List.map_cons, List.length_cons]
      simp only [List.append_assoc, List.singleton_append, Nat.add_assoc, Nat.add_comm 1]
theorem preOrder_loop_fill : ∀ (ds : List NodeDir) (pre mid post : List (Option NodeDir)),
    mid.length = (NodeDir.nodes.list ds).length →
    FT_preOrderTraversal.loop ds (pre ++ mid ++ post) pre.length
      = .ok (pre ++ (NodeDir.nodes.list ds).map some ++ post,
             pre.length + (NodeDir.nodes.list ds).length)
  | [], pre, mid, post, hlen => by
    rw [nodes_list_nil] at hlen ⊢
    have : mid = [] := List.length_eq_zero.mp hlen
    subst this
    simp [FT_preOrderTraversal.loop]
  | c :: rest, pre, mid, post, hlen => by
    rw [nodes_list_cons, List.length_append] at hlen
    have h1 : (mid.take c.nodes.length).length = c.nodes.length := by
      rw [List.length_take]; omega
    have h2 : (mid.drop c.nodes.length).length = (NodeDir.nodes.list rest).length := by
      rw [List.length_drop]; omega
    have hc := preOrder_fill c pre (mid.take c.nodes.length) (mid.drop c.nodes.length ++ post) h1
    have hr := preOrder_loop_fill rest (pre ++ c.nodes.map some) (mid.drop c.nodes.length) post h2
    have hmid : pre ++ mid ++ post
        = pre ++ mid.take c.nodes.length ++ (mid.drop c.nodes.length ++ post) := by
      conv_lhs => rw [← List.take_append_drop c.nodes.length mid]
      simp only [List.append_assoc]
    simp only [List.length_append, List.length_map] at hr
    rw [FT_preOrderTraversal.loop, hmid, hc]
    simp only
    rw [← List.append_assoc, hr, nodes_list_cons]
    simp only [List.map_append, List.append_assoc, List.length_append, Nat.add_assoc]
end

theorem foldl_lines (fs : List NodeFile) (init : CStr) :
    fs.foldl (fun a f => a ++ f.path ++ ['\n']) init
      = init ++ (fs.map (fun f => f.path ++ ['\n'])).flatten := by
  induction fs generalizing init with
  | nil => simp
  | cons f rest ih =>
    rw [List.foldl_cons, ih]
    simp

/-- The lines that `FT_strcatAccumulate` appends for one directory. -/
theorem strcat_lines (d : NodeDir) (acc : CStr) :
    FT_strcatAccumulate (some d) acc
      = .ok (acc ++ (NodeDir_getPath d ++ ['\n']
          ++ (d.childrenFiles.map (fun f => f.path ++ ['\n'])).flatten)) := by
  unfold FT_strcatAccumulate NodeFile_getPath
  simp only
  rw [foldl_lines]
  simp

theorem map_strcat (ns : List NodeDir) (acc : CStr) :
    DynArray_map (ns.map some) FT_strcatAccumulate acc
      = .ok (acc ++ (ns.map (fun d => NodeDir_getPath d ++ ['\n']
          ++ (d.childrenFiles.map (fun f => f.path ++ ['\n'])).flatten)).flatten) := by
  induction ns generalizing acc with
  | nil => simp [DynArray_map]
  | cons d rest ih =>
    simp only [List.map_cons, DynArray_map, strcat_lines, ih]
    simp

theorem map_strlen (ns : List NodeDir) (acc : Nat) :
    ∃ k, DynArray_map (ns.map some) FT_strlenAccumulate acc = .ok k := by
  induction ns generalizing acc with
  | nil => exact ⟨acc, rfl⟩
  | cons d rest ih =>
    simp only [List.map_cons, DynArray_map, FT_strlenAccumulate]
    exact ih _

mutual
theorem ser_eq_lines : ∀ n : NodeDir,
    ser n = (n.nodes.map (fun d => NodeDir_getPath d ++ ['\n']
      ++ (d.childrenFiles.map (fun f => f.path ++ ['\n'])).flatten)).flatten
  | .mk p par ds fs => by
    rw [ser, nodes_mk, List.map_cons, List.flatten_cons, ← ser_list_eq_lines ds]
    simp [NodeDir_getPath, NodeDir.childrenFiles]
theorem ser_list_eq_lines : ∀ ds : List NodeDir,
    ser.list ds = ((NodeDir.nodes.list ds).map (fun d => NodeDir_getPath d ++ ['\n']
      ++ (d.childrenFiles.map (fun f => f.path ++ ['\n'])).flatten)).flatten
  | [] => by simp [ser.list, nodes_list_nil]
  | c :: rest => by
    rw [ser.list, nodes_list_cons, List.map_append, List.flatten_append, ← ser_eq_lines c,
      ← ser_list_eq_lines rest]
end

/-- With a directory as root and `countDirs` equal to the number of
directories, `FT_toString` returns the listing of the root. -/
theorem toString_ser (s : FT) (r : NodeDir) (hinit : s.isInitialized = true)
    (hr : s.rootDir = some r) (hf : s.rootFile = none) (hc : s.countDirs = r.nodes.length) :
    FT_toString s = .ok (some (ser r), s) := by
  have hfill := preOrder_fill r [] (List.replicate s.countDirs none) [] (by simp [hc])
  simp only [List.nil_append, List.append_nil, List.length_nil, Nat.zero_add] at hfill
  obtain ⟨k, hk⟩ := map_strlen r.nodes 1
  unfold FT_toString
  simp only [hinit, hr, hf, hfill, hk, map_strcat, ser_eq_lines]
  simp


/-! ### Tokens of a well-formed path -/

theorem strtok_rest_length (s : CStr) (pre : Bool) (tok rest : CStr)
    (h : strtok s = some (pre, tok, rest)) : rest.length < s.length := by
  unfold strtok at h
  split at h
  · cases h
  · rename_i b body hb
    simp only [Option.some.injEq, Prod.mk.injEq] at h
    obtain ⟨-, -, rfl⟩ := h
    have h1 : (b :: body).length ≤ s.length := by
      rw [← hb]
      exact (List.dropWhile_sublist _).length_le
    have h2 : (List.dropWhile (fun c => c != '/') (b :: body)).length ≤ (b :: body).length :=
      (List.dropWhile_sublist _).length_le
    have hb1 : b ≠ '/' := by
      have := List.head_dropWhile_not (fun c => c == '/') s
      rw [hb] at this
      simpa using this
    rw [List.dropWhile_cons_of_pos (by simpa using hb1)] at h2 ⊢
    have h3 : (List.dropWhile (fun c => c != '/') body).length ≤ body.length :=
      (List.dropWhile_sublist _).length_le
    simp only [List.length_drop, List.length_cons] at *
    omega

/-- The fuel of `strtokAll` suffices: more calls find no more tokens. -/
theorem strtokLoop_fuel (fuel1 fuel2 : Nat) (s : CStr) (h1 : s.length < fuel1)
    (h2 : s.length < fuel2) : strtokLoop fuel1 s = strtokLoop fuel2 s := by
  induction fuel1 generalizing fuel2 s with
  | zero => omega
  | succ n ih =>
    cases fuel2 with
    | zero => omega
    | succ m =>
      simp only [strtokLoop]
      cases hs : strtok s with
      | none => rfl
      | some r =>
        obtain ⟨pre, tok, rest⟩ := r
        have := strtok_rest_length s pre tok rest hs
        simp only
        rw [ih m rest (by omega) (by omega)]

theorem takeWhile_segment (seg rest : CStr) (h : '/' ∉ seg) :
    (seg ++ '/' :: rest).takeWhile (fun c => c != '/') = seg ∧
    (seg ++ '/' :: rest).dropWhile (fun c => c != '/') = '/' :: rest := by
  induction seg with
  | nil => simp
  | cons c cs ih =>
    simp only [List.mem_cons, not_or] at h
    have hc : (c != '/') = true := by simpa using fun e => h.1 e.symm
    simp only [List.cons_append, List.takeWhile_cons, List.dropWhile_cons, hc, if_true]
    obtain ⟨h1, h2⟩ := ih h.2
    exact ⟨by rw [h1], h2⟩

theorem takeWhile_segment_end (seg : CStr) (h : '/' ∉ seg) :
    seg.takeWhile (fun c => c != '/') = seg ∧ seg.dropWhile (fun c => c != '/') = [] := by
  induction seg with
  | nil => simp
  | cons c cs ih =>
    simp only [List.mem_cons, not_or] at h
    have hc : (c != '/') = true := by simpa using fun e => h.1 e.symm
    simp only [List.takeWhile_cons, List.dropWhile_cons, hc, if_true]
    obtain ⟨h1, h2⟩ := ih h.2
    exact ⟨by rw [h1], h2⟩

theorem dropWhile_slash_segment (seg rest : CStr) (h : Segment seg) :
    (seg ++ rest).dropWhile (fun c => c == '/') = seg ++ rest := by
  obtain ⟨hne, hs⟩ := h
  cases seg with
  | nil => exact absurd rfl hne
  | cons c cs =>
    simp only [List.mem_cons, not_or] at hs
    have hc : (c == '/') = false := by simpa using fun e => hs.1 e.symm
    simp [List.dropWhile_cons, hc]

theorem strtok_segment (seg rest : CStr) (h : Segment seg) :
    strtok (seg ++ '/' :: rest) = some (false, seg, rest) := by
  unfold strtok
  rw [dropWhile_slash_segment seg _ h]
  obtain ⟨h1, h2⟩ := takeWhile_segment seg rest h.2
  cases hsr : seg ++ '/' :: rest with
  | nil =>
    exfalso
    cases seg <;> simp at hsr
  | cons b body =>
    simp only
    rw [← hsr, h1, h2]
    simp

theorem strtok_segment_end (seg : CStr) (h : Segment seg) :
    strtok seg = some (false, seg, []) := by
  unfold strtok
  have := dropWhile_slash_segment seg [] h
  rw [List.append_nil] at this
  rw [this]
  obtain ⟨h1, h2⟩ := takeWhile_segment_end seg h.2
  cases hsr : seg with
  | nil => exact absurd hsr h.1
  | cons b body =>
    simp only
    rw [← hsr, h1, h2]
    simp

theorem joinPath_cons_cons (a b : CStr) (rest : List CStr) :
    joinPath (a :: b :: rest) = a ++ '/' :: joinPath (b :: rest) := by
  simp [joinPath]

theorem strtokLoop_joinPath (segs : List CStr) (hs : ∀ x ∈ segs, Segment x) (fuel : Nat)
    (hf : segs.length ≤ fuel) :
    strtokLoop fuel (joinPath segs) = segs.map (fun x => (false, x)) := by
  induction segs generalizing fuel with
  | nil =>
    cases fuel <;> simp [strtokLoop, joinPath, strtok]
  | cons a rest ih =>
    cases fuel with
    | zero => simp at hf
    | succ n =>
      have ha := hs a (List.mem_cons_self _ _)
      have hr : ∀ x ∈ rest, Segment x := fun x hx => hs x (List.mem_cons_of_mem _ hx)
      cases rest with
      | nil =>
        simp only [joinPath, strtokLoop, strtok_segment_end a ha, List.map_cons, List.map_nil]
        cases n <;> simp [strtokLoop, strtok]
      | cons b rest2 =>
        rw [joinPath_cons_cons, strtokLoop, strtok_segment a _ ha]
        simp only [List.map_cons]
        rw [ih hr n (by simpa using hf)]
        simp

theorem length_joinPath (segs : List CStr) (hs : ∀ x ∈ segs, Segment x) :
    segs.length ≤ (joinPath segs).length := by
  induction segs with
  | nil => simp
  | cons a rest ih =>
    have ha := (hs a (List.mem_cons_self _ _)).1
    have hal : 0 < a.length := List.length_pos.mpr ha
    have hr : ∀ x ∈ rest, Segment x := fun x hx => hs x (List.mem_cons_of_mem _ hx)
    cases rest with
    | nil => simp [joinPath]; omega
    | cons b rest2 =>
      rw [joinPath_cons_cons]
      have := ih hr
      simp only [List.length_cons, List.length_append] at this ⊢
      omega

theorem strtokAll_joinPath (segs : List CStr) (hs : ∀ x ∈ segs, Segment x) :
    strtokAll (joinPath segs) = segs.map (fun x => (false, x)) :=
  strtokLoop_joinPath segs hs _ (by have := length_joinPath segs hs; omega)


/-! ### One insertion into the empty tree -/

theorem deepPath_append (a b : CStr) (segs : List CStr) :
    deepPath (a ++ b) segs = a ++ deepPath b segs := by
  induction segs generalizing b with
  | nil => rfl
  | cons s rest ih =>
    simp only [deepPath]
    rw [List.append_assoc, ih]

theorem deepPath_snoc (p seg : CStr) (segs : List CStr) :
    deepPath p (segs ++ [seg]) = deepPath p segs ++ '/' :: seg := by
  induction segs generalizing p with
  | nil => rfl
  | cons s rest ih =>
    rw [List.cons_append, deepPath, deepPath, ih]

theorem joinPath_eq_deepPath (seg : CStr) (segs : List CStr) :
    joinPath (seg :: segs) = deepPath seg segs := by
  induction segs generalizing seg with
  | nil => rfl
  | cons s rest ih =>
    rw [joinPath_cons_cons, ih s, deepPath]
    have := deepPath_append (seg ++ ['/']) s rest
    simp only [List.append_assoc, List.singleton_append] at this
    rw [this]

theorem deepPath_starts (p : CStr) (segs : List CStr) : p <+: deepPath p segs := by
  have := deepPath_append p [] segs
  rw [List.append_nil] at this
  rw [this]
  exact List.prefix_append _ _

theorem deepPath_length (p seg : CStr) (segs : List CStr) :
    p.length < (deepPath p (seg :: segs)).length := by
  have := deepPath_append p [] (seg :: segs)
  rw [List.append_nil] at this
  rw [this, deepPath]
  have h2 := (deepPath_starts ([] ++ '/' :: seg) segs).length_le
  simp only [List.length_append, List.nil_append, List.length_cons] at h2 ⊢
  omega

theorem deepParent_snoc (par : Option CStr) (p seg : CStr) (segs : List CStr) :
    deepParent par p (segs ++ [seg]) = some (deepPath p segs) := by
  induction segs generalizing par p with
  | nil => rfl
  | cons s rest ih =>
    rw [List.cons_append, deepParent, deepPath, ih]

theorem line_getAt (par : Option CStr) (p : CStr) (done : List CStr) :
    (NodeDir.line par p done).getAt (List.replicate done.length 0)
      = some (.mk (deepPath p done) (deepParent par p done) [] []) := by
  induction done generalizing par p with
  | nil => simp [NodeDir.line, deepPath, deepParent, getAt_nil]
  | cons s rest ih =>
    simp only [NodeDir.line, List.length_cons, List.replicate_succ, getAt_cons,
      NodeDir.childrenDirs, List.getElem?_cons_zero, Option.some_bind, deepPath, deepParent]
    exact ih _ _

theorem line_setAt (par : Option CStr) (p seg : CStr) (done : List CStr) :
    (NodeDir.line par p done).setAt (List.replicate done.length 0)
        (.mk (deepPath p done) (deepParent par p done)
          [.mk (deepPath p done ++ '/' :: seg) (some (deepPath p done)) [] []] [])
      = NodeDir.line par p (done ++ [seg]) := by
  induction done generalizing par p with
  | nil => simp [NodeDir.line, deepPath, deepParent, setAt_nil]
  | cons s rest ih =>
    rw [List.cons_append, NodeDir.line, NodeDir.line, List.length_cons, List.replicate_succ,
      deepPath, deepParent,
      setAt_cons _ _ _ _ 0 _ _ (NodeDir.line (some p) (p ++ '/' :: s) rest) (by simp),
      List.set_cons_zero, ih]

theorem link_fresh (q seg : CStr) (par : Option CStr) (h : '/' ∉ seg) :
    FT_linkParentToChildDir (.mk q par [] []) (.mk (q ++ '/' :: seg) (some q) [] [])
      = (.SUCCESS, .mk q par [.mk (q ++ '/' :: seg) (some q) [] []] [], 0) := by
  have h1 : strncmp (q ++ '/' :: seg) q q.length = 0 :=
    (strncmp_eq_zero _ _).mpr (List.prefix_append _ _)
  have h2 : (q ++ '/' :: seg).drop (q.length + 1) = seg := by
    rw [← List.drop_drop]; simp
  have h3 : strstr seg ['/'] = none := (strstr_slash_none seg).mpr h
  simp [FT_linkParentToChildDir, NodeDir_linkChildDir, NodeDir_hasChildDir,
    NodeDir_hasChildFile, NodeDir.childrenDirs, NodeDir.childrenFiles, DynArray_bsearch,
    NodeDir_getPath, NodeDir_getParent, NodeDir.withParent, h1, h2, h3, DynArray_addAt]

theorem dirLoop_line (par : Option CStr) (p : CStr) (done segs : List CStr)
    (hs : ∀ x ∈ segs, Segment x) :
    FT_insertRestOfPathDir.loop (segs.map (fun x => (false, x)))
        { firstNew := some (NodeDir.line par p done),
          curr := some (.mk (deepPath p done) (deepParent par p done) [] []),
          currLoc := List.replicate done.length 0, newCount := done.length + 1 }
      = .done
        { firstNew := some (NodeDir.line par p (done ++ segs)),
          curr := some (.mk (deepPath p (done ++ segs)) (deepParent par p (done ++ segs)) [] []),
          currLoc := List.replicate (done ++ segs).length 0,
          newCount := (done ++ segs).length + 1 } := by
  induction segs generalizing done with
  | nil => simp [FT_insertRestOfPathDir.loop]
  | cons seg rest ih =>
    have hseg := hs seg (List.mem_cons_self _ _)
    have hr : ∀ x ∈ rest, Segment x := fun x hx => hs x (List.mem_cons_of_mem _ hx)
    have hstep : Chain.addDir
        { firstNew := some (NodeDir.line par p done),
          curr := some (.mk (deepPath p done) (deepParent par p done) [] []),
          currLoc := List.replicate done.length 0, newCount := done.length + 1 } seg
        = .ok { firstNew := some (NodeDir.line par p (done ++ [seg])),
                curr := some (.mk (deepPath p (done ++ [seg]))
                  (deepParent par p (done ++ [seg])) [] []),
                currLoc := List.replicate (done ++ [seg]).length 0,
                newCount := (done ++ [seg]).length + 1 } := by
      simp only [Chain.addDir, NodeDir_create, NodeDir_buildPath, NodeDir_getPath,
        Option.map_some', link_fresh _ seg _ hseg.2, line_setAt, deepPath_snoc,
        deepParent_snoc]
      simp [List.replicate_succ']
    simp only [List.map_cons, FT_insertRestOfPathDir.loop, hstep]
    have := ih (done ++ [seg]) hr
    simp only [List.append_assoc, List.singleton_append] at this
    simpa using this

theorem getLast_joinPath (seg : CStr) (segs : List CStr) (hs : ∀ x ∈ seg :: segs, Segment x) :
    ∃ l, (joinPath (seg :: segs)).getLast? = some l ∧ l ≠ '/' := by
  induction segs generalizing seg with
  | nil =>
    obtain ⟨hne, hsl⟩ := hs seg (List.mem_cons_self _ _)
    refine ⟨seg.getLast hne, List.getLast?_eq_getLast _ hne, ?_⟩
    intro h
    exact hsl (h ▸ List.getLast_mem hne)
  | cons s rest ih =>
    obtain ⟨l, hl, hne⟩ := ih s (fun x hx => hs x (List.mem_cons_of_mem _ hx))
    refine ⟨l, ?_, hne⟩
    rw [joinPath_cons_cons]
    have hnil : joinPath (s :: rest) ≠ [] := by
      intro h
      rw [h] at hl
      simp at hl
    have : seg ++ '/' :: joinPath (s :: rest) = (seg ++ ['/']) ++ joinPath (s :: rest) := by simp
    rw [this, List.getLast?_append_of_ne_nil _ hnil, hl]

/-- On the empty tree, `FT_insertDir` of a path with segments `seg :: segs`
returns `SUCCESS` and installs the line of directories. -/
theorem insertDir_empty (seg : CStr) (segs : List CStr) (hs : ∀ x ∈ seg :: segs, Segment x) :
    FT_insertDir FT.empty (joinPath (seg :: segs))
      = .ok (.SUCCESS, { isInitialized := true, rootDir := some (NodeDir.line none seg segs),
                         rootFile := none, countDirs := segs.length + 1 }) := by
  obtain ⟨l, hl, hne⟩ := getLast_joinPath seg segs hs
  have htok := strtokAll_joinPath (seg :: segs) hs
  have hseg := hs seg (List.mem_cons_self _ _)
  have hr : ∀ x ∈ segs, Segment x := fun x hx => hs x (List.mem_cons_of_mem _ hx)
  have hfirst : Chain.addDir { firstNew := none, curr := none, currLoc := [], newCount := 0 } seg
      = .ok { firstNew := some (NodeDir.line none seg []),
              curr := some (.mk (deepPath seg []) (deepParent none seg []) [] []),
              currLoc := List.replicate ([] : List CStr).length 0,
              newCount := ([] : List CStr).length + 1 } := by
    simp [Chain.addDir, NodeDir_create, NodeDir_buildPath, NodeDir.line, deepPath, deepParent]
  have hloop := dirLoop_line none seg [] segs hr
  simp only [FT_insertDir, FT.empty, FT_traversePathDir, FT_insertRestOfPathDir,
    FT_insertRestOfPathDir.rest, hl, hne, htok, List.map_cons, FT_insertRestOfPathDir.loop,
    Option.map_none', hfirst, hloop, FT_insertRestOfPath.finish]
  simp

/-! ### Lookups in a line of directories -/

theorem traverse_line (par : Option CStr) (p : CStr) (segs : List CStr) (j : Nat)
    (hj : j ≤ segs.length) :
    FT_traversePathFromDir (deepPath p (segs.take j)) (NodeDir.line par p segs)
      = some (List.replicate j 0) := by
  induction segs generalizing par p j with
  | nil =>
    have : j = 0 := by simpa using hj
    subst this
    simp [NodeDir.line, deepPath, FT_traversePathFromDir, strcmp_self]
  | cons s rest ih =>
    cases j with
    | zero => simp [NodeDir.line, deepPath, FT_traversePathFromDir, strcmp_self]
    | succ j =>
      have hne : strcmp (deepPath p ((s :: rest).take (j + 1))) p ≠ 0 := by
        rw [Ne, strcmp_eq_zero]
        intro h
        have := deepPath_length p s (rest.take j)
        rw [List.take_succ_cons] at h
        rw [h] at this
        omega
      have hpre : strncmp (deepPath p ((s :: rest).take (j + 1))) p p.length = 0 :=
        (strncmp_eq_zero _ _).mpr (deepPath_starts _ _)
      have hrec := ih (some p) (p ++ '/' :: s) j (by simpa using hj)
      simp only [NodeDir.line, FT_traversePathFromDir, hne, hpre, if_false, if_true,
        FT_traversePathFromDir.loop]
      simp only [List.take_succ_cons, deepPath, hrec, List.replicate_succ]

theorem line_getAt_take (par : Option CStr) (p : CStr) (segs : List CStr) (j : Nat)
    (hj : j ≤ segs.length) :
    ∃ n, (NodeDir.line par p segs).getAt (List.replicate j 0) = some n ∧
      NodeDir_getPath n = deepPath p (segs.take j) := by
  induction segs generalizing par p j with
  | nil =>
    have : j = 0 := by simpa using hj
    subst this
    exact ⟨_, getAt_nil _, rfl⟩
  | cons s rest ih =>
    cases j with
    | zero => exact ⟨_, getAt_nil _, rfl⟩
    | succ j =>
      obtain ⟨n, hn, hp⟩ := ih (some p) (p ++ '/' :: s) j (by simpa using hj)
      refine ⟨n, ?_, ?_⟩
      · simp only [NodeDir.line, List.replicate_succ, getAt_cons, NodeDir.childrenDirs,
          List.getElem?_cons_zero, Option.some_bind]
        exact hn
      · rw [hp, List.take_succ_cons, deepPath]

theorem ser_line (par : Option CStr) (p : CStr) (segs : List CStr) :
    ser (NodeDir.line par p segs)
      = ((List.range (segs.length + 1)).map
          (fun k => deepPath p (segs.take k) ++ ['\n'])).flatten := by
  induction segs generalizing par p with
  | nil => simp [NodeDir.line, ser, ser.list, deepPath]
  | cons s rest ih =>
    rw [List.length_cons, List.range_succ_eq_map, List.map_cons, List.flatten_cons, List.map_map]
    simp only [NodeDir.line, ser, ser.list, ih, List.take_zero, deepPath, List.map_nil,
      List.flatten_nil, List.append_nil]
    congr 1


theorem reachable_empty : Reachable FT.empty :=
  Reachable.init _ Reachable.start

theorem reachable_exAB : Reachable FT.exAB :=
  Reachable.insertDir _ "a/b".toList .SUCCESS _ reachable_empty rfl

theorem reachable_exTwoBranches : Reachable FT.exTwoBranches :=
  Reachable.insertDir _ "a/d".toList .SUCCESS _
    (Reachable.insertDir _ "a/b/c".toList .SUCCESS
      { isInitialized := true
        rootDir := some (.mk "a".toList none
          [.mk "a/b".toList (some "a".toList)
            [.mk "a/b/c".toList (some "a/b".toList) [] []] []] [])
        rootFile := none
        countDirs := 3 } reachable_empty rfl) rfl


/-- In a reachable state a root directory excludes a root file, the object
is initialised, and `countDirs` is the number of directories. -/
theorem reachable_rootDir (s : FT) (r : NodeDir) (hs : Reachable s) (hr : s.rootDir = some r) :
    s.isInitialized = true ∧ s.rootFile = none ∧ s.countDirs = r.nodes.length := by
  have hi := reachable_inv s hs
  refine ⟨?_, ?_, ?_⟩
  · cases h : s.isInitialized with
    | true => rfl
    | false =>
      have := (hi.uninit h).1
      rw [hr] at this
      cases this
  · cases hf : s.rootFile with
    | none => rfl
    | some f =>
      have := hi.exclusive (by rw [hf]; rfl)
      rw [hr] at this
      cases this
  · have := hi.count
    simp only [FT.numDirs, hr] at this
    rw [this, destroy_eq_nodes]

theorem containsDir_line (seg : CStr) (segs : List CStr) (n j : Nat) (hj : j ≤ segs.length) :
    FT_containsDir { isInitialized := true, rootDir := some (NodeDir.line none seg segs),
                     rootFile := none, countDirs := n }
      (deepPath seg (segs.take j)) = true := by
  obtain ⟨d, hd, hp⟩ := line_getAt_take none seg segs j hj
  simp [FT_containsDir, FT_traversePathDir, traverse_line none seg segs j hj, FT.deref, hd, hp,
    strcmp_self]


/-! ### Paths below a path -/

theorem under_refl (p : CStr) : Under p p := Or.inl rfl

theorem under_length (p q : CStr) (h : Under p q) : p.length ≤ q.length := by
  rcases h with rfl | h
  · exact Nat.le_refl _
  · have := h.length_le
    simp only [List.length_append, List.length_singleton] at this
    omega

theorem under_eq_of_length (p q : CStr) (h : Under p q) (hl : q.length ≤ p.length) : q = p := by
  rcases h with rfl | h
  · rfl
  · have := h.length_le
    simp only [List.length_append, List.length_singleton] at this
    omega

theorem under_trans (a b c : CStr) (hab : Under a b) (hbc : Under b c) : Under a c := by
  rcases hab with rfl | hab
  · exact hbc
  · rcases hbc with rfl | hbc
    · exact Or.inr hab
    · exact Or.inr (hab.trans ((List.prefix_append b ['/']).trans hbc))

theorem under_antisymm (a b : CStr) (hab : Under a b) (hba : Under b a) : a = b :=
  (under_eq_of_length a b hab (under_length b a hba)).symm

theorem childPath_under (p c : CStr) (h : ChildPath p c) : Under p c ∧ p.length < c.length := by
  obtain ⟨seg, rfl, -⟩ := h
  refine ⟨Or.inr ?_, by simp⟩
  exact ⟨seg, by simp⟩

theorem under_iff (p q : CStr) :
    Under p q ↔ ∃ x, q = p ++ x ∧ (x = [] ∨ ∃ y, x = '/' :: y) := by
  constructor
  · rintro (rfl | ⟨y, rfl⟩)
    · exact ⟨[], by simp, Or.inl rfl⟩
    · exact ⟨'/' :: y, by simp, Or.inr ⟨y, rfl⟩⟩
  · rintro ⟨x, rfl, rfl | ⟨y, rfl⟩⟩
    · exact Or.inl (by simp)
    · exact Or.inr ⟨y, by simp⟩

/-- The last slash of a path: when `a/s1` with `s1` free of slashes is also
`b` followed by a slash and more, `a` lies at or below `b`. -/
theorem under_of_last_slash (a b s1 y : CStr) (hs : '/' ∉ s1)
    (h : a ++ '/' :: s1 = b ++ '/' :: y) : Under b a := by
  have ha : (a ++ ['/']) <+: (a ++ '/' :: s1) := ⟨s1, by simp⟩
  have hb : (b ++ ['/']) <+: (a ++ '/' :: s1) := ⟨y, by rw [h]; simp⟩
  rcases Nat.lt_trichotomy b.length a.length with hlt | heq | hgt
  · right
    have h1 : (b ++ ['/']) <+: (a ++ ['/']) :=
      List.prefix_of_prefix_length_le hb ha (by simp; omega)
    exact List.prefix_of_prefix_length_le h1 (List.prefix_append a ['/']) (by simp; omega)
  · left
    have h1 : (a ++ ['/']) <+: (b ++ ['/']) :=
      List.prefix_of_prefix_length_le ha hb (by simp; omega)
    have h2 := h1.eq_of_length (by simp; omega)
    exact List.append_cancel_right h2
  · exfalso
    have hbq : b <+: a ++ '/' :: s1 := ⟨'/' :: y, h.symm⟩
    have h1 : (a ++ ['/']) <+: b :=
      List.prefix_of_prefix_length_le ha hbq (by simp; omega)
    obtain ⟨w, rfl⟩ := h1
    have : s1 = w ++ '/' :: y := by
      have h3 : a ++ '/' :: s1 = a ++ '/' :: (w ++ '/' :: y) := by rw [h]; simp
      have h4 := List.append_cancel_left h3
      simpa using h4
    exact hs (by rw [this]; simp)

/-- Two children of one directory, both above the same path, have the same
path. -/
theorem childPath_unique (p c1 c2 q : CStr) (h1 : ChildPath p c1) (h2 : ChildPath p c2)
    (u1 : Under c1 q) (u2 : Under c2 q) : c1 = c2 := by
  obtain ⟨s1, rfl, hs1⟩ := h1
  obtain ⟨s2, rfl, hs2⟩ := h2
  obtain ⟨x1, rfl, hx1⟩ := (under_iff _ _).mp u1
  obtain ⟨x2, hq, hx2⟩ := (under_iff _ _).mp u2
  have h : s1 ++ x1 = s2 ++ x2 := by
    have h3 : p ++ '/' :: (s1 ++ x1) = p ++ '/' :: (s2 ++ x2) := by
      simpa using hq
    have h4 := List.append_cancel_left h3
    simpa using h4
  have t1 : (s1 ++ x1).takeWhile (fun c => c != '/') = s1 := by
    rcases hx1 with rfl | ⟨y, rfl⟩
    · rw [List.append_nil]; exact (takeWhile_segment_end s1 hs1).1
    · exact (takeWhile_segment s1 y hs1).1
  have t2 : (s2 ++ x2).takeWhile (fun c => c != '/') = s2 := by
    rcases hx2 with rfl | ⟨y, rfl⟩
    · rw [List.append_nil]; exact (takeWhile_segment_end s2 hs2).1
    · exact (takeWhile_segment s2 y hs2).1
  rw [h, t2] at t1
  rw [t1]

/-! ### Paths and positions in a well-formed hierarchy -/

theorem childDir_of_getElem (p : CStr) (par : Option CStr) (ds : List NodeDir) (fs : List NodeFile) (i : Nat)
    (c : NodeDir) (hw : (NodeDir.mk p par ds fs).WF) (hc : ds[i]? = some c) :
    c.WF ∧ ChildPath p (NodeDir_getPath c) := by
  obtain ⟨h1, h2, h3, h4, h5, h6⟩ := (wf_iff p par ds fs).mp hw
  exact ⟨h6 c (List.getElem?_mem hc), h3 c (List.getElem?_mem hc)⟩

/-- Every directory of a well-formed hierarchy has a path at or below the
path of its top. -/
theorem under_of_getAt (n d : NodeDir) (l : List Nat) (hw : n.WF) (h : n.getAt l = some d) :
    Under (NodeDir_getPath n) (NodeDir_getPath d) := by
  induction l generalizing n with
  | nil =>
    rw [getAt_nil] at h
    cases h
    exact under_refl _
  | cons i rest ih =>
    cases n with
    | mk p par ds fs =>
      rw [getAt_cons] at h
      simp only [NodeDir.childrenDirs] at h
      cases hc : ds[i]? with
      | none => simp [hc] at h
      | some c =>
        simp only [hc, Option.some_bind] at h
        obtain ⟨hcw, hcp⟩ := childDir_of_getElem p par ds fs i c hw hc
        exact under_trans _ _ _ (childPath_under _ _ hcp).1 (ih c hcw h)

theorem index_unique (ds : List NodeDir) (i k : Nat) (c1 c2 : NodeDir)
    (hs : StrictlySorted (ds.map NodeDir_getPath)) (h1 : ds[i]? = some c1)
    (h2 : ds[k]? = some c2) (hp : NodeDir_getPath c1 = NodeDir_getPath c2) : i = k := by
  have e1 := bsearch_at NodeDir_getPath NodeDir_compare dirCompare_eq ds c1 hs i c1 h1 rfl
  have e2 := bsearch_at NodeDir_getPath NodeDir_compare dirCompare_eq ds c1 hs k c2 h2 hp.symm
  rw [e1] at e2
  simpa using e2

/-- In a well-formed hierarchy the path decides the position: a directory
whose path is at or below the path of another lies in its hierarchy. -/
theorem loc_prefix_of_under (n d1 d2 : NodeDir) (l1 l2 : List Nat) (hw : n.WF)
    (h1 : n.getAt l1 = some d1) (h2 : n.getAt l2 = some d2)
    (hu : Under (NodeDir_getPath d1) (NodeDir_getPath d2)) : l1 <+: l2 := by
  induction l1 generalizing n l2 with
  | nil => exact List.nil_prefix
  | cons i rest ih =>
    cases n with
    | mk p par ds fs =>
      rw [getAt_cons] at h1
      simp only [NodeDir.childrenDirs] at h1
      cases hc : ds[i]? with
      | none => simp [hc] at h1
      | some c1 =>
        simp only [hc, Option.some_bind] at h1
        obtain ⟨hcw, hcp⟩ := childDir_of_getElem p par ds fs i c1 hw hc
        have u1 := under_of_getAt c1 d1 rest hcw h1
        cases l2 with
        | nil =>
          exfalso
          rw [getAt_nil] at h2
          cases h2
          have a1 := (childPath_under _ _ hcp).2
          have a2 := under_length _ _ u1
          have a3 := under_length _ _ hu
          simp only [NodeDir_getPath] at a1 a2 a3
          omega
        | cons k rest2 =>
          rw [getAt_cons] at h2
          simp only [NodeDir.childrenDirs] at h2
          cases hc2 : ds[k]? with
          | none => simp [hc2] at h2
          | some c2 =>
            simp only [hc2, Option.some_bind] at h2
            obtain ⟨hcw2, hcp2⟩ := childDir_of_getElem p par ds fs k c2 hw hc2
            have u2 := under_of_getAt c2 d2 rest2 hcw2 h2
            have hpe := childPath_unique p _ _ _ hcp hcp2
              (under_trans _ _ _ u1 hu) u2
            have hik := index_unique ds i k c1 c2 ((wf_iff p par ds fs).mp hw).1 hc hc2 hpe
            subst hik
            rw [hc] at hc2
            cases hc2
            have := ih c1 rest2 hcw h1 h2
            exact (List.prefix_cons_inj i).mpr this


/-! ### Reading the tree after a write through a pointer -/

theorem getAt_setAt_append (r : NodeDir) (ploc rest : List Nat) (old new : NodeDir)
    (h : r.getAt ploc = some old) :
    (r.setAt ploc new).getAt (ploc ++ rest) = new.getAt rest := by
  rw [getAt_append, getAt_setAt r ploc old new h, Option.some_bind]

/-- A position outside the hierarchy written to holds, after the write, a
node with the same path, the same files and the same child paths. -/
theorem getAt_setAt_other (r : NodeDir) (ploc l : List Nat) (old new : NodeDir)
    (h : r.getAt ploc = some old) (hp : NodeDir_getPath new = NodeDir_getPath old)
    (hl : ¬ ploc <+: l) :
    (r.getAt l = none ∧ (r.setAt ploc new).getAt l = none) ∨
    ∃ d d1, r.getAt l = some d ∧ (r.setAt ploc new).getAt l = some d1 ∧
      NodeDir_getPath d1 = NodeDir_getPath d ∧ d1.childrenFiles = d.childrenFiles ∧
      d1.childrenDirs.map NodeDir_getPath = d.childrenDirs.map NodeDir_getPath := by
  induction ploc generalizing r l with
  | nil => exact absurd List.nil_prefix hl
  | cons i prest ih =>
    cases r with
    | mk p par ds fs =>
      rw [getAt_cons] at h
      simp only [NodeDir.childrenDirs] at h
      cases hc : ds[i]? with
      | none => simp [hc] at h
      | some c =>
        simp only [hc, Option.some_bind] at h
        rw [setAt_cons p par ds fs i prest new c hc]
        have hpath : NodeDir_getPath (c.setAt prest new) = NodeDir_getPath c :=
          getPath_setAt c prest old new h hp
        have hi : i < ds.length := (List.getElem?_eq_some.mp hc).1
        cases l with
        | nil =>
          right
          refine ⟨_, _, getAt_nil _, getAt_nil _, rfl, rfl, ?_⟩
          simp only [NodeDir.childrenDirs]
          exact map_set_same NodeDir_getPath ds i c _ hc hpath
        | cons k lrest =>
          rw [getAt_cons, getAt_cons]
          simp only [NodeDir.childrenDirs]
          by_cases hki : k = i
          · subst hki
            have hl2 : ¬ prest <+: lrest := fun hpre => hl ((List.prefix_cons_inj k).mpr hpre)
            rw [hc, List.getElem?_set]
            simp only [hi, if_true, Option.some_bind]
            exact ih c lrest h hl2
          · rw [List.getElem?_set]
            simp only [Ne.symm hki, if_false]
            cases hd : (ds[k]?).bind (fun c => c.getAt lrest) with
            | none => exact Or.inl ⟨rfl, rfl⟩
            | some d => exact Or.inr ⟨d, d, rfl, rfl, rfl, rfl, rfl⟩

theorem prefix_append_cons (ploc : List Nat) (j k : Nat) (rest : List Nat) :
    (ploc ++ [j]) <+: (ploc ++ k :: rest) ↔ j = k := by
  rw [List.prefix_append_right_inj]
  constructor
  · rintro ⟨t, ht⟩
    simp only [List.singleton_append, List.cons.injEq] at ht
    exact ht.1
  · rintro rfl
    exact ⟨rest, by simp⟩

theorem not_prefix_snoc_self (ploc : List Nat) (j : Nat) : ¬ (ploc ++ [j]) <+: ploc := by
  intro h
  have := h.length_le
  simp at this

theorem isPrefix_of_snoc (ploc l : List Nat) (j : Nat) (h : (ploc ++ [j]) <+: l) :
    ploc <+: l :=
  (List.prefix_append ploc [j]).trans h

/-- After the child with index `j` is removed from the directory at `ploc`,
every directory of the tree was a directory of the old tree outside the
removed hierarchy, with the same path and files. -/
theorem erase_backward (r parent : NodeDir) (ploc l1 : List Nat) (j : Nat) (d1 : NodeDir)
    (hget : r.getAt ploc = some parent)
    (h : (r.setAt ploc (.mk (NodeDir_getPath parent) (NodeDir_getParent parent) (parent.childrenDirs.eraseIdx j)
            parent.childrenFiles)).getAt l1 = some d1) :
    ∃ l d, r.getAt l = some d ∧ ¬ (ploc ++ [j]) <+: l ∧
      NodeDir_getPath d = NodeDir_getPath d1 ∧ d.childrenFiles = d1.childrenFiles := by
  by_cases hpre : ploc <+: l1
  · obtain ⟨rest, rfl⟩ := hpre
    rw [getAt_setAt_append r ploc rest parent _ hget] at h
    cases rest with
    | nil =>
      rw [getAt_nil] at h
      cases h
      refine ⟨ploc, parent, hget, not_prefix_snoc_self ploc j, rfl, rfl⟩
    | cons k rest2 =>
      rw [getAt_cons] at h
      simp only [NodeDir.childrenDirs, List.getElem?_eraseIdx] at h
      by_cases hkj : k < j
      · simp only [hkj, if_true] at h
        refine ⟨ploc ++ k :: rest2, d1, ?_, ?_, rfl, rfl⟩
        · rw [getAt_append, hget, Option.some_bind, getAt_cons]
          exact h
        · rw [prefix_append_cons]; omega
      · simp only [hkj, if_false] at h
        refine ⟨ploc ++ (k + 1) :: rest2, d1, ?_, ?_, rfl, rfl⟩
        · rw [getAt_append, hget, Option.some_bind, getAt_cons]
          exact h
        · rw [prefix_append_cons]; omega
  · rcases getAt_setAt_other r ploc l1 parent (.mk (NodeDir_getPath parent) (NodeDir_getParent parent)
        (parent.childrenDirs.eraseIdx j) parent.childrenFiles) hget rfl hpre with ⟨-, hn⟩ | ⟨d, d2, hd, hd2, hp, hf, -⟩
    · rw [hn] at h
      cases h
    · rw [hd2] at h
      cases h
      exact ⟨l1, d, hd, fun hx => hpre (isPrefix_of_snoc ploc l1 j hx), hp.symm, hf.symm⟩

/-- After the child with index `j` is removed from the directory at `ploc`,
every directory of the old tree outside the removed hierarchy is still a
directory of the tree, with the same path, files and child paths; only the
directory at `ploc` has lost the child `j`. -/
theorem erase_forward (r parent : NodeDir) (ploc l : List Nat) (j : Nat) (d : NodeDir)
    (hget : r.getAt ploc = some parent) (h : r.getAt l = some d)
    (hl : ¬ (ploc ++ [j]) <+: l) :
    ∃ l1 d1,
      (r.setAt ploc (.mk (NodeDir_getPath parent) (NodeDir_getParent parent) (parent.childrenDirs.eraseIdx j)
        parent.childrenFiles)).getAt l1 = some d1 ∧
      NodeDir_getPath d1 = NodeDir_getPath d ∧ d1.childrenFiles = d.childrenFiles ∧
      d1.childrenDirs.map NodeDir_getPath
        = (if l = ploc then d.childrenDirs.eraseIdx j else d.childrenDirs).map NodeDir_getPath := by
  by_cases hpre : ploc <+: l
  · obtain ⟨rest, rfl⟩ := hpre
    cases rest with
    | nil =>
      rw [List.append_nil] at h ⊢
      rw [hget] at h
      cases h
      refine ⟨ploc, _, getAt_setAt r ploc parent _ hget, rfl, rfl, ?_⟩
      simp [NodeDir.childrenDirs]
    | cons k rest2 =>
      have hkj : j ≠ k := fun e => hl ((prefix_append_cons ploc j k rest2).mpr e)
      rw [getAt_append, hget, Option.some_bind, getAt_cons] at h
      have hne : ploc ++ k :: rest2 ≠ ploc := by
        intro e
        have := congrArg List.length e
        simp at this
      rw [if_neg hne]
      by_cases hlt : k < j
      · refine ⟨ploc ++ k :: rest2, d, ?_, rfl, rfl, rfl⟩
        rw [getAt_setAt_append r ploc _ parent _ hget, getAt_cons]
        simp only [NodeDir.childrenDirs, List.getElem?_eraseIdx, hlt, if_true]
        exact h
      · refine ⟨ploc ++ (k - 1) :: rest2, d, ?_, rfl, rfl, rfl⟩
        rw [getAt_setAt_append r ploc _ parent _ hget, getAt_cons]
        have h1 : ¬ k - 1 < j := by omega
        have h2 : k - 1 + 1 = k := by omega
        simp only [NodeDir.childrenDirs, List.getElem?_eraseIdx, h1, if_false, h2]
        exact h
  · have hne : l ≠ ploc := fun e => hpre (e ▸ List.prefix_refl _)
    rw [if_neg hne]
    rcases getAt_setAt_other r ploc l parent (.mk (NodeDir_getPath parent) (NodeDir_getParent parent)
        (parent.childrenDirs.eraseIdx j) parent.childrenFiles) hget rfl hpre with ⟨hn, -⟩ | ⟨d0, d2, hd, hd2, hp, hf, hc⟩
    · rw [hn] at h
      cases h
    · rw [hd] at h
      cases h
      exact ⟨l, d2, hd2, hp, hf, hc⟩

theorem map_eraseIdx {α β : Type} (f : α → β) (xs : List α) (j : Nat) :
    (xs.eraseIdx j).map f = (xs.map f).eraseIdx j := by
  induction xs generalizing j with
  | nil => simp
  | cons x rest ih =>
    cases j with
    | zero => simp
    | succ j => simp [ih]

theorem eraseIdx_eq_filter (xs : List CStr) (j : Nat) (P : CStr) (hs : StrictlySorted xs)
    (hj : xs[j]? = some P) : xs.eraseIdx j = xs.filter (fun q => decide (q ≠ P)) := by
  induction xs generalizing j with
  | nil => simp
  | cons x rest ih =>
    simp only [StrictlySorted, List.pairwise_cons] at hs
    cases j with
    | zero =>
      simp only [List.getElem?_cons_zero, Option.some.injEq] at hj
      subst hj
      simp only [List.eraseIdx_cons_zero, ne_eq, not_true_eq_false, decide_False,
        Bool.false_eq_true, not_false_eq_true, List.filter_cons_of_neg]
      symm
      rw [List.filter_eq_self]
      intro a ha
      simpa using (strcmp_ne_of_lt _ _ (hs.1 a ha)).symm
    | succ j =>
      simp only [List.getElem?_cons_succ] at hj
      have hx : x ≠ P := strcmp_ne_of_lt _ _ (hs.1 P (List.getElem?_mem hj))
      simp only [List.eraseIdx_cons_succ, ne_eq, hx, not_false_eq_true, decide_True,
        List.filter_cons_of_pos]
      rw [ih j hs.2 hj]


/-! ### What the queries report, and what `FT_rmDir` does -/

theorem containsDir_true (t : FT) (q : CStr) (h : FT_containsDir t q = true) :
    ∃ l d, t.deref l = some d ∧ NodeDir_getPath d = q := by
  unfold FT_containsDir at h
  split at h
  · cases h
  · split at h
    · cases h
    · rename_i loc hloc
      split at h
      · cases h
      · rename_i curr hd
        split at h
        · cases h
        · rename_i hcmp
          refine ⟨loc, curr, hd, ?_⟩
          have : strcmp q (NodeDir_getPath curr) = 0 := by
            by_contra hne
            exact hcmp hne
          exact ((strcmp_eq_zero _ _).mp this).symm

theorem hasChildFile_true (d : NodeDir) (q : CStr) (h : (NodeDir_hasChildFile d q).1 = true) :
    ∃ f, d.childrenFiles[(NodeDir_hasChildFile d q).2]? = some f ∧ NodeFile_getPath f = q := by
  unfold NodeDir_hasChildFile at h ⊢
  obtain ⟨f, hf, hp⟩ := bsearch_found NodeFile_getPath NodeFile_compare fileCompare_eq
    d.childrenFiles (NodeFile_create q none 0 0) h
  exact ⟨f, hf, hp⟩

theorem containsFile_true (t : FT) (q : CStr) (hf : t.rootFile = none)
    (h : FT_containsFile t q = true) :
    ∃ l d f, t.deref l = some d ∧ f ∈ d.childrenFiles ∧ NodeFile_getPath f = q := by
  unfold FT_containsFile at h
  split at h
  · cases h
  · rw [hf] at h
    simp only at h
    split at h
    · cases h
    · rename_i loc hloc
      split at h
      · cases h
      · rename_i curr hd
        split at h
        · rename_i hc
          obtain ⟨f, hfi, hp⟩ := hasChildFile_true curr q hc
          exact ⟨loc, curr, f, hd, List.getElem?_mem hfi, hp⟩
        · cases h

/-- What a successful `FT_rmDir` does in a state that satisfies the
invariant: the path names the directory at `loc`, which is the root, or the
child `j` of the directory at `ploc`, and exactly that child is removed. -/
theorem rmDir_success (s t : FT) (P : CStr) (hi : s.Inv)
    (h : FT_rmDir s P = .ok (.SUCCESS, t)) :
    ∃ r loc curr, s.rootDir = some r ∧ s.rootFile = none ∧ r.getAt loc = some curr ∧
      NodeDir_getPath curr = P ∧ t.rootFile = none ∧ t.isInitialized = true ∧
      ((loc = [] ∧ t.rootDir = none) ∨
       ∃ ploc j parent, loc = ploc ++ [j] ∧ r.getAt ploc = some parent ∧
         parent.childrenDirs[j]? = some curr ∧
         t.rootDir = some (r.setAt ploc (.mk (NodeDir_getPath parent) (NodeDir_getParent parent)
           (parent.childrenDirs.eraseIdx j) parent.childrenFiles))) := by
  unfold FT_rmDir at h
  split at h
  · cases h
  rename_i hinit0
  have hinit : s.isInitialized = true := by simpa using hinit0
  split at h
  · cases h
  rename_i loc hloc
  have hrf : s.rootFile = none := by
    unfold FT_traversePathDir at hloc
    split at hloc
    · cases hloc
    · rename_i hf
      cases hx : s.rootFile with
      | none => rfl
      | some f => rw [hx] at hf; simp at hf
  split at h
  · cases h
  rename_i curr hd
  obtain ⟨r, hr, hget⟩ := deref_some s loc curr hd
  split at h
  · cases h
  split at h
  · cases h
  rename_i hcmp
  have hP : NodeDir_getPath curr = P := by
    apply (strcmp_eq_zero _ _).mp
    by_contra hne
    exact hcmp hne
  split at h
  · rename_i hnil
    cases h
    exact ⟨r, loc, curr, hr, hrf, hget, hP, hrf, hinit, Or.inl ⟨hnil, rfl⟩⟩
  · rename_i hne
    split at h
    · cases h
    rename_i parent hpd
    cases h
    obtain ⟨r2, hr2, hgetp⟩ := deref_some s _ parent hpd
    rw [hr] at hr2
    cases hr2
    obtain ⟨parent2, hp2, hj⟩ := getAt_dropLast r loc curr hne hget
    rw [hgetp] at hp2
    cases hp2
    have hpw : parent.WF := wf_getAt r _ parent (hi.wf r hr).1 hgetp
    refine ⟨r, loc, curr, hr, hrf, hget, hP, ?_, ?_, Or.inr ⟨loc.dropLast, loc.getLast hne,
      parent, (List.dropLast_append_getLast hne).symm, hgetp, hj, ?_⟩⟩
    · simp [FT_removePathFromDir, assign_some s _ _ r hr, hrf]
    · simp [FT_removePathFromDir, assign_some s _ _ r hr, hinit]
    · rw [unlinkDir_at parent curr _ hpw hj]
      simp [FT_removePathFromDir, assign_some s _ _ r hr]

/-- A file of a well-formed directory whose path is at or below `P` forces
the directory itself to be at or below `P`, unless the file is named `P`. -/
theorem under_of_file_under (P dp q : CStr) (hc : ChildPath dp q) (hu : Under P q) :
    q = P ∨ Under P dp := by
  rcases hu with rfl | ⟨y, hy⟩
  · exact Or.inl rfl
  · right
    obtain ⟨seg, rfl, hseg⟩ := hc
    exact under_of_last_slash dp P seg y hseg (by rw [← hy]; simp)


theorem deref_of_root (s : FT) (r : NodeDir) (l : List Nat) (hr : s.rootDir = some r) :
    s.deref l = r.getAt l := by
  unfold FT.deref
  rw [hr]

theorem deref_of_no_root (s : FT) (l : List Nat) (hr : s.rootDir = none) :
    s.deref l = none := by
  unfold FT.deref
  rw [hr]

theorem bool_false_of_not_true (b : Bool) (h : b = true → False) : b = false := by
  cases b
  · rfl
  · exact (h rfl).elim

/-- A directory at a position outside the hierarchy of `curr` does not have
a path at or below the path of `curr`, and conversely. -/
theorem not_prefix_of_not_under (r curr d : NodeDir) (loc l : List Nat) (hw : r.WF)
    (hget : r.getAt loc = some curr) (hd : r.getAt l = some d)
    (hn : ¬ Under (NodeDir_getPath curr) (NodeDir_getPath d)) : ¬ loc <+: l := by
  rintro ⟨rest, rfl⟩
  rw [getAt_append, hget, Option.some_bind] at hd
  exact hn (under_of_getAt curr d rest (wf_getAt r loc curr hw hget) hd)

theorem file_childPath (d : NodeDir) (f : NodeFile) (hw : d.WF) (hf : f ∈ d.childrenFiles) :
    ChildPath (NodeDir_getPath d) (NodeFile_getPath f) := by
  cases d with
  | mk p par ds fs => exact ((wf_iff p par ds fs).mp hw).2.2.2.1 f hf

/-- The state after a successful `FT_rmDir(P)`, seen from the old tree. -/
theorem rmDir_frame (s t : FT) (P : CStr) (hi : s.Inv)
    (h : FT_rmDir s P = .ok (.SUCCESS, t)) :
    (∀ l1 d1, t.deref l1 = some d1 →
      ∃ l d, s.deref l = some d ∧ ¬ Under P (NodeDir_getPath d) ∧
        NodeDir_getPath d = NodeDir_getPath d1 ∧ d.childrenFiles = d1.childrenFiles ∧
        ∀ f ∈ d.childrenFiles, ¬ Under P (NodeFile_getPath f)) ∧
    (∀ l d, s.deref l = some d → ¬ Under P (NodeDir_getPath d) →
      ∃ l1 d1, t.deref l1 = some d1 ∧ NodeDir_getPath d1 = NodeDir_getPath d ∧
        d1.childrenFiles = d.childrenFiles ∧
        d1.childrenDirs.map NodeDir_getPath
          = (d.childrenDirs.map NodeDir_getPath).filter (fun q => decide (q ≠ P))) := by
  obtain ⟨r, loc, curr, hr, hrf, hget, hP, htf, htinit, hcase⟩ := rmDir_success s t P hi h
  have hw : r.WF := (hi.wf r hr).1
  subst hP
  rcases hcase with ⟨hnil, htr⟩ | ⟨ploc, j, parent, hloc, hgetp, hj, htr⟩
  · subst hnil
    rw [getAt_nil] at hget
    cases hget
    refine ⟨?_, ?_⟩
    · intro l1 d1 h1
      rw [deref_of_no_root t l1 htr] at h1
      cases h1
    · intro l d hd hn
      rw [deref_of_root s r l hr] at hd
      exact absurd (under_of_getAt r d l hw hd) hn
  · subst hloc
    have hpw : parent.WF := wf_getAt r ploc parent hw hgetp
    have hcp : ChildPath (NodeDir_getPath parent) (NodeDir_getPath curr) := by
      cases parent with
      | mk pp ppar ds fs => exact (childDir_of_getElem pp ppar ds fs j curr hpw hj).2
    refine ⟨?_, ?_⟩
    · intro l1 d1 h1
      rw [deref_of_root t _ l1 htr] at h1
      obtain ⟨l, d, hd, hl, hp, hf⟩ := erase_backward r parent ploc l1 j d1 hgetp h1
      have hnu : ¬ Under (NodeDir_getPath curr) (NodeDir_getPath d) := fun hu =>
        hl (loc_prefix_of_under r curr d _ l hw hget hd hu)
      refine ⟨l, d, by rw [deref_of_root s r l hr]; exact hd, hnu, hp, hf, ?_⟩
      intro f hfm hu
      have hdw : d.WF := wf_getAt r l d hw hd
      have hfc := file_childPath d f hdw hfm
      rcases under_of_file_under _ _ _ hfc hu with heq | hud
      · -- the file would carry the path of the removed directory
        obtain ⟨seg1, e1, hs1⟩ := hfc
        obtain ⟨seg2, e2, hs2⟩ := hcp
        rw [heq, e2] at e1
        have u1 := under_of_last_slash _ _ seg2 seg1 hs2 e1
        have u2 := under_of_last_slash _ _ seg1 seg2 hs1 e1.symm
        have hpp : NodeDir_getPath parent = NodeDir_getPath d := under_antisymm _ _ u2 u1
        have p1 := loc_prefix_of_under r parent d ploc l hw hgetp hd (Or.inl hpp.symm)
        have p2 := loc_prefix_of_under r d parent l ploc hw hd hgetp (Or.inl hpp)
        have hll : l = ploc := p2.eq_of_length (Nat.le_antisymm p2.length_le p1.length_le)
        subst hll
        rw [hgetp] at hd
        cases hd
        cases parent with
        | mk pp ppar ds fs =>
          exact ((wf_iff pp ppar ds fs).mp hpw).2.2.2.2.1 curr (List.getElem?_mem hj) f hfm heq.symm
      · exact hnu hud
    · intro l d hd hn
      rw [deref_of_root s r l hr] at hd
      have hl := not_prefix_of_not_under r curr d _ l hw hget hd hn
      obtain ⟨l1, d1, h1, hp, hf, hc⟩ := erase_forward r parent ploc l j d hgetp hd hl
      refine ⟨l1, d1, by rw [deref_of_root t _ l1 htr]; exact h1, hp, hf, ?_⟩
      rw [hc]
      by_cases hlp : l = ploc
      · subst hlp
        rw [hgetp] at hd
        cases hd
        rw [if_pos rfl, map_eraseIdx]
        have hsorted : StrictlySorted (parent.childrenDirs.map NodeDir_getPath) := by
          cases parent with
          | mk pp ppar ds fs => exact ((wf_iff pp ppar ds fs).mp hpw).1
        exact eraseIdx_eq_filter _ j _ hsorted (by rw [List.getElem?_map, hj]; rfl)
      · rw [if_neg hlp]
        symm
        rw [List.filter_eq_self]
        intro q hq
        obtain ⟨c, hc1, rfl⟩ := List.mem_map.mp hq
        obtain ⟨k, hk⟩ := List.mem_iff_getElem?.mp hc1
        have hck : r.getAt (l ++ [k]) = some c := by
          rw [getAt_append, hd, Option.some_bind, getAt_cons, hk, Option.some_bind, getAt_nil]
        simp only [ne_eq, decide_not, Bool.not_eq_true', decide_eq_false_iff_not]
        intro hpe
        have p1 := loc_prefix_of_under r curr c _ _ hw hget hck (Or.inl hpe)
        have p2 := loc_prefix_of_under r c curr _ _ hw hck hget (Or.inl hpe.symm)
        have hll : l ++ [k] = ploc ++ [j] :=
          p2.eq_of_length (Nat.le_antisymm p2.length_le p1.length_le)
        have hlen : l.length = ploc.length := by
          have := congrArg List.length hll
          simpa using this
        exact hlp (List.append_inj hll hlen).1


/-! ### The traversals return pointers into the tree -/

mutual
theorem traverseFromDir_valid : ∀ (path : CStr) (n : NodeDir) (loc : List Nat),
    FT_traversePathFromDir path n = some loc → ∃ d, n.getAt loc = some d
  | path, .mk p par ds fs, loc, h => by
    simp only [FT_traversePathFromDir] at h
    split at h
    · cases h; exact ⟨_, getAt_nil _⟩
    · split at h
      · split at h
        · rename_i found hfound
          cases h
          exact traverseFromDir_loop_valid path ds 0 [] p par fs loc (by simp) hfound
        · cases h; exact ⟨_, getAt_nil _⟩
      · cases h
theorem traverseFromDir_loop_valid : ∀ (path : CStr) (ds : List NodeDir) (i : Nat)
    (before : List NodeDir) (p : CStr) (par : Option CStr) (fs : List NodeFile)
    (loc : List Nat),
    before.length = i → FT_traversePathFromDir.loop path ds i = some loc →
    ∃ d, (NodeDir.mk p par (before ++ ds) fs).getAt loc = some d
  | path, [], i, before, p, par, fs, loc, _, h => by
    simp [FT_traversePathFromDir.loop] at h
  | path, c :: rest, i, before, p, par, fs, loc, hlen, h => by
    simp only [FT_traversePathFromDir.loop] at h
    split at h
    · rename_i found hfound
      cases h
      obtain ⟨d, hd⟩ := traverseFromDir_valid path c found hfound
      refine ⟨d, ?_⟩
      rw [getAt_cons]
      simp only [NodeDir.childrenDirs]
      rw [← hlen, List.getElem?_append_right (Nat.le_refl _)]
      simpa using hd
    · have := traverseFromDir_loop_valid path rest (i + 1) (before ++ [c]) p par fs loc
        (by simp [hlen]) h
      simpa using this
end

mutual
theorem traverseFromFile_valid : ∀ (path : CStr) (n : NodeDir) (loc : List Nat),
    FT_traversePathFromFile path n = some loc → ∃ d, n.getAt loc = some d
  | path, .mk p par ds fs, loc, h => by
    simp only [FT_traversePathFromFile] at h
    split at h
    · cases h; exact ⟨_, getAt_nil _⟩
    · split at h
      · cases h; exact ⟨_, getAt_nil _⟩
      · split at h
        · split at h
          · rename_i found hfound
            cases h
            exact traverseFromFile_loop_valid path ds 0 [] p par fs loc (by simp) hfound
          · cases h; exact ⟨_, getAt_nil _⟩
        · cases h
theorem traverseFromFile_loop_valid : ∀ (path : CStr) (ds : List NodeDir) (i : Nat)
    (before : List NodeDir) (p : CStr) (par : Option CStr) (fs : List NodeFile)
    (loc : List Nat),
    before.length = i → FT_traversePathFromFile.loop path ds i = some loc →
    ∃ d, (NodeDir.mk p par (before ++ ds) fs).getAt loc = some d
  | path, [], i, before, p, par, fs, loc, _, h => by
    simp [FT_traversePathFromFile.loop] at h
  | path, c :: rest, i, before, p, par, fs, loc, hlen, h => by
    simp only [FT_traversePathFromFile.loop] at h
    split at h
    · rename_i found hfound
      cases h
      obtain ⟨d, hd⟩ := traverseFromFile_valid path c found hfound
      refine ⟨d, ?_⟩
      rw [getAt_cons]
      simp only [NodeDir.childrenDirs]
      rw [← hlen, List.getElem?_append_right (Nat.le_refl _)]
      simpa using hd
    · have := traverseFromFile_loop_valid path rest (i + 1) (before ++ [c]) p par fs loc
        (by simp [hlen]) h
      simpa using this
end

/-- The pointer returned by `FT_traversePathDir` designates a directory of
the tree. -/
theorem traverseDir_valid (s : FT) (path : CStr) (loc : List Nat)
    (h : FT_traversePathDir s path = some loc) : ∃ d, s.deref loc = some d := by
  unfold FT_traversePathDir at h
  split at h
  · cases h
  · split at h
    · cases h
    · rename_i r hr
      rw [deref_of_root s r loc hr]
      exact traverseFromDir_valid path r loc h

/-- The pointer returned by `FT_traversePathFile` designates a directory of
the tree. -/
theorem traverseFile_valid (s : FT) (path : CStr) (loc : List Nat)
    (h : FT_traversePathFile s path = some loc) : ∃ d, s.deref loc = some d := by
  unfold FT_traversePathFile at h
  split at h
  · cases h
  · split at h
    · cases h
    · rename_i r hr
      rw [deref_of_root s r loc hr]
      exact traverseFromFile_valid path r loc h


/-! ### The outcomes of `FT_rmDir` -/

theorem reachable_exRootFile : Reachable FT.exRootFile :=
  Reachable.insertFile _ "x.txt".toList 7 5 .SUCCESS _ reachable_empty rfl

theorem reachable_exShadowedFile : Reachable FT.exShadowedFile :=
  Reachable.insertDir _ "a/b".toList .SUCCESS _
    (Reachable.insertFile _ "a/bc/f".toList 7 1 .SUCCESS FT.exFileInBC
      (Reachable.insertDir _ "a/bc".toList .SUCCESS FT.exABC reachable_empty rfl) rfl) rfl

/-- The pointer one step up from a pointer into the tree is a pointer into
the tree. -/
theorem deref_dropLast (s : FT) (loc : List Nat) (curr : NodeDir) (hne : loc ≠ [])
    (h : s.deref loc = some curr) : ∃ parent, s.deref loc.dropLast = some parent := by
  obtain ⟨r, hr, hget⟩ := deref_some s loc curr h
  obtain ⟨parent, hp, -⟩ := getAt_dropLast r loc curr hne hget
  exact ⟨parent, by rw [deref_of_root s r _ hr]; exact hp⟩

/-- In an initialised state `FT_rmDir` returns one of three statuses, and
each tells what the path names. -/
theorem rmDir_outcome (s : FT) (p : CStr) (hinit : s.isInitialized = true) :
    ∃ code t, FT_rmDir s p = .ok (code, t) ∧
      ((code = .SUCCESS ∧ ∃ d, s.hasDir d ∧ NodeDir_getPath d = p) ∨
       (code = .NOT_A_DIRECTORY ∧ t = s ∧
          ∃ d f, s.hasDir d ∧ f ∈ d.childrenFiles ∧ NodeFile_getPath f = p) ∨
       (code = .NO_SUCH_PATH ∧ t = s)) := by
  unfold FT_rmDir
  simp only [hinit, Bool.not_true, Bool.false_eq_true, if_false]
  cases hloc : FT_traversePathDir s p with
  | none => exact ⟨_, _, rfl, Or.inr (Or.inr ⟨rfl, rfl⟩)⟩
  | some loc =>
    obtain ⟨curr, hd⟩ := traverseDir_valid s p loc hloc
    simp only [hd]
    by_cases hf : (NodeDir_hasChildFile curr p).1 = true
    · rw [if_pos hf]
      obtain ⟨f, hfi, hp⟩ := hasChildFile_true curr p hf
      exact ⟨_, _, rfl, Or.inr (Or.inl ⟨rfl, rfl, curr, f, ⟨loc, hd⟩, List.getElem?_mem hfi, hp⟩)⟩
    · rw [if_neg hf]
      by_cases hcmp : strcmp (NodeDir_getPath curr) p ≠ 0
      · rw [if_pos hcmp]
        exact ⟨_, _, rfl, Or.inr (Or.inr ⟨rfl, rfl⟩)⟩
      · rw [if_neg hcmp]
        have hP : NodeDir_getPath curr = p := by
          apply (strcmp_eq_zero _ _).mp
          by_contra hne
          exact hcmp hne
        by_cases hnil : loc = []
        · rw [if_pos hnil]
          exact ⟨_, _, rfl, Or.inl ⟨rfl, curr, ⟨loc, hd⟩, hP⟩⟩
        · rw [if_neg hnil]
          obtain ⟨parent, hpd⟩ := deref_dropLast s loc curr hnil hd
          simp only [hpd]
          exact ⟨_, _, rfl, Or.inl ⟨rfl, curr, ⟨loc, hd⟩, hP⟩⟩

theorem rmDir_rootFile (s : FT) (p : CStr) (hinit : s.isInitialized = true)
    (hf : s.rootFile.isSome = true) : FT_rmDir s p = .ok (.NO_SUCH_PATH, s) := by
  simp [FT_rmDir, hinit, FT_traversePathDir, hf]


/-! ### The structure of a hierarchy, and what depends on it alone -/

theorem shape_list_eq (ds : List NodeDir) : NodeDir.shape.list ds = ds.map NodeDir.shape := by
  induction ds with
  | nil => rfl
  | cons c rest ih => simp [NodeDir.shape.list, ih]

theorem shape_mk (p : CStr) (par : Option CStr) (ds : List NodeDir) (fs : List NodeFile) :
    (NodeDir.mk p par ds fs).shape = .mk p par (ds.map NodeDir.shape) (fs.map NodeFile.blank) := by
  rw [NodeDir.shape, shape_list_eq]

theorem getPath_shape (n : NodeDir) : NodeDir_getPath n.shape = NodeDir_getPath n := by
  cases n
  rw [shape_mk]
  rfl

theorem bsearch_map_eq {α : Type} (key : α → CStr) (cmp : α → α → Int)
    (hcmp : ∀ a b, cmp a b = strcmp (key a) (key b)) :
    ∀ (xs ys : List α) (k : α), xs.map key = ys.map key →
      DynArray_bsearch xs k cmp = DynArray_bsearch ys k cmp
  | [], [], _, _ => rfl
  | [], _ :: _, _, h => by simp at h
  | _ :: _, [], _, h => by simp at h
  | x :: xs, y :: ys, k, h => by
    simp only [List.map_cons, List.cons.injEq] at h
    simp only [DynArray_bsearch, hcmp, h.1, bsearch_map_eq key cmp hcmp xs ys k h.2]

theorem hasChildFile_of_paths (n m : NodeDir) (path : CStr)
    (h : n.childrenFiles.map NodeFile_getPath = m.childrenFiles.map NodeFile_getPath) :
    NodeDir_hasChildFile n path = NodeDir_hasChildFile m path :=
  bsearch_map_eq NodeFile_getPath NodeFile_compare fileCompare_eq _ _ _ h

theorem hasChildDir_of_paths (n m : NodeDir) (path : CStr)
    (h : n.childrenDirs.map NodeDir_getPath = m.childrenDirs.map NodeDir_getPath) :
    NodeDir_hasChildDir n path = NodeDir_hasChildDir m path :=
  bsearch_map_eq NodeDir_getPath NodeDir_compare dirCompare_eq _ _ _ h

theorem hasChildFile_shape (n : NodeDir) (path : CStr) :
    NodeDir_hasChildFile n.shape path = NodeDir_hasChildFile n path := by
  apply hasChildFile_of_paths
  cases n
  rw [shape_mk]
  simp [NodeDir.childrenFiles, NodeFile.blank, NodeFile_getPath, Function.comp_def]

theorem hasChildDir_shape (n : NodeDir) (path : CStr) :
    NodeDir_hasChildDir n.shape path = NodeDir_hasChildDir n path := by
  apply hasChildDir_of_paths
  cases n
  rw [shape_mk]
  simp [NodeDir.childrenDirs, getPath_shape, Function.comp_def]

mutual
theorem traverseFromFile_shape : ∀ (path : CStr) (n : NodeDir),
    FT_traversePathFromFile path n.shape = FT_traversePathFromFile path n
  | path, .mk p par ds fs => by
    have h1 := hasChildFile_shape (.mk p par ds fs) path
    have h2 := hasChildDir_shape (.mk p par ds fs) path
    simp only [NodeDir.shape] at h1 h2 ⊢
    simp only [FT_traversePathFromFile]
    rw [h1, h2, traverseFromFile_loop_shape path ds 0]
theorem traverseFromFile_loop_shape : ∀ (path : CStr) (ds : List NodeDir) (i : Nat),
    FT_traversePathFromFile.loop path (NodeDir.shape.list ds) i
      = FT_traversePathFromFile.loop path ds i
  | _, [], _ => rfl
  | path, c :: rest, i => by
    simp only [NodeDir.shape.list, FT_traversePathFromFile.loop]
    rw [traverseFromFile_shape path c, traverseFromFile_loop_shape path rest (i + 1)]
end

theorem shape_setAt : ∀ (loc : List Nat) (r old new : NodeDir),
    r.getAt loc = some old → new.shape = old.shape → (r.setAt loc new).shape = r.shape
  | [], r, old, new, h, hs => by
    rw [getAt_nil] at h
    cases h
    rw [setAt_nil]
    exact hs
  | i :: rest, .mk p par ds fs, old, new, h, hs => by
    rw [getAt_cons] at h
    simp only [NodeDir.childrenDirs] at h
    cases hc : ds[i]? with
    | none => simp [hc] at h
    | some c =>
      rw [hc] at h
      simp only [Option.some_bind] at h
      rw [setAt_cons p par ds fs i rest new c hc, shape_mk, shape_mk]
      have ih := shape_setAt rest c old new h hs
      rw [map_set_same NodeDir.shape ds i c _ hc ih]

/-- A write through a pointer that keeps the path and the child directories
of the node leaves the child files of every other node as they are. -/
theorem getAt_setAt_same_dirs (r : NodeDir) (loc l : List Nat) (old new : NodeDir)
    (h : r.getAt loc = some old) (hp : NodeDir_getPath new = NodeDir_getPath old)
    (hd : new.childrenDirs = old.childrenDirs) (hl : l ≠ loc) :
    (r.getAt l = none ∧ (r.setAt loc new).getAt l = none) ∨
    ∃ d d1, r.getAt l = some d ∧ (r.setAt loc new).getAt l = some d1 ∧
      d1.childrenFiles = d.childrenFiles := by
  by_cases hpre : loc <+: l
  · obtain ⟨rest, rfl⟩ := hpre
    cases rest with
    | nil => simp at hl
    | cons j rest1 =>
      have e1 : (r.setAt loc new).getAt (loc ++ j :: rest1) = old.getAt (j :: rest1) := by
        rw [getAt_setAt_append r loc (j :: rest1) old new h, getAt_cons, getAt_cons, hd]
      have e2 : r.getAt (loc ++ j :: rest1) = old.getAt (j :: rest1) := by
        rw [getAt_append, h]
        rfl
      rw [e1, e2]
      cases old.getAt (j :: rest1) with
      | none => exact Or.inl ⟨rfl, rfl⟩
      | some d => exact Or.inr ⟨d, d, rfl, rfl, rfl⟩
  · rcases getAt_setAt_other r loc l old new h hp hpre with h1 | ⟨d, d1, h1, h2, -, h3, -⟩
    · exact Or.inl h1
    · exact Or.inr ⟨d, d1, h1, h2, h3⟩

/-- In a well-formed hierarchy a file is determined by its path. -/
theorem file_unique (r : NodeDir) (l1 l2 : List Nat) (d1 d2 : NodeDir) (f1 f2 : NodeFile)
    (hw : r.WF) (h1 : r.getAt l1 = some d1) (h2 : r.getAt l2 = some d2)
    (hf1 : f1 ∈ d1.childrenFiles) (hf2 : f2 ∈ d2.childrenFiles)
    (hp : NodeFile_getPath f1 = NodeFile_getPath f2) : l1 = l2 ∧ f1 = f2 := by
  have hw1 := wf_getAt r l1 d1 hw h1
  have hw2 := wf_getAt r l2 d2 hw h2
  obtain ⟨s1, e1, n1⟩ := file_childPath d1 f1 hw1 hf1
  obtain ⟨s2, e2, n2⟩ := file_childPath d2 f2 hw2 hf2
  have e : NodeDir_getPath d1 ++ '/' :: s1 = NodeDir_getPath d2 ++ '/' :: s2 := by
    rw [← e1, ← e2, hp]
  have u21 := under_of_last_slash _ _ s1 s2 n1 e
  have u12 := under_of_last_slash _ _ s2 s1 n2 e.symm
  have p12 := loc_prefix_of_under r d1 d2 l1 l2 hw h1 h2 u12
  have p21 := loc_prefix_of_under r d2 d1 l2 l1 hw h2 h1 u21
  have hl : l1 = l2 := p12.eq_of_length_le p21.length_le
  subst hl
  rw [h1] at h2
  cases h2
  refine ⟨rfl, ?_⟩
  obtain ⟨j1, g1⟩ := List.mem_iff_getElem?.1 hf1
  obtain ⟨j2, g2⟩ := List.mem_iff_getElem?.1 hf2
  have hs : StrictlySorted (d1.childrenFiles.map NodeFile_getPath) := by
    cases d1
    exact ((wf_iff _ _ _ _).1 hw1).2.1
  have b1 := bsearch_at NodeFile_getPath NodeFile_compare fileCompare_eq d1.childrenFiles f1 hs
    j1 f1 g1 rfl
  have b2 := bsearch_at NodeFile_getPath NodeFile_compare fileCompare_eq d1.childrenFiles f1 hs
    j2 f2 g2 hp.symm
  rw [b1] at b2
  cases b2
  rw [g1] at g2
  cases g2
  rfl

theorem mem_set_of_ne {α : Type} (xs : List α) (i : Nat) (old x g : α)
    (hi : xs[i]? = some old) (hg : g ∈ xs) (hne : g ≠ old) : g ∈ xs.set i x := by
  obtain ⟨j, hj⟩ := List.mem_iff_getElem?.1 hg
  have hij : i ≠ j := by
    intro e
    subst e
    rw [hi] at hj
    cases hj
    exact hne rfl
  apply List.mem_iff_getElem?.2
  exact ⟨j, by rw [List.getElem?_set_ne hij]; exact hj⟩

theorem reachable_exFileInBC : Reachable FT.exFileInBC :=
  Reachable.insertFile _ "a/bc/f".toList 7 1 .SUCCESS FT.exFileInBC
    (Reachable.insertDir _ "a/bc".toList .SUCCESS FT.exABC reachable_empty rfl) rfl


/-! ### `FT_replaceFileContents` on a file that `FT_containsFile` finds -/

theorem containsFile_dir (s : FT) (p : CStr) (hf : s.rootFile = none)
    (h : FT_containsFile s p = true) :
    s.isInitialized = true ∧ ∃ loc curr, FT_traversePathFile s p = some loc ∧
      s.deref loc = some curr ∧ (NodeDir_hasChildFile curr p).1 = true := by
  unfold FT_containsFile at h
  cases hi : s.isInitialized with
  | false => simp [hi] at h
  | true =>
    refine ⟨rfl, ?_⟩
    simp only [hi, hf] at h
    cases ht : FT_traversePathFile s p with
    | none => simp [ht] at h
    | some loc =>
      cases hd : s.deref loc with
      | none => simp [ht, hd] at h
      | some curr =>
        simp [ht, hd] at h
        exact ⟨loc, curr, rfl, hd, h⟩

theorem wf_disjoint (d : NodeDir) (hw : d.WF) :
    ∀ x ∈ d.childrenDirs, ∀ f ∈ d.childrenFiles, NodeDir_getPath x ≠ NodeFile_getPath f := by
  cases d
  exact ((wf_iff _ _ _ _).1 hw).2.2.2.2.1

theorem hasChildDir_false_of_file (d : NodeDir) (f : NodeFile) (hw : d.WF)
    (hf : f ∈ d.childrenFiles) : (NodeDir_hasChildDir d (NodeFile_getPath f)).1 = false := by
  apply bool_false_of_not_true
  intro h
  obtain ⟨x, hx, hxp⟩ := bsearch_found NodeDir_getPath NodeDir_compare dirCompare_eq
    d.childrenDirs (NodeDir_create (NodeFile_getPath f) none) h
  exact wf_disjoint d hw x (List.getElem?_mem hx) f hf hxp

theorem replace_dir_case (s : FT) (p : CStr) (f : NodeFile) (c2 : Ptr) (n2 : Nat)
    (type : Bool) (length : Nat)
    (hi : s.Inv) (hroot : s.rootFile = none) (hc : FT_containsFile s p = true)
    (hf : s.hasFile f) (hp : NodeFile_getPath f = p) :
    ∃ t, FT_replaceFileContents s p c2 n2 = .ok (NodeFile_getContents f, t) ∧
      FT_getFileContents t p = .ok c2 ∧
      FT_stat t p type length = .ok (.SUCCESS, true, n2) ∧
      t.shape = s.shape ∧ t.countDirs = s.countDirs ∧
      t.hasFile { path := p, parent := NodeFile_getParent f, contents := c2, length := n2 } ∧
      ∀ g, NodeFile_getPath g ≠ p → (t.hasFile g ↔ s.hasFile g) := by
  obtain ⟨hinit, loc, curr, htrav, hderef, hhas⟩ := containsFile_dir s p hroot hc
  obtain ⟨r, hr, hget⟩ := deref_some s loc curr hderef
  obtain ⟨child, hchild, hcp⟩ := hasChildFile_true curr p hhas
  have hw : r.WF := (hi.wf r hr).1
  have hwc : curr.WF := wf_getAt r loc curr hw hget
  have hfc : f = child := by
    rcases hf with hf | ⟨d, ⟨l, hl⟩, hfd⟩
    · rw [hroot] at hf
      cases hf
    · rw [deref_of_root s r l hr] at hl
      exact (file_unique r l loc d curr f child hw hl hget hfd (List.getElem?_mem hchild)
        (hp.trans hcp.symm)).2
  subst hfc
  subst hp
  have hlt : (NodeDir_hasChildFile curr (NodeFile_getPath f)).2 < curr.childrenFiles.length := by
    by_contra hge
    rw [List.getElem?_eq_none (by omega)] at hchild
    cases hchild
  have hmem : f ∈ curr.childrenFiles := List.getElem?_mem hchild
  have hnew : ∃ new, new = NodeDir.mk (NodeDir_getPath curr) (NodeDir_getParent curr)
      curr.childrenDirs
      (curr.childrenFiles.set (NodeDir_hasChildFile curr (NodeFile_getPath f)).2
        (NodeFile_replaceContents f c2 n2).2) := ⟨_, rfl⟩
  obtain ⟨new, hnew⟩ := hnew
  have hnf : new.childrenFiles = curr.childrenFiles.set
      (NodeDir_hasChildFile curr (NodeFile_getPath f)).2 (NodeFile_replaceContents f c2 n2).2 := by
    rw [hnew]; rfl
  have hnd : new.childrenDirs = curr.childrenDirs := by rw [hnew]; rfl
  have hnp : NodeDir_getPath new = NodeDir_getPath curr := by rw [hnew]; rfl
  have hpaths : new.childrenFiles.map NodeFile_getPath
      = curr.childrenFiles.map NodeFile_getPath := by
    rw [hnf]
    exact map_set_same NodeFile_getPath _ _ f _ hchild rfl
  have hshape : new.shape = curr.shape := by
    rw [hnew, ← node_eta curr, shape_mk, shape_mk]
    simp only [NodeDir_getPath, NodeDir.childrenDirs, NodeDir.childrenFiles]
    congr 1
    cases curr
    exact map_set_same NodeFile.blank _ _ f _ hchild rfl
  have hrep : FT_replaceFileContents s (NodeFile_getPath f) c2 n2
      = .ok (NodeFile_getContents f, s.assign loc new) := by
    unfold FT_replaceFileContents
    simp only [hroot, htrav, hderef, hhas, if_true, NodeDir_getChildFile, hchild, hnew]
    rfl
  refine ⟨s.assign loc new, hrep, ?_⟩
  have ht : s.assign loc new = { s with rootDir := some (r.setAt loc new) } :=
    assign_some s loc new r hr
  rw [ht]
  have htr : FT_traversePathFromFile (NodeFile_getPath f) (r.setAt loc new) = some loc := by
    rw [← traverseFromFile_shape, shape_setAt loc r curr new hget hshape,
      traverseFromFile_shape]
    simpa [FT_traversePathFile, hroot, hr] using htrav
  have hg2 : (r.setAt loc new).getAt loc = some new := getAt_setAt r loc curr new hget
  have hcf : NodeDir_hasChildFile new (NodeFile_getPath f)
      = NodeDir_hasChildFile curr (NodeFile_getPath f) :=
    hasChildFile_of_paths new curr _ hpaths
  have hcd : (NodeDir_hasChildDir new (NodeFile_getPath f)).1 = false := by
    have e : NodeDir_hasChildDir new (NodeFile_getPath f)
        = NodeDir_hasChildDir curr (NodeFile_getPath f) :=
      hasChildDir_of_paths new curr _ (by rw [hnd])
    rw [e]
    exact hasChildDir_false_of_file curr f hwc hmem
  have hgc : new.childrenFiles[(NodeDir_hasChildFile curr (NodeFile_getPath f)).2]?
      = some (NodeFile_replaceContents f c2 n2).2 := by
    rw [hnf]
    simp [List.getElem?_set, hlt]
  refine ⟨?_, ?_, ?_, rfl, ?_, ?_⟩
  · unfold FT_getFileContents
    simp only [hroot, FT_traversePathFile, FT.deref, Option.isSome_none, Bool.false_eq_true,
      if_false, htr, hg2, hcf, hhas, if_true, NodeDir_getChildFile, hgc]
    rfl
  · unfold FT_stat
    simp only [hinit, hroot, FT_traversePathFile, FT.deref, Option.isSome_none,
      Bool.false_eq_true, Bool.not_true, if_false, htr, hg2, hcd, hcf, hhas, if_true,
      NodeDir_getChildFile, hgc]
    rfl
  · simp only [FT.shape, hr, Option.map_some', shape_setAt loc r curr new hget hshape]
  · refine Or.inr ⟨new, ⟨loc, ?_⟩, ?_⟩
    · simpa [FT.deref] using hg2
    · rw [hnf]
      have : (NodeFile_replaceContents f c2 n2).2
          = { path := NodeFile_getPath f, parent := NodeFile_getParent f, contents := c2,
              length := n2 } := rfl
      rw [← this]
      exact List.mem_iff_getElem?.2 ⟨_, by rw [← hnf]; exact hgc⟩
  · intro g hg
    have hgne : g ≠ f := fun e => hg (by rw [e])
    have hgne2 : g ≠ (NodeFile_replaceContents f c2 n2).2 := fun e => hg (by rw [e]; rfl)
    constructor
    · rintro (h | ⟨d1, ⟨l, hl⟩, hgd⟩)
      · simp only [hroot] at h
        cases h
      · simp only [FT.deref] at hl
        by_cases hll : l = loc
        · subst hll
          rw [hg2] at hl
          cases hl
          rw [hnf] at hgd
          rcases List.mem_or_eq_of_mem_set hgd with h1 | h1
          · exact Or.inr ⟨curr, ⟨l, hderef⟩, h1⟩
          · exact absurd h1 hgne2
        · rcases getAt_setAt_same_dirs r loc l curr new hget hnp hnd hll with
            ⟨-, h2⟩ | ⟨d, d1x, h1, h2, h3⟩
          · rw [h2] at hl
            cases hl
          · rw [h2] at hl
            cases hl
            refine Or.inr ⟨d, ⟨l, ?_⟩, ?_⟩
            · rw [deref_of_root s r l hr]
              exact h1
            · rw [← h3]
              exact hgd
    · rintro (h | ⟨d, ⟨l, hl⟩, hgd⟩)
      · rw [hroot] at h
        cases h
      · rw [deref_of_root s r l hr] at hl
        by_cases hll : l = loc
        · subst hll
          rw [hget] at hl
          cases hl
          refine Or.inr ⟨new, ⟨l, by simpa [FT.deref] using hg2⟩, ?_⟩
          rw [hnf]
          exact mem_set_of_ne _ _ f _ g hchild hgd hgne
        · rcases getAt_setAt_same_dirs r loc l curr new hget hnp hnd hll with
            ⟨h1, -⟩ | ⟨d0, d1, h1, h2, h3⟩
          · rw [h1] at hl
            cases hl
          · rw [h1] at hl
            cases hl
            refine Or.inr ⟨d1, ⟨l, by simpa [FT.deref] using h2⟩, ?_⟩
            rw [h3]
            exact hgd

theorem replace_root_case (s : FT) (p : CStr) (f f0 : NodeFile) (c2 : Ptr) (n2 : Nat)
    (type : Bool) (length : Nat)
    (hi : s.Inv) (hroot : s.rootFile = some f0) (hc : FT_containsFile s p = true)
    (hf : s.hasFile f) (hp : NodeFile_getPath f = p) :
    ∃ t, FT_replaceFileContents s p c2 n2 = .ok (NodeFile_getContents f, t) ∧
      FT_getFileContents t p = .ok c2 ∧
      FT_stat t p type length = .ok (.SUCCESS, true, n2) ∧
      t.shape = s.shape ∧ t.countDirs = s.countDirs ∧
      t.hasFile { path := p, parent := NodeFile_getParent f, contents := c2, length := n2 } ∧
      ∀ g, NodeFile_getPath g ≠ p → (t.hasFile g ↔ s.hasFile g) := by
  have hd : s.rootDir = none := hi.exclusive (by simp [hroot])
  have hinit : s.isInitialized = true := by
    cases h : s.isInitialized with
    | true => rfl
    | false => simp [FT_containsFile, h] at hc
  have h0 : strcmp (NodeFile_getPath f0) p = 0 := by
    unfold FT_containsFile at hc
    simp only [hinit, hroot] at hc
    by_contra hne
    simp [hne] at hc
  have hff : f = f0 := by
    rcases hf with hf | ⟨d, ⟨l, hl⟩, -⟩
    · rw [hroot] at hf
      cases hf
      rfl
    · rw [deref_of_no_root s l hd] at hl
      cases hl
  subst hff
  subst hp
  have hnodir : ∀ (u : FT) (g : NodeFile), u.rootDir = none →
      ¬ ∃ d, u.hasDir d ∧ g ∈ d.childrenFiles := by
    rintro u g hu ⟨d, ⟨l, hl⟩, -⟩
    rw [deref_of_no_root u l hu] at hl
    cases hl
  refine ⟨{ s with rootFile := some (NodeFile_replaceContents f c2 n2).2 }, ?_, ?_, ?_, ?_, rfl,
    Or.inl rfl, ?_⟩
  · unfold FT_replaceFileContents
    simp only [hroot, h0, if_true]
    rfl
  · unfold FT_getFileContents
    simp only [NodeFile_replaceContents, NodeFile_getPath] at h0 ⊢
    simp only [h0, if_true]
    rfl
  · unfold FT_stat
    simp only [hinit, NodeFile_replaceContents, NodeFile_getPath] at h0 ⊢
    simp only [h0, if_true]
    rfl
  · simp only [FT.shape, hroot]
    rfl
  · intro g hg
    constructor
    · rintro (h | h)
      · simp only [Option.some.injEq] at h
        exact absurd (by rw [← h]; rfl) hg
      · exact absurd h (hnodir _ g hd)
    · rintro (h | h)
      · rw [hroot] at h
        cases h
        exact absurd rfl hg
      · exact absurd h (hnodir _ g hd)


/-! ### No directory path ends with a slash -/

theorem all_mk (Q : CStr → Prop) (p : CStr) (par : Option CStr) (ds : List NodeDir)
    (fs : List NodeFile) :
    (NodeDir.mk p par ds fs).All Q ↔ Q p ∧ ∀ c ∈ ds, c.All Q := by
  constructor
  · intro h
    refine ⟨h [] _ (getAt_nil _), ?_⟩
    intro c hc loc d hd
    obtain ⟨i, hi⟩ := List.mem_iff_getElem?.1 hc
    apply h (i :: loc) d
    rw [getAt_cons]
    simp only [NodeDir.childrenDirs, hi, Option.some_bind]
    exact hd
  · rintro ⟨hp, hc⟩ loc d hd
    cases loc with
    | nil =>
      rw [getAt_nil] at hd
      cases hd
      exact hp
    | cons i rest =>
      rw [getAt_cons] at hd
      simp only [NodeDir.childrenDirs] at hd
      cases hi : ds[i]? with
      | none => simp [hi] at hd
      | some c =>
        rw [hi] at hd
        exact hc c (List.getElem?_mem hi) rest d hd

theorem all_getAt (Q : CStr → Prop) (r d : NodeDir) (loc : List Nat) (h : r.All Q)
    (hd : r.getAt loc = some d) : d.All Q := by
  intro l x hx
  apply h (loc ++ l) x
  rw [getAt_append, hd]
  exact hx

theorem all_setAt (Q : CStr → Prop) : ∀ (loc : List Nat) (r new : NodeDir),
    r.All Q → new.All Q → (r.setAt loc new).All Q
  | [], r, new, _, hn => by
    rw [setAt_nil]
    exact hn
  | i :: rest, .mk p par ds fs, new, hr, hn => by
    cases hi : ds[i]? with
    | none =>
      simp only [NodeDir.setAt, hi]
      exact hr
    | some c =>
      rw [setAt_cons p par ds fs i rest new c hi]
      rw [all_mk] at hr ⊢
      refine ⟨hr.1, ?_⟩
      intro x hx
      rcases List.mem_or_eq_of_mem_set hx with h1 | h1
      · exact hr.2 x h1
      · rw [h1]
        exact all_setAt Q rest c new (hr.2 c (List.getElem?_mem hi)) hn

theorem getLast_append_slash (p tok : CStr) (h1 : '/' ∉ tok) (h2 : tok ≠ []) :
    NoTrailingSlash (p ++ '/' :: tok) ∧ NoTrailingSlash tok := by
  have key : NoTrailingSlash tok := by
    intro h
    exact h1 (List.mem_of_mem_getLast? h)
  refine ⟨?_, key⟩
  intro h
  apply key
  rw [← h]
  cases tok with
  | nil => exact absurd rfl h2
  | cons a t =>
    rw [show p ++ '/' :: a :: t = (p ++ ['/']) ++ a :: t by simp]
    rw [List.getLast?_append_cons]

theorem all_create (tok : CStr) (parent : Option NodeDir) (h1 : '/' ∉ tok) (h2 : tok ≠ []) :
    (NodeDir_create tok parent).All NoTrailingSlash := by
  unfold NodeDir_create
  rw [all_mk]
  refine ⟨?_, by simp⟩
  cases parent with
  | none => exact (getLast_append_slash [] tok h1 h2).2
  | some p => exact (getLast_append_slash _ tok h1 h2).1

theorem all_withParent (Q : CStr → Prop) (n : NodeDir) (par : Option CStr) (h : n.All Q) :
    (n.withParent par).All Q := by
  cases n with
  | mk p par0 ds fs =>
    rw [NodeDir.withParent, all_mk]
    exact (all_mk Q p par0 ds fs).1 h

theorem all_linkDir (Q : CStr → Prop) (parent child p1 : NodeDir) (j : Nat)
    (h : NodeDir_linkChildDir parent child = (.SUCCESS, p1, j))
    (hp : parent.All Q) (hc : child.All Q) : p1.All Q := by
  obtain ⟨-, -, -, rfl⟩ := linkChildDir_success parent child p1 j h
  rw [← node_eta parent, all_mk] at hp
  rw [all_mk]
  refine ⟨hp.1, ?_⟩
  intro x hx
  rcases (mem_addAt _ _ _ _).1 hx with h1 | h1
  · rw [h1]; exact all_withParent Q child _ hc
  · exact hp.2 x h1

theorem all_linkFile (Q : CStr → Prop) (parent : NodeDir) (child : NodeFile) (p1 : NodeDir)
    (h : NodeDir_linkChildFile parent child = (.SUCCESS, p1))
    (hp : parent.All Q) : p1.All Q := by
  obtain ⟨-, -, j, -, rfl⟩ := linkChildFile_success parent child p1 h
  rw [← node_eta parent, all_mk] at hp
  rw [all_mk]
  exact hp

theorem all_unlinkDir (Q : CStr → Prop) (parent child : NodeDir) (hp : parent.All Q) :
    (NodeDir_unlinkChildDir parent child).2.All Q := by
  unfold NodeDir_unlinkChildDir
  split
  · exact hp
  · rw [← node_eta parent, all_mk] at hp
    simp only [DynArray_removeAt]
    rw [all_mk]
    exact ⟨hp.1, fun x hx => hp.2 x (List.mem_of_mem_eraseIdx hx)⟩

theorem all_unlinkFile (Q : CStr → Prop) (parent : NodeDir) (child : NodeFile)
    (hp : parent.All Q) : (NodeDir_unlinkChildFile parent child).2.All Q := by
  unfold NodeDir_unlinkChildFile
  split
  · exact hp
  · rw [← node_eta parent, all_mk] at hp
    rw [all_mk]
    exact hp

theorem all_assign (Q : CStr → Prop) (s : FT) (loc : List Nat) (new : NodeDir)
    (hs : ∀ r, s.rootDir = some r → r.All Q) (hn : new.All Q) :
    ∀ r, (s.assign loc new).rootDir = some r → r.All Q := by
  intro r hr
  cases h : s.rootDir with
  | none =>
    simp only [FT.assign, h] at hr
    cases hr
  | some r0 =>
    rw [assign_some s loc new r0 h] at hr
    simp only [Option.some.injEq] at hr
    rw [← hr]
    exact all_setAt Q loc r0 new (hs r0 h) hn

theorem all_deref (Q : CStr → Prop) (s : FT) (loc : List Nat) (d : NodeDir)
    (hs : ∀ r, s.rootDir = some r → r.All Q) (hd : s.deref loc = some d) : d.All Q := by
  obtain ⟨r, hr, hget⟩ := deref_some s loc d hd
  exact all_getAt Q r d loc (hs r hr) hget


/-! ### The insertion loops create directories whose path does not end with a slash -/

theorem addDir_all (c c1 : Chain) (tok : CStr) (h1 : '/' ∉ tok) (h2 : tok ≠ [])
    (hf : ∀ first, c.firstNew = some first → first.All NoTrailingSlash)
    (hc : ∀ curr, c.curr = some curr → curr.All NoTrailingSlash)
    (h : c.addDir tok = .ok c1) :
    (∀ first, c1.firstNew = some first → first.All NoTrailingSlash) ∧
    (∀ curr, c1.curr = some curr → curr.All NoTrailingSlash) := by
  unfold Chain.addDir at h
  cases hfn : c.firstNew with
  | none =>
    simp only [hfn] at h
    cases h
    constructor
    · intro first hfirst
      cases hfirst
      exact all_create tok _ h1 h2
    · intro curr hcurr
      cases hcurr
      exact all_create tok _ h1 h2
  | some first =>
    simp only [hfn] at h
    cases hcu : c.curr with
    | none => simp [hcu] at h
    | some curr =>
      simp only [hcu] at h
      split at h
      · rename_i curr1 i hlink
        cases h
        have hl := ftLinkDir_success _ _ _ _ hlink
        constructor
        · intro f1 hf1
          cases hf1
          exact all_setAt _ _ _ _ (hf first hfn)
            (all_linkDir _ _ _ _ _ hl (hc curr hcu) (all_create tok _ h1 h2))
        · intro cu hcu1
          cases hcu1
          exact all_create tok _ h1 h2
      · cases h

theorem dirLoop_all (toks : List (Bool × CStr)) (c c1 : Chain)
    (htoks : ∀ t ∈ toks, '/' ∉ t.2 ∧ t.2 ≠ [])
    (hf : ∀ first, c.firstNew = some first → first.All NoTrailingSlash)
    (hc : ∀ curr, c.curr = some curr → curr.All NoTrailingSlash)
    (h : FT_insertRestOfPathDir.loop toks c = .done c1) :
    ∀ first, c1.firstNew = some first → first.All NoTrailingSlash := by
  induction toks generalizing c with
  | nil =>
    simp only [FT_insertRestOfPathDir.loop] at h
    cases h
    exact hf
  | cons t rest ih =>
    obtain ⟨pre, tok⟩ := t
    simp only [FT_insertRestOfPathDir.loop] at h
    split at h
    · cases h
    · split at h
      · rename_i c2 hadd
        have ht := htoks _ (List.mem_cons_self _ _)
        obtain ⟨a1, a2⟩ := addDir_all c c2 tok ht.1 ht.2 hf hc hadd
        exact ih c2 (fun t ht => htoks t (List.mem_cons_of_mem _ ht)) a1 a2 h
      · cases h

theorem fileLoop_all (contents : Ptr) (length : Nat) (toks : List (Bool × CStr))
    (findFile : Option CStr) (c c1 : Chain)
    (htoks : ∀ t ∈ toks, '/' ∉ t.2 ∧ t.2 ≠ [])
    (hf : ∀ first, c.firstNew = some first → first.All NoTrailingSlash)
    (hc : ∀ curr, c.curr = some curr → curr.All NoTrailingSlash)
    (h : FT_insertRestOfPathFile.loop contents length toks findFile c = .done c1) :
    ∀ first, c1.firstNew = some first → first.All NoTrailingSlash := by
  induction toks generalizing c findFile with
  | nil =>
    simp only [FT_insertRestOfPathFile.loop] at h
    cases h
    exact hf
  | cons t rest ih =>
    obtain ⟨pre, tok⟩ := t
    simp only [FT_insertRestOfPathFile.loop] at h
    split at h
    · cases h
    · split at h
      · split at h
        · rename_i first curr hfn hcu
          split at h
          · rename_i curr1 hlink
            cases h
            have hl := ftLinkFile_success _ _ _ hlink
            intro f1 hf1
            cases hf1
            exact all_setAt _ _ _ _ (hf first hfn) (all_linkFile _ _ _ _ hl (hc curr hcu))
          · cases h
        · cases h
      · split at h
        · rename_i c2 hadd
          have ht := htoks _ (List.mem_cons_self _ _)
          obtain ⟨a1, a2⟩ := addDir_all c c2 tok ht.1 ht.2 hf hc hadd
          exact ih _ c2 (fun t ht => htoks t (List.mem_cons_of_mem _ ht)) a1 a2 h
        · cases h

theorem finish_all (s : FT) (parent : Option (List Nat × NodeDir)) (c : Chain) (code : Status)
    (t : FT) (hs : ∀ r, s.rootDir = some r → r.All NoTrailingSlash)
    (hpar : ∀ loc pn, parent = some (loc, pn) → pn.All NoTrailingSlash)
    (hf : ∀ first, c.firstNew = some first → first.All NoTrailingSlash)
    (h : FT_insertRestOfPath.finish s parent c = .ok (code, t)) :
    ∀ r, t.rootDir = some r → r.All NoTrailingSlash := by
  unfold FT_insertRestOfPath.finish at h
  split at h
  · cases h
    exact hf
  · rename_i loc pn
    split at h
    · cases h
    · rename_i first hfn
      split at h
      · rename_i p1 j hlink
        cases h
        have hl := ftLinkDir_success _ _ _ _ hlink
        exact all_assign _ s loc p1 hs
          (all_linkDir _ _ _ _ _ hl (hpar loc pn rfl) (hf first hfn))
      · cases h

theorem tidy_insertDir (s : FT) (path : CStr) (code : Status) (t : FT)
    (hs : ∀ r, s.rootDir = some r → r.All NoTrailingSlash)
    (h : FT_insertDir s path = .ok (code, t)) :
    ∀ r, t.rootDir = some r → r.All NoTrailingSlash := by
  by_cases hc : code = .SUCCESS
  swap
  · rw [insertDir_failed s path code t h hc]; exact hs
  subst hc
  unfold FT_insertDir at h
  split at h
  · cases h
  unfold FT_insertRestOfPathDir at h
  have key : ∀ (parent : Option (List Nat × NodeDir)) (restPath : CStr),
      (∀ loc pn, parent = some (loc, pn) → pn.All NoTrailingSlash) →
      FT_insertRestOfPathDir.rest s path parent restPath = .ok (.SUCCESS, t) →
      ∀ r, t.rootDir = some r → r.All NoTrailingSlash := by
    clear h
    intro parent restPath hpar h
    unfold FT_insertRestOfPathDir.rest at h
    split at h
    · cases h
    · split at h
      · cases h
      · split at h
        · cases h; exact hs
        · cases h
        · rename_i c hloop
          refine finish_all s parent c _ t hs hpar ?_ h
          refine dirLoop_all _ _ c (strtokAll_tokens restPath) ?_ ?_ hloop
          · intro first hfirst
            cases hfirst
          · intro curr hcurr
            cases parent with
            | none => cases hcurr
            | some pp =>
              obtain ⟨loc, pn⟩ := pp
              cases hcurr
              exact hpar loc pn rfl
  split at h
  · split at h
    · cases h
    · exact key none path (fun _ _ hx => by cases hx) h
  · rename_i loc hloc
    split at h
    · cases h
    · rename_i curr hd
      split at h
      · cases h
      · split at h
        · cases h
        · split at h
          · cases h
          · simp only at h
            split at h
            · cases h
            · refine key (some (loc, curr)) _ ?_ h
              intro l pn hx
              cases hx
              exact all_deref _ s loc curr hs hd

theorem tidy_insertFile (s : FT) (path : CStr) (contents : Ptr) (length : Nat) (code : Status)
    (t : FT) (hs : ∀ r, s.rootDir = some r → r.All NoTrailingSlash)
    (h : FT_insertFile s path contents length = .ok (code, t)) :
    ∀ r, t.rootDir = some r → r.All NoTrailingSlash := by
  by_cases hc : code = .SUCCESS
  swap
  · rw [insertFile_failed s path contents length code t h hc]; exact hs
  subst hc
  unfold FT_insertFile at h
  split at h
  · cases h
  unfold FT_insertRestOfPathFile at h
  have key : ∀ (parent : Option (List Nat × NodeDir)) (restPath : CStr),
      (∀ loc pn, parent = some (loc, pn) → s.deref loc = some pn) →
      FT_insertRestOfPathFile.rest s path parent restPath contents length
        = .ok (.SUCCESS, t) →
      ∀ r, t.rootDir = some r → r.All NoTrailingSlash := by
    clear h
    intro parent restPath hpar0 h
    have hpar : ∀ loc pn, parent = some (loc, pn) → pn.All NoTrailingSlash :=
      fun loc pn hx => all_deref _ s loc pn hs (hpar0 loc pn hx)
    unfold FT_insertRestOfPathFile.rest at h
    split at h
    · cases h
    · split at h
      · cases h
      · split at h
        · split at h
          · cases h
            exact hs
          · rename_i loc pn
            split at h
            · rename_i p1 hlink
              cases h
              have hl := ftLinkFile_success _ _ _ hlink
              exact all_assign _ s loc p1 hs (all_linkFile _ _ _ _ hl (hpar loc pn rfl))
            · cases h
        · split at h
          · cases h; exact hs
          · cases h
          · rename_i c hloop
            refine finish_all s parent c _ t hs hpar ?_ h
            refine fileLoop_all _ _ _ _ _ c (strtokAll_tokens restPath) ?_ ?_ hloop
            · intro first hfirst
              cases hfirst
            · intro curr hcurr
              cases parent with
              | none => cases hcurr
              | some pp =>
                obtain ⟨loc, pn⟩ := pp
                cases hcurr
                exact hpar loc pn rfl
  split at h
  · split at h
    · cases h
    · exact key none path (fun _ _ hx => by cases hx) h
  · rename_i loc hloc
    split at h
    · cases h
    · rename_i curr hd
      split at h
      · cases h
      · split at h
        · cases h
        · simp only at h
          split at h
          · cases h
          · refine key (some (loc, curr)) _ ?_ h
            intro l pn hx
            cases hx
            exact hd

theorem tidy_rmDir (s : FT) (path : CStr) (code : Status) (t : FT)
    (hs : ∀ r, s.rootDir = some r → r.All NoTrailingSlash)
    (h : FT_rmDir s path = .ok (code, t)) :
    ∀ r, t.rootDir = some r → r.All NoTrailingSlash := by
  unfold FT_rmDir at h
  split at h
  · cases h; exact hs
  split at h
  · cases h; exact hs
  split at h
  · cases h
  split at h
  · cases h; exact hs
  split at h
  · cases h; exact hs
  split at h
  · cases h
    intro r hr
    cases hr
  · split at h
    · cases h
    rename_i parent hpd
    cases h
    exact all_assign _ s _ _ hs (all_unlinkDir _ parent _ (all_deref _ s _ parent hs hpd))

theorem tidy_rmFile (s : FT) (path : CStr) (code : Status) (t : FT)
    (hs : ∀ r, s.rootDir = some r → r.All NoTrailingSlash)
    (h : FT_rmFile s path = .ok (code, t)) :
    ∀ r, t.rootDir = some r → r.All NoTrailingSlash := by
  unfold FT_rmFile at h
  split at h
  · cases h; exact hs
  split at h
  · split at h
    · cases h; exact hs
    · cases h; exact hs
  · split at h
    · cases h; exact hs
    split at h
    · cases h
    rename_i curr hd
    split at h
    · split at h
      · cases h
      · cases h
        exact all_assign _ s _ _ hs (all_unlinkFile _ curr _ (all_deref _ s _ curr hs hd))
    · split at h
      · cases h; exact hs
      · cases h; exact hs

theorem tidy_replaceFileContents (s : FT) (path : CStr) (newContents : Ptr) (newLength : Nat)
    (old : Ptr) (t : FT) (hs : ∀ r, s.rootDir = some r → r.All NoTrailingSlash)
    (h : FT_replaceFileContents s path newContents newLength = .ok (old, t)) :
    ∀ r, t.rootDir = some r → r.All NoTrailingSlash := by
  unfold FT_replaceFileContents at h
  split at h
  · split at h
    · cases h; exact hs
    · cases h; exact hs
  · split at h
    · cases h
    split at h
    · cases h
    rename_i curr hd
    split at h
    · split at h
      · cases h
      · cases h
        refine all_assign _ s _ _ hs ?_
        have hc := all_deref _ s _ curr hs hd
        rw [← node_eta curr, all_mk] at hc
        rw [all_mk]
        exact hc
    · cases h; exact hs

theorem tidy_toString (s : FT) (str : Option CStr) (t : FT)
    (hs : ∀ r, s.rootDir = some r → r.All NoTrailingSlash)
    (h : FT_toString s = .ok (str, t)) :
    ∀ r, t.rootDir = some r → r.All NoTrailingSlash := by
  unfold FT_toString at h
  split at h
  · cases h; exact hs
  split at h
  · cases h; exact hs
  · simp only at h
    split at h
    · cases h
    · split at h
      · cases h
      · split at h
        · cases h; exact hs
        · split at h
          · cases h
          · cases h; exact hs

theorem tidy_init (s : FT) (hs : ∀ r, s.rootDir = some r → r.All NoTrailingSlash) :
    ∀ r, (FT_init s).2.rootDir = some r → r.All NoTrailingSlash := by
  unfold FT_init
  split
  · exact hs
  · intro r hr
    cases hr

theorem tidy_destroy (s : FT) (hs : ∀ r, s.rootDir = some r → r.All NoTrailingSlash) :
    ∀ r, (FT_destroy s).2.rootDir = some r → r.All NoTrailingSlash := by
  unfold FT_destroy
  split
  · exact hs
  split
  · exact hs
  · split
    · exact hs
    · intro r hr
      cases hr

/-- In every reachable state no directory of the tree has a path that ends
with a slash. -/
theorem reachable_tidy (s : FT) (h : Reachable s) :
    ∀ r, s.rootDir = some r → r.All NoTrailingSlash := by
  induction h with
  | start => intro r hr; cases hr
  | init s _ ih => exact tidy_init s ih
  | destroy s _ ih => exact tidy_destroy s ih
  | insertDir s path code t _ h ih => exact tidy_insertDir s path code t ih h
  | insertFile s path c n code t _ h ih => exact tidy_insertFile s path c n code t ih h
  | rmDir s path code t _ h ih => exact tidy_rmDir s path code t ih h
  | rmFile s path code t _ h ih => exact tidy_rmFile s path code t ih h
  | replaceFileContents s path c n old t _ h ih =>
    exact tidy_replaceFileContents s path c n old t ih h
  | toString s str t _ h ih => exact tidy_toString s str t ih h


/-! ### Two consecutive slashes, and the tokens of a remainder that has them -/

theorem infix_split (x y : CStr) (h : ['/', '/'] <:+: x ++ y) :
    ['/', '/'] <:+: x ∨ (x.getLast? = some '/' ∧ y.head? = some '/') ∨ ['/', '/'] <:+: y := by
  obtain ⟨a, b, hab⟩ := h
  have hab1 : x ++ y = a ++ '/' :: '/' :: b := by
    rw [← hab]; simp
  rcases List.append_eq_append_iff.1 hab1 with ⟨a1, -, h2⟩ | ⟨c1, h1, h2⟩
  · exact Or.inr (Or.inr ⟨a1, b, by rw [h2]; simp⟩)
  · cases c1 with
    | nil => exact Or.inr (Or.inr ⟨[], b, by simp at h2; rw [← h2]; simp⟩)
    | cons u c2 =>
      cases c2 with
      | nil =>
        simp only [List.cons_append, List.nil_append, List.cons.injEq] at h2
        refine Or.inr (Or.inl ⟨?_, ?_⟩)
        · rw [h1, ← h2.1]; simp
        · rw [← h2.2]; rfl
      | cons v c3 =>
        simp only [List.cons_append, List.cons.injEq] at h2
        refine Or.inl ⟨a, c3, ?_⟩
        rw [h1, ← h2.1, ← h2.2.1]
        simp

theorem infix_slash_mem (y : CStr) (h : ['/', '/'] <:+: y) : '/' ∈ y :=
  h.subset (by simp)

theorem head_slash_mem (y : CStr) (h : y.head? = some '/') : '/' ∈ y := by
  cases y with
  | nil => cases h
  | cons a t =>
    simp only [List.head?_cons, Option.some.injEq] at h
    rw [h]
    exact List.mem_cons_self _ _

theorem infix_singleton_cons (c : Char) (y : CStr) (h : ['/', '/'] <:+: c :: y) :
    y.head? = some '/' ∨ ['/', '/'] <:+: y := by
  rcases infix_split [c] y h with h1 | h1 | h1
  · have := h1.length_le
    simp at this
  · exact Or.inl h1.2
  · exact Or.inr h1

/-- A path below a parent that is not malformed: two consecutive slashes of
the path lie in the part behind the parent. -/
theorem bad_rest_of_parent (cp : CStr) (c : Char) (rest : CStr) (h1 : ¬ Malformed cp)
    (h : ['/', '/'] <:+: cp ++ c :: rest) : rest.head? = some '/' ∨ ['/', '/'] <:+: rest := by
  rcases infix_split cp (c :: rest) h with h2 | h2 | h2
  · exact absurd (Or.inr h2) h1
  · exact absurd (Or.inl h2.1) h1
  · exact infix_singleton_cons c rest h2

/-- Two consecutive slashes of a text that begins with a token lie behind
the delimiter of the token. -/
theorem bad_rest_of_token (tok rest : CStr) (h1 : '/' ∉ tok)
    (h : ['/', '/'] <:+: tok ++ '/' :: rest) : rest.head? = some '/' ∨ ['/', '/'] <:+: rest := by
  rcases infix_split tok ('/' :: rest) h with h2 | h2 | h2
  · exact absurd (infix_slash_mem tok h2) h1
  · exact absurd (List.mem_of_mem_getLast? h2.1) h1
  · exact infix_singleton_cons '/' rest h2

theorem no_double_append (p seg : CStr) (h1 : ¬ ['/', '/'] <:+: p) (h2 : NoTrailingSlash p)
    (h3 : '/' ∉ seg) : ¬ ['/', '/'] <:+: p ++ '/' :: seg := by
  intro h
  rcases infix_split p ('/' :: seg) h with h4 | h4 | h4
  · exact h1 h4
  · exact h2 h4.1
  · rcases infix_singleton_cons '/' seg h4 with h5 | h5
    · exact h3 (head_slash_mem seg h5)
    · exact h3 (infix_slash_mem seg h5)

theorem split_at_slash_unique : ∀ (a b x y : CStr), a ++ '/' :: x = b ++ '/' :: y →
    '/' ∉ a → '/' ∉ b → a = b ∧ x = y
  | [], [], x, y, h, _, _ => by simpa using h
  | [], c :: b, x, y, h, _, hb => by
    simp only [List.nil_append, List.cons_append, List.cons.injEq] at h
    exact absurd (by rw [← h.1]; exact List.mem_cons_self _ _) hb
  | c :: a, [], x, y, h, ha, _ => by
    simp only [List.nil_append, List.cons_append, List.cons.injEq] at h
    exact absurd (by rw [h.1]; exact List.mem_cons_self _ _) ha
  | c :: a, d :: b, x, y, h, ha, hb => by
    simp only [List.cons_append, List.cons.injEq] at h
    have := split_at_slash_unique a b x y h.2 (fun hm => ha (List.mem_cons_of_mem _ hm))
      (fun hm => hb (List.mem_cons_of_mem _ hm))
    exact ⟨by rw [h.1, this.1], this.2⟩

theorem getLast_of_suffix (a rest : CStr) (h : rest ≠ []) :
    (a ++ rest).getLast? = rest.getLast? := by
  cases rest with
  | nil => exact absurd rfl h
  | cons c r => exact List.getLast?_append_cons a c r

/-- One call of `strtok` on a text that begins with a slash or has two
consecutive slashes, and does not end with a slash: it returns a token; the
token is flagged, or the text is the token, a slash and a rest that again
begins with a slash or has two consecutive slashes. -/
theorem strtok_bad (rem : CStr) (hb : rem.head? = some '/' ∨ ['/', '/'] <:+: rem)
    (hl : NoTrailingSlash rem) :
    ∃ flag tok rest, strtok rem = some (flag, tok, rest) ∧ '/' ∉ tok ∧ tok ≠ [] ∧
      rest.length < rem.length ∧
      (flag = true ∨
        (rem = tok ++ '/' :: rest ∧ (rest.head? = some '/' ∨ ['/', '/'] <:+: rest) ∧
          NoTrailingSlash rest)) := by
  have hne : rem ≠ [] := by
    rintro rfl
    rcases hb with h | h
    · cases h
    · have := h.length_le
      simp at this
  have hdw : rem.dropWhile (fun c => c == '/') ≠ [] := by
    intro h
    rw [List.dropWhile_eq_nil_iff] at h
    obtain ⟨l, hlast⟩ : ∃ l, rem.getLast? = some l := by
      cases hx : rem.getLast? with
      | none => exact absurd (List.getLast?_eq_none_iff.1 hx) hne
      | some l => exact ⟨l, rfl⟩
    have := h l (List.mem_of_mem_getLast? hlast)
    simp only [beq_iff_eq] at this
    rw [this] at hlast
    exact hl hlast
  cases hst : strtok rem with
  | none =>
    unfold strtok at hst
    split at hst
    · rename_i hx
      exact absurd hx hdw
    · cases hst
  | some res =>
    obtain ⟨flag, tok, rest⟩ := res
    obtain ⟨t1, t2⟩ := strtok_token rem flag tok rest hst
    refine ⟨flag, tok, rest, rfl, t1, t2, strtok_rest_length rem flag tok rest hst, ?_⟩
    cases rem with
    | nil => exact absurd rfl hne
    | cons c rs =>
      by_cases hc : c = '/'
      · left
        subst hc
        unfold strtok at hst
        simp only [List.dropWhile_cons, beq_self_eq_true, if_true] at hst
        split at hst
        · cases hst
        · rename_i b body hbody
          simp only [Option.some.injEq, Prod.mk.injEq] at hst
          rw [← hst.1]
          have := (List.dropWhile_suffix (fun c => c == '/') (l := rs)).length_le
          rw [hbody] at this
          simp only [List.length_cons] at this ⊢
          simp only [decide_eq_true_eq]
          omega
      · right
        have hinf : ['/', '/'] <:+: c :: rs := by
          rcases hb with h | h
          · simp only [List.head?_cons, Option.some.injEq] at h
            exact absurd h hc
          · exact h
        have hmem : '/' ∈ c :: rs := infix_slash_mem _ hinf
        have hdn : (c :: rs).dropWhile (fun c => c != '/') ≠ [] := by
          intro h
          rw [List.dropWhile_eq_nil_iff] at h
          have := h '/' hmem
          simp at this
        obtain ⟨hd, tl, hcons⟩ := List.exists_cons_of_ne_nil hdn
        have hhd : hd = '/' := by
          have := List.head_dropWhile_not (fun c => c != '/') (c :: rs) hdn
          simp only [hcons, List.head_cons, bne_iff_ne, ne_eq, Bool.not_eq_true,
            bne_eq_false_iff_eq] at this
          simpa using this
        subst hhd
        have hsplit : c :: rs
            = (c :: rs).takeWhile (fun c => c != '/') ++ '/' :: tl := by
          rw [← hcons, List.takeWhile_append_dropWhile]
        unfold strtok at hst
        have hdw2 : (c :: rs).dropWhile (fun c => c == '/') = c :: rs := by
          simp [List.dropWhile_cons, hc]
        rw [hdw2] at hst
        simp only [Option.some.injEq, Prod.mk.injEq] at hst
        obtain ⟨-, htok, hrest⟩ := hst
        rw [hcons] at hrest
        simp only [List.drop_one, List.tail_cons] at hrest
        subst hrest
        rw [htok] at hsplit
        have hbad := bad_rest_of_token tok tl t1 (by rw [← hsplit]; exact hinf)
        have htl : tl ≠ [] := by
          rintro rfl
          rcases hbad with h | h
          · cases h
          · have := h.length_le
            simp at this
        refine ⟨hsplit, hbad, ?_⟩
        intro h
        apply hl
        rw [hsplit, show tok ++ '/' :: tl = (tok ++ ['/']) ++ tl by simp,
          getLast_of_suffix _ tl htl]
        exact h


/-! ### The insertion loops on a malformed remainder -/

theorem addDir_fresh (c : Chain) (tok : CStr) (h1 : '/' ∉ tok)
    (hJ : c.firstNew = none ∨
      ∃ curr, c.curr = some curr ∧ curr.childrenDirs = [] ∧ curr.childrenFiles = []) :
    ∃ c1, c.addDir tok = .ok c1 ∧
      ∃ curr, c1.curr = some curr ∧ curr.childrenDirs = [] ∧ curr.childrenFiles = [] := by
  unfold Chain.addDir
  cases hfn : c.firstNew with
  | none => exact ⟨_, rfl, _, rfl, rfl, rfl⟩
  | some first =>
    rcases hJ with h | ⟨curr, hc, hd, hf⟩
    · rw [hfn] at h
      cases h
    · have hcurr : curr = .mk (NodeDir_getPath curr) (NodeDir_getParent curr) [] [] := by
        rw [← hd, ← hf, node_eta]
      simp only [hc]
      rw [hcurr]
      simp only [NodeDir_create, NodeDir_buildPath, NodeDir_getPath, Option.map_some',
        link_fresh _ tok _ h1]
      exact ⟨_, rfl, _, rfl, rfl, rfl⟩

theorem dirLoop_bad : ∀ (fuel : Nat) (rem : CStr) (c : Chain), rem.length < fuel →
    (rem.head? = some '/' ∨ ['/', '/'] <:+: rem) → NoTrailingSlash rem →
    (c.firstNew = none ∨
      ∃ curr, c.curr = some curr ∧ curr.childrenDirs = [] ∧ curr.childrenFiles = []) →
    FT_insertRestOfPathDir.loop (strtokLoop fuel rem) c = .ret .PARENT_CHILD_ERROR
  | 0, _, _, hlen, _, _, _ => by omega
  | fuel + 1, rem, c, hlen, hb, hl, hJ => by
    obtain ⟨flag, tok, rest, hst, t1, t2, hrl, hcase⟩ := strtok_bad rem hb hl
    simp only [strtokLoop, hst, FT_insertRestOfPathDir.loop]
    rcases hcase with hflag | ⟨-, hb2, hl2⟩
    · simp [hflag]
    · cases flag with
      | true => simp
      | false =>
        obtain ⟨c1, hadd, hJ1⟩ := addDir_fresh c tok t1 hJ
        simp only [Bool.false_eq_true, if_false, hadd]
        exact dirLoop_bad fuel rest c1 (by omega) hb2 hl2 (Or.inr hJ1)

theorem strstr_of_mem (y : CStr) (h : '/' ∈ y) : ∃ k, strstr y ['/'] = some k := by
  cases hs : strstr y ['/'] with
  | none => exact absurd h ((strstr_slash_none y).1 hs)
  | some k => exact ⟨k, rfl⟩

theorem bad_mem (y : CStr) (h : y.head? = some '/' ∨ ['/', '/'] <:+: y) : '/' ∈ y := by
  rcases h with h | h
  · exact head_slash_mem y h
  · exact infix_slash_mem y h

theorem fileLoop_bad (contents : Ptr) (length : Nat) : ∀ (fuel : Nat) (rem : CStr) (c : Chain)
    (k : Nat), rem.length < fuel →
    (rem.head? = some '/' ∨ ['/', '/'] <:+: rem) → NoTrailingSlash rem →
    strstr rem ['/'] = some k →
    (c.firstNew = none ∨
      ∃ curr, c.curr = some curr ∧ curr.childrenDirs = [] ∧ curr.childrenFiles = []) →
    FT_insertRestOfPathFile.loop contents length (strtokLoop fuel rem) (some (rem.drop k)) c
      = .ret .PARENT_CHILD_ERROR
  | 0, _, _, _, hlen, _, _, _, _ => by omega
  | fuel + 1, rem, c, k, hlen, hb, hl, hk, hJ => by
    obtain ⟨flag, tok, rest, hst, t1, t2, hrl, hcase⟩ := strtok_bad rem hb hl
    simp only [strtokLoop, hst, FT_insertRestOfPathFile.loop]
    rcases hcase with hflag | ⟨hsplit, hb2, hl2⟩
    · simp [hflag]
    · cases flag with
      | true => simp
      | false =>
        obtain ⟨c1, hadd, hJ1⟩ := addDir_fresh c tok t1 hJ
        simp only [Bool.false_eq_true, if_false, hadd]
        obtain ⟨hk1, r, hk2⟩ := strstr_slash_some rem k hk
        have hrem : rem.take k ++ '/' :: r = tok ++ '/' :: rest := by
          rw [← hk2, List.take_append_drop]
          exact hsplit
        obtain ⟨-, hr⟩ := split_at_slash_unique _ _ _ _ hrem hk1 t1
        obtain ⟨k2, hk3⟩ := strstr_of_mem rest (bad_mem rest hb2)
        have hnext : FT_insertRestOfPathFile.next (rem.drop k) = some (rest.drop k2) := by
          simp only [FT_insertRestOfPathFile.next, hk2, List.drop_one, List.tail_cons, hr, hk3]
        rw [hnext]
        exact fileLoop_bad contents length fuel rest c1 k2 (by omega) hb2 hl2 hk3 (Or.inr hJ1)

/-- The rest of `FT_insertRestOfPathDir` on a malformed path. -/
theorem dirRest_malformed (s : FT) (path : CStr) (parent : Option (List Nat × NodeDir))
    (restPath : CStr) (hp : Malformed path)
    (hrest : NoTrailingSlash path →
      (restPath.head? = some '/' ∨ ['/', '/'] <:+: restPath) ∧ NoTrailingSlash restPath) :
    FT_insertRestOfPathDir.rest s path parent restPath = .ok (.PARENT_CHILD_ERROR, s) := by
  unfold FT_insertRestOfPathDir.rest
  cases hlast : path.getLast? with
  | none =>
    rcases hp with h | h
    · rw [hlast] at h
      cases h
    · rw [List.getLast?_eq_none_iff] at hlast
      subst hlast
      have := h.length_le
      simp at this
  | some last =>
    simp only
    by_cases hsl : last = '/'
    · simp [hsl]
    · have hnt : NoTrailingSlash path := by
        intro h
        rw [hlast] at h
        cases h
        exact hsl rfl
      obtain ⟨hb, hl⟩ := hrest hnt
      simp only [hsl, if_false, strtokAll]
      rw [dirLoop_bad (restPath.length + 1) restPath
        { firstNew := none, curr := parent.map (fun p => p.2), currLoc := [], newCount := 0 }
        (Nat.lt_succ_self _) hb hl (Or.inl rfl)]

/-- The rest of `FT_insertRestOfPathFile` on a malformed path. -/
theorem fileRest_malformed (s : FT) (path : CStr) (parent : Option (List Nat × NodeDir))
    (restPath : CStr) (contents : Ptr) (length : Nat) (hp : Malformed path)
    (hrest : NoTrailingSlash path →
      (restPath.head? = some '/' ∨ ['/', '/'] <:+: restPath) ∧ NoTrailingSlash restPath) :
    FT_insertRestOfPathFile.rest s path parent restPath contents length
      = .ok (.PARENT_CHILD_ERROR, s) := by
  unfold FT_insertRestOfPathFile.rest
  cases hlast : path.getLast? with
  | none =>
    rcases hp with h | h
    · rw [hlast] at h
      cases h
    · rw [List.getLast?_eq_none_iff] at hlast
      subst hlast
      have := h.length_le
      simp at this
  | some last =>
    simp only
    by_cases hsl : last = '/'
    · simp [hsl]
    · have hnt : NoTrailingSlash path := by
        intro h
        rw [hlast] at h
        cases h
        exact hsl rfl
      obtain ⟨hb, hl⟩ := hrest hnt
      obtain ⟨k, hk⟩ := strstr_of_mem restPath (bad_mem restPath hb)
      simp only [hsl, if_false, hk, strtokAll]
      rw [fileLoop_bad contents length (restPath.length + 1) restPath
        { firstNew := none, curr := parent.map (fun p => p.2), currLoc := [], newCount := 0 }
        k (Nat.lt_succ_self _) hb hl hk (Or.inl rfl)]


/-! ### What the traversals return, and insertion of a malformed path -/

mutual
theorem traverseFromDir_starts : ∀ (path : CStr) (n : NodeDir) (loc : List Nat),
    FT_traversePathFromDir path n = some loc →
    ∃ d, n.getAt loc = some d ∧ NodeDir_getPath d <+: path
  | path, .mk p par ds fs, loc, h => by
    simp only [FT_traversePathFromDir] at h
    split at h
    · rename_i h0
      cases h
      exact ⟨_, getAt_nil _, by rw [(strcmp_eq_zero _ _).1 h0]; exact List.prefix_refl _⟩
    · split at h
      · rename_i h1
        split at h
        · rename_i found hfound
          cases h
          exact traverseFromDir_loop_starts path ds 0 [] p par fs loc (by simp) hfound
        · cases h
          exact ⟨_, getAt_nil _, (strncmp_eq_zero _ _).1 h1⟩
      · cases h
theorem traverseFromDir_loop_starts : ∀ (path : CStr) (ds : List NodeDir) (i : Nat)
    (before : List NodeDir) (p : CStr) (par : Option CStr) (fs : List NodeFile)
    (loc : List Nat),
    before.length = i → FT_traversePathFromDir.loop path ds i = some loc →
    ∃ d, (NodeDir.mk p par (before ++ ds) fs).getAt loc = some d ∧ NodeDir_getPath d <+: path
  | path, [], i, before, p, par, fs, loc, _, h => by
    simp [FT_traversePathFromDir.loop] at h
  | path, c :: rest, i, before, p, par, fs, loc, hlen, h => by
    simp only [FT_traversePathFromDir.loop] at h
    split at h
    · rename_i found hfound
      cases h
      obtain ⟨d, hd, hpre⟩ := traverseFromDir_starts path c found hfound
      refine ⟨d, ?_, hpre⟩
      rw [getAt_cons]
      simp only [NodeDir.childrenDirs]
      rw [← hlen, List.getElem?_append_right (Nat.le_refl _)]
      simpa using hd
    · have := traverseFromDir_loop_starts path rest (i + 1) (before ++ [c]) p par fs loc
        (by simp [hlen]) h
      simpa using this
end

mutual
theorem traverseFromFile_starts : ∀ (path : CStr) (n : NodeDir) (loc : List Nat),
    FT_traversePathFromFile path n = some loc →
    ∃ d, n.getAt loc = some d ∧
      ((NodeDir_hasChildFile d path).1 = true ∨ (NodeDir_hasChildDir d path).1 = true ∨
        NodeDir_getPath d <+: path)
  | path, .mk p par ds fs, loc, h => by
    simp only [FT_traversePathFromFile] at h
    split at h
    · rename_i h0
      cases h
      exact ⟨_, getAt_nil _, Or.inl h0⟩
    · split at h
      · rename_i h0
        cases h
        exact ⟨_, getAt_nil _, Or.inr (Or.inl h0)⟩
      · split at h
        · rename_i h1
          split at h
          · rename_i found hfound
            cases h
            exact traverseFromFile_loop_starts path ds 0 [] p par fs loc (by simp) hfound
          · cases h
            exact ⟨_, getAt_nil _, Or.inr (Or.inr ((strncmp_eq_zero _ _).1 h1))⟩
        · cases h
theorem traverseFromFile_loop_starts : ∀ (path : CStr) (ds : List NodeDir) (i : Nat)
    (before : List NodeDir) (p : CStr) (par : Option CStr) (fs : List NodeFile)
    (loc : List Nat),
    before.length = i → FT_traversePathFromFile.loop path ds i = some loc →
    ∃ d, (NodeDir.mk p par (before ++ ds) fs).getAt loc = some d ∧
      ((NodeDir_hasChildFile d path).1 = true ∨ (NodeDir_hasChildDir d path).1 = true ∨
        NodeDir_getPath d <+: path)
  | path, [], i, before, p, par, fs, loc, _, h => by
    simp [FT_traversePathFromFile.loop] at h
  | path, c :: rest, i, before, p, par, fs, loc, hlen, h => by
    simp only [FT_traversePathFromFile.loop] at h
    split at h
    · rename_i found hfound
      cases h
      obtain ⟨d, hd, hpre⟩ := traverseFromFile_starts path c found hfound
      refine ⟨d, ?_, hpre⟩
      rw [getAt_cons]
      simp only [NodeDir.childrenDirs]
      rw [← hlen, List.getElem?_append_right (Nat.le_refl _)]
      simpa using hd
    · have := traverseFromFile_loop_starts path rest (i + 1) (before ++ [c]) p par fs loc
        (by simp [hlen]) h
      simpa using this
end

theorem no_double_getAt : ∀ (loc : List Nat) (r d : NodeDir), r.WF → r.All NoTrailingSlash →
    ¬ ['/', '/'] <:+: NodeDir_getPath r → r.getAt loc = some d →
    ¬ ['/', '/'] <:+: NodeDir_getPath d
  | [], r, d, _, _, h, hd => by
    rw [getAt_nil] at hd
    cases hd
    exact h
  | i :: rest, .mk p par ds fs, d, hw, ha, h, hd => by
    rw [getAt_cons] at hd
    simp only [NodeDir.childrenDirs] at hd
    cases hi : ds[i]? with
    | none => simp [hi] at hd
    | some c =>
      rw [hi] at hd
      simp only [Option.some_bind] at hd
      obtain ⟨hcw, seg, hseg, hns⟩ := childDir_of_getElem p par ds fs i c hw hi
      have hca : c.All NoTrailingSlash := ((all_mk _ p par ds fs).1 ha).2 c (List.getElem?_mem hi)
      have hp : NoTrailingSlash p := ((all_mk _ p par ds fs).1 ha).1
      refine no_double_getAt rest c d hcw hca ?_ hd
      rw [hseg]
      exact no_double_append p seg h hp hns

/-- In a reachable state no directory of the tree has a malformed path. -/
theorem dir_not_malformed (s : FT) (hs : Reachable s) (loc : List Nat) (d : NodeDir)
    (hd : s.deref loc = some d) : ¬ Malformed (NodeDir_getPath d) := by
  obtain ⟨r, hr, hget⟩ := deref_some s loc d hd
  have ha := reachable_tidy s hs r hr
  obtain ⟨hw, hroot⟩ := (reachable_inv s hs).wf r hr
  rintro (h | h)
  · exact ha loc d hget h
  · exact no_double_getAt loc r d hw ha (fun hx => hroot (infix_slash_mem _ hx)) hget h

/-- What a malformed path leaves behind a parent whose path it begins with. -/
theorem rest_of_parent (cp path : CStr) (hpre : cp <+: path) (hcp : ¬ Malformed cp)
    (hp : Malformed path) :
    ¬ path.length < cp.length + 1 ∧
    (NoTrailingSlash path →
      ((path.drop (cp.length + 1)).head? = some '/' ∨ ['/', '/'] <:+: path.drop (cp.length + 1)) ∧
      NoTrailingSlash (path.drop (cp.length + 1))) := by
  obtain ⟨x, rfl⟩ := hpre
  cases x with
  | nil =>
    rw [List.append_nil] at hp
    exact absurd hp hcp
  | cons c rest =>
    have hdrop : (cp ++ c :: rest).drop (cp.length + 1) = rest := by
      rw [show cp ++ c :: rest = (cp ++ [c]) ++ rest by simp]
      exact List.drop_left' (by simp)
    refine ⟨by simp, ?_⟩
    intro hnt
    rw [hdrop]
    have hinf : ['/', '/'] <:+: cp ++ c :: rest := by
      rcases hp with h | h
      · exact absurd h hnt
      · exact h
    have hb := bad_rest_of_parent cp c rest hcp hinf
    refine ⟨hb, ?_⟩
    have hne : rest ≠ [] := by
      rintro rfl
      rcases hb with h | h
      · cases h
      · have := h.length_le
        simp at this
    intro h
    apply hnt
    rw [show cp ++ c :: rest = (cp ++ [c]) ++ rest by simp, getLast_of_suffix _ rest hne]
    exact h

theorem rest_of_none (path : CStr) (hp : Malformed path) :
    NoTrailingSlash path →
      (path.head? = some '/' ∨ ['/', '/'] <:+: path) ∧ NoTrailingSlash path := by
  intro hnt
  rcases hp with h | h
  · exact absurd h hnt
  · exact ⟨Or.inr h, hnt⟩

theorem insertDir_malformed (s : FT) (p : CStr) (hs : Reachable s)
    (hinit : s.isInitialized = true) (hp : Malformed p) :
    ∃ code, FT_insertDir s p = .ok (code, s) ∧ code ≠ .SUCCESS ∧
      (s.rootDir = none → s.rootFile = none → code = .PARENT_CHILD_ERROR) := by
  unfold FT_insertDir FT_insertRestOfPathDir
  simp only [hinit, Bool.not_true, Bool.false_eq_true, if_false]
  cases htr : FT_traversePathDir s p with
  | none =>
    simp only
    split
    · rename_i hroot
      refine ⟨_, rfl, by decide, ?_⟩
      intro h1 h2
      simp [h1, h2] at hroot
    · exact ⟨_, dirRest_malformed s p none p hp (rest_of_none p hp), by decide, fun _ _ => rfl⟩
  | some loc =>
    have hr : ∃ r, s.rootDir = some r ∧ FT_traversePathFromDir p r = some loc := by
      unfold FT_traversePathDir at htr
      split at htr
      · cases htr
      · cases hrd : s.rootDir with
        | none => simp [hrd] at htr
        | some r => exact ⟨r, rfl, by simpa [hrd] using htr⟩
    obtain ⟨r, hr, htr2⟩ := hr
    obtain ⟨curr, hget, hpre⟩ := traverseFromDir_starts p r loc htr2
    have hd : s.deref loc = some curr := by
      rw [deref_of_root s r loc hr]
      exact hget
    have hcm := dir_not_malformed s hs loc curr hd
    obtain ⟨hlen, hrest⟩ := rest_of_parent _ p hpre hcm hp
    have hnr : ∀ code : Status, (s.rootDir = none → s.rootFile = none → code = .PARENT_CHILD_ERROR) :=
      fun code h1 _ => by rw [hr] at h1; cases h1
    simp only [hd]
    split
    · exact ⟨_, rfl, by decide, hnr _⟩
    · split
      · exact ⟨_, rfl, by decide, hnr _⟩
      · split
        · exact ⟨_, rfl, by decide, hnr _⟩
        · exact ⟨_, dirRest_malformed s p _ _ hp hrest, by decide, hnr _⟩

theorem insertFile_malformed (s : FT) (p : CStr) (c : Ptr) (n : Nat) (hs : Reachable s)
    (hinit : s.isInitialized = true) (hp : Malformed p) :
    ∃ code, FT_insertFile s p c n = .ok (code, s) ∧ code ≠ .SUCCESS ∧
      (s.rootDir = none → s.rootFile = none → code = .PARENT_CHILD_ERROR) := by
  unfold FT_insertFile FT_insertRestOfPathFile
  simp only [hinit, Bool.not_true, Bool.false_eq_true, if_false]
  cases htr : FT_traversePathFile s p with
  | none =>
    simp only
    split
    · rename_i hroot
      refine ⟨_, rfl, by decide, ?_⟩
      intro h1 h2
      simp [h1, h2] at hroot
    · exact ⟨_, fileRest_malformed s p none p c n hp (rest_of_none p hp), by decide,
        fun _ _ => rfl⟩
  | some loc =>
    have hr : ∃ r, s.rootDir = some r ∧ FT_traversePathFromFile p r = some loc := by
      unfold FT_traversePathFile at htr
      split at htr
      · cases htr
      · cases hrd : s.rootDir with
        | none => simp [hrd] at htr
        | some r => exact ⟨r, rfl, by simpa [hrd] using htr⟩
    obtain ⟨r, hr, htr2⟩ := hr
    obtain ⟨curr, hget, hpre⟩ := traverseFromFile_starts p r loc htr2
    have hd : s.deref loc = some curr := by
      rw [deref_of_root s r loc hr]
      exact hget
    have hcm := dir_not_malformed s hs loc curr hd
    have hnr : ∀ code : Status, (s.rootDir = none → s.rootFile = none → code = .PARENT_CHILD_ERROR) :=
      fun code h1 _ => by rw [hr] at h1; cases h1
    simp only [hd]
    split
    · exact ⟨_, rfl, by decide, hnr _⟩
    · rename_i hno
      simp only [Bool.or_eq_true, not_or] at hno
      have hpre2 : NodeDir_getPath curr <+: p := by
        rcases hpre with h | h | h
        · exact absurd h hno.1
        · exact absurd h hno.2
        · exact h
      obtain ⟨hlen, hrest⟩ := rest_of_parent _ p hpre2 hcm hp
      rw [if_neg hlen]
      split
      · exact ⟨_, rfl, by decide, hnr _⟩
      · exact ⟨_, fileRest_malformed s p _ _ c n hp hrest, by decide, hnr _⟩


/-! ### The path of a root file has no slash -/

theorem assign_rootFile (s : FT) (loc : List Nat) (new : NodeDir) :
    (s.assign loc new).rootFile = s.rootFile := by
  unfold FT.assign
  split <;> rfl

theorem finish_rootFile (s : FT) (parent : Option (List Nat × NodeDir)) (c : Chain)
    (code : Status) (t : FT) (h : FT_insertRestOfPath.finish s parent c = .ok (code, t)) :
    t.rootFile = s.rootFile := by
  unfold FT_insertRestOfPath.finish at h
  split at h
  · cases h
    rfl
  · split at h
    · cases h
    · split at h
      · cases h
        exact assign_rootFile s _ _
      · cases h

theorem rootFile_insertDir (s : FT) (path : CStr) (code : Status) (t : FT)
    (h : FT_insertDir s path = .ok (code, t)) : t.rootFile = s.rootFile := by
  by_cases hc : code = .SUCCESS
  swap
  · rw [insertDir_failed s path code t h hc]
  subst hc
  unfold FT_insertDir at h
  split at h
  · cases h
  unfold FT_insertRestOfPathDir at h
  have key : ∀ (parent : Option (List Nat × NodeDir)) (restPath : CStr),
      FT_insertRestOfPathDir.rest s path parent restPath = .ok (.SUCCESS, t) →
      t.rootFile = s.rootFile := by
    clear h
    intro parent restPath h
    unfold FT_insertRestOfPathDir.rest at h
    split at h
    · cases h
    · split at h
      · cases h
      · split at h
        · cases h; rfl
        · cases h
        · exact finish_rootFile s parent _ _ t h
  split at h
  · split at h
    · cases h
    · exact key none path h
  · split at h
    · cases h
    · split at h
      · cases h
      · split at h
        · cases h
        · split at h
          · cases h
          · simp only at h
            split at h
            · cases h
            · exact key _ _ h

theorem rootFile_insertFile (s : FT) (path : CStr) (contents : Ptr) (length : Nat)
    (code : Status) (t : FT)
    (hs : ∀ f, s.rootFile = some f → '/' ∉ NodeFile_getPath f)
    (h : FT_insertFile s path contents length = .ok (code, t)) :
    ∀ f, t.rootFile = some f → '/' ∉ NodeFile_getPath f := by
  by_cases hc : code = .SUCCESS
  swap
  · rw [insertFile_failed s path contents length code t h hc]; exact hs
  subst hc
  unfold FT_insertFile at h
  split at h
  · cases h
  unfold FT_insertRestOfPathFile at h
  have key : ∀ (parent : Option (List Nat × NodeDir)) (restPath : CStr),
      (parent = none → restPath = path) →
      FT_insertRestOfPathFile.rest s path parent restPath contents length
        = .ok (.SUCCESS, t) →
      ∀ f, t.rootFile = some f → '/' ∉ NodeFile_getPath f := by
    clear h
    intro parent restPath hpar h
    unfold FT_insertRestOfPathFile.rest at h
    split at h
    · cases h
    · split at h
      · cases h
      · split at h
        · rename_i hstr
          split at h
          · cases h
            intro f hf
            cases hf
            rw [hpar rfl] at hstr
            exact (strstr_slash_none path).1 hstr
          · split at h
            · cases h
              rw [assign_rootFile]
              exact hs
            · cases h
        · split at h
          · cases h; exact hs
          · cases h
          · rw [finish_rootFile s parent _ _ t h]
            exact hs
  split at h
  · split at h
    · cases h
    · exact key none path (fun _ => rfl) h
  · split at h
    · cases h
    · split at h
      · cases h
      · split at h
        · cases h
        · simp only at h
          split at h
          · cases h
          · exact key _ _ (fun hx => by cases hx) h

theorem rootFile_rmDir (s : FT) (path : CStr) (code : Status) (t : FT)
    (h : FT_rmDir s path = .ok (code, t)) : t.rootFile = s.rootFile := by
  unfold FT_rmDir at h
  split at h
  · cases h; rfl
  split at h
  · cases h; rfl
  split at h
  · cases h
  split at h
  · cases h; rfl
  split at h
  · cases h; rfl
  split at h
  · cases h
    rfl
  · split at h
    · cases h
    cases h
    exact assign_rootFile s _ _

theorem rootFile_rmFile (s : FT) (path : CStr) (code : Status) (t : FT)
    (hs : ∀ f, s.rootFile = some f → '/' ∉ NodeFile_getPath f)
    (h : FT_rmFile s path = .ok (code, t)) :
    ∀ f, t.rootFile = some f → '/' ∉ NodeFile_getPath f := by
  unfold FT_rmFile at h
  split at h
  · cases h; exact hs
  split at h
  · split at h
    · cases h
      intro f hf
      cases hf
    · cases h; exact hs
  · split at h
    · cases h; exact hs
    split at h
    · cases h
    split at h
    · split at h
      · cases h
      · cases h
        rw [assign_rootFile]
        exact hs
    · split at h
      · cases h; exact hs
      · cases h; exact hs

theorem rootFile_replaceFileContents (s : FT) (path : CStr) (newContents : Ptr)
    (newLength : Nat) (old : Ptr) (t : FT)
    (hs : ∀ f, s.rootFile = some f → '/' ∉ NodeFile_getPath f)
    (h : FT_replaceFileContents s path newContents newLength = .ok (old, t)) :
    ∀ f, t.rootFile = some f → '/' ∉ NodeFile_getPath f := by
  unfold FT_replaceFileContents at h
  split at h
  · rename_i f0 hf0
    split at h
    · cases h
      intro f hf
      cases hf
      exact hs f0 hf0
    · cases h; exact hs
  · split at h
    · cases h
    split at h
    · cases h
    split at h
    · split at h
      · cases h
      · cases h
        rw [assign_rootFile]
        exact hs
    · cases h; exact hs

theorem rootFile_toString (s : FT) (str : Option CStr) (t : FT)
    (hs : ∀ f, s.rootFile = some f → '/' ∉ NodeFile_getPath f)
    (h : FT_toString s = .ok (str, t)) :
    ∀ f, t.rootFile = some f → '/' ∉ NodeFile_getPath f := by
  unfold FT_toString at h
  split at h
  · cases h; exact hs
  split at h
  · rename_i f0 hf0
    cases h
    intro f hf
    cases hf
    have := hs f0 hf0
    simp only [NodeFile_getPath] at this ⊢
    simp [this]
  · simp only at h
    split at h
    · cases h
    · split at h
      · cases h
      · split at h
        · cases h; exact hs
        · split at h
          · cases h
          · cases h; exact hs

/-- In every reachable state the path of a root file has no slash: the file
was created without a parent. -/
theorem reachable_rootFile (s : FT) (h : Reachable s) :
    ∀ f, s.rootFile = some f → '/' ∉ NodeFile_getPath f := by
  induction h with
  | start => intro f hf; cases hf
  | init s _ ih =>
    unfold FT_init
    split
    · exact ih
    · intro f hf; cases hf
  | destroy s _ ih =>
    unfold FT_destroy
    split
    · exact ih
    split
    · exact ih
    · split
      · intro f hf; cases hf
      · intro f hf
        have e : (FT_removePathFromDir s s.rootDir).rootFile = s.rootFile := by
          unfold FT_removePathFromDir
          split <;> rfl
        exact ih f (e ▸ hf)
  | insertDir s path code t _ h ih => rw [rootFile_insertDir s path code t h]; exact ih
  | insertFile s path c n code t _ h ih => exact rootFile_insertFile s path c n code t ih h
  | rmDir s path code t _ h ih => rw [rootFile_rmDir s path code t h]; exact ih
  | rmFile s path code t _ h ih => exact rootFile_rmFile s path code t ih h
  | replaceFileContents s path c n old t _ h ih =>
    exact rootFile_replaceFileContents s path c n old t ih h
  | toString s str t _ h ih => exact rootFile_toString s str t ih h

/-! ### A path names one node -/

theorem parent_unique (a b q : CStr) (ha : ChildPath a q) (hb : ChildPath b q) : a = b := by
  obtain ⟨s1, e1, n1⟩ := ha
  obtain ⟨s2, e2, n2⟩ := hb
  have e : a ++ '/' :: s1 = b ++ '/' :: s2 := by rw [← e1, ← e2]
  exact under_antisymm a b (under_of_last_slash _ _ s2 s1 n2 e.symm)
    (under_of_last_slash _ _ s1 s2 n1 e)

theorem loc_unique (r d1 d2 : NodeDir) (l1 l2 : List Nat) (hw : r.WF)
    (h1 : r.getAt l1 = some d1) (h2 : r.getAt l2 = some d2)
    (hp : NodeDir_getPath d1 = NodeDir_getPath d2) : l1 = l2 := by
  have p12 := loc_prefix_of_under r d1 d2 l1 l2 hw h1 h2 (by rw [hp]; exact under_refl _)
  have p21 := loc_prefix_of_under r d2 d1 l2 l1 hw h2 h1 (by rw [hp]; exact under_refl _)
  exact p12.eq_of_length_le p21.length_le

/-- In a well-formed hierarchy whose root path has no slash, no path is the
path of a directory and of a file. -/
theorem dir_file_distinct (r d d1 : NodeDir) (f : NodeFile) (l l1 : List Nat) (hw : r.WF)
    (hroot : '/' ∉ NodeDir_getPath r) (hd : r.getAt l = some d) (hd1 : r.getAt l1 = some d1)
    (hf : f ∈ d1.childrenFiles) : NodeDir_getPath d ≠ NodeFile_getPath f := by
  intro he
  have hfc := file_childPath d1 f (wf_getAt r l1 d1 hw hd1) hf
  by_cases hl : l = []
  · subst hl
    rw [getAt_nil] at hd
    cases hd
    obtain ⟨seg, hseg, -⟩ := hfc
    apply hroot
    rw [he, hseg]
    simp
  · obtain ⟨parent, hp, hj⟩ := getAt_dropLast r l d hl hd
    have hpw := wf_getAt r _ parent hw hp
    have hdc : ChildPath (NodeDir_getPath parent) (NodeDir_getPath d) := by
      cases parent with
      | mk pp ppar pds pfs => exact (childDir_of_getElem pp ppar pds pfs _ d hpw hj).2
    rw [he] at hdc
    have hpp := parent_unique _ _ _ hdc hfc
    have hll := loc_unique r parent d1 _ _ hw hp hd1 hpp
    rw [hll, hd1] at hp
    cases hp
    exact wf_disjoint d1 (wf_getAt r l1 d1 hw hd1) d (List.getElem?_mem hj) f hf he

theorem reachable_exA : Reachable FT.exA :=
  Reachable.insertDir _ "a".toList .SUCCESS FT.exA reachable_empty rfl

theorem reachable_exFileBesideDir : Reachable FT.exFileBesideDir :=
  Reachable.insertDir _ "a/b".toList .SUCCESS FT.exFileBesideDir
    (Reachable.insertFile _ "a/bcd".toList 7 1 .SUCCESS FT.exFileBCD reachable_exA rfl) rfl

theorem destroy_getAt_le (r d : NodeDir) (loc : List Nat) (h : r.getAt loc = some d) :
    NodeDir_destroy d ≤ NodeDir_destroy r := by
  have h1 := destroy_setAt r loc d (.mk [] none [] []) h
  have h2 := destroy_pos (r.setAt loc (.mk [] none [] []))
  have h3 : NodeDir_destroy (.mk [] none [] []) = 1 := by
    simp [destroy_mk, destroy_children_nil]
  omega


/-! ### The walk of the checker -/

theorem isValid_loop_sorted : ∀ (cs : List (Option Node)),
    Checker_Node_isValid.loop cs = .ok true →
    ∀ (i : Nat) (c1 c2 : Node) (p1 p2 : CStr), cs[i]? = some (some c1) →
      cs[i + 1]? = some (some c2) → Node_getPath c1 = some p1 → Node_getPath c2 = some p2 →
      strcmp p1 p2 < 0
  | [], _, i, c1, c2, p1, p2, h1, _, _, _ => by simp at h1
  | [_], _, i, c1, c2, p1, p2, _, h2, _, _ => by simp at h2
  | a :: b :: rest, h, i, c1, c2, p1, p2, h1, h2, hp1, hp2 => by
    unfold Checker_Node_isValid.loop at h
    split at h
    · rename_i n1 n2
      split at h
      · rename_i q1 q2 hq1 hq2
        split at h
        · cases h
        · rename_i hlt
          cases i with
          | zero =>
            simp only [List.getElem?_cons_zero, List.getElem?_cons_succ, Option.some.injEq,
              zero_add] at h1 h2
            subst h1
            subst h2
            rw [hq1] at hp1
            rw [hq2] at hp2
            cases hp1
            cases hp2
            omega
          | succ j =>
            simp only [List.getElem?_cons_succ] at h1 h2
            exact isValid_loop_sorted (some n2 :: rest) h j c1 c2 p1 p2 h1
              (by simpa using h2) hp1 hp2
      · cases h
    · cases h

theorem isValid_true_loop (n : Node) (h : Checker_Node_isValid (some n) = .ok true) :
    Checker_Node_isValid.loop n.children = .ok true := by
  unfold Checker_Node_isValid at h
  simp only at h
  split at h
  · cases h
  · split at h
    · cases h
    · cases h
    · assumption

theorem node_mk_eta (n : Node) : Node.mk (Node_getPath n) (Node_getParent n) n.children = n := by
  cases n
  rfl

mutual
theorem treeCheck_node_true : ∀ (n : Node) (c k : Nat),
    Checker_treeCheck.node n c = .ok (true, k) →
    k = c + n.size ∧
    ∀ m ∈ n.subnodes, Checker_Node_isValid.loop m.children = .ok true
  | .mk path parent children, c, k, h => by
    simp only [Checker_treeCheck.node] at h
    split at h
    · cases h
    · cases h
    · rename_i hv
      obtain ⟨hk, hm⟩ := treeCheck_loop_true (.mk path parent children) children (c + 1) k h
      refine ⟨?_, ?_⟩
      · simp only [Node.size]
        omega
      · intro m hmem
        simp only [Node.subnodes, List.mem_cons] at hmem
        rcases hmem with rfl | hmem
        · exact isValid_true_loop _ hv
        · exact hm m hmem
theorem treeCheck_loop_true : ∀ (n : Node) (cs : List (Option Node)) (c k : Nat),
    Checker_treeCheck.loop n cs c = .ok (true, k) →
    k = c + Node.size.list cs ∧
    ∀ m ∈ Node.subnodes.list cs, Checker_Node_isValid.loop m.children = .ok true
  | n, [], c, k, h => by
    simp only [Checker_treeCheck.loop] at h
    cases h
    exact ⟨by simp [Node.size.list], by simp [Node.subnodes.list]⟩
  | n, none :: rest, c, k, h => by
    simp only [Checker_treeCheck.loop] at h
    cases h
  | n, some child :: rest, c, k, h => by
    simp only [Checker_treeCheck.loop] at h
    split at h
    · cases h
    · split at h
      · cases h
      · split at h
        · cases h
        · cases h
        · rename_i c1 hc1
          obtain ⟨hk1, hm1⟩ := treeCheck_node_true child c c1 hc1
          obtain ⟨hk2, hm2⟩ := treeCheck_loop_true n rest c1 k h
          refine ⟨?_, ?_⟩
          · simp only [Node.size.list]
            omega
          · intro m hmem
            simp only [Node.subnodes.list, List.mem_append] at hmem
            rcases hmem with hmem | hmem
            · exact hm1 m hmem
            · exact hm2 m hmem
end

theorem defined_path (n : Node) (h : n.Defined) : ∃ p, Node_getPath n = some p := by
  cases h
  exact ⟨_, rfl⟩

theorem isValid_loop_total : ∀ (cs : List (Option Node)),
    (∀ c, some c ∈ cs → ∃ p, Node_getPath c = some p) →
    ∃ b, Checker_Node_isValid.loop cs = .ok b
  | [], _ => ⟨true, rfl⟩
  | [_], _ => ⟨true, by simp [Checker_Node_isValid.loop]⟩
  | a :: b :: rest, hp => by
    unfold Checker_Node_isValid.loop
    cases a with
    | none => exact ⟨false, rfl⟩
    | some n1 =>
      cases b with
      | none => exact ⟨false, rfl⟩
      | some n2 =>
        obtain ⟨p1, hp1⟩ := hp n1 (by simp)
        obtain ⟨p2, hp2⟩ := hp n2 (by simp)
        simp only [hp1, hp2]
        split
        · exact ⟨false, rfl⟩
        · exact isValid_loop_total (some n2 :: rest)
            (fun c hc => hp c (List.mem_cons_of_mem _ hc))

theorem isValid_total (n : Node) (h : n.Defined) :
    ∃ b, Checker_Node_isValid (some n) = .ok b := by
  cases h with
  | mk p par cs hne hnone hpar hdef =>
    obtain ⟨b, hb⟩ := isValid_loop_total cs (fun c hc => defined_path c (hdef c hc))
    unfold Checker_Node_isValid
    simp only [Node_getPath, Node.children, hb, Node_getParent]
    cases b with
    | false => exact ⟨false, rfl⟩
    | true =>
      simp only
      cases par with
      | none => exact ⟨true, rfl⟩
      | some pp =>
        simp only
        split
        · exact ⟨false, rfl⟩
        · rename_i h0
          have hpre : pp <+: p := (strncmp_eq_zero p pp).1 (by simpa using h0)
          have hlen : ¬ p.length < pp.length + 1 := by
            intro hlt
            apply hne
            have := hpre.length_le
            rw [hpre.eq_of_length_le (by omega)]
          rw [if_neg hlen]
          split
          · exact ⟨false, rfl⟩
          · exact ⟨true, rfl⟩

mutual
theorem treeCheck_node_total : ∀ (n : Node) (c : Nat), n.Defined →
    ∃ b k, Checker_treeCheck.node n c = .ok (b, k)
  | .mk path parent children, c, h => by
    obtain ⟨b, hb⟩ := isValid_total _ h
    simp only [Checker_treeCheck.node, hb]
    cases b with
    | false => exact ⟨false, _, rfl⟩
    | true =>
      simp only
      cases h with
      | mk p par cs hne hnone hpar hdef =>
        exact treeCheck_loop_total (.mk (some p) parent children) children (c + 1) ⟨p, rfl⟩
          hnone hpar hdef
theorem treeCheck_loop_total : ∀ (n : Node) (cs : List (Option Node)) (c : Nat),
    (∃ p, Node_getPath n = some p) → none ∉ cs →
    (∀ ch, some ch ∈ cs → (Node_getParent ch).isSome = true) →
    (∀ ch, some ch ∈ cs → Node.Defined ch) →
    ∃ b k, Checker_treeCheck.loop n cs c = .ok (b, k)
  | n, [], c, _, _, _, _ => ⟨true, c, rfl⟩
  | n, none :: rest, c, _, hnone, _, _ => absurd (List.mem_cons_self _ _) hnone
  | n, some child :: rest, c, hn, hnone, hpar, hdef => by
    obtain ⟨p, hp⟩ := hn
    have hpc := hpar child (List.mem_cons_self _ _)
    obtain ⟨pp, hpp⟩ := Option.isSome_iff_exists.1 hpc
    simp only [Checker_treeCheck.loop, Node_compare, hpp, hp]
    split
    · exact ⟨false, _, rfl⟩
    · obtain ⟨b, k, hk⟩ := treeCheck_node_total child c (hdef child (List.mem_cons_self _ _))
      rw [hk]
      cases b with
      | false => exact ⟨false, _, rfl⟩
      | true =>
        simp only
        exact treeCheck_loop_total n rest k ⟨p, hp⟩
          (fun hx => hnone (List.mem_cons_of_mem _ hx))
          (fun ch hc => hpar ch (List.mem_cons_of_mem _ hc))
          (fun ch hc => hdef ch (List.mem_cons_of_mem _ hc))
end


/-! ### Counting directories -/

mutual
theorem destroy_dirsOnly : ∀ n : NodeDir, NodeDir_destroy n.dirsOnly = NodeDir_destroy n
  | .mk p par ds fs => by
    simp only [NodeDir.dirsOnly, destroy_mk, destroy_children_dirsOnly ds]
theorem destroy_children_dirsOnly : ∀ ds : List NodeDir,
    NodeDir_destroy.children (NodeDir.dirsOnly.list ds) = NodeDir_destroy.children ds
  | [] => rfl
  | c :: rest => by
    simp only [NodeDir.dirsOnly.list, destroy_children_cons, destroy_dirsOnly c,
      destroy_children_dirsOnly rest]
end

theorem assign_countDirs (s : FT) (loc : List Nat) (new : NodeDir) :
    (s.assign loc new).countDirs = s.countDirs := by
  unfold FT.assign
  split <;> rfl

/-- A successful `FT_rmDir` takes the number of directories destroyed from
`countDirs`, which is at least that number. -/
theorem rmDir_count (s t : FT) (P : CStr) (hi : s.Inv)
    (h : FT_rmDir s P = .ok (.SUCCESS, t)) :
    ∃ loc curr, s.deref loc = some curr ∧ NodeDir_getPath curr = P ∧
      t.countDirs + NodeDir_destroy curr = s.countDirs := by
  unfold FT_rmDir at h
  split at h
  · cases h
  split at h
  · cases h
  rename_i loc hloc
  split at h
  · cases h
  rename_i curr hd
  obtain ⟨r, hr, hget⟩ := deref_some s loc curr hd
  have hle : NodeDir_destroy curr ≤ s.countDirs := by
    have := hi.count
    simp only [FT.numDirs, hr] at this
    rw [this]
    exact destroy_getAt_le r curr loc hget
  split at h
  · cases h
  split at h
  · cases h
  rename_i hcmp
  have hp : NodeDir_getPath curr = P := (strcmp_eq_zero _ _).1 (by simpa using hcmp)
  refine ⟨loc, curr, hd, hp, ?_⟩
  split at h
  · cases h
    simp only [FT_removePathFromDir]
    omega
  · split at h
    · cases h
    cases h
    simp only [FT_removePathFromDir, assign_countDirs]
    omega

theorem defined_leaf (p pp : CStr) (h : pp ≠ p) : (Node.mk (some p) (some pp) []).Defined :=
  Node.Defined.mk p (some pp) [] (by simpa using h) (by simp) (by simp) (by simp)

theorem defined_exUnsorted : Node.exUnsorted.Defined := by
  refine Node.Defined.mk _ none _ (by simp) (by simp) ?_ ?_
  · intro c hc
    simp only [List.mem_cons, Option.some.injEq, List.mem_singleton, List.not_mem_nil,
      or_false] at hc
    rcases hc with rfl | rfl <;> rfl
  · intro c hc
    simp only [List.mem_cons, Option.some.injEq, List.mem_singleton, List.not_mem_nil,
      or_false] at hc
    rcases hc with rfl | rfl
    · exact defined_leaf _ _ (by decide)
    · exact defined_leaf _ _ (by decide)


/-! ### Removal and the queries -/

theorem hasChildFile_self (d : NodeDir) (hw : d.WF) :
    (NodeDir_hasChildFile d (NodeDir_getPath d)).1 = false := by
  apply bool_false_of_not_true
  intro h
  obtain ⟨f, hf, hp⟩ := hasChildFile_true d _ h
  have := (childPath_under _ _ (file_childPath d f hw (List.getElem?_mem hf))).2
  rw [hp] at this
  omega

theorem rmDir_iff_containsDir (s : FT) (p : CStr) (hi : s.Inv)
    (hinit : s.isInitialized = true) :
    (∃ t, FT_rmDir s p = .ok (.SUCCESS, t)) ↔ FT_containsDir s p = true := by
  unfold FT_rmDir FT_containsDir
  simp only [hinit, Bool.not_true, Bool.false_eq_true, if_false]
  cases htr : FT_traversePathDir s p with
  | none => simp
  | some loc =>
    obtain ⟨d, hd⟩ := traverseDir_valid s p loc htr
    obtain ⟨r, hr, hget⟩ := deref_some s loc d hd
    have hw := wf_getAt r loc d (hi.wf r hr).1 hget
    simp only [hd]
    by_cases hc : strcmp p (NodeDir_getPath d) = 0
    · have hp : p = NodeDir_getPath d := (strcmp_eq_zero _ _).1 hc
      have hc2 : strcmp (NodeDir_getPath d) p = 0 := by rw [hp]; exact strcmp_self _
      have hf : (NodeDir_hasChildFile d p).1 = false := by rw [hp]; exact hasChildFile_self d hw
      simp only [hc, hf, hc2, Bool.false_eq_true, if_false, ne_eq, not_true_eq_false, iff_true]
      by_cases hl : loc = []
      · simp [hl]
      · obtain ⟨parent, hpar⟩ := deref_dropLast s loc d hl hd
        simp [hl, hpar]
    · have hc2 : strcmp (NodeDir_getPath d) p ≠ 0 := by
        intro h
        apply hc
        rw [(strcmp_eq_zero _ _).1 h]
        exact strcmp_self _
      simp only [hc, hc2, ne_eq, not_false_eq_true, if_true, Bool.false_eq_true, iff_false,
        not_exists]
      intro t
      split <;> simp

theorem rmFile_iff_containsFile (s : FT) (p : CStr) (hinit : s.isInitialized = true) :
    ((∃ t, FT_rmFile s p = .ok (.SUCCESS, t)) ↔ FT_containsFile s p = true) ∧
    ∃ code t, FT_rmFile s p = .ok (code, t) := by
  unfold FT_rmFile FT_containsFile
  simp only [hinit, Bool.not_true, Bool.false_eq_true, if_false]
  cases hrf : s.rootFile with
  | some f =>
    simp only
    by_cases hc : strcmp (NodeFile_getPath f) p = 0
    · simp [hc]
    · simp [hc]
  | none =>
    simp only
    cases htr : FT_traversePathFile s p with
    | none => simp
    | some loc =>
      obtain ⟨d, hd⟩ := traverseFile_valid s p loc htr
      simp only [hd]
      by_cases hf : (NodeDir_hasChildFile d p).1 = true
      · obtain ⟨f, hfc, -⟩ := hasChildFile_true d p hf
        simp [hf, NodeDir_getChildFile, hfc]
      · simp only [hf, if_false, Bool.false_eq_true, iff_false, not_exists]
        constructor
        · intro t
          split <;> simp
        · split
          · exact ⟨_, _, rfl⟩
          · exact ⟨_, _, rfl⟩


/-! ### Paths as lists of segments -/

theorem joinPath_snoc : ∀ (xs : List CStr) (x : CStr), xs ≠ [] →
    joinPath (xs ++ [x]) = joinPath xs ++ '/' :: x
  | [], _, h => absurd rfl h
  | [a], x, _ => by simp [joinPath]
  | a :: b :: r, x, _ => by
    have ih := joinPath_snoc (b :: r) x (by simp)
    rw [List.cons_append, List.cons_append, joinPath_cons_cons, ← List.cons_append, ih,
      joinPath_cons_cons]
    simp

theorem deepPath_joinPath (pre segs : List CStr) (h : pre ≠ []) :
    deepPath (joinPath pre) segs = joinPath (pre ++ segs) := by
  induction segs generalizing pre with
  | nil => simp [deepPath]
  | cons s rest ih =>
    rw [deepPath, ← joinPath_snoc pre s h, ih (pre ++ [s]) (by simp)]
    simp

theorem under_deepPath (p : CStr) (rest : List CStr) : Under p (deepPath p rest) := by
  cases rest with
  | nil => exact Or.inl rfl
  | cons s r =>
    right
    rw [deepPath]
    have := deepPath_append (p ++ ['/']) s r
    simp only [List.append_assoc, List.singleton_append] at this
    rw [this]
    rw [show p ++ '/' :: deepPath s r = (p ++ ['/']) ++ deepPath s r by simp]
    exact List.prefix_append _ _

theorem joinPath_take_drop (segs : List CStr) (k : Nat) (hk : 1 ≤ k) (hk2 : k ≤ segs.length) :
    joinPath segs = deepPath (joinPath (segs.take k)) (segs.drop k) := by
  rw [deepPath_joinPath _ _ (by
    intro h
    have := congrArg List.length h
    rw [List.length_take, List.length_nil] at this
    omega), List.take_append_drop]

/-- The path of the first `k` segments names the node of the whole path or
a node above it. -/
theorem under_joinPath_take (segs : List CStr) (k : Nat) (hk : 1 ≤ k)
    (hk2 : k ≤ segs.length) : Under (joinPath (segs.take k)) (joinPath segs) := by
  rw [joinPath_take_drop segs k hk hk2]
  exact under_deepPath _ _

theorem mem_joinPath_slash (a b : CStr) (rest : List CStr) :
    '/' ∈ joinPath (a :: b :: rest) := by
  rw [joinPath_cons_cons]
  simp

theorem prefix_of_prefix_slash (a s t : CStr) (ha : '/' ∉ a)
    (h : a <+: s ++ '/' :: t) : a <+: s := by
  rcases List.prefix_or_prefix_of_prefix h (List.prefix_append s ('/' :: t)) with h1 | h1
  · exact h1
  · obtain ⟨w, hw⟩ := h1
    cases w with
    | nil =>
      rw [List.append_nil] at hw
      rw [hw]
    | cons c w1 =>
      obtain ⟨z, hz⟩ := h
      rw [← hw, List.append_assoc] at hz
      have := List.append_cancel_left hz
      simp only [List.cons_append, List.cons.injEq] at this
      exact absurd (by rw [← hw, this.1]; simp) ha

/-- Every path above a path of segments is the path of its first `k`
segments. -/
theorem under_joinPath_inv : ∀ (segs : List CStr) (q : CStr), segs ≠ [] →
    (∀ x ∈ segs, Segment x) → Under q (joinPath segs) →
    ∃ k, 1 ≤ k ∧ k ≤ segs.length ∧ q = joinPath (segs.take k)
  | [], _, h, _, _ => absurd rfl h
  | [s], q, _, hs, hu => by
    rcases hu with h | h
    · exact ⟨1, le_refl _, by simp, by simpa [joinPath] using h.symm⟩
    · have : '/' ∈ joinPath [s] := h.subset (by simp)
      exact absurd this (by simpa [joinPath] using (hs s (by simp)).2)
  | s :: s2 :: r, q, _, hs, hu => by
    have hss := hs s (by simp)
    rcases hu with h | h
    · exact ⟨(s :: s2 :: r).length, by simp, le_refl _, by rw [List.take_length]; exact h.symm⟩
    · rw [joinPath_cons_cons] at h
      have h2 : (s ++ ['/']) <+: s ++ '/' :: joinPath (s2 :: r) :=
        ⟨joinPath (s2 :: r), by simp⟩
      rcases List.prefix_or_prefix_of_prefix h h2 with h3 | h3
      · have hq : q <+: s := by
          have hlen := h3.length_le
          have hq1 : q <+: s ++ ['/'] := (List.prefix_append q ['/']).trans h3
          rcases List.prefix_or_prefix_of_prefix hq1 (List.prefix_append s ['/']) with h4 | h4
          · exact h4
          · simp only [List.length_append, List.length_singleton] at hlen
            rw [h4.eq_of_length_le (by omega)]
        obtain ⟨z, hz⟩ := h3
        have hqs : '/' ∉ q := fun hm => hss.2 (hq.subset hm)
        have := split_at_slash_unique q s z [] (by simpa using hz) hqs hss.2
        exact ⟨1, le_refl _, by simp, by rw [this.1]; simp [joinPath]⟩
      · obtain ⟨w, hw⟩ := h3
        rcases List.eq_nil_or_concat w with rfl | ⟨w1, c, rfl⟩
        · have : q = s := by
            have := congrArg List.dropLast hw
            simpa using this.symm
          exact ⟨1, le_refl _, by simp, by rw [this]; simp [joinPath]⟩
        · have hc : c = '/' ∧ q = s ++ '/' :: w1 := by
            have e : (s ++ '/' :: w1) ++ [c] = q ++ ['/'] := by
              rw [← hw]; simp
            have := List.append_inj' e rfl
            exact ⟨by simpa using this.2, this.1.symm⟩
          obtain ⟨-, hq⟩ := hc
          have hu2 : Under w1 (joinPath (s2 :: r)) := by
            right
            rw [hq] at h
            have : s ++ '/' :: (w1 ++ ['/']) <+: s ++ '/' :: joinPath (s2 :: r) := by
              simpa using h
            have := (List.prefix_append_right_inj s).1 this
            exact (List.cons_prefix_cons.1 this).2
          obtain ⟨k, hk1, hk2, hk3⟩ := under_joinPath_inv (s2 :: r) w1 (by simp)
            (fun x hx => hs x (List.mem_cons_of_mem _ hx)) hu2
          refine ⟨k + 1, by omega, by simp only [List.length_cons] at hk2 ⊢; omega, ?_⟩
          rw [hq, hk3, List.take_succ_cons]
          cases k with
          | zero => omega
          | succ k1 => rw [List.take_succ_cons, joinPath_cons_cons]

/-- A path of segments that begins another as a string begins it as a list
of segments, when no segment of the one is a proper beginning of a segment
of the other. -/
theorem prefix_joinPath : ∀ (ds segs : List CStr), ds ≠ [] →
    (∀ x ∈ ds, Segment x) → (∀ x ∈ segs, Segment x) →
    (∀ a ∈ ds, ∀ b ∈ segs, a <+: b → a = b) →
    joinPath ds <+: joinPath segs → ds <+: segs
  | [], _, h, _, _, _, _ => absurd rfl h
  | [d], segs, _, hd, hs, hpf, h => by
    have hdd := hd d (by simp)
    cases segs with
    | nil =>
      simp only [joinPath, List.prefix_nil] at h
      exact absurd h hdd.1
    | cons s rest =>
      have hds : d <+: s := by
        cases rest with
        | nil => simpa [joinPath] using h
        | cons s2 r =>
          rw [joinPath_cons_cons] at h
          exact prefix_of_prefix_slash d s _ hdd.2 (by simpa [joinPath] using h)
      rw [hpf d (by simp) s (by simp) hds]
      exact ⟨rest, rfl⟩
  | d :: d2 :: dr, segs, _, hd, hs, hpf, h => by
    have hdd := hd d (by simp)
    rw [joinPath_cons_cons] at h
    cases segs with
    | nil =>
      simp only [joinPath, List.prefix_nil] at h
      simp at h
    | cons s rest =>
      have hss := hs s (by simp)
      cases rest with
      | nil =>
        have : '/' ∈ joinPath [s] := h.subset (by simp)
        exact absurd this (by simpa [joinPath] using hss.2)
      | cons s2 r =>
        rw [joinPath_cons_cons] at h
        obtain ⟨z, hz⟩ := h
        have := split_at_slash_unique d s (joinPath (d2 :: dr) ++ z) (joinPath (s2 :: r))
          (by simpa using hz) hdd.2 hss.2
        have ih := prefix_joinPath (d2 :: dr) (s2 :: r) (by simp)
          (fun x hx => hd x (List.mem_cons_of_mem _ hx))
          (fun x hx => hs x (List.mem_cons_of_mem _ hx))
          (fun a ha b hb => hpf a (List.mem_cons_of_mem _ ha) b (List.mem_cons_of_mem _ hb))
          ⟨z, this.2⟩
        rw [this.1]
        exact List.cons_prefix_cons.2 ⟨rfl, ih⟩


/-! ### The directory traversal, where it stops and what it finds -/

theorem traverseFromDir_isSome (path : CStr) (n : NodeDir) (h : NodeDir_getPath n <+: path) :
    ∃ loc, FT_traversePathFromDir path n = some loc := by
  cases n with
  | mk p par ds fs =>
    simp only [NodeDir_getPath] at h
    simp only [FT_traversePathFromDir]
    split
    · exact ⟨_, rfl⟩
    · rw [if_pos ((strncmp_eq_zero _ _).2 h)]
      split <;> exact ⟨_, rfl⟩

theorem traverseFromDir_none (path : CStr) (n : NodeDir) (h : ¬ NodeDir_getPath n <+: path) :
    FT_traversePathFromDir path n = none := by
  cases n with
  | mk p par ds fs =>
    simp only [NodeDir_getPath] at h
    simp only [FT_traversePathFromDir]
    split
    · rename_i h0
      rw [(strcmp_eq_zero _ _).1 h0] at h
      exact absurd (List.prefix_refl _) h
    · rw [if_neg (fun h1 => h ((strncmp_eq_zero _ _).1 h1))]

theorem traverseFromDir_loop_none (path : CStr) : ∀ (ds : List NodeDir) (i : Nat),
    FT_traversePathFromDir.loop path ds i = none →
    ∀ c ∈ ds, ¬ NodeDir_getPath c <+: path
  | [], _, _ => by simp
  | x :: xs, i, h => by
    simp only [FT_traversePathFromDir.loop] at h
    split at h
    · cases h
    · rename_i hx
      intro c hc
      rcases List.mem_cons.1 hc with rfl | hc
      · intro hpre
        obtain ⟨loc, hloc⟩ := traverseFromDir_isSome path c hpre
        rw [hloc] at hx
        cases hx
      · exact traverseFromDir_loop_none path xs (i + 1) h c hc

mutual
theorem traverseFromDir_deepest : ∀ (path : CStr) (n : NodeDir) (loc : List Nat),
    FT_traversePathFromDir path n = some loc →
    ∃ d, n.getAt loc = some d ∧
      (path ≠ NodeDir_getPath d → ∀ c ∈ d.childrenDirs, ¬ NodeDir_getPath c <+: path)
  | path, .mk p par ds fs, loc, h => by
    simp only [FT_traversePathFromDir] at h
    split at h
    · rename_i h0
      cases h
      exact ⟨_, getAt_nil _, fun hne => absurd ((strcmp_eq_zero _ _).1 h0) hne⟩
    · split at h
      · split at h
        · rename_i found hfound
          cases h
          exact traverseFromDir_loop_deepest path ds 0 [] p par fs loc (by simp) hfound
        · rename_i hnone
          cases h
          exact ⟨_, getAt_nil _, fun _ => traverseFromDir_loop_none path ds 0 hnone⟩
      · cases h
theorem traverseFromDir_loop_deepest : ∀ (path : CStr) (ds : List NodeDir) (i : Nat)
    (before : List NodeDir) (p : CStr) (par : Option CStr) (fs : List NodeFile)
    (loc : List Nat),
    before.length = i → FT_traversePathFromDir.loop path ds i = some loc →
    ∃ d, (NodeDir.mk p par (before ++ ds) fs).getAt loc = some d ∧
      (path ≠ NodeDir_getPath d → ∀ c ∈ d.childrenDirs, ¬ NodeDir_getPath c <+: path)
  | path, [], i, before, p, par, fs, loc, _, h => by
    simp [FT_traversePathFromDir.loop] at h
  | path, c :: rest, i, before, p, par, fs, loc, hlen, h => by
    simp only [FT_traversePathFromDir.loop] at h
    split at h
    · rename_i found hfound
      cases h
      obtain ⟨d, hd, hdeep⟩ := traverseFromDir_deepest path c found hfound
      refine ⟨d, ?_, hdeep⟩
      rw [getAt_cons]
      simp only [NodeDir.childrenDirs]
      rw [← hlen, List.getElem?_append_right (Nat.le_refl _)]
      simpa using hd
    · have := traverseFromDir_loop_deepest path rest (i + 1) (before ++ [c]) p par fs loc
        (by simp [hlen]) h
      simpa using this
end

theorem traverse_loop_at (q : CStr) : ∀ (ds : List NodeDir) (i0 i : Nat) (c : NodeDir)
    (rest : List Nat), ds[i]? = some c →
    (∀ k ck, k < i → ds[k]? = some ck → FT_traversePathFromDir q ck = none) →
    FT_traversePathFromDir q c = some rest →
    FT_traversePathFromDir.loop q ds i0 = some ((i0 + i) :: rest)
  | [], _, i, c, rest, h, _, _ => by simp at h
  | x :: xs, i0, 0, c, rest, h, _, hc => by
    simp only [List.getElem?_cons_zero, Option.some.injEq] at h
    subst h
    simp [FT_traversePathFromDir.loop, hc]
  | x :: xs, i0, i + 1, c, rest, h, hk, hc => by
    simp only [List.getElem?_cons_succ] at h
    have hx : FT_traversePathFromDir q x = none := hk 0 x (by omega) (by simp)
    simp only [FT_traversePathFromDir.loop, hx]
    rw [traverse_loop_at q xs (i0 + 1) i c rest h
      (fun k ck hlt hck => hk (k + 1) ck (by omega) (by simpa using hck)) hc]
    congr 2
    omega

theorem under_isPrefix (p q : CStr) (h : Under p q) : p <+: q := by
  rcases h with h | h
  · rw [h]
  · exact (List.prefix_append p ['/']).trans h

theorem sibling_isPrefix (a sk si q : CStr) (hk : '/' ∉ sk)
    (h : (a ++ '/' :: sk) <+: q) (hu : Under (a ++ '/' :: si) q) :
    (a ++ '/' :: sk) <+: (a ++ '/' :: si) := by
  obtain ⟨x, hx, hcase⟩ := (under_iff _ _).1 hu
  rcases hcase with rfl | ⟨y, rfl⟩
  · rw [List.append_nil] at hx
    rw [← hx]
    exact h
  · rw [hx, List.append_assoc, List.cons_append] at h
    have h1 := (List.prefix_append_right_inj a).1 h
    have h2 := (List.cons_prefix_cons.1 h1).2
    have h3 := prefix_of_prefix_slash sk si y hk h2
    exact (List.prefix_append_right_inj a).2 (List.cons_prefix_cons.2 ⟨rfl, h3⟩)

/-- In a well-formed hierarchy in which no child path begins the path of a
sibling, the traversal for the path of a directory returns that directory. -/
theorem traverse_complete : ∀ (l : List Nat) (r d : NodeDir), r.WF →
    (∀ loc n, r.getAt loc = some n → ∀ c1 ∈ n.childrenDirs, ∀ c2 ∈ n.childrenDirs,
      NodeDir_getPath c1 <+: NodeDir_getPath c2 → NodeDir_getPath c1 = NodeDir_getPath c2) →
    r.getAt l = some d → FT_traversePathFromDir (NodeDir_getPath d) r = some l
  | [], r, d, _, _, hd => by
    rw [getAt_nil] at hd
    cases hd
    cases r with
    | mk p par ds fs => simp [FT_traversePathFromDir, NodeDir_getPath, strcmp_self]
  | i :: rest, .mk p par ds fs, d, hw, hspf, hd => by
    have hd0 := hd
    rw [getAt_cons] at hd
    simp only [NodeDir.childrenDirs] at hd
    cases hi : ds[i]? with
    | none => simp [hi] at hd
    | some c =>
      rw [hi] at hd
      simp only [Option.some_bind] at hd
      obtain ⟨hcw, hcp⟩ := childDir_of_getElem p par ds fs i c hw hi
      have huc : Under (NodeDir_getPath c) (NodeDir_getPath d) := under_of_getAt c d rest hcw hd
      have hur : Under p (NodeDir_getPath d) := under_of_getAt (.mk p par ds fs) d (i :: rest) hw hd0
      have hlen : p.length < (NodeDir_getPath d).length := by
        have h1 := (childPath_under _ _ hcp).2
        have h2 := under_length _ _ huc
        omega
      have hne : strcmp (NodeDir_getPath d) p ≠ 0 := by
        intro h
        rw [(strcmp_eq_zero _ _).1 h] at hlen
        omega
      have hpre : strncmp (NodeDir_getPath d) p p.length = 0 :=
        (strncmp_eq_zero _ _).2 (under_isPrefix _ _ hur)
      have hspfc : ∀ loc n, c.getAt loc = some n → ∀ c1 ∈ n.childrenDirs,
          ∀ c2 ∈ n.childrenDirs, NodeDir_getPath c1 <+: NodeDir_getPath c2 →
          NodeDir_getPath c1 = NodeDir_getPath c2 := by
        intro loc n hn
        apply hspf (i :: loc) n
        rw [getAt_cons]
        simp only [NodeDir.childrenDirs, hi, Option.some_bind]
        exact hn
      have ih := traverse_complete rest c d hcw hspfc hd
      have hsorted : StrictlySorted (ds.map NodeDir_getPath) := ((wf_iff p par ds fs).1 hw).1
      have hbefore : ∀ k ck, k < i → ds[k]? = some ck →
          FT_traversePathFromDir (NodeDir_getPath d) ck = none := by
        intro k ck hlt hck
        apply traverseFromDir_none
        intro hpk
        obtain ⟨sk, hsk, hnk⟩ := (childDir_of_getElem p par ds fs k ck hw hck).2
        obtain ⟨si, hsi, hni⟩ := hcp
        rw [hsk] at hpk
        rw [hsi] at huc
        have h1 := sibling_isPrefix p sk si _ hnk hpk huc
        rw [← hsk, ← hsi] at h1
        have h2 := hspf [] (.mk p par ds fs) (getAt_nil _) ck (List.getElem?_mem hck) c
          (List.getElem?_mem hi) h1
        have := index_unique ds k i ck c hsorted hck hi h2
        omega
      have hloop := traverse_loop_at (NodeDir_getPath d) ds 0 i c rest hi hbefore ih
      simp only [FT_traversePathFromDir, hne, hpre, if_false, if_true, hloop, Nat.zero_add]


/-! ### The tree after a hierarchy is linked below one of its directories -/

theorem childrenDirs_mk (p : CStr) (par : Option CStr) (ds : List NodeDir) (fs : List NodeFile) :
    (NodeDir.mk p par ds fs).childrenDirs = ds := rfl

/-- Every directory of the tree after the link is a directory of the tree
before it, with the same path and files, or a directory of the hierarchy
linked. -/
theorem link_backward (r parent child : NodeDir) (loc l1 : List Nat) (j : Nat) (d1 : NodeDir)
    (hget : r.getAt loc = some parent)
    (h : (r.setAt loc (.mk (NodeDir_getPath parent) (NodeDir_getParent parent)
            (DynArray_addAt parent.childrenDirs j child) parent.childrenFiles)).getAt l1
          = some d1) :
    (∃ l d, r.getAt l = some d ∧ NodeDir_getPath d = NodeDir_getPath d1 ∧
        d.childrenFiles = d1.childrenFiles) ∨
    ∃ rest, child.getAt rest = some d1 := by
  by_cases hpre : loc <+: l1
  · obtain ⟨rest, rfl⟩ := hpre
    rw [getAt_setAt_append r loc rest parent _ hget] at h
    cases rest with
    | nil =>
      rw [getAt_nil] at h
      cases h
      exact Or.inl ⟨loc, parent, hget, rfl, rfl⟩
    | cons i rest1 =>
      rw [getAt_cons, childrenDirs_mk] at h
      cases hc : (DynArray_addAt parent.childrenDirs j child)[i]? with
      | none => simp [hc] at h
      | some c =>
        rw [hc] at h
        simp only [Option.some_bind] at h
        rcases (mem_addAt _ _ _ _).1 (List.getElem?_mem hc) with rfl | hmem
        · exact Or.inr ⟨rest1, h⟩
        · obtain ⟨i0, hi0⟩ := List.mem_iff_getElem?.1 hmem
          refine Or.inl ⟨loc ++ i0 :: rest1, d1, ?_, rfl, rfl⟩
          rw [getAt_append, hget, Option.some_bind, getAt_cons, hi0, Option.some_bind]
          exact h
  · rcases getAt_setAt_other r loc l1 parent (.mk (NodeDir_getPath parent) (NodeDir_getParent parent)
        (DynArray_addAt parent.childrenDirs j child) parent.childrenFiles) hget rfl hpre with
      ⟨-, h2⟩ | ⟨d, d2, h1, h2, h3, h4, -⟩
    · rw [h2] at h
      cases h
    · rw [h2] at h
      cases h
      exact Or.inl ⟨l1, d, h1, h3.symm, h4.symm⟩

/-- Every directory of the tree before the link and every directory of the
hierarchy linked has its path in the tree after it. -/
theorem link_forward (r parent child : NodeDir) (loc : List Nat) (j : Nat)
    (hget : r.getAt loc = some parent) :
    (∀ l d, r.getAt l = some d → ∃ l1 d1,
      (r.setAt loc (.mk (NodeDir_getPath parent) (NodeDir_getParent parent)
        (DynArray_addAt parent.childrenDirs j child) parent.childrenFiles)).getAt l1 = some d1 ∧
      NodeDir_getPath d1 = NodeDir_getPath d) ∧
    (∀ rest d, child.getAt rest = some d → ∃ l1,
      (r.setAt loc (.mk (NodeDir_getPath parent) (NodeDir_getParent parent)
        (DynArray_addAt parent.childrenDirs j child) parent.childrenFiles)).getAt l1 = some d) := by
  constructor
  · intro l d hd
    by_cases hpre : loc <+: l
    · obtain ⟨rest, rfl⟩ := hpre
      cases rest with
      | nil =>
        rw [List.append_nil, hget] at hd
        cases hd
        exact ⟨loc, _, getAt_setAt r loc parent _ hget, rfl⟩
      | cons i rest1 =>
        rw [getAt_append, hget, Option.some_bind, getAt_cons] at hd
        cases hc : parent.childrenDirs[i]? with
        | none => simp [hc] at hd
        | some c =>
          rw [hc] at hd
          simp only [Option.some_bind] at hd
          have hmem : c ∈ DynArray_addAt parent.childrenDirs j child :=
            (mem_addAt _ _ _ _).2 (Or.inr (List.getElem?_mem hc))
          obtain ⟨i1, hi1⟩ := List.mem_iff_getElem?.1 hmem
          refine ⟨loc ++ i1 :: rest1, d, ?_, rfl⟩
          rw [getAt_setAt_append r loc _ parent _ hget, getAt_cons, childrenDirs_mk, hi1,
            Option.some_bind]
          exact hd
    · rcases getAt_setAt_other r loc l parent (.mk (NodeDir_getPath parent) (NodeDir_getParent parent)
          (DynArray_addAt parent.childrenDirs j child) parent.childrenFiles) hget rfl hpre with
        ⟨h1, -⟩ | ⟨d0, d2, h1, h2, h3, -⟩
      · rw [h1] at hd
        cases hd
      · rw [h1] at hd
        cases hd
        exact ⟨l, d2, h2, h3⟩
  · intro rest d hd
    have hmem : child ∈ DynArray_addAt parent.childrenDirs j child :=
      (mem_addAt _ _ _ _).2 (Or.inl rfl)
    obtain ⟨i1, hi1⟩ := List.mem_iff_getElem?.1 hmem
    refine ⟨loc ++ i1 :: rest, ?_⟩
    rw [getAt_setAt_append r loc _ parent _ hget, getAt_cons, childrenDirs_mk, hi1,
      Option.some_bind]
    exact hd

/-- A child that the parent does not hold yet, one segment below the parent,
is linked at the index the binary search reports. -/
theorem linkDir_new (parent child : NodeDir) (seg : CStr)
    (h1 : (NodeDir_hasChildDir parent (NodeDir_getPath child)).1 = false)
    (h2 : (NodeDir_hasChildFile parent (NodeDir_getPath child)).1 = false)
    (hp : NodeDir_getPath child = NodeDir_getPath parent ++ '/' :: seg) (hs : '/' ∉ seg) :
    ∃ j, FT_linkParentToChildDir parent child
      = (.SUCCESS,
         .mk (NodeDir_getPath parent) (NodeDir_getParent parent)
           (DynArray_addAt parent.childrenDirs j
             (child.withParent (some (NodeDir_getPath parent))))
           parent.childrenFiles, j) := by
  have e1 : strncmp (NodeDir_getPath child) (NodeDir_getPath parent)
      (NodeDir_getPath parent).length = 0 := by
    rw [hp]
    exact (strncmp_eq_zero _ _).mpr (List.prefix_append _ _)
  have e2 : (NodeDir_getPath child).drop (NodeDir_getPath parent).length = '/' :: seg := by
    rw [hp]
    simp
  have e3 : (NodeDir_getPath child).drop ((NodeDir_getPath parent).length + 1) = seg := by
    rw [hp, ← List.drop_drop]
    simp
  have e4 : strstr seg ['/'] = none := (strstr_slash_none seg).mpr hs
  have e5 := hasChildDir_eq parent child
  rw [e5] at h1
  cases hb : DynArray_bsearch parent.childrenDirs child NodeDir_compare with
  | mk b j =>
    rw [hb] at h1
    simp only at h1
    subst h1
    refine ⟨j, ?_⟩
    simp [FT_linkParentToChildDir, NodeDir_linkChildDir, e5, hb, h2, e1, e2, e3, e4]

theorem getPath_line (par : Option CStr) (p : CStr) (segs : List CStr) :
    NodeDir_getPath (NodeDir.line par p segs) = p := by
  cases segs <;> rfl

theorem getParent_line (par : Option CStr) (p : CStr) (segs : List CStr) :
    NodeDir_getParent (NodeDir.line par p segs) = par := by
  cases segs <;> rfl

/-- The directories of a line have no files, and their paths are the paths
of the first segments. -/
theorem line_nodes : ∀ (segs : List CStr) (par : Option CStr) (p : CStr) (l : List Nat)
    (d : NodeDir), (NodeDir.line par p segs).getAt l = some d →
    d.childrenFiles = [] ∧ ∃ j, j ≤ segs.length ∧ NodeDir_getPath d = deepPath p (segs.take j)
  | [], par, p, l, d, h => by
    cases l with
    | nil =>
      simp only [NodeDir.line, getAt_nil, Option.some.injEq] at h
      subst h
      exact ⟨rfl, 0, le_refl _, rfl⟩
    | cons i rest => simp [NodeDir.line, getAt_cons, NodeDir.childrenDirs] at h
  | s :: segs, par, p, l, d, h => by
    cases l with
    | nil =>
      simp only [getAt_nil, Option.some.injEq] at h
      subst h
      exact ⟨rfl, 0, Nat.zero_le _, by simp [getPath_line, deepPath]⟩
    | cons i rest =>
      simp only [NodeDir.line, getAt_cons, NodeDir.childrenDirs] at h
      cases i with
      | zero =>
        simp only [List.getElem?_cons_zero, Option.some_bind] at h
        obtain ⟨hf, j, hj, hp⟩ := line_nodes segs (some p) (p ++ '/' :: s) rest d h
        exact ⟨hf, j + 1, by simpa using hj, by rw [hp, List.take_succ_cons, deepPath]⟩
      | succ i1 => simp at h


/-! ### One more insertion into a tree built from well-formed paths -/

theorem joinPath_append (xs ys : List CStr) (hx : xs ≠ []) (hy : ys ≠ []) :
    joinPath (xs ++ ys) = joinPath xs ++ '/' :: joinPath ys := by
  cases ys with
  | nil => exact absurd rfl hy
  | cons y ys1 =>
    rw [← deepPath_joinPath xs (y :: ys1) hx, deepPath, joinPath_eq_deepPath]
    have h1 := deepPath_append (joinPath xs) ('/' :: y) ys1
    have h2 := deepPath_append ['/'] y ys1
    simp only [List.singleton_append] at h2
    rw [h1, h2]

theorem take_ne_nil (segs : List CStr) (k : Nat) (hk : 1 ≤ k) (hk2 : k ≤ segs.length) :
    segs.take k ≠ [] := by
  intro h
  have := congrArg List.length h
  rw [List.length_take, List.length_nil] at this
  omega

theorem joinPath_lt (segs : List CStr) (k : Nat) (hk : 1 ≤ k) (hk2 : k < segs.length) :
    (joinPath (segs.take k)).length < (joinPath segs).length := by
  have hd : segs.drop k ≠ [] := by
    intro h
    have := congrArg List.length h
    rw [List.length_drop, List.length_nil] at this
    omega
  have := joinPath_append (segs.take k) (segs.drop k) (take_ne_nil segs k hk (by omega)) hd
  rw [List.take_append_drop] at this
  rw [this]
  simp

theorem covered_mono (P : List (List CStr)) (segs : List CStr) (q : CStr)
    (h : Covered P q) : Covered (P ++ [segs]) q := by
  obtain ⟨s, hs, k, h1, h2, h3⟩ := h
  exact ⟨s, List.mem_append_left _ hs, k, h1, h2, h3⟩

theorem covered_new (P : List (List CStr)) (segs : List CStr) (k : Nat) (hk : 1 ≤ k)
    (hk2 : k ≤ segs.length) : Covered (P ++ [segs]) (joinPath (segs.take k)) :=
  ⟨segs, by simp, k, hk, hk2, rfl⟩

theorem covered_take (P : List (List CStr)) (segs : List CStr) (k m : Nat) (hm : 1 ≤ m)
    (hmk : m ≤ k) (hk2 : k ≤ segs.length) (h : Covered P (joinPath (segs.take k)))
    (hseg : ∀ s ∈ P, ∀ x ∈ s, Segment x) :
    Covered P (joinPath (segs.take m)) := by
  obtain ⟨s, hs, k1, h1, h2, h3⟩ := h
  have hu : Under (joinPath (segs.take m)) (joinPath (segs.take k)) := by
    have := under_joinPath_take (segs.take k) m hm (by rw [List.length_take]; omega)
    rwa [List.take_take, Nat.min_eq_left hmk] at this
  rw [h3] at hu
  have hne : s.take k1 ≠ [] := take_ne_nil s k1 h1 h2
  obtain ⟨k2, h4, h5, h6⟩ := under_joinPath_inv (s.take k1) _ hne
    (fun x hx => hseg s hs x (List.mem_of_mem_take hx)) hu
  rw [List.length_take] at h5
  refine ⟨s, hs, k2, h4, by omega, ?_⟩
  rw [h6, List.take_take, Nat.min_eq_left (by omega)]

theorem head_cons (segs : List CStr) (s1 : CStr) (h : segs.head? = some s1) :
    ∃ rest, segs = s1 :: rest := by
  cases segs with
  | nil => cases h
  | cons a rest =>
    simp only [List.head?_cons, Option.some.injEq] at h
    exact ⟨rest, by rw [h]⟩

/-- The root of a tree built from paths with the first segment `s1` has the
path `s1`. -/
theorem built_root (All P : List (List CStr)) (s1 : CStr) (t : FT) (r : NodeDir)
    (hfirst : ∀ segs ∈ All, segs.head? = some s1) (hP : ∀ x ∈ P, x ∈ All) (hb : t.Built P)
    (hr : t.rootDir = some r) : NodeDir_getPath r = s1 := by
  have hi := reachable_inv t hb.reach
  obtain ⟨segs, hs, k, h1, h2, h3⟩ := hb.sound r ⟨[], by rw [deref_of_root t r [] hr, getAt_nil]⟩
  obtain ⟨rest, rfl⟩ := head_cons segs s1 (hfirst segs (hP segs hs))
  have hns := (hi.wf r hr).2
  cases k with
  | zero => omega
  | succ k1 =>
    cases k1 with
    | zero => rw [h3]; simp [joinPath]
    | succ k2 =>
      cases rest with
      | nil => simp at h2
      | cons b rest2 =>
        rw [h3, List.take_succ_cons, List.take_succ_cons] at hns
        exact absurd (mem_joinPath_slash _ _ _) hns

/-- The traversal for a new well-formed path in a tree built from paths
with prefix-free segments stops at the directory of the first `k` segments,
which has no child whose path begins the new path unless it is that path. -/
theorem built_traverse (All P : List (List CStr)) (s1 : CStr) (segs : List CStr) (t : FT)
    (r : NodeDir)
    (hseg : ∀ s ∈ All, ∀ x ∈ s, Segment x)
    (hfirst : ∀ s ∈ All, s.head? = some s1)
    (hpf : ∀ a ∈ All.flatten, ∀ b ∈ All.flatten, a <+: b → a = b)
    (hP : ∀ x ∈ P, x ∈ All) (hsegs : segs ∈ All) (hb : t.Built P) (hr : t.rootDir = some r) :
    ∃ loc curr k, FT_traversePathDir t (joinPath segs) = some loc ∧
      r.getAt loc = some curr ∧ 1 ≤ k ∧ k ≤ segs.length ∧
      NodeDir_getPath curr = joinPath (segs.take k) ∧
      (k < segs.length →
        ∀ c ∈ curr.childrenDirs, ¬ NodeDir_getPath c <+: joinPath segs) := by
  have hroot := built_root All P s1 t r hfirst hP hb hr
  obtain ⟨rest, hrest⟩ := head_cons segs s1 (hfirst segs hsegs)
  have hpre : NodeDir_getPath r <+: joinPath segs := by
    rw [hroot, hrest, joinPath_eq_deepPath]
    exact deepPath_starts _ _
  obtain ⟨loc, hloc⟩ := traverseFromDir_isSome (joinPath segs) r hpre
  obtain ⟨curr, hget, hstart⟩ := traverseFromDir_starts (joinPath segs) r loc hloc
  obtain ⟨curr2, hget2, hdeep⟩ := traverseFromDir_deepest (joinPath segs) r loc hloc
  rw [hget] at hget2
  cases hget2
  obtain ⟨s, hs, k, h1, h2, h3⟩ := hb.sound curr ⟨loc, by rw [deref_of_root t r loc hr]; exact hget⟩
  have hsA := hP s hs
  rw [h3] at hstart
  have hlist : s.take k <+: segs := by
    apply prefix_joinPath (s.take k) segs (take_ne_nil s k h1 h2)
      (fun x hx => hseg s hsA x (List.mem_of_mem_take hx)) (hseg segs hsegs)
    · intro a ha b hb2 hab
      exact hpf a (List.mem_flatten.2 ⟨s, hsA, List.mem_of_mem_take ha⟩) b
        (List.mem_flatten.2 ⟨segs, hsegs, hb2⟩) hab
    · exact hstart
  have hlen : (s.take k).length = k := by
    rw [List.length_take]
    omega
  have hk : k ≤ segs.length := by
    have := hlist.length_le
    omega
  have htake : s.take k = segs.take k := by
    have := List.prefix_iff_eq_take.1 hlist
    rw [hlen] at this
    exact this
  refine ⟨loc, curr, k, ?_, hget, h1, hk, by rw [h3, htake], ?_⟩
  · simp [FT_traversePathDir, hb.noRootFile, hr, hloc]
  · intro hlt
    apply hdeep
    intro he
    have := joinPath_lt segs k h1 hlt
    rw [← htake, ← h3, ← he] at this
    omega


/-- Below the directory of the first `k` segments, which has no files and no
child that begins the path, `FT_insertDir` links the line of the remaining
segments and returns `SUCCESS`. -/
theorem insertDir_below (t : FT) (r curr : NodeDir) (loc : List Nat) (segs : List CStr) (k : Nat)
    (hinit : t.isInitialized = true) (hr : t.rootDir = some r)
    (htrav : FT_traversePathDir t (joinPath segs) = some loc)
    (hget : r.getAt loc = some curr)
    (hfiles : curr.childrenFiles = [])
    (hseg : ∀ x ∈ segs, Segment x) (hk : 1 ≤ k) (hk2 : k < segs.length)
    (hpath : NodeDir_getPath curr = joinPath (segs.take k))
    (hdeep : ∀ c ∈ curr.childrenDirs, ¬ NodeDir_getPath c <+: joinPath segs) :
    ∃ j tok rest, segs.drop k = tok :: rest ∧
      FT_insertDir t (joinPath segs) = .ok (.SUCCESS,
        { t.assign loc (.mk (NodeDir_getPath curr) (NodeDir_getParent curr)
            (DynArray_addAt curr.childrenDirs j
               (NodeDir.line (some (NodeDir_getPath curr)) (NodeDir_getPath curr ++ '/' :: tok) rest)) curr.childrenFiles)
          with countDirs := t.countDirs + (rest.length + 1) }) := by
  have hd : segs.drop k ≠ [] := by
    intro h
    have := congrArg List.length h
    rw [List.length_drop, List.length_nil] at this
    omega
  obtain ⟨tok, rest, hdrop⟩ := List.exists_cons_of_ne_nil hd
  have hsegd : ∀ x ∈ tok :: rest, Segment x := fun x hx =>
    hseg x (List.mem_of_mem_drop (hdrop ▸ hx))
  have hp : joinPath segs = NodeDir_getPath curr ++ '/' :: joinPath (tok :: rest) := by
    have := joinPath_append (segs.take k) (segs.drop k) (take_ne_nil segs k hk (by omega)) hd
    rw [List.take_append_drop, hdrop, ← hpath] at this
    exact this
  have hne : strcmp (joinPath segs) (NodeDir_getPath curr) ≠ 0 := by
    rw [Ne, strcmp_eq_zero]
    intro h
    have := congrArg List.length h
    rw [hp] at this
    simp at this
  have hcf : ∀ x, (NodeDir_hasChildFile curr x).1 = false := by
    intro x
    rw [NodeDir_hasChildFile, hfiles, bsearch_nil]
  have hlen : ¬ (joinPath segs).length < (NodeDir_getPath curr).length + 1 := by
    rw [hp]
    simp
  have hrestPath : (joinPath segs).drop ((NodeDir_getPath curr).length + 1)
      = joinPath (tok :: rest) := by
    rw [hp, ← List.drop_drop]
    simp
  obtain ⟨l, hl, hlne⟩ : ∃ l, (joinPath segs).getLast? = some l ∧ l ≠ '/' := by
    cases segs with
    | nil => simp at hk2
    | cons a b => exact getLast_joinPath a b hseg
  have htok := strtokAll_joinPath (tok :: rest) hsegd
  have hfirst : Chain.addDir
      { firstNew := none, curr := some curr, currLoc := [], newCount := 0 } tok
      = .ok { firstNew := some (NodeDir.line (some (NodeDir_getPath curr)) (NodeDir_getPath curr ++ '/' :: tok) []),
              curr := some (.mk (deepPath (NodeDir_getPath curr ++ '/' :: tok) [])
                (deepParent (some (NodeDir_getPath curr)) (NodeDir_getPath curr ++ '/' :: tok) [])
                [] []),
              currLoc := List.replicate ([] : List CStr).length 0,
              newCount := ([] : List CStr).length + 1 } := by
    simp [Chain.addDir, NodeDir_create, NodeDir_buildPath, NodeDir.line, deepPath, deepParent]
  have hloop := dirLoop_line (some (NodeDir_getPath curr)) (NodeDir_getPath curr ++ '/' :: tok)
    [] rest
    (fun x hx => hsegd x (List.mem_cons_of_mem _ hx))
  have hchild : (NodeDir_hasChildDir curr
      (NodeDir_getPath (NodeDir.line (some (NodeDir_getPath curr)) (NodeDir_getPath curr ++ '/' :: tok) rest))).1 = false := by
    rw [Bool.eq_false_iff]
    intro h
    rw [hasChildDir_eq] at h
    obtain ⟨c, hc, hpc⟩ := bsearch_found NodeDir_getPath NodeDir_compare
      (fun a b => rfl) _ _ h
    apply hdeep c (List.getElem?_mem hc)
    rw [hpc, getPath_line, hp]
    rw [List.prefix_append_right_inj, List.cons_prefix_cons, joinPath_eq_deepPath]
    exact ⟨rfl, deepPath_starts _ _⟩
  obtain ⟨j, hj⟩ := linkDir_new curr (NodeDir.line (some (NodeDir_getPath curr)) (NodeDir_getPath curr ++ '/' :: tok) rest) tok
    hchild (hcf _) (getPath_line _ _ _) (hsegd tok (List.mem_cons_self _ _)).2
  rw [withParent_of_eq _ _ (getParent_line _ _ _)] at hj
  refine ⟨j, tok, rest, hdrop, ?_⟩
  simp only [FT_insertDir, hinit, Bool.not_true, Bool.false_eq_true, if_false,
    htrav, FT_insertRestOfPathDir, deref_of_root t r loc hr, hget, hne, hcf, hlen,
    hrestPath, FT_insertRestOfPathDir.rest, hl, hlne, htok, List.map_cons,
    FT_insertRestOfPathDir.loop, Option.map_some', hfirst, hloop, FT_insertRestOfPath.finish,
    List.nil_append, hj]


theorem line_path_eq (segs : List CStr) (k : Nat) (tok : CStr) (rest : List CStr) (j : Nat)
    (hk : 1 ≤ k) (hk2 : k ≤ segs.length) (hdrop : segs.drop k = tok :: rest) :
    deepPath (joinPath (segs.take k) ++ '/' :: tok) (rest.take j)
      = joinPath (segs.take (k + (j + 1))) := by
  rw [List.take_add, hdrop, List.take_succ_cons,
    ← deepPath_joinPath _ _ (take_ne_nil segs k hk hk2), deepPath]

theorem built_empty : FT.Built FT.empty [] where
  reach := reachable_empty
  init := rfl
  noRootFile := rfl
  noFiles := fun d hd => by
    obtain ⟨l, hl⟩ := hd
    simp [FT.deref, FT.empty] at hl
  sound := fun d hd => by
    obtain ⟨l, hl⟩ := hd
    simp [FT.deref, FT.empty] at hl
  complete := fun q hq => by
    obtain ⟨s, hs, _⟩ := hq
    simp at hs

/-- The first insertion: the tree is still empty. -/
theorem built_step_empty (P : List (List CStr)) (s1 : CStr) (rest : List CStr) (t : FT)
    (hseg : ∀ x ∈ s1 :: rest, Segment x) (hb : t.Built P) (hr : t.rootDir = none) :
    ∃ t1, FT_insertDir t (joinPath (s1 :: rest)) = .ok (.SUCCESS, t1) ∧
      t1.Built (P ++ [s1 :: rest]) := by
  have hi := reachable_inv t hb.reach
  have hcount := hi.count
  have hempty : t = FT.empty := by
    cases t with
    | mk i rd rf c =>
      have h1 := hb.init
      have h2 := hb.noRootFile
      simp only at h1 h2 hr
      subst h1 h2 hr
      simp only [FT.numDirs] at hcount
      subst hcount
      rfl
  have hins := insertDir_empty s1 rest hseg
  rw [← hempty] at hins
  refine ⟨_, hins, ?_⟩
  have hnone : ∀ d, ¬ t.hasDir d := by
    intro d hd
    obtain ⟨l, hl⟩ := hd
    rw [deref_of_no_root t l hr] at hl
    cases hl
  refine ⟨Reachable.insertDir t _ _ _ hb.reach hins, rfl, rfl, ?_, ?_, ?_⟩
  · intro d hd
    obtain ⟨l, hl⟩ := hd
    rw [deref_of_root _ _ l rfl] at hl
    exact (line_nodes rest none s1 l d hl).1
  · intro d hd
    obtain ⟨l, hl⟩ := hd
    rw [deref_of_root _ _ l rfl] at hl
    obtain ⟨j, hj, hp⟩ := (line_nodes rest none s1 l d hl).2
    rw [hp, ← joinPath_eq_deepPath, ← List.take_succ_cons]
    exact covered_new P (s1 :: rest) (j + 1) (by omega) (by simp; omega)
  · intro q hq
    obtain ⟨s, hs, k, h1, h2, h3⟩ := hq
    rw [List.mem_append, List.mem_singleton] at hs
    rcases hs with hs | hs
    · obtain ⟨d, hd, _⟩ := hb.complete q ⟨s, hs, k, h1, h2, h3⟩
      exact absurd hd (hnone d)
    · subst hs
      obtain ⟨j, rfl⟩ : ∃ j, k = j + 1 := ⟨k - 1, by omega⟩
      obtain ⟨n, hn, hp⟩ := line_getAt_take none s1 rest j (by simpa using h2)
      refine ⟨n, ⟨List.replicate j 0, ?_⟩, ?_⟩
      · rw [deref_of_root _ _ _ rfl]
        exact hn
      · rw [hp, h3, List.take_succ_cons, joinPath_eq_deepPath]

/-- An insertion of a path that the tree holds already. -/
theorem built_step_present (P : List (List CStr)) (segs : List CStr) (t : FT)
    (hsegP : ∀ s ∈ P, ∀ x ∈ s, Segment x) (hseg : ∀ x ∈ segs, Segment x) (hb : t.Built P)
    (hcov : Covered P (joinPath segs)) : t.Built (P ++ [segs]) := by
  refine ⟨hb.reach, hb.init, hb.noRootFile, hb.noFiles, ?_, ?_⟩
  · intro d hd
    exact covered_mono P segs _ (hb.sound d hd)
  · intro q hq
    obtain ⟨s, hs, k, h1, h2, h3⟩ := hq
    rw [List.mem_append, List.mem_singleton] at hs
    rcases hs with hs | hs
    · exact hb.complete q ⟨s, hs, k, h1, h2, h3⟩
    · subst hs
      apply hb.complete
      rw [h3]
      apply covered_take P s s.length k h1 h2 (le_refl _) _ hsegP
      rw [List.take_length]
      exact hcov


/-- An insertion that links a new line of directories below the directory
of the first `k` segments. -/
theorem built_step_new (P : List (List CStr)) (segs : List CStr) (t : FT) (r curr : NodeDir)
    (loc : List Nat) (k j : Nat) (tok : CStr) (rest : List CStr) (t1 : FT)
    (hsegP : ∀ s ∈ P, ∀ x ∈ s, Segment x) (hseg : ∀ x ∈ segs, Segment x) (hb : t.Built P)
    (hr : t.rootDir = some r) (hget : r.getAt loc = some curr) (hk : 1 ≤ k)
    (hk2 : k < segs.length) (hpath : NodeDir_getPath curr = joinPath (segs.take k))
    (hdrop : segs.drop k = tok :: rest)
    (hins : FT_insertDir t (joinPath segs) = .ok (.SUCCESS, t1))
    (ht1 : t1 = { t.assign loc (.mk (NodeDir_getPath curr) (NodeDir_getParent curr)
            (DynArray_addAt curr.childrenDirs j
               (NodeDir.line (some (NodeDir_getPath curr)) (NodeDir_getPath curr ++ '/' :: tok) rest)) curr.childrenFiles)
          with countDirs := t.countDirs + (rest.length + 1) }) :
    t1.Built (P ++ [segs]) := by
  have hroot : t1.rootDir = some (r.setAt loc (.mk (NodeDir_getPath curr) (NodeDir_getParent curr)
      (DynArray_addAt curr.childrenDirs j
        (NodeDir.line (some (NodeDir_getPath curr)) (NodeDir_getPath curr ++ '/' :: tok) rest)) curr.childrenFiles)) := by
    rw [ht1, assign_some t loc _ r hr]
  have hinit : t1.isInitialized = true := by
    rw [ht1, assign_some t loc _ r hr]
    exact hb.init
  have hlen : (tok :: rest).length = segs.length - k := by
    rw [← hdrop, List.length_drop]
  rw [List.length_cons] at hlen
  have hcurr : Covered P (joinPath (segs.take k)) := by
    rw [← hpath]
    exact hb.sound curr ⟨loc, by rw [deref_of_root t r loc hr]; exact hget⟩
  refine ⟨Reachable.insertDir t _ _ _ hb.reach hins, hinit, ?_, ?_, ?_, ?_⟩
  · rw [rootFile_insertDir t _ _ _ hins]
    exact hb.noRootFile
  · intro d1 hd1
    obtain ⟨l1, hl1⟩ := hd1
    rw [deref_of_root t1 _ l1 hroot] at hl1
    rcases link_backward r curr _ loc l1 j d1 hget hl1 with ⟨l, d, hd, _, hf⟩ | ⟨l, hd⟩
    · rw [← hf]
      exact hb.noFiles d ⟨l, by rw [deref_of_root t r l hr]; exact hd⟩
    · exact (line_nodes rest _ _ l d1 hd).1
  · intro d1 hd1
    obtain ⟨l1, hl1⟩ := hd1
    rw [deref_of_root t1 _ l1 hroot] at hl1
    rcases link_backward r curr _ loc l1 j d1 hget hl1 with ⟨l, d, hd, hp, _⟩ | ⟨l, hd⟩
    · rw [← hp]
      exact covered_mono P segs _ (hb.sound d ⟨l, by rw [deref_of_root t r l hr]; exact hd⟩)
    · obtain ⟨i, hi, hp⟩ := (line_nodes rest _ _ l d1 hd).2
      rw [hp, hpath, line_path_eq segs k tok rest i hk (by omega) hdrop]
      exact covered_new P segs _ (by omega) (by omega)
  · intro q hq
    obtain ⟨s, hs, m, h1, h2, h3⟩ := hq
    have hold : Covered P q → ∃ d, t1.hasDir d ∧ NodeDir_getPath d = q := by
      intro hc
      obtain ⟨d, ⟨l, hl⟩, hp⟩ := hb.complete q hc
      rw [deref_of_root t r l hr] at hl
      obtain ⟨l1, d1, hd1, hp1⟩ := (link_forward r curr
        (NodeDir.line (some (NodeDir_getPath curr)) (NodeDir_getPath curr ++ '/' :: tok) rest) loc j hget).1 l d hl
      exact ⟨d1, ⟨l1, by rw [deref_of_root t1 _ l1 hroot]; exact hd1⟩, by rw [hp1, hp]⟩
    rw [List.mem_append, List.mem_singleton] at hs
    rcases hs with hs | hs
    · exact hold ⟨s, hs, m, h1, h2, h3⟩
    · subst hs
      by_cases hmk : m ≤ k
      · apply hold
        rw [h3]
        exact covered_take P s k m h1 hmk (by omega) hcurr hsegP
      · obtain ⟨i, rfl⟩ : ∃ i, m = k + (i + 1) := ⟨m - k - 1, by omega⟩
        obtain ⟨n, hn, hp⟩ := line_getAt_take (some (NodeDir_getPath curr))
          (NodeDir_getPath curr ++ '/' :: tok) rest i
          (by omega)
        obtain ⟨l1, hl1⟩ := (link_forward r curr
          (NodeDir.line (some (NodeDir_getPath curr)) (NodeDir_getPath curr ++ '/' :: tok) rest) loc j hget).2 _ n hn
        refine ⟨n, ⟨l1, by rw [deref_of_root t1 _ l1 hroot]; exact hl1⟩, ?_⟩
        rw [hp, h3, hpath, line_path_eq s k tok rest i hk (by omega) hdrop]

/-- One more `FT_insertDir` of a well-formed path keeps the tree built from
the paths inserted and returns `SUCCESS` or `ALREADY_IN_TREE`. -/
theorem built_step (All P : List (List CStr)) (s1 : CStr) (segs : List CStr) (t : FT)
    (hseg : ∀ s ∈ All, ∀ x ∈ s, Segment x)
    (hfirst : ∀ s ∈ All, s.head? = some s1)
    (hpf : ∀ a ∈ All.flatten, ∀ b ∈ All.flatten, a <+: b → a = b)
    (hP : ∀ x ∈ P, x ∈ All) (hsegs : segs ∈ All) (hb : t.Built P) :
    ∃ code t1, FT_insertDir t (joinPath segs) = .ok (code, t1) ∧
      (code = .SUCCESS ∨ code = .ALREADY_IN_TREE) ∧ t1.Built (P ++ [segs]) := by
  have hsegP : ∀ s ∈ P, ∀ x ∈ s, Segment x := fun s hs => hseg s (hP s hs)
  cases hr : t.rootDir with
  | none =>
    obtain ⟨rest, hrest⟩ := head_cons segs s1 (hfirst segs hsegs)
    subst hrest
    obtain ⟨t1, h1, h2⟩ := built_step_empty P s1 rest t (hseg _ hsegs) hb hr
    exact ⟨_, t1, h1, Or.inl rfl, h2⟩
  | some r =>
    obtain ⟨loc, curr, k, htrav, hget, hk, hk2, hpath, hdeep⟩ :=
      built_traverse All P s1 segs t r hseg hfirst hpf hP hsegs hb hr
    have hcurr : t.hasDir curr := ⟨loc, by rw [deref_of_root t r loc hr]; exact hget⟩
    by_cases hlt : k < segs.length
    · obtain ⟨j, tok, rest, hdrop, hins⟩ := insertDir_below t r curr loc segs k hb.init hr htrav
        hget (hb.noFiles curr hcurr) (hseg segs hsegs) hk hlt hpath (hdeep hlt)
      exact ⟨_, _, hins, Or.inl rfl,
        built_step_new P segs t r curr loc k j tok rest _ hsegP (hseg segs hsegs) hb hr hget hk
          hlt hpath hdrop hins rfl⟩
    · have hkeq : k = segs.length := by omega
      rw [hkeq, List.take_length] at hpath
      refine ⟨.ALREADY_IN_TREE, t, ?_, Or.inr rfl, ?_⟩
      · simp [FT_insertDir, hb.init, htrav, FT_insertRestOfPathDir, deref_of_root t r loc hr,
          hget, hpath, strcmp_self]
      · apply built_step_present P segs t hsegP (hseg segs hsegs) hb
        rw [← hpath]
        exact hb.sound curr hcurr


/-! ### What the queries report on a tree built from well-formed paths -/

theorem split_at_last_slash (a b x y : CStr) (h : a ++ '/' :: x = b ++ '/' :: y)
    (hx : '/' ∉ x) (hy : '/' ∉ y) : a = b ∧ x = y := by
  have hrev := congrArg List.reverse h
  simp only [List.reverse_append, List.reverse_cons, List.append_assoc,
    List.singleton_append] at hrev
  have := split_at_slash_unique x.reverse y.reverse a.reverse b.reverse hrev
    (by simpa using hx) (by simpa using hy)
  exact ⟨List.reverse_injective this.2, List.reverse_injective this.1⟩

/-- The last segment of a covered path below a parent is one of the
segments of the paths inserted. -/
theorem covered_last (P : List (List CStr)) (p seg : CStr)
    (hseg : ∀ s ∈ P, ∀ x ∈ s, Segment x) (hs : '/' ∉ seg)
    (h : Covered P (p ++ '/' :: seg)) : seg ∈ P.flatten := by
  obtain ⟨s, hsP, k, h1, h2, h3⟩ := h
  obtain ⟨k1, rfl⟩ : ∃ k1, k = k1 + 1 := ⟨k - 1, by omega⟩
  have hlt : k1 < s.length := by omega
  have htake : s.take (k1 + 1) = s.take k1 ++ [s[k1]] := by
    rw [List.take_succ, List.getElem?_eq_getElem hlt]
    rfl
  have hmem : s[k1] ∈ s := List.getElem_mem hlt
  cases k1 with
  | zero =>
    rw [htake] at h3
    simp only [List.take_zero, List.nil_append, joinPath] at h3
    have := (hseg s hsP _ hmem).2
    rw [← h3] at this
    simp at this
  | succ k2 =>
    rw [htake, joinPath_snoc _ _ (take_ne_nil s (k2 + 1) (by omega) (by omega))] at h3
    have := (split_at_last_slash _ _ _ _ h3 hs (hseg s hsP _ hmem).2).2
    rw [this]
    exact List.mem_flatten.2 ⟨s, hsP, hmem⟩

/-- In a tree built from paths with prefix-free segments no child path
begins the path of a sibling. -/
theorem built_siblings (All P : List (List CStr)) (t : FT) (r : NodeDir)
    (hseg : ∀ s ∈ All, ∀ x ∈ s, Segment x)
    (hpf : ∀ a ∈ All.flatten, ∀ b ∈ All.flatten, a <+: b → a = b)
    (hP : ∀ x ∈ P, x ∈ All) (hb : t.Built P) (hr : t.rootDir = some r) :
    ∀ loc n, r.getAt loc = some n → ∀ c1 ∈ n.childrenDirs, ∀ c2 ∈ n.childrenDirs,
      NodeDir_getPath c1 <+: NodeDir_getPath c2 → NodeDir_getPath c1 = NodeDir_getPath c2 := by
  intro loc n hn c1 hc1 c2 hc2 hpre
  have hi := reachable_inv t hb.reach
  have hw := wf_getAt r loc n (hi.wf r hr).1 hn
  have hsegP : ∀ s ∈ P, ∀ x ∈ s, Segment x := fun s hs => hseg s (hP s hs)
  have hsub : ∀ x ∈ P.flatten, x ∈ All.flatten := by
    intro x hx
    obtain ⟨s, hs, hxs⟩ := List.mem_flatten.1 hx
    exact List.mem_flatten.2 ⟨s, hP s hs, hxs⟩
  have hnode : ∀ c ∈ n.childrenDirs, t.hasDir c := by
    intro c hc
    obtain ⟨i, hi⟩ := List.mem_iff_getElem?.mp hc
    refine ⟨loc ++ [i], ?_⟩
    rw [deref_of_root t r _ hr, getAt_append, hn, Option.some_bind, getAt_cons, hi,
      Option.some_bind, getAt_nil]
  cases n with
  | mk p par ds fs =>
    obtain ⟨_, _, h3, _⟩ := (wf_iff p par ds fs).mp hw
    obtain ⟨seg1, e1, hs1⟩ := h3 c1 hc1
    obtain ⟨seg2, e2, hs2⟩ := h3 c2 hc2
    have m1 := covered_last P p seg1 hsegP hs1 (e1 ▸ hb.sound c1 (hnode c1 hc1))
    have m2 := covered_last P p seg2 hsegP hs2 (e2 ▸ hb.sound c2 (hnode c2 hc2))
    rw [e1, e2, List.prefix_append_right_inj, List.cons_prefix_cons] at hpre
    rw [e1, e2, hpf seg1 (hsub _ m1) seg2 (hsub _ m2) hpre.2]

/-- On a tree built from well-formed paths `FT_containsDir` holds of the
paths inserted and their ancestors, and of no other path. -/
theorem built_contains (All P : List (List CStr)) (s1 : CStr) (t : FT)
    (hseg : ∀ s ∈ All, ∀ x ∈ s, Segment x)
    (hfirst : ∀ s ∈ All, s.head? = some s1)
    (hpf : ∀ a ∈ All.flatten, ∀ b ∈ All.flatten, a <+: b → a = b)
    (hP : ∀ x ∈ P, x ∈ All) (hb : t.Built P) (q : CStr) :
    FT_containsDir t q = true ↔ ∃ segs ∈ P, Under q (joinPath segs) := by
  constructor
  · intro h
    obtain ⟨l, d, hd, hp⟩ := containsDir_true t q h
    obtain ⟨s, hs, k, h1, h2, h3⟩ := hb.sound d ⟨l, hd⟩
    refine ⟨s, hs, ?_⟩
    rw [← hp, h3]
    exact under_joinPath_take s k h1 h2
  · rintro ⟨s, hs, hu⟩
    have hne : s ≠ [] := by
      intro h
      have := hfirst s (hP s hs)
      rw [h] at this
      cases this
    obtain ⟨k, h1, h2, h3⟩ := under_joinPath_inv s q hne (hseg s (hP s hs)) hu
    obtain ⟨d, ⟨l, hl⟩, hp⟩ := hb.complete q ⟨s, hs, k, h1, h2, h3⟩
    obtain ⟨r, hr, hget⟩ := deref_some t l d hl
    have hi := reachable_inv t hb.reach
    have htr := traverse_complete l r d (hi.wf r hr).1
      (built_siblings All P t r hseg hpf hP hb hr) hget
    rw [hp] at htr
    simp [FT_containsDir, hb.init, FT_traversePathDir, hb.noRootFile, hr, htr, FT.deref, hget,
      hp, strcmp_self]

/-- The calls `FT_insertDir` for a list of well-formed paths all return, with
`SUCCESS` or `ALREADY_IN_TREE`, and leave the tree built from the paths. -/
theorem built_calls (All : List (List CStr)) (s1 : CStr)
    (hseg : ∀ s ∈ All, ∀ x ∈ s, Segment x)
    (hfirst : ∀ s ∈ All, s.head? = some s1)
    (hpf : ∀ a ∈ All.flatten, ∀ b ∈ All.flatten, a <+: b → a = b) :
    ∀ (todo P : List (List CStr)) (t : FT), (∀ x ∈ P, x ∈ All) → (∀ x ∈ todo, x ∈ All) →
      t.Built P →
      ∃ codes u, insertDirCalls t (todo.map joinPath) = .ok (codes, u) ∧
        (∀ c ∈ codes, c = .SUCCESS ∨ c = .ALREADY_IN_TREE) ∧ u.Built (P ++ todo)
  | [], P, t, _, _, hb => ⟨[], t, rfl, by simp, by rw [List.append_nil]; exact hb⟩
  | segs :: rest, P, t, hP, htodo, hb => by
    obtain ⟨code, t1, h1, h2, h3⟩ := built_step All P s1 segs t hseg hfirst hpf hP
      (htodo segs (List.mem_cons_self _ _)) hb
    have hP1 : ∀ x ∈ P ++ [segs], x ∈ All := by
      intro x hx
      rw [List.mem_append, List.mem_singleton] at hx
      rcases hx with hx | hx
      · exact hP x hx
      · rw [hx]
        exact htodo segs (List.mem_cons_self _ _)
    obtain ⟨codes, u, h4, h5, h6⟩ := built_calls All s1 hseg hfirst hpf rest (P ++ [segs]) t1 hP1
      (fun x hx => htodo x (List.mem_cons_of_mem _ hx)) h3
    refine ⟨code :: codes, u, ?_, ?_, ?_⟩
    · simp only [List.map_cons, insertDirCalls, h1, h4]
    · intro c hc
      rw [List.mem_cons] at hc
      rcases hc with hc | hc
      · rw [hc]
        exact h2
      · exact h5 c hc
    · rw [List.append_assoc, List.singleton_append] at h6
      exact h6

theorem insertDirCalls_length : ∀ (ps : List CStr) (t : FT) (codes : List Status) (u : FT),
    insertDirCalls t ps = .ok (codes, u) → codes.length = ps.length
  | [], t, codes, u, h => by
    simp only [insertDirCalls, Except.ok.injEq, Prod.mk.injEq] at h
    rw [← h.1]
    rfl
  | p :: rest, t, codes, u, h => by
    simp only [insertDirCalls] at h
    split at h
    · cases h
    · rename_i code t1 h1
      split at h
      · cases h
      · rename_i codes1 u1 h2
        simp only [Except.ok.injEq, Prod.mk.injEq] at h
        rw [← h.1, List.length_cons, List.length_cons,
          insertDirCalls_length rest t1 codes1 u1 h2]


/-! ### The fields `parent` agree with the hierarchy -/

theorem linked_iff (p : CStr) (par : Option CStr) (ds : List NodeDir) (fs : List NodeFile) :
    (NodeDir.mk p par ds fs).Linked ↔
      (∀ d ∈ ds, NodeDir_getParent d = some p) ∧
      (∀ f ∈ fs, NodeFile_getParent f = some p) ∧
      (∀ d ∈ ds, d.Linked) := by
  constructor
  · intro h
    cases h with
    | mk _ _ _ _ h1 h2 h3 => exact ⟨h1, h2, h3⟩
  · rintro ⟨h1, h2, h3⟩
    exact NodeDir.Linked.mk p par ds fs h1 h2 h3

theorem linked_withParent (n : NodeDir) (par : Option CStr) (h : n.Linked) :
    (n.withParent par).Linked := by
  cases n with
  | mk p par0 ds fs =>
    rw [NodeDir.withParent, linked_iff]
    exact (linked_iff p par0 ds fs).1 h

theorem linked_create (tok : CStr) (parent : Option NodeDir) :
    (NodeDir_create tok parent).Linked := by
  unfold NodeDir_create
  rw [linked_iff]
  simp

theorem getParent_create (tok : CStr) (parent : Option NodeDir) :
    NodeDir_getParent (NodeDir_create tok parent) = parent.map NodeDir_getPath := rfl

theorem linked_getAt (n : NodeDir) (loc : List Nat) (c : NodeDir) (hn : n.Linked)
    (h : n.getAt loc = some c) : c.Linked := by
  induction loc generalizing n with
  | nil =>
    rw [getAt_nil] at h
    cases h
    exact hn
  | cons i rest ih =>
    cases n with
    | mk p par ds fs =>
      rw [getAt_cons] at h
      simp only [NodeDir.childrenDirs] at h
      cases hi : ds[i]? with
      | none => simp [hi] at h
      | some d =>
        rw [hi] at h
        exact ih d (((linked_iff p par ds fs).1 hn).2.2 d (List.getElem?_mem hi)) h

/-- A write through a pointer keeps the fields `parent` in agreement when
the new node points where the old one did. -/
theorem linked_setAt (n : NodeDir) (loc : List Nat) (old new : NodeDir) (hn : n.Linked)
    (hget : n.getAt loc = some old) (hpar : NodeDir_getParent new = NodeDir_getParent old)
    (hnew : new.Linked) :
    (n.setAt loc new).Linked ∧ NodeDir_getParent (n.setAt loc new) = NodeDir_getParent n := by
  induction loc generalizing n with
  | nil =>
    rw [getAt_nil] at hget
    cases hget
    rw [setAt_nil]
    exact ⟨hnew, hpar⟩
  | cons i rest ih =>
    cases n with
    | mk p par ds fs =>
      rw [getAt_cons] at hget
      simp only [NodeDir.childrenDirs] at hget
      cases hi : ds[i]? with
      | none => simp [hi] at hget
      | some d =>
        rw [hi] at hget
        obtain ⟨h1, h2, h3⟩ := (linked_iff p par ds fs).1 hn
        have hd := List.getElem?_mem hi
        obtain ⟨a1, a2⟩ := ih d (h3 d hd) hget
        rw [setAt_cons p par ds fs i rest new d hi]
        refine ⟨?_, rfl⟩
        rw [linked_iff]
        refine ⟨?_, h2, ?_⟩
        · intro x hx
          rcases List.mem_or_eq_of_mem_set hx with hx | hx
          · exact h1 x hx
          · rw [hx, a2]
            exact h1 d hd
        · intro x hx
          rcases List.mem_or_eq_of_mem_set hx with hx | hx
          · exact h3 x hx
          · rw [hx]
            exact a1

theorem linked_linkDir (parent child p1 : NodeDir) (j : Nat)
    (h : NodeDir_linkChildDir parent child = (.SUCCESS, p1, j))
    (hp : parent.Linked) (hc : child.Linked) :
    p1.Linked ∧ NodeDir_getParent p1 = NodeDir_getParent parent := by
  obtain ⟨-, -, -, rfl⟩ := linkChildDir_success parent child p1 j h
  refine ⟨?_, rfl⟩
  rw [← node_eta parent, linked_iff] at hp
  rw [linked_iff]
  refine ⟨?_, hp.2.1, ?_⟩
  · intro x hx
    rcases (mem_addAt _ _ _ _).1 hx with h1 | h1
    · rw [h1, getParent_withParent]
    · exact hp.1 x h1
  · intro x hx
    rcases (mem_addAt _ _ _ _).1 hx with h1 | h1
    · rw [h1]
      exact linked_withParent child _ hc
    · exact hp.2.2 x h1

theorem linked_linkFile (parent : NodeDir) (child : NodeFile) (p1 : NodeDir)
    (h : NodeDir_linkChildFile parent child = (.SUCCESS, p1))
    (hp : parent.Linked) (hc : NodeFile_getParent child = some (NodeDir_getPath parent)) :
    p1.Linked ∧ NodeDir_getParent p1 = NodeDir_getParent parent := by
  obtain ⟨-, -, j, -, rfl⟩ := linkChildFile_success parent child p1 h
  refine ⟨?_, rfl⟩
  rw [← node_eta parent, linked_iff] at hp
  rw [linked_iff]
  refine ⟨hp.1, ?_, hp.2.2⟩
  intro x hx
  rcases (mem_addAt _ _ _ _).1 hx with h1 | h1
  · rw [h1]
    exact hc
  · exact hp.2.1 x h1

theorem linked_unlinkDir (parent child : NodeDir) (hp : parent.Linked) :
    (NodeDir_unlinkChildDir parent child).2.Linked ∧
    NodeDir_getParent (NodeDir_unlinkChildDir parent child).2 = NodeDir_getParent parent := by
  unfold NodeDir_unlinkChildDir
  split
  · exact ⟨hp, rfl⟩
  · refine ⟨?_, rfl⟩
    rw [← node_eta parent, linked_iff] at hp
    simp only [DynArray_removeAt]
    rw [linked_iff]
    exact ⟨fun x hx => hp.1 x (List.mem_of_mem_eraseIdx hx), hp.2.1,
      fun x hx => hp.2.2 x (List.mem_of_mem_eraseIdx hx)⟩

theorem linked_unlinkFile (parent : NodeDir) (child : NodeFile) (hp : parent.Linked) :
    (NodeDir_unlinkChildFile parent child).2.Linked ∧
    NodeDir_getParent (NodeDir_unlinkChildFile parent child).2 = NodeDir_getParent parent := by
  unfold NodeDir_unlinkChildFile
  split
  · exact ⟨hp, rfl⟩
  · refine ⟨?_, rfl⟩
    rw [← node_eta parent, linked_iff] at hp
    simp only [DynArray_removeAt]
    rw [linked_iff]
    exact ⟨hp.1, fun x hx => hp.2.1 x (List.mem_of_mem_eraseIdx hx), hp.2.2⟩

/-- A state with the same roots has the same fields `parent`. -/
theorem parents_congr (s t : FT) (hd : t.rootDir = s.rootDir) (hf : t.rootFile = s.rootFile)
    (hs : s.Parents) : t.Parents :=
  ⟨fun r hr => hs.dir r (hd ▸ hr), fun f h => hs.file f (hf ▸ h)⟩

theorem parents_deref (s : FT) (loc : List Nat) (n : NodeDir) (hs : s.Parents)
    (h : s.deref loc = some n) : n.Linked := by
  obtain ⟨r, hr, hget⟩ := deref_some s loc n h
  exact linked_getAt r loc n (hs.dir r hr).2 hget

/-- A write through a pointer into the tree keeps the invariant of the
fields `parent` when the new node points where the old one did. -/
theorem parents_assign (s : FT) (loc : List Nat) (old new : NodeDir) (hs : s.Parents)
    (hget : s.deref loc = some old) (hpar : NodeDir_getParent new = NodeDir_getParent old)
    (hnew : new.Linked) : (s.assign loc new).Parents := by
  obtain ⟨r, hr, hg⟩ := deref_some s loc old hget
  rw [assign_some s loc new r hr]
  obtain ⟨h1, h2⟩ := hs.dir r hr
  obtain ⟨a1, a2⟩ := linked_setAt r loc old new h2 hg hpar hnew
  constructor
  · intro r1 hr1
    simp only [Option.some.injEq] at hr1
    subst hr1
    exact ⟨a2.trans h1, a1⟩
  · exact hs.file

/-! ### The insertion loops keep the fields `parent` in agreement -/

theorem addDir_linked (parent : Option NodeDir) (c c1 : Chain) (tok : CStr)
    (ho : c.Open parent)
    (hf : ∀ first, c.firstNew = some first →
      first.Linked ∧ NodeDir_getParent first = parent.map NodeDir_getPath)
    (h : c.addDir tok = .ok c1) :
    ∀ first, c1.firstNew = some first →
      first.Linked ∧ NodeDir_getParent first = parent.map NodeDir_getPath := by
  unfold Chain.addDir at h
  obtain ⟨-, hcur⟩ := ho
  cases hfn : c.firstNew with
  | none =>
    rw [hfn] at hcur
    simp only at hcur
    simp only [hfn] at h
    cases h
    intro first hfirst
    cases hfirst
    rw [hcur]
    exact ⟨linked_create tok parent, rfl⟩
  | some first =>
    rw [hfn] at hcur
    simp only at hcur
    obtain ⟨curr, hc, hget, -, -⟩ := hcur
    simp only [hfn, hc] at h
    split at h
    · rename_i curr1 i hlink
      cases h
      have hl := ftLinkDir_success _ _ _ _ hlink
      obtain ⟨b1, b2⟩ := hf first hfn
      obtain ⟨a1, a2⟩ := linked_linkDir curr _ curr1 i hl (linked_getAt first _ curr b1 hget)
        (linked_create tok _)
      obtain ⟨d1, d2⟩ := linked_setAt first c.currLoc curr curr1 b1 hget a2 a1
      intro f1 hf1
      cases hf1
      exact ⟨d1, d2.trans b2⟩
    · cases h

theorem dirLoop_linked (parent : Option NodeDir) (toks : List (Bool × CStr)) (c c1 : Chain)
    (htoks : ∀ t ∈ toks, '/' ∉ t.2 ∧ t.2 ≠ []) (ho : c.Open parent)
    (hf : ∀ first, c.firstNew = some first →
      first.Linked ∧ NodeDir_getParent first = parent.map NodeDir_getPath)
    (h : FT_insertRestOfPathDir.loop toks c = .done c1) :
    ∀ first, c1.firstNew = some first →
      first.Linked ∧ NodeDir_getParent first = parent.map NodeDir_getPath := by
  induction toks generalizing c with
  | nil =>
    simp only [FT_insertRestOfPathDir.loop] at h
    cases h
    exact hf
  | cons t rest ih =>
    obtain ⟨pre, tok⟩ := t
    simp only [FT_insertRestOfPathDir.loop] at h
    split at h
    · cases h
    · split at h
      · rename_i c2 hadd
        have ht := htoks _ (List.mem_cons_self _ _)
        exact ih c2 (fun t ht => htoks t (List.mem_cons_of_mem _ ht))
          (addDir_open parent c c2 tok ho ht.1 hadd)
          (addDir_linked parent c c2 tok ho hf hadd) h
      · cases h

theorem fileLoop_linked (parent : Option NodeDir) (contents : Ptr) (length : Nat)
    (toks : List (Bool × CStr)) (findFile : Option CStr) (c c1 : Chain)
    (htoks : ∀ t ∈ toks, '/' ∉ t.2 ∧ t.2 ≠ []) (ho : c.Open parent)
    (hf : ∀ first, c.firstNew = some first →
      first.Linked ∧ NodeDir_getParent first = parent.map NodeDir_getPath)
    (h : FT_insertRestOfPathFile.loop contents length toks findFile c = .done c1) :
    ∀ first, c1.firstNew = some first →
      first.Linked ∧ NodeDir_getParent first = parent.map NodeDir_getPath := by
  induction toks generalizing c findFile with
  | nil =>
    simp only [FT_insertRestOfPathFile.loop] at h
    cases h
    exact hf
  | cons t rest ih =>
    obtain ⟨pre, tok⟩ := t
    simp only [FT_insertRestOfPathFile.loop] at h
    split at h
    · cases h
    · split at h
      · split at h
        · rename_i first curr hfn hcu
          split at h
          · rename_i curr1 hlink
            cases h
            have hl := ftLinkFile_success _ _ _ hlink
            obtain ⟨-, hcur⟩ := ho
            rw [hfn] at hcur
            simp only at hcur
            obtain ⟨curr0, hc0, hget, -, -⟩ := hcur
            rw [hcu] at hc0
            cases hc0
            obtain ⟨b1, b2⟩ := hf first hfn
            obtain ⟨a1, a2⟩ := linked_linkFile curr _ curr1 hl (linked_getAt first _ curr b1 hget)
              rfl
            obtain ⟨d1, d2⟩ := linked_setAt first c.currLoc curr curr1 b1 hget a2 a1
            intro f1 hf1
            cases hf1
            exact ⟨d1, d2.trans b2⟩
          · cases h
        · cases h
      · split at h
        · rename_i c2 hadd
          have ht := htoks _ (List.mem_cons_self _ _)
          exact ih _ c2 (fun t ht => htoks t (List.mem_cons_of_mem _ ht))
            (addDir_open parent c c2 tok ho ht.1 hadd)
            (addDir_linked parent c c2 tok ho hf hadd) h
        · cases h


/-! ### The public functions keep the invariant of the fields `parent` -/

theorem finish_parents (s : FT) (parent : Option (List Nat × NodeDir)) (c : Chain)
    (code : Status) (t : FT) (hs : s.Parents)
    (hpar : ∀ loc pn, parent = some (loc, pn) → s.deref loc = some pn)
    (hf : ∀ first, c.firstNew = some first →
      first.Linked ∧ NodeDir_getParent first = (parent.map (fun p => p.2)).map NodeDir_getPath)
    (h : FT_insertRestOfPath.finish s parent c = .ok (code, t)) : t.Parents := by
  unfold FT_insertRestOfPath.finish at h
  split at h
  · cases h
    constructor
    · intro r hr
      obtain ⟨a1, a2⟩ := hf r hr
      exact ⟨a2, a1⟩
    · exact hs.file
  · rename_i loc pn
    split at h
    · cases h
    · rename_i first hfn
      split at h
      · rename_i p1 j hlink
        cases h
        have hl := ftLinkDir_success _ _ _ _ hlink
        have hd := hpar loc pn rfl
        obtain ⟨a1, a2⟩ := linked_linkDir pn first p1 j hl (parents_deref s loc pn hs hd)
          (hf first hfn).1
        exact parents_congr (s.assign loc p1) _ rfl rfl (parents_assign s loc pn p1 hs hd a2 a1)
      · cases h

theorem parents_insertDir (s : FT) (path : CStr) (code : Status) (t : FT) (hs : s.Parents)
    (h : FT_insertDir s path = .ok (code, t)) : t.Parents := by
  by_cases hc : code = .SUCCESS
  swap
  · rw [insertDir_failed s path code t h hc]; exact hs
  subst hc
  unfold FT_insertDir at h
  split at h
  · cases h
  unfold FT_insertRestOfPathDir at h
  have key : ∀ (parent : Option (List Nat × NodeDir)) (restPath : CStr),
      (∀ loc pn, parent = some (loc, pn) → s.deref loc = some pn) →
      FT_insertRestOfPathDir.rest s path parent restPath = .ok (.SUCCESS, t) → t.Parents := by
    clear h
    intro parent restPath hpar h
    unfold FT_insertRestOfPathDir.rest at h
    split at h
    · cases h
    · split at h
      · cases h
      · split at h
        · cases h; exact hs
        · cases h
        · rename_i c hloop
          refine finish_parents s parent c _ t hs hpar ?_ h
          refine dirLoop_linked _ _ _ c (strtokAll_tokens restPath) ?_ ?_ hloop
          · exact ⟨by simp [Chain.Closed], by simp⟩
          · intro first hfirst
            cases hfirst
  split at h
  · split at h
    · cases h
    · exact key none path (fun _ _ hx => by cases hx) h
  · rename_i loc hloc
    split at h
    · cases h
    · rename_i curr hd
      split at h
      · cases h
      · split at h
        · cases h
        · split at h
          · cases h
          · simp only at h
            split at h
            · cases h
            · refine key (some (loc, curr)) _ ?_ h
              intro l pn hx
              cases hx
              exact hd

theorem parents_insertFile (s : FT) (path : CStr) (contents : Ptr) (length : Nat)
    (code : Status) (t : FT) (hs : s.Parents)
    (h : FT_insertFile s path contents length = .ok (code, t)) : t.Parents := by
  by_cases hc : code = .SUCCESS
  swap
  · rw [insertFile_failed s path contents length code t h hc]; exact hs
  subst hc
  unfold FT_insertFile at h
  split at h
  · cases h
  unfold FT_insertRestOfPathFile at h
  have key : ∀ (parent : Option (List Nat × NodeDir)) (restPath : CStr),
      (∀ loc pn, parent = some (loc, pn) → s.deref loc = some pn) →
      FT_insertRestOfPathFile.rest s path parent restPath contents length
        = .ok (.SUCCESS, t) → t.Parents := by
    clear h
    intro parent restPath hpar h
    unfold FT_insertRestOfPathFile.rest at h
    split at h
    · cases h
    · split at h
      · cases h
      · split at h
        · split at h
          · cases h
            constructor
            · exact hs.dir
            · intro f hf
              cases hf
              rfl
          · rename_i loc pn
            split at h
            · rename_i p1 hlink
              cases h
              have hl := ftLinkFile_success _ _ _ hlink
              have hd := hpar loc pn rfl
              obtain ⟨a1, a2⟩ := linked_linkFile pn _ p1 hl (parents_deref s loc pn hs hd) rfl
              exact parents_assign s loc pn p1 hs hd a2 a1
            · cases h
        · split at h
          · cases h; exact hs
          · cases h
          · rename_i c hloop
            refine finish_parents s parent c _ t hs hpar ?_ h
            refine fileLoop_linked _ _ _ _ _ _ c (strtokAll_tokens restPath) ?_ ?_ hloop
            · exact ⟨by simp [Chain.Closed], by simp⟩
            · intro first hfirst
              cases hfirst
  split at h
  · split at h
    · cases h
    · exact key none path (fun _ _ hx => by cases hx) h
  · rename_i loc hloc
    split at h
    · cases h
    · rename_i curr hd
      split at h
      · cases h
      · split at h
        · cases h
        · simp only at h
          split at h
          · cases h
          · refine key (some (loc, curr)) _ ?_ h
            intro l pn hx
            cases hx
            exact hd

theorem parents_rmDir (s : FT) (path : CStr) (code : Status) (t : FT) (hs : s.Parents)
    (h : FT_rmDir s path = .ok (code, t)) : t.Parents := by
  unfold FT_rmDir at h
  split at h
  · cases h; exact hs
  split at h
  · cases h; exact hs
  split at h
  · cases h
  split at h
  · cases h; exact hs
  split at h
  · cases h; exact hs
  split at h
  · cases h
    constructor
    · intro r hr
      cases hr
    · intro f hf
      have : s.rootFile = some f := by
        simpa [FT_removePathFromDir] using hf
      exact hs.file f this
  · rename_i curr _ _ _ _
    split at h
    · cases h
    rename_i parent hpd
    cases h
    obtain ⟨a1, a2⟩ := linked_unlinkDir parent curr (parents_deref s _ parent hs hpd)
    exact parents_congr (s.assign _ _) _ rfl rfl (parents_assign s _ parent _ hs hpd a2 a1)

theorem parents_rmFile (s : FT) (path : CStr) (code : Status) (t : FT) (hs : s.Parents)
    (h : FT_rmFile s path = .ok (code, t)) : t.Parents := by
  unfold FT_rmFile at h
  split at h
  · cases h; exact hs
  split at h
  · split at h
    · cases h
      exact ⟨hs.dir, fun f hf => nomatch hf⟩
    · cases h; exact hs
  · split at h
    · cases h; exact hs
    split at h
    · cases h
    rename_i curr hd
    split at h
    · split at h
      · cases h
      · cases h
        obtain ⟨a1, a2⟩ := linked_unlinkFile curr _ (parents_deref s _ curr hs hd)
        exact parents_assign s _ curr _ hs hd a2 a1
    · split at h
      · cases h; exact hs
      · cases h; exact hs

theorem parents_replaceFileContents (s : FT) (path : CStr) (newContents : Ptr) (newLength : Nat)
    (old : Ptr) (t : FT) (hs : s.Parents)
    (h : FT_replaceFileContents s path newContents newLength = .ok (old, t)) : t.Parents := by
  unfold FT_replaceFileContents at h
  split at h
  · rename_i f hf
    split at h
    · cases h
      refine ⟨hs.dir, ?_⟩
      intro g hg
      cases hg
      exact hs.file f hf
    · cases h; exact hs
  · split at h
    · cases h
    split at h
    · cases h
    rename_i curr hd
    split at h
    · split at h
      · cases h
      · rename_i child hchild
        cases h
        have hc := parents_deref s _ curr hs hd
        refine parents_assign s _ curr _ hs hd rfl ?_
        rw [← node_eta curr, linked_iff] at hc
        rw [linked_iff]
        refine ⟨hc.1, ?_, hc.2.2⟩
        intro x hx
        rcases List.mem_or_eq_of_mem_set hx with hx | hx
        · exact hc.2.1 x hx
        · rw [hx]
          exact hc.2.1 child (List.getElem?_mem hchild)
    · cases h; exact hs

theorem parents_toString (s : FT) (str : Option CStr) (t : FT) (hs : s.Parents)
    (h : FT_toString s = .ok (str, t)) : t.Parents := by
  unfold FT_toString at h
  split at h
  · cases h; exact hs
  split at h
  · rename_i f hf
    cases h
    refine ⟨hs.dir, ?_⟩
    intro g hg
    cases hg
    exact hs.file f hf
  · simp only at h
    split at h
    · cases h
    · split at h
      · cases h
      · split at h
        · cases h; exact hs
        · split at h
          · cases h
          · cases h; exact hs

theorem parents_init (s : FT) (hs : s.Parents) : (FT_init s).2.Parents := by
  unfold FT_init
  split
  · exact hs
  · exact ⟨fun r hr => (nomatch hr), fun f hf => nomatch hf⟩

theorem parents_destroy (s : FT) (hs : s.Parents) : (FT_destroy s).2.Parents := by
  unfold FT_destroy
  split
  · exact hs
  split
  · exact ⟨hs.dir, hs.file⟩
  · split
    · exact ⟨hs.dir, fun f hf => nomatch hf⟩
    · refine ⟨fun r hr => (nomatch hr), ?_⟩
      intro f hf
      have e : (FT_removePathFromDir s s.rootDir).rootFile = s.rootFile := by
        unfold FT_removePathFromDir
        split <;> rfl
      exact hs.file f (e ▸ hf)

/-- In every reachable state the root, directory or file, has `NULL` in its
field `parent`, and every other node of the tree points to the directory
that holds it. -/
theorem reachable_parents (s : FT) (h : Reachable s) : s.Parents := by
  induction h with
  | start => exact ⟨fun r hr => (nomatch hr), fun f hf => nomatch hf⟩
  | init s _ ih => exact parents_init s ih
  | destroy s _ ih => exact parents_destroy s ih
  | insertDir s path code t _ h ih => exact parents_insertDir s path code t ih h
  | insertFile s path c n code t _ h ih => exact parents_insertFile s path c n code t ih h
  | rmDir s path code t _ h ih => exact parents_rmDir s path code t ih h
  | rmFile s path code t _ h ih => exact parents_rmFile s path code t ih h
  | replaceFileContents s path c n old t _ h ih =>
    exact parents_replaceFileContents s path c n old t ih h
  | toString s str t _ h ih => exact parents_toString s str t ih h


/-! ## The claims -/

/-- C1 (the code departs from the claim): on the empty tree
`FT_insertDir("a/bc")` and then `FT_insertDir("a/b")` both return `SUCCESS`,
and afterwards `FT_containsDir("a/bc")` is `FALSE`: the traversal enters the
sibling `a/b`, whose path is a prefix of `a/bc` as a string. -/
theorem insertDir_roundTrip_broken :
    FT_insertDir FT.empty "a/bc".toList = .ok (.SUCCESS, FT.exABC) ∧
    FT_insertDir FT.exABC "a/b".toList = .ok (.SUCCESS, FT.exSiblings) ∧
    FT_containsDir FT.exSiblings "a/bc".toList = false :=
  ⟨rfl, rfl, rfl⟩

/-- C2: in every reachable state `countDirs` is the number of directories
reachable from `rootDir` through `childrenDirs`, and it is `0` when the root
is empty or a file. -/
theorem countDirs_exact (s : FT) (h : Reachable s) :
    s.countDirs = s.dirs.length ∧
    (s.rootDir = none → s.countDirs = 0) ∧
    (s.rootFile.isSome = true → s.rootDir = none ∧ s.countDirs = 0) := by
  have hi := reachable_inv s h
  have hc := hi.count
  unfold FT.numDirs at hc
  refine ⟨?_, ?_, ?_⟩
  · unfold FT.dirs
    cases hr : s.rootDir with
    | none => rw [hr] at hc; simpa using hc
    | some r => rw [hr] at hc; simp only at hc ⊢; rw [hc, destroy_eq_nodes]
  · intro hr
    rw [hr] at hc
    exact hc
  · intro hf
    have hr := hi.exclusive hf
    rw [hr] at hc
    exact ⟨hr, hc⟩

/-- Witness of C2 on the tree with the directories `a` and `a/b`. -/
theorem countDirs_exact_witness :
    FT.exAB.countDirs = FT.exAB.dirs.length ∧
    (FT.exAB.rootDir = none → FT.exAB.countDirs = 0) ∧
    (FT.exAB.rootFile.isSome = true → FT.exAB.rootDir = none ∧ FT.exAB.countDirs = 0) :=
  countDirs_exact FT.exAB reachable_exAB

/-- C3: when `FT_insertDir` or `FT_insertFile` returns a status other than
`SUCCESS`, the state after the call is the state before it. -/
theorem failed_insert_unchanged (s : FT) (path : CStr) (contents : Ptr) (length : Nat)
    (code : Status) (t : FT) (hc : code ≠ .SUCCESS) :
    (FT_insertDir s path = .ok (code, t) → t = s) ∧
    (FT_insertFile s path contents length = .ok (code, t) → t = s) :=
  ⟨fun h => insertDir_failed s path code t h hc,
   fun h => insertFile_failed s path contents length code t h hc⟩

/-- Witness of C3: inserting `a/b` again, as a directory and as a file. -/
theorem failed_insert_unchanged_witness :
    Status.ALREADY_IN_TREE ≠ Status.SUCCESS ∧
    FT_insertDir FT.exAB "a/b".toList = .ok (.ALREADY_IN_TREE, FT.exAB) ∧
    FT_insertFile FT.exAB "a/b".toList 7 1 = .ok (.ALREADY_IN_TREE, FT.exAB) ∧
    FT.exAB = FT.exAB :=
  ⟨by decide, rfl, rfl,
   (failed_insert_unchanged FT.exAB "a/b".toList 7 1 .ALREADY_IN_TREE FT.exAB (by decide)).1 rfl⟩

/-- C4: when `FT_rmDir(P)` returns `SUCCESS` in a reachable state, then
afterwards `FT_containsDir` and `FT_containsFile` are `FALSE` for `P` and for
every path that begins with `P/`; every directory whose path is neither is
still in the tree with the same path, the same child files (path, contents
and length) and the same child directories in the same order, `P` itself
left out; and every file whose path is neither is still in the tree. -/
theorem rmDir_removes_subtree (s t : FT) (P : CStr) (hs : Reachable s)
    (h : FT_rmDir s P = .ok (.SUCCESS, t)) :
    (∀ q, Under P q → FT_containsDir t q = false ∧ FT_containsFile t q = false) ∧
    (∀ d, s.hasDir d → ¬ Under P (NodeDir_getPath d) →
      ∃ d1, t.hasDir d1 ∧ NodeDir_getPath d1 = NodeDir_getPath d ∧
        d1.childrenFiles = d.childrenFiles ∧
        d1.childrenDirs.map NodeDir_getPath
          = (d.childrenDirs.map NodeDir_getPath).filter (fun q => decide (q ≠ P))) ∧
    (∀ f, s.hasFile f → ¬ Under P (NodeFile_getPath f) → t.hasFile f) := by
  have hi := reachable_inv s hs
  obtain ⟨hback, hfwd⟩ := rmDir_frame s t P hi h
  obtain ⟨r, loc, curr, hr, hrf, hget, hP, htf, htinit, -⟩ := rmDir_success s t P hi h
  refine ⟨?_, ?_, ?_⟩
  · intro q hq
    constructor
    · apply bool_false_of_not_true
      intro hc
      obtain ⟨l1, d1, h1, hp1⟩ := containsDir_true t q hc
      obtain ⟨l, d, -, hn, hp, -, -⟩ := hback l1 d1 h1
      rw [hp, hp1] at hn
      exact hn hq
    · apply bool_false_of_not_true
      intro hc
      obtain ⟨l1, d1, f, h1, hf1, hp1⟩ := containsFile_true t q htf hc
      obtain ⟨l, d, -, -, -, hfiles, hn⟩ := hback l1 d1 h1
      rw [← hfiles] at hf1
      exact hn f hf1 (by rw [hp1]; exact hq)
  · rintro d ⟨l, hd⟩ hn
    obtain ⟨l1, d1, h1, hp, hf, hc⟩ := hfwd l d hd hn
    exact ⟨d1, ⟨l1, h1⟩, hp, hf, hc⟩
  · rintro f (hroot | ⟨d, ⟨l, hd⟩, hfm⟩) hn
    · rw [hrf] at hroot
      cases hroot
    · have hdw : d.WF := by
        rw [deref_of_root s r l hr] at hd
        exact wf_getAt r l d (hi.wf r hr).1 hd
      have hnd : ¬ Under P (NodeDir_getPath d) := fun hu =>
        hn (under_trans _ _ _ hu (childPath_under _ _ (file_childPath d f hdw hfm)).1)
      obtain ⟨l1, d1, h1, -, hf, -⟩ := hfwd l d hd hnd
      exact Or.inr ⟨d1, ⟨l1, h1⟩, by rw [hf]; exact hfm⟩

/-- Witness of C4: `FT_rmDir("a/b")` on the tree with the directories `a`,
`a/b`, `a/b/c` and `a/d`. -/
theorem rmDir_removes_subtree_witness :
    (∀ q, Under "a/b".toList q →
      FT_containsDir FT.exOneBranch q = false ∧ FT_containsFile FT.exOneBranch q = false) ∧
    (∀ d, FT.exTwoBranches.hasDir d → ¬ Under "a/b".toList (NodeDir_getPath d) →
      ∃ d1, FT.exOneBranch.hasDir d1 ∧ NodeDir_getPath d1 = NodeDir_getPath d ∧
        d1.childrenFiles = d.childrenFiles ∧
        d1.childrenDirs.map NodeDir_getPath
          = (d.childrenDirs.map NodeDir_getPath).filter
              (fun q => decide (q ≠ "a/b".toList))) ∧
    (∀ f, FT.exTwoBranches.hasFile f → ¬ Under "a/b".toList (NodeFile_getPath f) →
      FT.exOneBranch.hasFile f) :=
  rmDir_removes_subtree FT.exTwoBranches FT.exOneBranch "a/b".toList
    reachable_exTwoBranches rfl

/-- C5: in every reachable state whose root is a directory, `FT_toString`
returns exactly `ser(root)` and leaves the state as it is. -/
theorem toString_is_ser (s : FT) (r : NodeDir) (hs : Reachable s) (hr : s.rootDir = some r) :
    FT_toString s = .ok (some (ser r), s) := by
  obtain ⟨hinit, hf, hc⟩ := reachable_rootDir s r hs hr
  exact toString_ser s r hinit hr hf hc

/-- Witness of C5 on the tree with the directories `a` and `a/b`. -/
theorem toString_is_ser_witness :
    FT_toString FT.exAB
      = .ok (some (ser (.mk "a".toList none
          [.mk "a/b".toList (some "a".toList) [] []] [])), FT.exAB) :=
  toString_is_ser FT.exAB _ reachable_exAB rfl

/-- C6 (the code departs from the claim): with the directory `a/b` in the
tree, `FT_insertDir("a/bcd")` returns `SUCCESS` (it creates `a/b/d`), and the
same call repeated does not return `ALREADY_IN_TREE`: it builds `a/b/d`
again, the link is refused, and the new node is destroyed twice. -/
theorem insertDir_twice_broken :
    Reachable FT.exAB ∧
    FT_insertDir FT.exAB "a/bcd".toList = .ok (.SUCCESS, FT.exABD) ∧
    FT_insertDir FT.exABD "a/bcd".toList = .error .memory :=
  ⟨reachable_exAB, rfl, rfl⟩

/-- C7 (the code departs from the claim): with the directory `a/b` in the
tree, `FT_insertFile("a/bc", 7, 1)` returns `SUCCESS` (it creates the file
`a/b/`), and `FT_insertDir("a/bc")` then fails the assertion
`child != NULL` of `NodeDir_linkChildDir`. -/
theorem insertDir_after_insertFile_asserts :
    Reachable FT.exAB ∧
    FT_insertFile FT.exAB "a/bc".toList 7 1 = .ok (.SUCCESS, FT.exSlashFile) ∧
    FT_insertDir FT.exSlashFile "a/bc".toList = .error .assertion :=
  ⟨reachable_exAB, rfl, rfl⟩

/-- C8: in a reachable state whose root is a file, `FT_insertDir` and
`FT_insertFile` return `CONFLICTING_PATH` for every path and leave the state
as it is; and on the empty tree `FT_insertFile` of a path that is one
segment returns `SUCCESS` and makes that file the root, `countDirs` staying
`0`. -/
theorem rootFile_lock (s : FT) (f : NodeFile) (p q : CStr) (c : Ptr) (n : Nat)
    (hs : Reachable s) (hf : s.rootFile = some f) (hq : Segment q) :
    FT_insertDir s p = .ok (.CONFLICTING_PATH, s) ∧
    FT_insertFile s p c n = .ok (.CONFLICTING_PATH, s) ∧
    FT_insertFile FT.empty q c n
      = .ok (.SUCCESS, { isInitialized := true, rootDir := none,
                         rootFile := some { path := q, parent := none, contents := c, length := n },
                         countDirs := 0 }) := by
  have hi := reachable_inv s hs
  have hinit : s.isInitialized = true := by
    cases h : s.isInitialized with
    | true => rfl
    | false =>
      have := (hi.uninit h).2
      rw [hf] at this
      cases this
  refine ⟨?_, ?_, ?_⟩
  · simp [FT_insertDir, hinit, FT_traversePathDir, hf, FT_insertRestOfPathDir]
  · simp [FT_insertFile, hinit, FT_traversePathFile, hf, FT_insertRestOfPathFile]
  · obtain ⟨hne, hslash⟩ := hq
    have hlast : ∃ l, q.getLast? = some l ∧ l ≠ '/' := by
      refine ⟨q.getLast hne, List.getLast?_eq_getLast _ hne, ?_⟩
      intro h
      exact hslash (h ▸ List.getLast_mem hne)
    obtain ⟨l, hl1, hl2⟩ := hlast
    have hstr : strstr q ['/'] = none := (strstr_slash_none q).mpr hslash
    simp [FT_insertFile, FT.empty, FT_traversePathFile, FT_insertRestOfPathFile,
      FT_insertRestOfPathFile.rest, hl1, hl2, hstr, NodeFile_create, NodeDir_buildPath]

/-- Witness of C8: the tree whose root is the file `x.txt`. -/
theorem rootFile_lock_witness :
    FT_insertDir FT.exRootFile "y".toList = .ok (.CONFLICTING_PATH, FT.exRootFile) ∧
    FT_insertFile FT.exRootFile "y".toList 7 5 = .ok (.CONFLICTING_PATH, FT.exRootFile) ∧
    FT_insertFile FT.empty "x.txt".toList 7 5
      = .ok (.SUCCESS, { isInitialized := true, rootDir := none,
                         rootFile := some { path := "x.txt".toList, parent := none, contents := 7, length := 5 },
                         countDirs := 0 }) :=
  rootFile_lock FT.exRootFile { path := "x.txt".toList, parent := none, contents := 7, length := 5 }
    "y".toList "x.txt".toList 7 5
    (Reachable.insertFile _ "x.txt".toList 7 5 .SUCCESS _ (Reachable.init _ Reachable.start) rfl)
    rfl ⟨by decide, by decide⟩

/-- C9: on the empty tree, `FT_insertDir` of the path made of `n >= 1`
segments returns `SUCCESS`; afterwards `countDirs` is `n`, `FT_containsDir`
is `TRUE` for each of the `n` prefixes of the path, and `FT_toString` returns
the prefixes in order of increasing length, each followed by a newline. -/
theorem insertDir_segments (segs : List CStr) (hn : segs ≠ []) (hs : ∀ x ∈ segs, Segment x) :
    ∃ t, FT_insertDir FT.empty (joinPath segs) = .ok (.SUCCESS, t) ∧
      t.countDirs = segs.length ∧
      (∀ k, 1 ≤ k → k ≤ segs.length → FT_containsDir t (joinPath (segs.take k)) = true) ∧
      FT_toString t
        = .ok (some ((List.range segs.length).map
            (fun k => joinPath (segs.take (k + 1)) ++ ['\n'])).flatten, t) := by
  cases segs with
  | nil => exact absurd rfl hn
  | cons seg rest =>
    have hins := insertDir_empty seg rest hs
    refine ⟨_, hins, rfl, ?_, ?_⟩
    · intro k hk1 hk2
      obtain ⟨j, rfl⟩ : ∃ j, k = j + 1 := ⟨k - 1, by omega⟩
      rw [List.take_succ_cons, joinPath_eq_deepPath]
      exact containsDir_line seg rest _ j (by simpa using hk2)
    · have hreach := Reachable.insertDir _ _ _ _ reachable_empty hins
      obtain ⟨hinit, hf, hc⟩ := reachable_rootDir _ (NodeDir.line none seg rest) hreach rfl
      rw [toString_ser _ (NodeDir.line none seg rest) hinit rfl hf hc, ser_line]
      simp only [List.take_succ_cons, joinPath_eq_deepPath, List.length_cons]

/-- Witness of C9: the path `a/b/c` of the scenario in the specification. -/
theorem insertDir_segments_witness :
    ∃ t, FT_insertDir FT.empty (joinPath ["a".toList, "b".toList, "c".toList])
        = .ok (.SUCCESS, t) ∧
      t.countDirs = ["a".toList, "b".toList, "c".toList].length ∧
      (∀ k, 1 ≤ k → k ≤ ["a".toList, "b".toList, "c".toList].length →
        FT_containsDir t (joinPath (["a".toList, "b".toList, "c".toList].take k)) = true) ∧
      FT_toString t
        = .ok (some ((List.range ["a".toList, "b".toList, "c".toList].length).map
            (fun k => joinPath (["a".toList, "b".toList, "c".toList].take (k + 1))
              ++ ['\n'])).flatten, t) :=
  insertDir_segments ["a".toList, "b".toList, "c".toList] (by decide)
    (by
      intro x hx
      simp only [List.mem_cons, List.mem_singleton, List.not_mem_nil, or_false] at hx
      rcases hx with rfl | rfl | rfl <;> exact ⟨by decide, by decide⟩)

/-- C10 (the code departs from the claim): with the directory `a/b` in the
tree, `FT_insertFile("a/bcd", 7, 10)` returns `SUCCESS` (it creates the file
`a/b/d`), after which `FT_getFileContents("a/bcd")` returns `NULL` and
`FT_stat("a/bcd")` returns `NO_SUCH_PATH`. -/
theorem insertFile_roundTrip_broken :
    Reachable FT.exAB ∧
    FT_insertFile FT.exAB "a/bcd".toList 7 10 = .ok (.SUCCESS, FT.exFileD) ∧
    FT_getFileContents FT.exFileD "a/bcd".toList = .ok 0 ∧
    FT_stat FT.exFileD "a/bcd".toList false 0 = .ok (.NO_SUCH_PATH, false, 0) :=
  ⟨reachable_exAB, rfl, rfl, rfl⟩


/-- C11 (the code departs from the claim): when the root is the file
`x.txt`, `FT_rmDir("x.txt")` returns `NO_SUCH_PATH`, not `NOT_A_DIRECTORY`,
where the path of the child file `a/bc/f` gives `NOT_A_DIRECTORY`; and when
the directory `a/bc` lies beside its sibling `a/b`, `FT_rmDir("a/bc")` returns
`NO_SUCH_PATH`, not `SUCCESS`.  Both states are reached by public calls. -/
theorem rmDir_rootFile_no_such_path :
    (Reachable FT.exRootFile ∧ FT.exRootFile.isInitialized = true ∧
      FT.exRootFile.hasFile { path := "x.txt".toList, parent := none, contents := 7, length := 5 } ∧
      FT_rmDir FT.exRootFile "x.txt".toList = .ok (.NO_SUCH_PATH, FT.exRootFile)) ∧
    (Reachable FT.exFileInBC ∧
      FT_rmDir FT.exFileInBC "a/bc/f".toList = .ok (.NOT_A_DIRECTORY, FT.exFileInBC)) ∧
    (Reachable FT.exSiblings ∧
      FT.exSiblings.hasDir (.mk "a/bc".toList (some "a".toList) [] []) ∧
      FT_rmDir FT.exSiblings "a/bc".toList = .ok (.NO_SUCH_PATH, FT.exSiblings)) :=
  ⟨⟨reachable_exRootFile, rfl, Or.inl rfl, rfl⟩,
   ⟨reachable_exFileInBC, rfl⟩,
   ⟨Reachable.insertDir FT.exABC "a/b".toList .SUCCESS FT.exSiblings
      (Reachable.insertDir FT.empty "a/bc".toList .SUCCESS FT.exABC reachable_empty rfl) rfl,
    ⟨[1], rfl⟩, rfl⟩⟩

/-- What `FT_rmDir(p)` returns in an initialised state: `NO_SUCH_PATH`, with
the state as it is, whenever the root is a file and whenever `p` names no
node of the tree; always `SUCCESS`, `NOT_A_DIRECTORY` or `NO_SUCH_PATH`;
`SUCCESS` only when `p` names a directory of the tree, and `NOT_A_DIRECTORY`
only when `p` names a child file of a directory of the tree, the state then
being unchanged. -/
theorem rmDir_classification (s : FT) (p : CStr) (hinit : s.isInitialized = true) :
    (s.rootFile.isSome = true → FT_rmDir s p = .ok (.NO_SUCH_PATH, s)) ∧
    ((¬ ∃ d, s.hasDir d ∧ NodeDir_getPath d = p) →
      (¬ ∃ f, s.hasFile f ∧ NodeFile_getPath f = p) →
      FT_rmDir s p = .ok (.NO_SUCH_PATH, s)) ∧
    ∃ code t, FT_rmDir s p = .ok (code, t) ∧
      ((code = .SUCCESS ∧ ∃ d, s.hasDir d ∧ NodeDir_getPath d = p) ∨
       (code = .NOT_A_DIRECTORY ∧ t = s ∧
          ∃ d f, s.hasDir d ∧ f ∈ d.childrenFiles ∧ NodeFile_getPath f = p) ∨
       (code = .NO_SUCH_PATH ∧ t = s)) := by
  refine ⟨rmDir_rootFile s p hinit, ?_, rmDir_outcome s p hinit⟩
  intro hnd hnf
  obtain ⟨code, t, h, hcase⟩ := rmDir_outcome s p hinit
  rcases hcase with ⟨-, hd⟩ | ⟨-, -, d, f, hd, hf, hp⟩ | ⟨rfl, rfl⟩
  · exact absurd hd hnd
  · exact absurd ⟨f, Or.inr ⟨d, hd, hf⟩, hp⟩ hnf
  · exact h

/-- C12 (the code departs from the claim): after `FT_insertDir("a/bc")`,
`FT_insertFile("a/bc/f", 7, 1)` and `FT_insertDir("a/b")`, all of which return
`SUCCESS`, the file `a/bc/f` is in the tree and `FT_rmFile("a/bc/f")` returns
`NO_SUCH_PATH` without removing it: the traversal enters the sibling `a/b`. -/
theorem rmFile_shadowed_file :
    FT_insertDir FT.empty "a/bc".toList = .ok (.SUCCESS, FT.exABC) ∧
    FT_insertFile FT.exABC "a/bc/f".toList 7 1 = .ok (.SUCCESS, FT.exFileInBC) ∧
    FT_insertDir FT.exFileInBC "a/b".toList = .ok (.SUCCESS, FT.exShadowedFile) ∧
    FT.exShadowedFile.hasFile { path := "a/bc/f".toList, parent := some "a/bc".toList, contents := 7, length := 1 } ∧
    FT_rmFile FT.exShadowedFile "a/bc/f".toList = .ok (.NO_SUCH_PATH, FT.exShadowedFile) :=
  ⟨rfl, rfl, rfl, Or.inr ⟨_, ⟨[1], rfl⟩, by decide⟩, rfl⟩

/-- C13 (the code departs from the claim): with the file `x.txt` as root,
`FT_toString` appends the newline to the path stored in the node, so the
state changes, a second call returns a different string, and
`FT_containsFile("x.txt")` turns from `TRUE` to `FALSE`. -/
theorem toString_changes_rootFile :
    Reachable FT.exRootFile ∧
    FT_toString FT.exRootFile = .ok (some "x.txt\n".toList, FT.exRootFileNewline) ∧
    FT.exRootFileNewline.rootFile ≠ FT.exRootFile.rootFile ∧
    (∃ t, FT_toString FT.exRootFileNewline = .ok (some "x.txt\n\n".toList, t)) ∧
    FT_containsFile FT.exRootFile "x.txt".toList = true ∧
    FT_containsFile FT.exRootFileNewline "x.txt".toList = false :=
  ⟨reachable_exRootFile, rfl, by decide, ⟨_, rfl⟩, rfl, rfl⟩

/-- C14: `FT_toString` returns `NULL` when the object is not initialised,
the empty string when it is initialised and has no root, and the path
followed by a newline when the root is a file. -/
theorem toString_edge_cases (s : FT) (f : NodeFile) (hs : Reachable s) :
    (s.isInitialized = false → FT_toString s = .ok (none, s)) ∧
    (s.isInitialized = true → s.rootDir = none → s.rootFile = none →
      FT_toString s = .ok (some [], s)) ∧
    (s.rootFile = some f → ∃ t, FT_toString s = .ok (some (NodeFile_getPath f ++ ['\n']), t)) := by
  have hi := reachable_inv s hs
  refine ⟨?_, ?_, ?_⟩
  · intro h
    simp [FT_toString, h]
  · intro hinit hr hf
    have hc : s.countDirs = 0 := by
      have := hi.count
      simpa [FT.numDirs, hr] using this
    simp [FT_toString, hinit, hr, hf, hc, DynArray_map]
  · intro hf
    have hinit : s.isInitialized = true := by
      cases h : s.isInitialized with
      | true => rfl
      | false =>
        have := (hi.uninit h).2
        rw [hf] at this
        cases this
    simp [FT_toString, hinit, hf, NodeFile_getPath]

/-- Witness of C14: the tree whose root is the file `x.txt`. -/
theorem toString_edge_cases_witness :
    (FT.exRootFile.isInitialized = false → FT_toString FT.exRootFile = .ok (none, FT.exRootFile)) ∧
    (FT.exRootFile.isInitialized = true → FT.exRootFile.rootDir = none →
      FT.exRootFile.rootFile = none → FT_toString FT.exRootFile = .ok (some [], FT.exRootFile)) ∧
    (FT.exRootFile.rootFile = some { path := "x.txt".toList, parent := none, contents := 7, length := 5 } →
      ∃ t, FT_toString FT.exRootFile = .ok (some ("x.txt".toList ++ ['\n']), t)) :=
  toString_edge_cases FT.exRootFile { path := "x.txt".toList, parent := none, contents := 7, length := 5 }
    reachable_exRootFile

/-- C15: in every reachable initialised state, for every path that ends
with a slash or has two consecutive slashes, `FT_insertDir` and
`FT_insertFile` return to the caller with a status other than `SUCCESS` and
with the state as it was; when the tree has no root the status is
`PARENT_CHILD_ERROR`. -/
theorem malformed_path_rejected (s : FT) (p : CStr) (c : Ptr) (n : Nat) (hs : Reachable s)
    (hinit : s.isInitialized = true)
    (hp : p.getLast? = some '/' ∨ ['/', '/'] <:+: p) :
    (∃ code, FT_insertDir s p = .ok (code, s) ∧ code ≠ .SUCCESS) ∧
    (∃ code, FT_insertFile s p c n = .ok (code, s) ∧ code ≠ .SUCCESS) ∧
    (s.rootDir = none → s.rootFile = none →
      FT_insertDir s p = .ok (.PARENT_CHILD_ERROR, s) ∧
      FT_insertFile s p c n = .ok (.PARENT_CHILD_ERROR, s)) := by
  obtain ⟨c1, h1, n1, e1⟩ := insertDir_malformed s p hs hinit hp
  obtain ⟨c2, h2, n2, e2⟩ := insertFile_malformed s p c n hs hinit hp
  refine ⟨⟨c1, h1, n1⟩, ⟨c2, h2, n2⟩, ?_⟩
  intro hd hf
  constructor
  · rw [h1, e1 hd hf]
  · rw [h2, e2 hd hf]

/-- Witness of C15: the path `a//b` on the tree with the directories `a`
and `a/b`. -/
theorem malformed_path_rejected_witness :
    FT.exAB.isInitialized = true ∧ ['/', '/'] <:+: "a//b".toList ∧
    (∃ code, FT_insertDir FT.exAB "a//b".toList = .ok (code, FT.exAB) ∧ code ≠ .SUCCESS) ∧
    (∃ code, FT_insertFile FT.exAB "a//b".toList 7 1 = .ok (code, FT.exAB) ∧
      code ≠ .SUCCESS) :=
  ⟨rfl, ⟨['a'], ['b'], rfl⟩,
   (malformed_path_rejected FT.exAB "a//b".toList 7 1 reachable_exAB rfl
      (Or.inr ⟨['a'], ['b'], rfl⟩)).1,
   (malformed_path_rejected FT.exAB "a//b".toList 7 1 reachable_exAB rfl
      (Or.inr ⟨['a'], ['b'], rfl⟩)).2.1⟩

/-- C16 (the code departs from the claim): after `FT_insertDir("a/b")` and
`FT_insertDir("a/bcd")`, both returning `SUCCESS`, `FT_containsDir("a/b/d")`
is `TRUE`, although `a/b/d` was never inserted and is no ancestor of an
inserted path: the second call created `a/b/d` instead of `a/bcd`. -/
theorem containsDir_of_uninserted_path :
    FT_insertDir FT.empty "a/b".toList = .ok (.SUCCESS, FT.exAB) ∧
    FT_insertDir FT.exAB "a/bcd".toList = .ok (.SUCCESS, FT.exABD) ∧
    FT_containsDir FT.exABD "a/b/d".toList = true ∧
    ¬ Under "a/b/d".toList "a/b".toList ∧ ¬ Under "a/b/d".toList "a/bcd".toList := by
  refine ⟨rfl, rfl, rfl, ?_, ?_⟩
  · intro h
    have := under_length _ _ h
    simp at this
  · intro h
    rcases h with h | h
    · simp at h
    · have := h.length_le
      simp at this

/-- C17: in every reachable state in which `FT_containsFile(p)` is `TRUE`
and `f` is a file of the tree with the path `p`,
`FT_replaceFileContents(p, c2, n2)` returns the contents reference of `f`;
afterwards `FT_getFileContents(p)` returns `c2` and `FT_stat(p)` reports a
file of length `n2`; the structure of the tree and `countDirs` are as before,
the file at `p` holds `c2` and `n2`, and the files with another path are the
same nodes as before. -/
theorem replaceFileContents_spec (s : FT) (p : CStr) (f : NodeFile) (c2 : Ptr) (n2 : Nat)
    (type : Bool) (length : Nat) (hs : Reachable s) (hc : FT_containsFile s p = true)
    (hf : s.hasFile f) (hp : NodeFile_getPath f = p) :
    ∃ t, FT_replaceFileContents s p c2 n2 = .ok (NodeFile_getContents f, t) ∧
      FT_getFileContents t p = .ok c2 ∧
      FT_stat t p type length = .ok (.SUCCESS, true, n2) ∧
      t.shape = s.shape ∧ t.countDirs = s.countDirs ∧
      t.hasFile { path := p, parent := NodeFile_getParent f, contents := c2, length := n2 } ∧
      ∀ g, NodeFile_getPath g ≠ p → (t.hasFile g ↔ s.hasFile g) := by
  have hi := reachable_inv s hs
  cases hroot : s.rootFile with
  | none => exact replace_dir_case s p f c2 n2 type length hi hroot hc hf hp
  | some f0 => exact replace_root_case s p f f0 c2 n2 type length hi hroot hc hf hp

/-- Witness of C17: the file `a/bc/f` with the contents `7`, replaced by
`9` of length `3`. -/
theorem replaceFileContents_spec_witness :
    FT_containsFile FT.exFileInBC "a/bc/f".toList = true ∧
    FT.exFileInBC.hasFile { path := "a/bc/f".toList, parent := some "a/bc".toList, contents := 7, length := 1 } ∧
    FT_replaceFileContents FT.exFileInBC "a/bc/f".toList 9 3 = .ok (7, FT.exFileReplaced) ∧
    ∃ t, FT_replaceFileContents FT.exFileInBC "a/bc/f".toList 9 3 = .ok (7, t) ∧
      FT_getFileContents t "a/bc/f".toList = .ok 9 ∧
      FT_stat t "a/bc/f".toList false 0 = .ok (.SUCCESS, true, 3) ∧
      t.shape = FT.exFileInBC.shape ∧ t.countDirs = FT.exFileInBC.countDirs ∧
      t.hasFile { path := "a/bc/f".toList, parent := some "a/bc".toList, contents := 9, length := 3 } ∧
      ∀ g, NodeFile_getPath g ≠ "a/bc/f".toList → (t.hasFile g ↔ FT.exFileInBC.hasFile g) :=
  ⟨rfl, Or.inr ⟨_, ⟨[0], rfl⟩, by decide⟩, rfl,
   replaceFileContents_spec FT.exFileInBC "a/bc/f".toList
     { path := "a/bc/f".toList, parent := some "a/bc".toList, contents := 7, length := 1 } 9 3 false 0
     reachable_exFileInBC rfl (Or.inr ⟨_, ⟨[0], rfl⟩, by decide⟩) rfl⟩

/-- C18 (the code departs from the claim): on the initialised empty tree,
and on the tree with the directories `a` and `a/b` for the path `b`, the
traversal returns `NULL` and `FT_getFileContents` and
`FT_replaceFileContents` pass it to `NodeDir_hasChildFile`, which fails
`assert(n != NULL)`. -/
theorem lookup_asserts_on_null :
    FT_getFileContents FT.empty "a".toList = .error .assertion ∧
    FT_replaceFileContents FT.empty "a".toList 7 1 = .error .assertion ∧
    Reachable FT.exAB ∧
    FT_getFileContents FT.exAB "b".toList = .error .assertion ∧
    FT_replaceFileContents FT.exAB "b".toList 7 1 = .error .assertion :=
  ⟨rfl, rfl, reachable_exAB, rfl, rfl⟩

/-- C19: in every reachable initialised state `FT_destroy` returns `SUCCESS`
and leaves the object uninitialised, without a root and with `countDirs = 0`;
`FT_init` then returns `SUCCESS` and yields the initialised empty tree. -/
theorem destroy_then_init (s : FT) (hs : Reachable s) (hinit : s.isInitialized = true) :
    FT_destroy s
      = (.SUCCESS, { isInitialized := false, rootDir := none, rootFile := none,
                     countDirs := 0 }) ∧
    FT_init (FT_destroy s).2
      = (.SUCCESS, { isInitialized := true, rootDir := none, rootFile := none,
                     countDirs := 0 }) := by
  have hi := reachable_inv s hs
  have hc := hi.count
  have key : FT_destroy s
      = (.SUCCESS, { isInitialized := false, rootDir := none, rootFile := none,
                     countDirs := 0 }) := by
    obtain ⟨ini, rd, rf, cnt⟩ := s
    simp only at hinit
    subst hinit
    cases rf with
    | some f =>
      have hrd : rd = none := hi.exclusive rfl
      subst hrd
      simp only [FT.numDirs] at hc
      subst hc
      simp [FT_destroy]
    | none =>
      cases rd with
      | none =>
        simp only [FT.numDirs] at hc
        subst hc
        simp [FT_destroy]
      | some r =>
        simp only [FT.numDirs] at hc
        subst hc
        simp [FT_destroy, FT_removePathFromDir]
  rw [key]
  exact ⟨rfl, rfl⟩

/-- Witness of C19: the tree with the directories `a` and `a/b`. -/
theorem destroy_then_init_witness :
    FT.exAB.isInitialized = true ∧
    FT_destroy FT.exAB
      = (.SUCCESS, { isInitialized := false, rootDir := none, rootFile := none,
                     countDirs := 0 }) ∧
    FT_init (FT_destroy FT.exAB).2
      = (.SUCCESS, { isInitialized := true, rootDir := none, rootFile := none,
                     countDirs := 0 }) :=
  ⟨rfl, destroy_then_init FT.exAB reachable_exAB rfl⟩

/-- C20: on an object that is not initialised, `FT_insertDir`,
`FT_insertFile`, `FT_rmDir`, `FT_rmFile`, `FT_stat` and `FT_destroy` return
`INITIALIZATION_ERROR`, `FT_containsDir` and `FT_containsFile` return `FALSE`
and `FT_toString` returns `NULL`, for every argument; on an initialised
object `FT_init` returns `INITIALIZATION_ERROR`; the state (and the outputs
of `FT_stat`) stay as they are. -/
theorem initialization_guards (s u : FT) (p : CStr) (c : Ptr) (n : Nat) (type : Bool)
    (length : Nat) (hs : s.isInitialized = false) (hu : u.isInitialized = true) :
    FT_insertDir s p = .ok (.INITIALIZATION_ERROR, s) ∧
    FT_insertFile s p c n = .ok (.INITIALIZATION_ERROR, s) ∧
    FT_rmDir s p = .ok (.INITIALIZATION_ERROR, s) ∧
    FT_rmFile s p = .ok (.INITIALIZATION_ERROR, s) ∧
    FT_stat s p type length = .ok (.INITIALIZATION_ERROR, type, length) ∧
    FT_destroy s = (.INITIALIZATION_ERROR, s) ∧
    FT_containsDir s p = false ∧
    FT_containsFile s p = false ∧
    FT_toString s = .ok (none, s) ∧
    FT_init u = (.INITIALIZATION_ERROR, u) := by
  refine ⟨?_, ?_, ?_, ?_, ?_, ?_, ?_, ?_, ?_, ?_⟩
  · simp [FT_insertDir, hs]
  · simp [FT_insertFile, hs]
  · simp [FT_rmDir, hs]
  · simp [FT_rmFile, hs]
  · simp [FT_stat, hs]
  · simp [FT_destroy, hs]
  · simp [FT_containsDir, hs]
  · simp [FT_containsFile, hs]
  · simp [FT_toString, hs]
  · simp [FT_init, hu]

/-- Witness of C20: the object at program start, and the empty tree. -/
theorem initialization_guards_witness :
    FT.start.isInitialized = false ∧ FT.empty.isInitialized = true ∧
    FT_insertDir FT.start "a".toList = .ok (.INITIALIZATION_ERROR, FT.start) ∧
    FT_init FT.empty = (.INITIALIZATION_ERROR, FT.empty) :=
  ⟨rfl, rfl,
   (initialization_guards FT.start FT.empty "a".toList 7 1 false 0 rfl rfl).1,
   (initialization_guards FT.start FT.empty "a".toList 7 1 false 0 rfl rfl).2.2.2.2.2.2.2.2.2⟩


/-- C21 (the code departs from the claim): the directory `a` holds the file
`a/bcd` and the directory `a/b`.  `FT_insertFile("a/bcd/s", 9, 1)` and
`FT_insertDir("a/bcd/s")` both return `SUCCESS` and change the tree: the
traversal stops at the sibling `a/b`, whose path begins the string `a/bcd/s`,
and the new nodes are created under `a/b/d`. -/
theorem insert_below_file_succeeds :
    Reachable FT.exFileBesideDir ∧
    FT.exFileBesideDir.hasFile { path := "a/bcd".toList, parent := some "a".toList, contents := 7, length := 1 } ∧
    FT_insertFile FT.exFileBesideDir "a/bcd/s".toList 9 1
      = .ok (.SUCCESS, FT.exFileUnderSibling) ∧
    FT_insertDir FT.exFileBesideDir "a/bcd/s".toList = .ok (.SUCCESS, FT.exDirUnderSibling) :=
  ⟨reachable_exFileBesideDir, Or.inr ⟨_, ⟨[], rfl⟩, by decide⟩, rfl, rfl⟩

/-- C22 (the code departs from the claim): on the tree whose only node is
the root directory `a`, `FT_containsDir("a")` is `TRUE` and `FT_stat("a")`
returns `NO_SUCH_PATH`: it looks for `a` among the children of the directory
the traversal returns, which is the root itself. -/
theorem stat_rootDir_no_such_path :
    Reachable FT.exA ∧ FT.exA.isInitialized = true ∧
    FT_containsDir FT.exA "a".toList = true ∧
    FT_stat FT.exA "a".toList false 0 = .ok (.NO_SUCH_PATH, false, 0) :=
  ⟨reachable_exA, rfl, rfl, rfl⟩

/-- C23: for a root reference that is `NULL` or has no parent: when
`Checker_treeCheck` returns `TRUE`, `Checker_DT_isValid(TRUE, root, count)`
returns `TRUE` exactly when `count` is the number of nodes of the tree; when
`Checker_treeCheck` returns `FALSE`, it returns `FALSE` for every `count`. -/
theorem checker_count_verdict (root : Option Node) (count k : Nat)
    (hpar : ∀ r, root = some r → Node_getParent r = none) :
    (Checker_treeCheck root 0 = .ok (true, k) →
      k = Node.count root ∧
      (Checker_DT_isValid true root count = .ok true ↔ count = Node.count root) ∧
      (count ≠ Node.count root → Checker_DT_isValid true root count = .ok false)) ∧
    (Checker_treeCheck root 0 = .ok (false, k) →
      Checker_DT_isValid true root count = .ok false) := by
  constructor
  · intro h
    have hk : k = Node.count root := by
      cases root with
      | none =>
        simp only [Checker_treeCheck] at h
        cases h
        rfl
      | some r =>
        simp only [Checker_treeCheck] at h
        have := (treeCheck_node_true r 0 k h).1
        simp only [Node.count]
        omega
    subst hk
    have key : Checker_DT_isValid true root count
        = if count = Node.count root then .ok true else .ok false := by
      unfold Checker_DT_isValid
      by_cases hc : count = Node.count root
      · subst hc
        cases root with
        | none => simp [Node.count, h]
        | some r => simp [hpar r rfl, h]
      · cases root with
        | none =>
          have : count ≠ 0 := hc
          simp [this, Node.count]
        | some r => simp [hpar r rfl, h, hc]
    rw [key]
    refine ⟨rfl, ?_, ?_⟩
    · by_cases hc : count = Node.count root
      · simp [hc]
      · simp [hc]
    · intro hc
      simp [hc]
  · intro h
    cases root with
    | none =>
      simp only [Checker_treeCheck] at h
      cases h
    | some r =>
      unfold Checker_DT_isValid
      simp [hpar r rfl, h]

/-- Witness of C23: the tree with the root `a` and the children `a/b` and
`a/c` has three nodes. -/
theorem checker_count_verdict_witness :
    Node_getParent Node.exSorted = none ∧
    Checker_treeCheck (some Node.exSorted) 0 = .ok (true, 3) ∧
    Node.count (some Node.exSorted) = 3 ∧
    Checker_DT_isValid true (some Node.exSorted) 3 = .ok true ∧
    (4 ≠ Node.count (some Node.exSorted) →
      Checker_DT_isValid true (some Node.exSorted) 4 = .ok false) :=
  ⟨rfl, rfl, rfl, rfl,
   ((checker_count_verdict (some Node.exSorted) 4 3
      (fun r hr => by cases hr; rfl)).1 rfl).2.2⟩

/-- C24: `Checker_DT_isValid` returns `FALSE` when `isInit` is `FALSE` and
`count` is not 0 or the root is not `NULL`, when `isInit` is `TRUE`, the root
is `NULL` and `count` is not 0, and when the root has a parent; it returns
`TRUE` for `(FALSE, NULL, 0)` and for `(TRUE, NULL, 0)`. -/
theorem checker_top_level (isInit : Bool) (root : Option Node) (r : Node) (count : Nat)
    (pp : CStr) :
    (count ≠ 0 ∨ root ≠ none → Checker_DT_isValid false root count = .ok false) ∧
    (count ≠ 0 → Checker_DT_isValid true none count = .ok false) ∧
    (Node_getParent r = some pp → Checker_DT_isValid isInit (some r) count = .ok false) ∧
    Checker_DT_isValid false none 0 = .ok true ∧
    Checker_DT_isValid true none 0 = .ok true := by
  refine ⟨?_, ?_, ?_, rfl, rfl⟩
  · intro h
    unfold Checker_DT_isValid
    by_cases hc : count = 0
    · have hr : root ≠ none := by
        rcases h with h | h
        · exact absurd hc h
        · exact h
      cases root with
      | none => exact absurd rfl hr
      | some x => simp [hc]
    · simp [hc]
  · intro h
    unfold Checker_DT_isValid
    simp [h]
  · intro h
    unfold Checker_DT_isValid
    cases isInit with
    | false =>
      by_cases hc : count = 0
      · simp [hc]
      · simp [hc]
    | true => simp [h]

/-- Witness of C24: a root that refers back to `a`, with the count 1. -/
theorem checker_top_level_witness :
    Checker_DT_isValid false (some (.mk (some "a/b".toList) (some "a".toList) [])) 1
      = .ok false ∧
    Checker_DT_isValid true none 1 = .ok false ∧
    Checker_DT_isValid true (some (.mk (some "a/b".toList) (some "a".toList) [])) 1
      = .ok false :=
  ⟨(checker_top_level true (some (.mk (some "a/b".toList) (some "a".toList) []))
      (.mk (some "a/b".toList) (some "a".toList) []) 1 "a".toList).1 (Or.inl (by decide)),
   (checker_top_level true none
      (.mk (some "a/b".toList) (some "a".toList) []) 1 "a".toList).2.1 (by decide),
   (checker_top_level true none
      (.mk (some "a/b".toList) (some "a".toList) []) 1 "a".toList).2.2.1 rfl⟩

/-- C26: in every reachable state every child directory and every child
file of a directory of the tree has the path of the directory, a slash and
one segment without a slash, and points to that directory; the root,
directory or file, has no parent (its field `parent` is `NULL`), and its
path has no slash. -/
theorem one_level_below (s : FT) (hs : Reachable s) :
    (∀ d, s.hasDir d →
      (∀ c ∈ d.childrenDirs,
        (∃ seg : CStr, NodeDir_getPath c = NodeDir_getPath d ++ '/' :: seg ∧ '/' ∉ seg) ∧
        NodeDir_getParent c = some (NodeDir_getPath d)) ∧
      (∀ f ∈ d.childrenFiles,
        (∃ seg : CStr, NodeFile_getPath f = NodeDir_getPath d ++ '/' :: seg ∧ '/' ∉ seg) ∧
        NodeFile_getParent f = some (NodeDir_getPath d))) ∧
    (∀ r, s.rootDir = some r → NodeDir_getParent r = none ∧ '/' ∉ NodeDir_getPath r) ∧
    (∀ f, s.rootFile = some f → NodeFile_getParent f = none ∧ '/' ∉ NodeFile_getPath f) := by
  have hi := reachable_inv s hs
  have hp := reachable_parents s hs
  refine ⟨?_, fun r1 hr1 => ⟨(hp.dir r1 hr1).1, (hi.wf r1 hr1).2⟩,
    fun f hf => ⟨hp.file f hf, reachable_rootFile s hs f hf⟩⟩
  intro d hd
  obtain ⟨loc, hloc⟩ := hd
  obtain ⟨r, hr, hget⟩ := deref_some s loc d hloc
  have hw := wf_getAt r loc d (hi.wf r hr).1 hget
  have hl := linked_getAt r loc d (hp.dir r hr).2 hget
  cases d with
  | mk p par ds fs =>
    obtain ⟨l1, l2, -⟩ := (linked_iff p par ds fs).1 hl
    constructor
    · intro c hc
      obtain ⟨i, hi2⟩ := List.mem_iff_getElem?.1 hc
      exact ⟨(childDir_of_getElem p par ds fs i c hw hi2).2, l1 c hc⟩
    · intro f hf
      exact ⟨file_childPath _ f hw hf, l2 f hf⟩

/-- Witness of C26: the child `a/d` of the root `a` in the tree with the
directories `a`, `a/b`, `a/b/c` and `a/d`, that root, and the root file
`x.txt`. -/
theorem one_level_below_witness :
    ((∃ seg : CStr,
        NodeDir_getPath (.mk "a/d".toList (some "a".toList) [] [])
          = "a".toList ++ '/' :: seg ∧ '/' ∉ seg) ∧
      NodeDir_getParent (.mk "a/d".toList (some "a".toList) [] []) = some "a".toList) ∧
    (∃ r, FT.exTwoBranches.rootDir = some r ∧ NodeDir_getParent r = none) ∧
    (∃ f, FT.exRootFile.rootFile = some f ∧ NodeFile_getParent f = none) :=
  ⟨((one_level_below FT.exTwoBranches reachable_exTwoBranches).1 _ ⟨[], rfl⟩).1
      (.mk "a/d".toList (some "a".toList) [] []) (by simp [NodeDir.childrenDirs]),
   ⟨_, rfl, ((one_level_below FT.exTwoBranches reachable_exTwoBranches).2.1 _ rfl).1⟩,
   ⟨_, rfl, ((one_level_below FT.exRootFile reachable_exRootFile).2.2 _ rfl).1⟩⟩

/-- C27: in every reachable state no directory of the tree has a child
directory and a child file with the same path, no path is the path of a
directory and of a file of the tree, and `FT_containsDir(p)` and
`FT_containsFile(p)` are not both `TRUE`. -/
theorem disjoint_namespaces (s : FT) (p : CStr) (hs : Reachable s) :
    (∀ d, s.hasDir d → ∀ c ∈ d.childrenDirs, ∀ f ∈ d.childrenFiles,
      NodeDir_getPath c ≠ NodeFile_getPath f) ∧
    (∀ d f, s.hasDir d → s.hasFile f → NodeDir_getPath d ≠ NodeFile_getPath f) ∧
    ¬ (FT_containsDir s p = true ∧ FT_containsFile s p = true) := by
  have hi := reachable_inv s hs
  have h2 : ∀ d f, s.hasDir d → s.hasFile f → NodeDir_getPath d ≠ NodeFile_getPath f := by
    rintro d f ⟨loc, hloc⟩ hf
    obtain ⟨r, hr, hget⟩ := deref_some s loc d hloc
    rcases hf with hf | ⟨d1, ⟨l1, hl1⟩, hf1⟩
    · have := hi.exclusive (by rw [hf]; rfl)
      rw [hr] at this
      cases this
    · rw [deref_of_root s r l1 hr] at hl1
      exact dir_file_distinct r d d1 f loc l1 (hi.wf r hr).1 (hi.wf r hr).2 hget hl1 hf1
  refine ⟨?_, h2, ?_⟩
  · rintro d ⟨loc, hloc⟩ c hc f hf
    obtain ⟨r, hr, hget⟩ := deref_some s loc d hloc
    exact wf_disjoint d (wf_getAt r loc d (hi.wf r hr).1 hget) c hc f hf
  · rintro ⟨hcd, hcf⟩
    obtain ⟨l, d, hd, hdp⟩ := containsDir_true s p hcd
    have hroot : s.rootFile = none := by
      cases hrf : s.rootFile with
      | none => rfl
      | some f0 =>
        have := hi.exclusive (by rw [hrf]; rfl)
        rw [deref_of_no_root s l this] at hd
        cases hd
    obtain ⟨l1, d1, f, hd1, hf, hfp⟩ := containsFile_true s p hroot hcf
    exact h2 d f ⟨l, hd⟩ (Or.inr ⟨d1, ⟨l1, hd1⟩, hf⟩) (by rw [hdp, hfp])

/-- Witness of C27: the path `a/bcd` in the tree in which the directory `a`
holds the directory `a/b` and the file `a/bcd`. -/
theorem disjoint_namespaces_witness :
    FT_containsFile FT.exFileBesideDir "a/bcd".toList = true ∧
    FT_containsDir FT.exFileBesideDir "a/bcd".toList = false :=
  ⟨rfl, Bool.eq_false_iff.2 (fun h =>
    (disjoint_namespaces FT.exFileBesideDir "a/bcd".toList reachable_exFileBesideDir).2.2
      ⟨h, rfl⟩)⟩

/-- C28 (the code departs from the claim): the root `a` has the child `ab`,
which refers back to `a`.  The path `ab` is not `a`, a slash and a segment,
yet `Checker_DT_isValid(TRUE, root, 2)` returns `TRUE`: the byte between the
path of the parent and the rest is not compared with the slash. -/
theorem checker_accepts_bad_child :
    Node.exBadChild.children = [some (.mk (some "ab".toList) (some "a".toList) [])] ∧
    ¬ ChildPath "a".toList "ab".toList ∧
    Checker_DT_isValid true (some Node.exBadChild) 2 = .ok true := by
  refine ⟨rfl, ?_, rfl⟩
  rintro ⟨seg, hseg, -⟩
  simp at hseg

/-- C29 (the code departs from the claim): in the tree whose root `a` has
the single child `a/b` without a back-reference, the adjacent children
`a/b/d` and `a/b/c` of `a/b` are not in increasing order, and
`Checker_DT_isValid(TRUE, root, count)` does not return for any `count`:
`Checker_treeCheck` passes the `NULL` back-reference to `Node_compare`, whose
assertion fails.  The same happens when `Checker_treeCheck` passes the single
`NULL` child of `a/b` to `Node_getParent` before it reaches the unordered
children of `a/c`. -/
theorem checker_ordering_aborts :
    (Node.mk (some "a/b".toList) none
        [some (.mk (some "a/b/d".toList) (some "a/b".toList) []),
         some (.mk (some "a/b/c".toList) (some "a/b".toList) [])] ∈ Node.exUnlinked.subnodes ∧
      strcmp "a/b/d".toList "a/b/c".toList ≥ 0 ∧
      ∀ count, Checker_DT_isValid true (some Node.exUnlinked) count = .error .assertion) ∧
    (Node.mk (some "a/c".toList) (some "a".toList)
        [some (.mk (some "a/c/d".toList) (some "a/c".toList) []),
         some (.mk (some "a/c/c".toList) (some "a/c".toList) [])] ∈ Node.exNullChild.subnodes ∧
      strcmp "a/c/d".toList "a/c/c".toList ≥ 0 ∧
      ∀ count, Checker_DT_isValid true (some Node.exNullChild) count = .error .assertion) :=
  ⟨⟨by simp [Node.exUnlinked, Node.subnodes, Node.subnodes.list], by decide, fun _ => rfl⟩,
   ⟨by simp [Node.exNullChild, Node.subnodes, Node.subnodes.list], by decide, fun _ => rfl⟩⟩

/-- On a tree in which some node has two adjacent children whose paths are
not strictly increasing under `strcmp`, `Checker_DT_isValid` does not return
`TRUE`, for every `isInit` and `count`; when every step of the checker is
defined on the tree it returns `FALSE`. -/
theorem checker_ordering (isInit : Bool) (root m c1 c2 : Node) (count i : Nat) (p1 p2 : CStr)
    (hm : m ∈ root.subnodes) (h1 : m.children[i]? = some (some c1))
    (h2 : m.children[i + 1]? = some (some c2)) (hp1 : Node_getPath c1 = some p1)
    (hp2 : Node_getPath c2 = some p2) (hge : strcmp p1 p2 ≥ 0) :
    Checker_DT_isValid isInit (some root) count ≠ .ok true ∧
    (root.Defined → Checker_DT_isValid isInit (some root) count = .ok false) := by
  have hwalk : ∀ k, Checker_treeCheck.node root 0 ≠ .ok (true, k) := by
    intro k hk
    have := isValid_loop_sorted m.children ((treeCheck_node_true root 0 k hk).2 m hm)
      i c1 c2 p1 p2 h1 h2 hp1 hp2
    omega
  have hne : Checker_DT_isValid isInit (some root) count ≠ .ok true := by
    unfold Checker_DT_isValid
    split
    · simp
    split
    · simp
    split
    · simp
    split
    · simp
    simp only [Checker_treeCheck]
    split
    · simp
    · rename_i toReturn counter hres
      cases toReturn with
      | true => exact absurd hres (hwalk counter)
      | false => simp
  refine ⟨hne, ?_⟩
  intro hdef
  obtain ⟨b, k, hk⟩ := treeCheck_node_total root 0 hdef
  have hres : ∃ b1, Checker_DT_isValid isInit (some root) count = .ok b1 := by
    unfold Checker_DT_isValid
    split
    · exact ⟨_, rfl⟩
    split
    · exact ⟨_, rfl⟩
    split
    · exact ⟨_, rfl⟩
    split
    · exact ⟨_, rfl⟩
    simp only [Checker_treeCheck, hk]
    split
    · exact ⟨_, rfl⟩
    · exact ⟨_, rfl⟩
  obtain ⟨b1, hb1⟩ := hres
  cases b1 with
  | true => exact absurd hb1 hne
  | false => exact hb1

/-- The root `a` with the children `a/c` and `a/b`, in this order: with
`isInit = TRUE` and `count = 3` the checker returns `FALSE`. -/
theorem checker_ordering_exUnsorted :
    Node.exUnsorted.children[0]? = some (some (.mk (some "a/c".toList) (some "a".toList) [])) ∧
    Node.exUnsorted.children[1]? = some (some (.mk (some "a/b".toList) (some "a".toList) [])) ∧
    strcmp "a/c".toList "a/b".toList ≥ 0 ∧
    Checker_DT_isValid true (some Node.exUnsorted) 3 = .ok false :=
  ⟨rfl, rfl, by decide,
   (checker_ordering true Node.exUnsorted Node.exUnsorted
      (.mk (some "a/c".toList) (some "a".toList) [])
      (.mk (some "a/b".toList) (some "a".toList) []) 3 0 "a/c".toList "a/b".toList
      (by simp [Node.exUnsorted, Node.subnodes]) rfl rfl rfl rfl (by decide)).2
      defined_exUnsorted⟩

/-- C30: `NodeDir_destroy(n)` returns the number of directories of the
hierarchy of `n`, the node included, and the same number for the hierarchy
without its files; in a reachable state a successful `FT_rmDir(P)` lowers
`countDirs` by the number of directories of the hierarchy of the directory
with the path `P`. -/
theorem teardown_accounting (n : NodeDir) (s t : FT) (P : CStr) (hs : Reachable s)
    (h : FT_rmDir s P = .ok (.SUCCESS, t)) :
    NodeDir_destroy n = n.nodes.length ∧
    NodeDir_destroy n.dirsOnly = NodeDir_destroy n ∧
    ∃ d, s.hasDir d ∧ NodeDir_getPath d = P ∧ t.countDirs + d.nodes.length = s.countDirs := by
  refine ⟨destroy_eq_nodes n, destroy_dirsOnly n, ?_⟩
  obtain ⟨loc, curr, hd, hp, hc⟩ := rmDir_count s t P (reachable_inv s hs) h
  exact ⟨curr, ⟨loc, hd⟩, hp, by rw [← destroy_eq_nodes]; exact hc⟩

/-- Witness of C30: `FT_rmDir("a/b")` on the tree with the directories `a`,
`a/b`, `a/b/c` and `a/d` (4 directories) leaves 2. -/
theorem teardown_accounting_witness :
    FT_rmDir FT.exTwoBranches "a/b".toList = .ok (.SUCCESS, FT.exOneBranch) ∧
    NodeDir_destroy (.mk "a/b".toList (some "a".toList)
        [.mk "a/b/c".toList (some "a/b".toList) [] []]
      [{ path := "a/b/f".toList, parent := some "a/b".toList, contents := 7, length := 1 }]) = 2 ∧
    ∃ d, FT.exTwoBranches.hasDir d ∧ NodeDir_getPath d = "a/b".toList ∧
      FT.exOneBranch.countDirs + d.nodes.length = FT.exTwoBranches.countDirs :=
  ⟨rfl, rfl,
   (teardown_accounting
       (.mk "a/b".toList (some "a".toList) [] []) FT.exTwoBranches FT.exOneBranch "a/b".toList
      reachable_exTwoBranches rfl).2.2⟩


/-- C31 (the code departs from the claim): `NodeFile_destroy` returns 1 for
every file node, where nodeFile.h documents the value as "always 0". -/
theorem nodeFile_destroy_returns_one :
    (∀ n : NodeFile, NodeFile_destroy n = 1) ∧
    NodeFile_destroy { path := "x.txt".toList, parent := none, contents := 7, length := 5 } ≠ 0 :=
  ⟨fun _ => rfl, by decide⟩

/-- C32: `FT_containsDir(p)` returns `TRUE` only if a directory of the tree
has the path `p`, and `FT_containsFile(p)` returns `TRUE` only if the root
file or a child file of a directory of the tree has the path `p`; this holds
in every state. -/
theorem query_soundness (s : FT) (p : CStr) :
    (FT_containsDir s p = true → ∃ d, s.hasDir d ∧ NodeDir_getPath d = p) ∧
    (FT_containsFile s p = true → ∃ f, s.hasFile f ∧ NodeFile_getPath f = p) := by
  constructor
  · intro h
    obtain ⟨l, d, hd, hp⟩ := containsDir_true s p h
    exact ⟨d, ⟨l, hd⟩, hp⟩
  · intro h
    cases hrf : s.rootFile with
    | none =>
      obtain ⟨l, d, f, hd, hf, hp⟩ := containsFile_true s p hrf h
      exact ⟨f, Or.inr ⟨d, ⟨l, hd⟩, hf⟩, hp⟩
    | some f =>
      refine ⟨f, Or.inl hrf, ?_⟩
      unfold FT_containsFile at h
      simp only [hrf] at h
      split at h
      · cases h
      · split at h
        · rename_i hc
          exact (strcmp_eq_zero _ _).1 hc
        · cases h

/-- Witness of C32: the directory `a/b` and the file `a/bcd` of the tree in
which the directory `a` holds both. -/
theorem query_soundness_witness :
    FT_containsDir FT.exFileBesideDir "a/b".toList = true ∧
    (∃ d, FT.exFileBesideDir.hasDir d ∧ NodeDir_getPath d = "a/b".toList) ∧
    FT_containsFile FT.exFileBesideDir "a/bcd".toList = true ∧
    (∃ f, FT.exFileBesideDir.hasFile f ∧ NodeFile_getPath f = "a/bcd".toList) :=
  ⟨rfl, (query_soundness FT.exFileBesideDir "a/b".toList).1 rfl,
   rfl, (query_soundness FT.exFileBesideDir "a/bcd".toList).2 rfl⟩

/-- C33: in every reachable initialised state `FT_rmDir(p)` and
`FT_rmFile(p)` return to the caller; `FT_rmDir(p)` returns `SUCCESS` exactly
when `FT_containsDir(p)` is `TRUE` and `FT_rmFile(p)` returns `SUCCESS` exactly
when `FT_containsFile(p)` is `TRUE`; no directory of the tree has a child file
with the path of the directory. -/
theorem query_removal_agreement (s : FT) (p : CStr) (hs : Reachable s)
    (hinit : s.isInitialized = true) :
    ((∃ t, FT_rmDir s p = .ok (.SUCCESS, t)) ↔ FT_containsDir s p = true) ∧
    ((∃ t, FT_rmFile s p = .ok (.SUCCESS, t)) ↔ FT_containsFile s p = true) ∧
    (∃ code t, FT_rmDir s p = .ok (code, t)) ∧
    (∃ code t, FT_rmFile s p = .ok (code, t)) ∧
    (∀ d, s.hasDir d → (NodeDir_hasChildFile d (NodeDir_getPath d)).1 = false) := by
  have hi := reachable_inv s hs
  refine ⟨rmDir_iff_containsDir s p hi hinit, (rmFile_iff_containsFile s p hinit).1, ?_,
    (rmFile_iff_containsFile s p hinit).2, ?_⟩
  · obtain ⟨code, t, h, -⟩ := rmDir_outcome s p hinit
    exact ⟨code, t, h⟩
  · rintro d ⟨loc, hloc⟩
    obtain ⟨r, hr, hget⟩ := deref_some s loc d hloc
    exact hasChildFile_self d (wf_getAt r loc d (hi.wf r hr).1 hget)

/-- Witness of C33: the directory `a/b` of the tree with the directories
`a`, `a/b`, `a/b/c` and `a/d`. -/
theorem query_removal_agreement_witness :
    FT.exTwoBranches.isInitialized = true ∧
    FT_containsDir FT.exTwoBranches "a/b".toList = true ∧
    ∃ t, FT_rmDir FT.exTwoBranches "a/b".toList = .ok (.SUCCESS, t) :=
  ⟨rfl, rfl,
   (query_removal_agreement FT.exTwoBranches "a/b".toList reachable_exTwoBranches rfl).1.2 rfl⟩

/-- C34: on the initialised empty tree, the calls `FT_insertDir` for a list
of paths that are made of non-empty slash-free segments joined by single
slashes, share their first segment, and have no segment that is a proper
string prefix of another of their segments, all return `SUCCESS` or
`ALREADY_IN_TREE`; afterwards `FT_containsDir(q)` is `TRUE` exactly for the
paths `q` that are an inserted path or an ancestor of one. -/
theorem conditional_roundTrip (segss : List (List CStr)) (s1 : CStr)
    (hseg : ∀ segs ∈ segss, ∀ x ∈ segs, Segment x)
    (hfirst : ∀ segs ∈ segss, segs.head? = some s1)
    (hpf : ∀ a ∈ segss.flatten, ∀ b ∈ segss.flatten, a <+: b → a = b) :
    ∃ codes t, insertDirCalls FT.empty (segss.map joinPath) = .ok (codes, t) ∧
      codes.length = segss.length ∧
      (∀ c ∈ codes, c = .SUCCESS ∨ c = .ALREADY_IN_TREE) ∧
      ∀ q, FT_containsDir t q = true ↔ ∃ segs ∈ segss, Under q (joinPath segs) := by
  obtain ⟨codes, t, h1, h2, h3⟩ := built_calls segss s1 hseg hfirst hpf segss [] FT.empty
    (by simp) (fun x hx => hx) built_empty
  rw [List.nil_append] at h3
  refine ⟨codes, t, h1, ?_, h2, built_contains segss segss s1 t hseg hfirst hpf (fun x hx => hx) h3⟩
  rw [insertDirCalls_length _ _ _ _ h1, List.length_map]

/-- Witness of C34: the calls for `a/b`, `a/c/d` and `a`. -/
theorem conditional_roundTrip_witness :
    (∀ segs ∈ [["a".toList, "b".toList], ["a".toList, "c".toList, "d".toList], ["a".toList]],
      ∀ x ∈ segs, Segment x) ∧
    ∃ codes t,
      insertDirCalls FT.empty
        ([["a".toList, "b".toList], ["a".toList, "c".toList, "d".toList], ["a".toList]].map
          joinPath) = .ok (codes, t) ∧
      codes.length = 3 ∧
      (∀ c ∈ codes, c = .SUCCESS ∨ c = .ALREADY_IN_TREE) ∧
      ∀ q, FT_containsDir t q = true ↔
        ∃ segs ∈ [["a".toList, "b".toList], ["a".toList, "c".toList, "d".toList], ["a".toList]],
          Under q (joinPath segs) :=
  ⟨by simp [Segment],
   conditional_roundTrip
    [["a".toList, "b".toList], ["a".toList, "c".toList, "d".toList], ["a".toList]] "a".toList
    (by simp [Segment]) (by simp) (by decide)⟩
